import Mathlib

/-!
# QTI crypto engine front-end (crypto-qti/qcedev.c)

A shallow embedding of the request validator, the single-server request queue
(submit_req / req_done), the timeout supervisor and the incremental hash
tracker of `qcedev.c`, followed by theorems about them.

Conventions.
* C `uint32_t` values are natural numbers; every addition the source performs
  in 32 bits is written with an explicit `% 2 ^ 32`.
* `int` return codes are integers, `-EINVAL` is `- EINVAL`.
* Fixed-size arrays of `struct buf_info` are functions from the index.
* Names declared in headers that are not part of the sources
  (`linux/qcedev.h`, `qce.h`) are fields of the parameter `qcedev_hdr`.
-/

namespace Qcedev

/-! ## Constants -/

/-- Largest `uint32_t`. -/
def U32_MAX : Nat := 4294967295

/-- Linux errno values used by the driver. -/
def EINVAL : Int := 22

/-- Generic I/O error. -/
def EIO : Int := 5

/-- No such device or address. -/
def ENXIO : Int := 6

/-- Bad address (failed user copy). -/
def EFAULT : Int := 14

/-- Out of memory (failed `kmalloc`). -/
def ENOMEM : Int := 12

/-- Values of the names that `qcedev.c` takes from headers which are not among
the sources (`linux/qcedev.h` and `qce.h`).  Every definition below takes them
as a parameter. -/
structure qcedev_hdr where
  QCEDEV_MAX_BUFFERS : Nat
  QCEDEV_MAX_KEY_SIZE : Nat
  QCEDEV_MAX_IV_SIZE : Nat
  QCEDEV_AES_KEY_128 : Nat
  QCEDEV_AES_KEY_192 : Nat
  QCEDEV_AES_KEY_256 : Nat
  QCEDEV_USE_PMEM : Nat
  QCEDEV_ALG_DES : Nat
  QCEDEV_ALG_3DES : Nat
  QCEDEV_ALG_AES : Nat
  QCEDEV_ALG_LAST : Nat
  QCEDEV_AES_MODE_CBC : Nat
  QCEDEV_AES_MODE_ECB : Nat
  QCEDEV_AES_MODE_CTR : Nat
  QCEDEV_AES_MODE_XTS : Nat
  QCEDEV_DES_MODE_CBC : Nat
  QCEDEV_DES_MODE_ECB : Nat
  QCEDEV_AES_DES_MODE_LAST : Nat
  QCEDEV_OPER_DEC : Nat
  QCEDEV_OPER_ENC : Nat
  QCEDEV_OPER_ENC_NO_KEY : Nat
  QCEDEV_OPER_DEC_NO_KEY : Nat
  QCEDEV_OFFLOAD_HLOS_HLOS : Nat
  QCEDEV_OFFLOAD_HLOS_CPB : Nat
  QCEDEV_OFFLOAD_CPB_HLOS : Nat
  QCEDEV_ALG_SHA1 : Nat
  QCEDEV_ALG_SHA256 : Nat
  QCEDEV_ALG_SHA1_HMAC : Nat
  QCEDEV_ALG_SHA256_HMAC : Nat
  QCEDEV_ALG_AES_CMAC : Nat
  QCEDEV_ALG_SHA_ALG_LAST : Nat
  AES_CE_BLOCK_SIZE : Nat
  QCE_MAX_OPER_DATA : Nat

/-- The values these names have in the driver headers
(`QCEDEV_MAX_BUFFERS` 16, `QCE_MAX_OPER_DATA` 0xFF00, the enumerations counted
from zero, `QCEDEV_AES_MODE_CCM` being mode 4).  Used for concrete inputs. -/
def hdr : qcedev_hdr where
  QCEDEV_MAX_BUFFERS := 16
  QCEDEV_MAX_KEY_SIZE := 64
  QCEDEV_MAX_IV_SIZE := 32
  QCEDEV_AES_KEY_128 := 16
  QCEDEV_AES_KEY_192 := 24
  QCEDEV_AES_KEY_256 := 32
  QCEDEV_USE_PMEM := 1
  QCEDEV_ALG_DES := 0
  QCEDEV_ALG_3DES := 1
  QCEDEV_ALG_AES := 2
  QCEDEV_ALG_LAST := 3
  QCEDEV_AES_MODE_CBC := 0
  QCEDEV_AES_MODE_ECB := 1
  QCEDEV_AES_MODE_CTR := 2
  QCEDEV_AES_MODE_XTS := 3
  QCEDEV_DES_MODE_CBC := 5
  QCEDEV_DES_MODE_ECB := 6
  QCEDEV_AES_DES_MODE_LAST := 7
  QCEDEV_OPER_DEC := 0
  QCEDEV_OPER_ENC := 1
  QCEDEV_OPER_ENC_NO_KEY := 3
  QCEDEV_OPER_DEC_NO_KEY := 2
  QCEDEV_OFFLOAD_HLOS_HLOS := 1
  QCEDEV_OFFLOAD_HLOS_CPB := 2
  QCEDEV_OFFLOAD_CPB_HLOS := 3
  QCEDEV_ALG_SHA1 := 0
  QCEDEV_ALG_SHA256 := 1
  QCEDEV_ALG_SHA1_HMAC := 2
  QCEDEV_ALG_SHA256_HMAC := 3
  QCEDEV_ALG_AES_CMAC := 4
  QCEDEV_ALG_SHA_ALG_LAST := 5
  AES_CE_BLOCK_SIZE := 16
  QCE_MAX_OPER_DATA := 65280

/-! ## Request descriptors -/

/-- One user segment, `struct buf_info`: address and length. -/
structure buf_info where
  vaddr : Nat
  len : Nat
deriving DecidableEq, Repr

/-- Source and destination segment arrays, `struct qcedev_vbuf_info`. -/
structure qcedev_vbuf_info where
  src : Nat → buf_info
  dst : Nat → buf_info

/-- Cipher descriptor, `struct qcedev_cipher_op_req` (the fields the modelled
functions read or write). -/
structure qcedev_cipher_op_req where
  use_pmem : Nat
  vbuf : qcedev_vbuf_info
  entries : Nat
  data_len : Nat
  enckey : Nat → Nat
  encklen : Nat
  ivlen : Nat
  byteoffset : Nat
  alg : Nat
  mode : Nat
  op : Nat

/-- Device capability flags read by the validators and by the dispatchers:
`podev->ce_support` and `podev->platform_support`. -/
structure ce_support where
  aes_xts : Bool
  aes_key_192 : Bool
  cmac : Bool
  sha_hmac : Bool
  hw_key_support : Bool
deriving DecidableEq, Repr

/-! ## Request validator -/

/-- The key scan of `qcedev_check_cipher_key` and `start_cipher_req`: true when
one of the first `QCEDEV_MAX_KEY_SIZE` key bytes is non-zero. -/
def enckey_nonzero (K : qcedev_hdr) (enckey : Nat → Nat) : Bool :=
  (List.range K.QCEDEV_MAX_KEY_SIZE).any (fun i => enckey i != 0)

/-- Embedding of `qcedev_check_cipher_key`; `0` or `-EINVAL`. -/
def qcedev_check_cipher_key (K : qcedev_hdr) (req : qcedev_cipher_op_req)
    (podev : ce_support) : Int :=
  if req.encklen = 0 then
    if enckey_nonzero K req.enckey then - EINVAL
    else if req.op ≠ K.QCEDEV_OPER_ENC_NO_KEY ∧ req.op ≠ K.QCEDEV_OPER_DEC_NO_KEY
        ∧ podev.hw_key_support = false then - EINVAL
    else 0
  else if req.encklen = K.QCEDEV_AES_KEY_192 then
    if podev.aes_key_192 = false then - EINVAL else 0
  else if req.mode = K.QCEDEV_AES_MODE_XTS then
    if req.encklen ≠ K.QCEDEV_AES_KEY_128 * 2 ∧ req.encklen ≠ K.QCEDEV_AES_KEY_256 * 2
    then - EINVAL else 0
  else
    if req.encklen ≠ K.QCEDEV_AES_KEY_128 ∧ req.encklen ≠ K.QCEDEV_AES_KEY_256
    then - EINVAL else 0

/-- The overflow-guarded loop run when a byte offset is given
(`total = req->byteoffset; for ... if (total > U32_MAX - len) goto error;
total += len`): `none` when the guard fires. -/
def byteoffset_src_loop (src : Nat → buf_info) (entries : Nat) (byteoffset : Nat) :
    Option Nat :=
  (List.range entries).foldlM
    (fun total i =>
      if total > U32_MAX - (src i).len then none
      else some ((total + (src i).len) % 2 ^ 32))
    byteoffset

/-- The destination loop: `none` when a NULL segment has a length or when the
guard `len >= U32_MAX - total` fires, otherwise the 32-bit total. -/
def dst_total_loop (dst : Nat → buf_info) (entries : Nat) : Option Nat :=
  (List.range entries).foldlM
    (fun total i =>
      if (dst i).vaddr = 0 ∧ (dst i).len ≠ 0 then none
      else if (dst i).len ≥ U32_MAX - total then none
      else some ((total + (dst i).len) % 2 ^ 32))
    0

/-- The source loop: `none` when a NULL segment has a length or when the guard
`len > U32_MAX - total` fires, otherwise the 32-bit total. -/
def src_total_loop (src : Nat → buf_info) (entries : Nat) : Option Nat :=
  (List.range entries).foldlM
    (fun total i =>
      if (src i).vaddr = 0 ∧ (src i).len ≠ 0 then none
      else if (src i).len > U32_MAX - total then none
      else some ((total + (src i).len) % 2 ^ 32))
    0

/-- Embedding of `qcedev_check_cipher_params`; `0` or `-EINVAL`.  The checks
are made in the order of the source, each `goto error` being a `- EINVAL`. -/
def qcedev_check_cipher_params (K : qcedev_hdr) (req : qcedev_cipher_op_req)
    (podev : ce_support) : Int :=
  if req.use_pmem ≠ 0 then - EINVAL
  else if req.entries = 0 ∨ req.data_len = 0 ∨ req.entries > K.QCEDEV_MAX_BUFFERS then - EINVAL
  else if req.alg ≥ K.QCEDEV_ALG_LAST ∨ req.mode ≥ K.QCEDEV_AES_DES_MODE_LAST then - EINVAL
  else if req.mode = K.QCEDEV_AES_MODE_XTS ∧ podev.aes_xts = false then - EINVAL
  else if req.alg = K.QCEDEV_ALG_AES ∧ qcedev_check_cipher_key K req podev ≠ 0 then - EINVAL
  else if req.byteoffset ≠ 0 ∧
      (req.mode ≠ K.QCEDEV_AES_MODE_CTR ∨ req.byteoffset ≥ K.AES_CE_BLOCK_SIZE ∨
        byteoffset_src_loop req.vbuf.src req.entries req.byteoffset = none) then - EINVAL
  else if req.data_len < req.byteoffset then - EINVAL
  else if req.ivlen > K.QCEDEV_MAX_IV_SIZE then - EINVAL
  else if req.encklen > K.QCEDEV_MAX_KEY_SIZE then - EINVAL
  else if req.ivlen > 0 ∧
      (req.mode = K.QCEDEV_AES_MODE_ECB ∨ req.mode = K.QCEDEV_DES_MODE_ECB) then - EINVAL
  else if ¬ (req.ivlen > 0) ∧
      (req.mode ≠ K.QCEDEV_AES_MODE_ECB ∧ req.mode ≠ K.QCEDEV_DES_MODE_ECB) then - EINVAL
  else
    match dst_total_loop req.vbuf.dst req.entries with
    | none => - EINVAL
    | some total =>
      if total ≠ req.data_len then - EINVAL
      else
        match src_total_loop req.vbuf.src req.entries with
        | none => - EINVAL
        | some total =>
          if total ≠ req.data_len then - EINVAL else 0

/-- Sum of the lengths of the first `n` segments, as an unbounded natural
number. -/
def seg_sum (segs : Nat → buf_info) (n : Nat) : Nat :=
  ((List.range n).map (fun i => (segs i).len)).sum

/-! ## Asynchronous requests and the device -/

/-- Kind of a request, `enum qcedev_crypto_oper_type`. -/
inductive qcedev_crypto_oper_type where
  | QCEDEV_CRYPTO_OPER_CIPHER
  | QCEDEV_CRYPTO_OPER_SHA
  | QCEDEV_CRYPTO_OPER_OFFLOAD_CIPHER
deriving DecidableEq, Repr

/-- Anomaly code of an offload descriptor, `enum qcedev_offload_err_enum`. -/
inductive qcedev_offload_err_enum where
  | QCEDEV_OFFLOAD_NO_ERROR
  | QCEDEV_OFFLOAD_GENERIC_ERROR
  | QCEDEV_OFFLOAD_KEY_TIMER_EXPIRED_ERROR
  | QCEDEV_OFFLOAD_KEY_PAUSE_ERROR
deriving DecidableEq, Repr

/-- Hash descriptor, `struct qcedev_sha_op_req`. -/
structure qcedev_sha_op_req where
  data : Nat → buf_info
  entries : Nat
  data_len : Nat
  diglen : Nat
  authkey : Nat
  authklen : Nat
  alg : Nat

/-- Offload cipher descriptor, `struct qcedev_offload_cipher_op_req`. -/
structure qcedev_offload_cipher_op_req where
  vbuf : qcedev_vbuf_info
  entries : Nat
  data_len : Nat
  encklen : Nat
  ivlen : Nat
  byteoffset : Nat
  block_offset : Nat
  alg : Nat
  mode : Nat
  op : Nat
  is_copy_op : Bool
  err : qcedev_offload_err_enum

/-- One unit of work, `struct qcedev_async_req`.  `id` stands for the address
of the request, by which the device refers to it.  The three descriptors are
the members of the C union; they are kept apart here, and only
`offload_cipher_op_req.err` is touched for a request of another kind
(`submit_req` writes it and reads the same location back).  The layout of the
union is in `linux/qcedev.h`, which is not among the sources: which bytes of
the cipher and hash descriptors that write overlays is not part of this
embedding, and after the write the other two descriptors are here what they
were before it. -/
structure qcedev_async_req where
  id : Nat
  op_type : qcedev_crypto_oper_type
  cipher_op_req : qcedev_cipher_op_req
  sha_op_req : qcedev_sha_op_req
  offload_cipher_op_req : qcedev_offload_cipher_op_req
  err : Int

/-- The device, `struct qcedev_control`: capabilities, the active slot, the
pending list in list order (head first) and whether `done_tasklet`, whose body
is `req_done`, is scheduled. -/
structure qcedev_control where
  support : ce_support
  active_command : Option qcedev_async_req
  ready_commands : List qcedev_async_req
  done_tasklet : Bool

/-- The hardware layer (`qce50.c`, not among the sources): the value each of
its two submission entry points returns for a request. -/
structure qce_engine where
  qce_ablk_cipher_req : qcedev_async_req → Int
  qce_process_sha_req : qcedev_async_req → Int

/-- What the queue does, in program order.  `start` is a call of one of the
`start_*_req` functions with its return value, `complete` a call of
`complete(&req->complete)` with the request error at that moment. -/
inductive Event where
  | list_add_tail (id : Nat)
  | list_del (id : Nat)
  | start (id : Nat) (ret : Int)
  | complete (id : Nat) (err : Int)
deriving DecidableEq, Repr

/-- The assignment `req->err = 0` made before a request is started. -/
def clear_err (areq : qcedev_async_req) : qcedev_async_req :=
  { areq with err := 0 }

/-- The common exit of the dispatchers: `qcedev_areq->err = ret ? -ENXIO : 0;
return ret`. -/
def start_exit (areq : qcedev_async_req) (ret : Int) : Int × qcedev_async_req :=
  (ret, { areq with err := if ret ≠ 0 then - ENXIO else 0 })

/-- Embedding of `start_cipher_req` for the request in the active slot: the
return value and the request with its error field as the function leaves it.
The two `switch` defaults return `-EINVAL` without passing through the
`unsupported` label, so they leave `err` as it was; the PMEM test jumps to the
label while `ret` is still 0. -/
def start_cipher_req (K : qcedev_hdr) (hw : qce_engine) (sup : ce_support)
    (areq : qcedev_async_req) : Int × qcedev_async_req :=
  let r := areq.cipher_op_req
  if r.use_pmem = K.QCEDEV_USE_PMEM then start_exit areq 0
  else if ¬ (r.alg = K.QCEDEV_ALG_DES ∨ r.alg = K.QCEDEV_ALG_3DES ∨ r.alg = K.QCEDEV_ALG_AES) then
    (- EINVAL, areq)
  else if ¬ (r.mode = K.QCEDEV_AES_MODE_CBC ∨ r.mode = K.QCEDEV_DES_MODE_CBC ∨
      r.mode = K.QCEDEV_AES_MODE_ECB ∨ r.mode = K.QCEDEV_DES_MODE_ECB ∨
      r.mode = K.QCEDEV_AES_MODE_CTR ∨ r.mode = K.QCEDEV_AES_MODE_XTS) then
    (- EINVAL, areq)
  else if r.encklen = 0 ∧
      ¬ (r.op = K.QCEDEV_OPER_ENC_NO_KEY ∨ r.op = K.QCEDEV_OPER_DEC_NO_KEY) ∧
      ¬ (sup.hw_key_support = true ∧ enckey_nonzero K r.enckey = false) then
    start_exit areq (- EINVAL)
  else start_exit areq (hw.qce_ablk_cipher_req areq)

/-- Embedding of `start_offload_cipher_req`.  Its three `switch` defaults
return `-EINVAL` directly. -/
def start_offload_cipher_req (K : qcedev_hdr) (hw : qce_engine)
    (areq : qcedev_async_req) : Int × qcedev_async_req :=
  let r := areq.offload_cipher_op_req
  if r.alg ≠ K.QCEDEV_ALG_AES then (- EINVAL, areq)
  else if ¬ (r.mode = K.QCEDEV_AES_MODE_CBC ∨ r.mode = K.QCEDEV_AES_MODE_CTR) then
    (- EINVAL, areq)
  else if r.is_copy_op = false ∧
      ¬ (r.op = K.QCEDEV_OFFLOAD_HLOS_HLOS ∨ r.op = K.QCEDEV_OFFLOAD_HLOS_CPB ∨
        r.op = K.QCEDEV_OFFLOAD_CPB_HLOS) then
    (- EINVAL, areq)
  else start_exit areq (hw.qce_ablk_cipher_req areq)

/-- Embedding of `start_sha_req`.  The `switch` default returns `-EINVAL`
directly. -/
def start_sha_req (K : qcedev_hdr) (hw : qce_engine)
    (areq : qcedev_async_req) : Int × qcedev_async_req :=
  let r := areq.sha_op_req
  if ¬ (r.alg = K.QCEDEV_ALG_SHA1 ∨ r.alg = K.QCEDEV_ALG_SHA256 ∨
      r.alg = K.QCEDEV_ALG_SHA1_HMAC ∨ r.alg = K.QCEDEV_ALG_SHA256_HMAC ∨
      r.alg = K.QCEDEV_ALG_AES_CMAC) then
    (- EINVAL, areq)
  else start_exit areq (hw.qce_process_sha_req areq)

/-- The three-way dispatch on `op_type` that `submit_req` and `req_done`
share. -/
def start_req (K : qcedev_hdr) (hw : qce_engine) (sup : ce_support)
    (areq : qcedev_async_req) : Int × qcedev_async_req :=
  match areq.op_type with
  | .QCEDEV_CRYPTO_OPER_CIPHER => start_cipher_req K hw sup areq
  | .QCEDEV_CRYPTO_OPER_OFFLOAD_CIPHER => start_offload_cipher_req K hw areq
  | .QCEDEV_CRYPTO_OPER_SHA => start_sha_req K hw areq

/-- State after one step of the queue. -/
structure queue_step where
  podev : qcedev_control
  areq : qcedev_async_req
  ret : Int
  trace : List Event

/-- The part of `submit_req` that runs under `podev->lock`: the error field is
cleared, then either the request goes into the empty active slot and is
started (the slot being emptied again when the start fails), or it is appended
to `ready_commands`. -/
def submit_req_locked (K : qcedev_hdr) (hw : qce_engine) (podev : qcedev_control)
    (qcedev_areq : qcedev_async_req) : queue_step :=
  let areq0 := clear_err qcedev_areq
  match podev.active_command with
  | none =>
    let started := start_req K hw podev.support areq0
    { podev := { podev with
        active_command := if started.1 ≠ 0 then none else some started.2 }
      areq := started.2
      ret := started.1
      trace := [Event.start areq0.id started.1] }
  | some _ =>
    { podev := { podev with ready_commands := podev.ready_commands ++ [areq0] }
      areq := areq0
      ret := 0
      trace := [Event.list_add_tail areq0.id] }

/-- The signal `if (areq) complete(&areq->complete)`. -/
def complete_opt (areq : Option qcedev_async_req) : List Event :=
  match areq with
  | none => []
  | some a => [Event.complete a.id a.err]

/-- The loop of `req_done` from the label `again` on, for the pending list
`ready` and the request `areq` to signal: the head is unlinked, made active,
its error cleared and it is started; `areq` is signalled; a head that failed
to start is signalled too, the slot is emptied and the loop goes round with
nothing left to signal.  Result: active slot, pending list, trace. -/
def req_done_again (K : qcedev_hdr) (hw : qce_engine) (sup : ce_support) :
    List qcedev_async_req → Option qcedev_async_req →
      Option qcedev_async_req × List qcedev_async_req × List Event
  | [], areq => (none, [], complete_opt areq)
  | new_req :: rest, areq =>
    let started := start_req K hw sup (clear_err new_req)
    let head := [Event.list_del new_req.id, Event.start new_req.id started.1]
      ++ complete_opt areq
    if started.1 ≠ 0 then
      let again := req_done_again K hw sup rest none
      (again.1, again.2.1,
        head ++ [Event.complete started.2.id started.2.err] ++ again.2.2)
    else (some started.2, rest, head)

/-- Embedding of `req_done`, the body of `done_tasklet`. -/
def req_done (K : qcedev_hdr) (hw : qce_engine) (podev : qcedev_control) :
    qcedev_control × List Event :=
  let r := req_done_again K hw podev.support podev.ready_commands podev.active_command
  ({ podev with active_command := r.1, ready_commands := r.2.1 }, r.2.2)

/-- The tasklet: `req_done` runs when `done_tasklet` is scheduled. -/
def done_tasklet_run (K : qcedev_hdr) (hw : qce_engine) (podev : qcedev_control) :
    qcedev_control × List Event :=
  if podev.done_tasklet then req_done K hw { podev with done_tasklet := false }
  else (podev, [])

/-! ## Timeout supervisor -/

/-- The six status registers returned by `qce_get_crypto_status`. -/
structure crypto_status where
  s1 : Nat
  s2 : Nat
  s3 : Nat
  s4 : Nat
  s5 : Nat
  s6 : Nat
deriving DecidableEq, Repr

/-- Key timer expiry for pipes 1-15 (Status3). -/
def PIPE_KEY_TIMER_EXPIRED_STATUS3_MASK : Nat := 0x000000FF

/-- Key timer expiry for pipes 16-19 (Status6). -/
def PIPE_KEY_TIMER_EXPIRED_STATUS6_MASK : Nat := 0x00000003

/-- Key pause for pipes 1-15 (Status3). -/
def PIPE_KEY_PAUSE_STATUS3_MASK : Nat := 0xFF0000

/-- Key pause for pipes 16-19 (Status6). -/
def PIPE_KEY_PAUSE_STATUS6_MASK : Nat := 0x30000

/-- Generic error interrupt (Status1). -/
def QCEDEV_STATUS1_ERR_INTR_MASK : Nat := 0x10

/-- The classification made by `qcedev_check_crypto_status`. -/
def crypto_status_code (st : crypto_status) : qcedev_offload_err_enum :=
  if st.s6 &&& PIPE_KEY_TIMER_EXPIRED_STATUS6_MASK ≠ 0 ∨
      st.s3 &&& PIPE_KEY_TIMER_EXPIRED_STATUS3_MASK ≠ 0 then
    .QCEDEV_OFFLOAD_KEY_TIMER_EXPIRED_ERROR
  else if st.s6 &&& PIPE_KEY_PAUSE_STATUS6_MASK ≠ 0 ∨
      st.s3 &&& PIPE_KEY_PAUSE_STATUS3_MASK ≠ 0 then
    .QCEDEV_OFFLOAD_KEY_PAUSE_ERROR
  else if st.s1 &&& QCEDEV_STATUS1_ERR_INTR_MASK ≠ 0 then
    .QCEDEV_OFFLOAD_GENERIC_ERROR
  else .QCEDEV_OFFLOAD_NO_ERROR

/-- Embedding of `qcedev_check_crypto_status`: the descriptor error is first
set to `QCEDEV_OFFLOAD_NO_ERROR`, then to the first anomaly found. -/
def qcedev_check_crypto_status (qcedev_areq : qcedev_async_req) (st : crypto_status) :
    qcedev_async_req :=
  let cleared := { qcedev_areq with
    offload_cipher_op_req := { qcedev_areq.offload_cipher_op_req with
      err := .QCEDEV_OFFLOAD_NO_ERROR } }
  { cleared with
    offload_cipher_op_req := { cleared.offload_cipher_op_req with
      err := crypto_status_code st } }

/-- Modelled from the spec: `qce_manage_timeout` is a function of `qce50.c`,
which is not among the sources.  The spec has this recovery "forcibly clear the
stuck hardware operation".  `submit_req` calls it with the hardware handle
`podev->qce` and the request info, not with the device structure: the state of
the hardware is not part of `qcedev_control`, and the active slot, the pending
list and the tasklet, which `qcedev.c` keeps, are after the call what they
were before it. -/
def qce_manage_timeout (podev : qcedev_control) : qcedev_control :=
  podev

/-- The module statistics, `struct qcedev_stat` (32-bit counters). -/
structure qcedev_stat where
  qcedev_dec_success : Nat
  qcedev_dec_fail : Nat
  qcedev_enc_success : Nat
  qcedev_enc_fail : Nat
  qcedev_sha_success : Nat
  qcedev_sha_fail : Nat
deriving DecidableEq, Repr

/-- The statistics update at the end of `submit_req`. -/
def update_stat (K : qcedev_hdr) (pstat : qcedev_stat) (areq : qcedev_async_req) :
    qcedev_stat :=
  match areq.op_type with
  | .QCEDEV_CRYPTO_OPER_CIPHER =>
    if areq.cipher_op_req.op = K.QCEDEV_OPER_DEC then
      if areq.err ≠ 0 then
        { pstat with qcedev_dec_fail := (pstat.qcedev_dec_fail + 1) % 2 ^ 32 }
      else { pstat with qcedev_dec_success := (pstat.qcedev_dec_success + 1) % 2 ^ 32 }
    else if areq.cipher_op_req.op = K.QCEDEV_OPER_ENC then
      if areq.err ≠ 0 then
        { pstat with qcedev_enc_fail := (pstat.qcedev_enc_fail + 1) % 2 ^ 32 }
      else { pstat with qcedev_enc_success := (pstat.qcedev_enc_success + 1) % 2 ^ 32 }
    else pstat
  | .QCEDEV_CRYPTO_OPER_OFFLOAD_CIPHER => pstat
  | .QCEDEV_CRYPTO_OPER_SHA =>
    if areq.err ≠ 0 then
      { pstat with qcedev_sha_fail := (pstat.qcedev_sha_fail + 1) % 2 ^ 32 }
    else { pstat with qcedev_sha_success := (pstat.qcedev_sha_success + 1) % 2 ^ 32 }

/-- What `submit_req` leaves behind. -/
structure submit_result where
  podev : qcedev_control
  areq : qcedev_async_req
  pstat : qcedev_stat
  ret : Int
  trace : List Event

/-- The part of `submit_req` after the wait.  `ret` is the value of the start
made under the lock, `wait` the value of `wait_for_completion_timeout` (0 when
it timed out, and also when it was never called because `wait` is initialised
to 0), `st` what the status registers read. -/
def submit_req_finish (K : qcedev_hdr) (st : crypto_status) (podev : qcedev_control)
    (pstat : qcedev_stat) (qcedev_areq : qcedev_async_req) (ret : Int) (wait : Nat)
    (trace : List Event) : submit_result :=
  let checked := if wait = 0 then qcedev_check_crypto_status qcedev_areq st else qcedev_areq
  let podev1 := if wait = 0 then qce_manage_timeout podev else podev
  if wait = 0 ∧
      checked.offload_cipher_op_req.err ≠ .QCEDEV_OFFLOAD_NO_ERROR then
    { podev := podev1, areq := checked, pstat := pstat, ret := 0, trace := trace }
  else
    let areq1 := if ret ≠ 0 then { checked with err := - EIO } else checked
    { podev := podev1, areq := areq1, pstat := update_stat K pstat areq1,
      ret := areq1.err, trace := trace }

/-- Embedding of `submit_req` for a caller that is alone with the device while
it sleeps: the locked step, the wait (made only when the start returned 0 and
returning `wait`, with the request and the device as the locked step left
them), and the part after the wait. -/
def submit_req (K : qcedev_hdr) (hw : qce_engine) (st : crypto_status)
    (podev : qcedev_control) (pstat : qcedev_stat) (qcedev_areq : qcedev_async_req)
    (wait : Nat) : submit_result :=
  let locked := submit_req_locked K hw podev qcedev_areq
  submit_req_finish K st locked.podev pstat locked.areq locked.ret
    (if locked.ret = 0 then wait else 0) locked.trace

/-! ## Runs of the queue -/

/-- A step made on the device by some context: the locked part of a
`submit_req` call, or one run of `req_done`. -/
inductive queue_op where
  | submit (areq : qcedev_async_req)
  | done

/-- The device and the trace after a sequence of steps. -/
def queue_run (K : qcedev_hdr) (hw : qce_engine) :
    qcedev_control → List queue_op → qcedev_control × List Event
  | podev, [] => (podev, [])
  | podev, queue_op.submit areq :: ops =>
    let s := submit_req_locked K hw podev areq
    let r := queue_run K hw s.podev ops
    (r.1, s.trace ++ r.2)
  | podev, queue_op.done :: ops =>
    let s := req_done K hw podev
    let r := queue_run K hw s.1 ops
    (r.1, s.2 ++ r.2)

/-- The requests appended to the pending list, in the order of the trace. -/
def enqueued (t : List Event) : List Nat :=
  t.filterMap (fun e => match e with
    | Event.list_add_tail id => some id
    | _ => none)

/-- The requests taken from the pending list, in the order of the trace. -/
def popped (t : List Event) : List Nat :=
  t.filterMap (fun e => match e with
    | Event.list_del id => some id
    | _ => none)

/-- The completion signals of a trace, in order. -/
def completions (t : List Event) : List Event :=
  t.filter (fun e => match e with
    | Event.complete _ _ => true
    | _ => false)

/-- The starts of a trace, in order. -/
def starts (t : List Event) : List Nat :=
  t.filterMap (fun e => match e with
    | Event.start id _ => some id
    | _ => none)

/-- A device with nothing active and nothing pending. -/
def idle_device (sup : ce_support) : qcedev_control :=
  { support := sup, active_command := none, ready_commands := [], done_tasklet := false }

/-! ## Concrete inputs -/

/-- One segment of `n` bytes at address `addr`, the other slots empty. -/
def one_segment (addr n : Nat) : Nat → buf_info :=
  fun i => if i = 0 then { vaddr := addr, len := n } else { vaddr := 0, len := 0 }

/-- An AES request of 32 bytes with a 128-bit key and a 16-byte IV, in the
given mode. -/
def sample_cipher_op_req (mode : Nat) : qcedev_cipher_op_req :=
  { use_pmem := 0
    vbuf := { src := one_segment 4096 32, dst := one_segment 8192 32 }
    entries := 1
    data_len := 32
    enckey := fun i => if i < 16 then 1 else 0
    encklen := 16
    ivlen := 16
    byteoffset := 0
    alg := 2
    mode := mode
    op := 1 }

/-- A SHA-256 request of 32 bytes. -/
def sample_sha_op_req : qcedev_sha_op_req :=
  { data := one_segment 4096 32, entries := 1, data_len := 32, diglen := 0,
    authkey := 0, authklen := 0, alg := 1 }

/-- An AES-CBC offload request of 32 bytes. -/
def sample_offload_cipher_op_req : qcedev_offload_cipher_op_req :=
  { vbuf := { src := one_segment 4096 32, dst := one_segment 8192 32 }
    entries := 1, data_len := 32, encklen := 16, ivlen := 16, byteoffset := 0,
    block_offset := 0, alg := 2, mode := 0, op := 1, is_copy_op := false,
    err := .QCEDEV_OFFLOAD_NO_ERROR }

/-- A request at address `id` of the given kind, its cipher descriptor in the
given mode. -/
def sample_req (id : Nat) (op_type : qcedev_crypto_oper_type) (mode : Nat) :
    qcedev_async_req :=
  { id := id, op_type := op_type, cipher_op_req := sample_cipher_op_req mode,
    sha_op_req := sample_sha_op_req,
    offload_cipher_op_req := sample_offload_cipher_op_req, err := 0 }

/-- Capabilities of a device with every optional feature. -/
def full_support : ce_support :=
  { aes_xts := true, aes_key_192 := true, cmac := true, sha_hmac := true,
    hw_key_support := true }

/-- An engine that accepts every submission. -/
def engine_accepts : qce_engine :=
  { qce_ablk_cipher_req := fun _ => 0, qce_process_sha_req := fun _ => 0 }

/-- An engine that rejects every submission with `-ENXIO`. -/
def engine_rejects : qce_engine :=
  { qce_ablk_cipher_req := fun _ => - ENXIO, qce_process_sha_req := fun _ => - ENXIO }

/-- An engine that rejects the requests at odd addresses. -/
def engine_rejects_odd : qce_engine :=
  { qce_ablk_cipher_req := fun r => if r.id % 2 = 1 then - ENXIO else 0
    qce_process_sha_req := fun r => if r.id % 2 = 1 then - ENXIO else 0 }

/-- Status registers reading all zero. -/
def status_clear : crypto_status :=
  { s1 := 0, s2 := 0, s3 := 0, s4 := 0, s5 := 0, s6 := 0 }

/-- Status registers with only the generic error interrupt bit set. -/
def status_generic : crypto_status :=
  { s1 := 16, s2 := 0, s3 := 0, s4 := 0, s5 := 0, s6 := 0 }

/-- Statistics counters at zero. -/
def stat_zero : qcedev_stat :=
  { qcedev_dec_success := 0, qcedev_dec_fail := 0, qcedev_enc_success := 0,
    qcedev_enc_fail := 0, qcedev_sha_success := 0, qcedev_sha_fail := 0 }

/-- A device with a SHA request (address 1) active and one pending cipher
request (address 2) whose mode is 4, `QCEDEV_AES_MODE_CCM`: a mode below
`QCEDEV_AES_DES_MODE_LAST` that `start_cipher_req` has no case for. -/
def device_ccm_pending : qcedev_control :=
  { support := full_support
    active_command := some (sample_req 1 .QCEDEV_CRYPTO_OPER_SHA 0)
    ready_commands := [sample_req 2 .QCEDEV_CRYPTO_OPER_CIPHER 4]
    done_tasklet := true }

/-! ## Hash validator and incremental hash tracker -/

/-- Embedding of `qcedev_check_sha_params`; `0` or `-EINVAL`. -/
def qcedev_check_sha_params (K : qcedev_hdr) (req : qcedev_sha_op_req)
    (podev : ce_support) : Int :=
  if req.alg = K.QCEDEV_ALG_AES_CMAC ∧ podev.cmac = false then - EINVAL
  else if req.entries = 0 ∨ req.entries > K.QCEDEV_MAX_BUFFERS then - EINVAL
  else if req.alg ≥ K.QCEDEV_ALG_SHA_ALG_LAST then - EINVAL
  else if (req.alg = K.QCEDEV_ALG_SHA1_HMAC ∨ req.alg = K.QCEDEV_ALG_SHA256_HMAC) ∧
      (req.authkey = 0 ∨ req.authklen = 0) then - EINVAL
  else if req.alg = K.QCEDEV_ALG_AES_CMAC ∧
      (req.authklen ≠ K.QCEDEV_AES_KEY_128 ∧ req.authklen ≠ K.QCEDEV_AES_KEY_256) then - EINVAL
  else
    match (List.range req.entries).foldlM
        (fun total i =>
          if (req.data i).len > U32_MAX - total then none
          else some ((total + (req.data i).len) % 2 ^ 32)) 0 with
    | none => - EINVAL
    | some total => if total ≠ req.data_len then - EINVAL else 0

/-- Block size of SHA-1 in bytes. -/
def SHA1_BLOCK_SIZE : Nat := 64

/-- Block size of SHA-256 in bytes. -/
def SHA256_BLOCK_SIZE : Nat := 64

/-- The driver hash block, `#define CE_SHA_BLOCK_SIZE SHA256_BLOCK_SIZE`. -/
def CE_SHA_BLOCK_SIZE : Nat := SHA256_BLOCK_SIZE

/-- Digest size of SHA-1 in bytes. -/
def SHA1_DIGEST_SIZE : Nat := 20

/-- Digest size of SHA-256 in bytes. -/
def SHA256_DIGEST_SIZE : Nat := 32

/-- The cache line of the scratch buffers, `#define CACHE_LINE_SIZE 64`. -/
def CACHE_LINE_SIZE : Nat := 64

/-- Standard initialization vector for SHA-1. -/
def _std_init_vector_sha1_uint8 : List Nat :=
  [0x67, 0x45, 0x23, 0x01, 0xEF, 0xCD, 0xAB, 0x89,
   0x98, 0xBA, 0xDC, 0xFE, 0x10, 0x32, 0x54, 0x76,
   0xC3, 0xD2, 0xE1, 0xF0]

/-- Standard initialization vector for SHA-256, source: FIPS 180-2. -/
def _std_init_vector_sha256_uint8 : List Nat :=
  [0x6A, 0x09, 0xE6, 0x67, 0xBB, 0x67, 0xAE, 0x85,
   0x3C, 0x6E, 0xF3, 0x72, 0xA5, 0x4F, 0xF5, 0x3A,
   0x51, 0x0E, 0x52, 0x7F, 0x9B, 0x05, 0x68, 0x8C,
   0x1F, 0x83, 0xD9, 0xAB, 0x5B, 0xE0, 0xCD, 0x19]

/-- The macro `ALIGN(x, a)` on a 32-bit value, for a power of two `a`. -/
def ALIGN (x a : Nat) : Nat :=
  ((x + (a - 1)) % 2 ^ 32) / a * a

/-- Ways in which a run leaves the defined behaviour of C, or the fuel of the
embedding. -/
inductive fault where
  | out_of_bounds (index : Nat)
  | overrun
  | out_of_fuel
deriving DecidableEq, Repr

/-- Bound check of an index into a segment array of `QCEDEV_MAX_BUFFERS`
slots. -/
def in_array (K : qcedev_hdr) (i : Nat) : Except fault Unit :=
  if i < K.QCEDEV_MAX_BUFFERS then .ok () else .error (fault.out_of_bounds i)

/-- Write one slot of a segment array. -/
def set_seg (data : Nat → buf_info) (i : Nat) (b : buf_info) : Nat → buf_info :=
  fun j => if j = i then b else data j

/-- What the driver sees of user memory and of the allocator: the byte at each
user address, whether `copy_from_user` of a range succeeds, and the bytes that
freshly allocated kernel memory holds. -/
structure user_env where
  byte : Nat → Nat
  readable : Nat → Nat → Bool
  junk : Nat → Nat

/-- The `n` user bytes at `addr`. -/
def user_bytes (env : user_env) (addr n : Nat) : List Nat :=
  (List.range n).map (fun k => env.byte (addr + k))

/-- `copy_from_user`: the bytes copied, or `none` when it fails. -/
def copy_from_user (env : user_env) (addr n : Nat) : Option (List Nat) :=
  if env.readable addr n then some (user_bytes env addr n) else none

/-- Hash state of a client handle, `struct qcedev_sha_ctxt`. -/
structure qcedev_sha_ctxt where
  auth_data : List Nat
  digest : List Nat
  diglen : Nat
  trailing_buf : List Nat
  trailing_buf_len : Nat
  first_blk : Nat
  last_blk : Nat
  authkey : List Nat
  init_done : Bool
deriving DecidableEq, Repr

/-- A hash sub-operation as the tracker passes it to `submit_req`: the
algorithm of the request, the block flags, the running digest and the counters
that the hash context holds at the call, and the `nbytes` bytes of the scratch
buffer.  What `start_sha_req` makes of it for the engine is
`start_sha_req_sreq`. -/
structure sha_pass where
  alg : Nat
  first_blk : Nat
  last_blk : Nat
  digest : List Nat
  auth_data : List Nat
  nbytes : Nat
  src : List Nat
deriving DecidableEq, Repr

/-- The hash context of a handle together with the hash sub-operations
submitted so far, oldest first. -/
structure hash_state where
  sha_ctxt : qcedev_sha_ctxt
  trace : List sha_pass

/-- What `submit_req` does for the hash tracker: the value it returns for a
sub-operation and what the completion callback `qcedev_sha_req_cb` received
(digest, and the two counters), if it ran with results. -/
structure hash_engine where
  ret : sha_pass → Int
  cb : sha_pass → Option (List Nat × Nat × Nat)

/-- Overwrite a buffer from offset `off` on. -/
def write_at (buf : List Nat) (off : Nat) (bs : List Nat) : List Nat :=
  buf.take off ++ bs ++ buf.drop (off + bs.length)

/-- The sub-operation of a call of `submit_req` made with the hash context
`c` for the first `nbytes` bytes of `buf`. -/
def pass_of (alg : Nat) (c : qcedev_sha_ctxt) (buf : List Nat) (nbytes : Nat) : sha_pass :=
  { alg := alg, first_blk := c.first_blk, last_blk := c.last_blk, digest := c.digest,
    auth_data := c.auth_data, nbytes := nbytes, src := buf.take nbytes }

/-- The hash algorithms of the engine that `start_sha_req` selects,
`enum qce_hash_alg_enum`. -/
inductive qce_hash_alg_enum where
  | QCE_HASH_SHA1
  | QCE_HASH_SHA256
  | QCE_HASH_SHA1_HMAC
  | QCE_HASH_SHA256_HMAC
  | QCE_HASH_AES_CMAC
deriving DecidableEq, Repr

/-- The request `struct qce_sha_req` that `start_sha_req` builds on its stack
and hands to `qce_process_sha_req` (the key fields apart).  `none` is a field
that the function does not assign. -/
structure qce_sha_req where
  alg : qce_hash_alg_enum
  auth_data : Option (List Nat)
  digest : Option (List Nat)
  first_blk : Option Nat
  last_blk : Option Nat
  size : Nat
  src : List Nat
deriving DecidableEq, Repr

/-- What `start_sha_req` hands to the engine for a sub-operation: `none` when
the `switch` on the algorithm takes its `default` and returns `-EINVAL`.  The
counters, the digest and the two block flags are copied from the hash context
only `if (qcedev_areq->sha_op_req.alg != QCEDEV_ALG_AES_CMAC)`; for AES-CMAC
they are left as the stack held them. -/
def start_sha_req_sreq (K : qcedev_hdr) (sup : ce_support) (p : sha_pass) :
    Option qce_sha_req :=
  let alg : Option qce_hash_alg_enum :=
    if p.alg = K.QCEDEV_ALG_SHA1 then some .QCE_HASH_SHA1
    else if p.alg = K.QCEDEV_ALG_SHA256 then some .QCE_HASH_SHA256
    else if p.alg = K.QCEDEV_ALG_SHA1_HMAC then
      some (if sup.sha_hmac then .QCE_HASH_SHA1_HMAC else .QCE_HASH_SHA1)
    else if p.alg = K.QCEDEV_ALG_SHA256_HMAC then
      some (if sup.sha_hmac then .QCE_HASH_SHA256_HMAC else .QCE_HASH_SHA256)
    else if p.alg = K.QCEDEV_ALG_AES_CMAC then some .QCE_HASH_AES_CMAC
    else none
  match alg with
  | none => none
  | some a =>
    if p.alg ≠ K.QCEDEV_ALG_AES_CMAC then
      some { alg := a, auth_data := some p.auth_data, digest := some p.digest,
             first_blk := some p.first_blk, last_blk := some p.last_blk,
             size := p.nbytes, src := p.src }
    else
      some { alg := a, auth_data := none, digest := none, first_blk := none,
             last_blk := none, size := p.nbytes, src := p.src }

/-- What `qcedev_sha_req_cb` stores in the hash context: the 32 digest bytes
and the first two counters, when it got them. -/
def cb_store (c : qcedev_sha_ctxt) (r : Option (List Nat × Nat × Nat)) : qcedev_sha_ctxt :=
  match r with
  | none => c
  | some (d, a0, a1) =>
    { c with
      digest := write_at c.digest 0 (d.take 32)
      auth_data := write_at c.auth_data 0 [a0, a1] }

/-- The call `submit_req(qcedev_areq, handle)` of the hash tracker for the
first `nbytes` bytes of `buf`: the sub-operation is recorded, the callback
stores what it got, the return value is passed on. -/
def submit_sha (E : hash_engine) (alg : Nat) (s : hash_state) (buf : List Nat)
    (nbytes : Nat) : Int × hash_state :=
  (E.ret (pass_of alg s.sha_ctxt buf nbytes),
    { sha_ctxt := cb_store s.sha_ctxt (E.cb (pass_of alg s.sha_ctxt buf nbytes))
      trace := s.trace ++ [pass_of alg s.sha_ctxt buf nbytes] })

/-- Embedding of `qcedev_sha_init`. -/
def qcedev_sha_init (K : qcedev_hdr) (areq : qcedev_sha_op_req) (s : hash_state) :
    Int × hash_state :=
  let zero : qcedev_sha_ctxt :=
    { auth_data := List.replicate 4 0, digest := List.replicate 32 0, diglen := 0,
      trailing_buf := List.replicate 64 0, trailing_buf_len := 0, first_blk := 1,
      last_blk := 0, authkey := List.replicate 64 0, init_done := false }
  let seeded : qcedev_sha_ctxt :=
    if areq.alg = K.QCEDEV_ALG_SHA1 ∨ areq.alg = K.QCEDEV_ALG_SHA1_HMAC then
      { zero with
        digest := write_at zero.digest 0 (_std_init_vector_sha1_uint8.take SHA1_DIGEST_SIZE)
        diglen := SHA1_DIGEST_SIZE }
    else if areq.alg = K.QCEDEV_ALG_SHA256 ∨ areq.alg = K.QCEDEV_ALG_SHA256_HMAC then
      { zero with
        digest := write_at zero.digest 0
          (_std_init_vector_sha256_uint8.take SHA256_DIGEST_SIZE)
        diglen := SHA256_DIGEST_SIZE }
    else zero
  (0, { s with sha_ctxt := { seeded with init_done := true } })

/-- The copy loop of the short path of `qcedev_sha_update_max_xfer`
(`while (len > 0)`): segment `i` is copied to offset `k` of the trailing
buffer.  Result: whether every copy succeeded (`false` is `-EFAULT`), and the
trailing buffer as the loop leaves it. -/
def trailing_copy_loop (K : qcedev_hdr) (env : user_env) (data : Nat → buf_info) :
    Nat → Nat → Nat → Nat → List Nat → Except fault (Bool × List Nat)
  | 0, _, _, _, _ => .error fault.out_of_fuel
  | fuel + 1, i, len, k, tb =>
    if len = 0 then .ok (true, tb)
    else if ¬ i < K.QCEDEV_MAX_BUFFERS then .error (fault.out_of_bounds i)
    else if k + (data i).len > 64 then .error fault.overrun
    else if (data i).vaddr ≠ 0 then
      match copy_from_user env (data i).vaddr (data i).len with
      | none => .ok (false, tb)
      | some bs =>
        trailing_copy_loop K env data fuel (i + 1)
          ((len + 2 ^ 32 - (data i).len) % 2 ^ 32) (k + (data i).len) (write_at tb k bs)
    else
      trailing_copy_loop K env data fuel (i + 1)
        ((len + 2 ^ 32 - (data i).len) % 2 ^ 32) (k + (data i).len) tb

/-- The copy of segments `i`, `i + 1`, ... below `entries` into the scratch
buffer (long path); `k` is the offset of `k_src` in the buffer, `written` the
`k` bytes in front of it.  A NULL segment is skipped over, so the buffer keeps
there what the allocator left.  Result: whether every copy succeeded (`false`
is `-EFAULT`), `k` and `written`. -/
def scratch_copy_loop (K : qcedev_hdr) (env : user_env) (data : Nat → buf_info) :
    Nat → Nat → Nat → List Nat → Except fault (Bool × Nat × List Nat)
  | 0, _, k, written => .ok (true, k, written)
  | n + 1, i, k, written =>
    if ¬ i < K.QCEDEV_MAX_BUFFERS then .error (fault.out_of_bounds i)
    else if (data i).vaddr ≠ 0 then
      match copy_from_user env (data i).vaddr (data i).len with
      | none => .ok (false, k, written)
      | some bs => scratch_copy_loop K env data n (i + 1) (k + (data i).len) (written ++ bs)
    else
      scratch_copy_loop K env data n (i + 1) (k + (data i).len)
        (written ++ (List.range (data i).len).map (fun o => env.junk (k + o)))

/-- `sha_pad_len = ALIGN(total, CE_SHA_BLOCK_SIZE) - total`, in 32 bits. -/
def sha_pad_len (total : Nat) : Nat :=
  (ALIGN total CE_SHA_BLOCK_SIZE + 2 ^ 32 - total) % 2 ^ 32

/-- `trailing_buf_len = CE_SHA_BLOCK_SIZE - sha_pad_len`, in 32 bits. -/
def new_trailing_buf_len (total : Nat) : Nat :=
  (CE_SHA_BLOCK_SIZE + 2 ^ 32 - sha_pad_len total) % 2 ^ 32

/-- The end of the long path of `qcedev_sha_update_max_xfer`, from
`/* get new trailing buffer */` on: `k` bytes, `written`, are in the scratch
buffer of `total + 2 * CACHE_LINE_SIZE` bytes.  The part up to the last block
boundary is submitted, the rest becomes the trailing buffer, the block flags
are cleared. -/
def sha_submit_aligned (env : user_env) (E : hash_engine) (alg : Nat) (s : hash_state)
    (total k : Nat) (written : List Nat) : Except fault (Int × hash_state) :=
  if k > total + CACHE_LINE_SIZE then .error fault.overrun
  else
    let scratch := written ++
      (List.range (total + CACHE_LINE_SIZE - k)).map (fun o => env.junk (k + o))
    let trailing_buf_len := new_trailing_buf_len total
    let nbytes := (total + 2 ^ 32 - trailing_buf_len) % 2 ^ 32
    let tb :=
      if trailing_buf_len > 0 then
        write_at (List.replicate 64 0) 0
          ((scratch.drop (k - trailing_buf_len)).take trailing_buf_len)
      else s.sha_ctxt.trailing_buf
    let s1 : hash_state := { s with sha_ctxt :=
      { s.sha_ctxt with trailing_buf := tb, trailing_buf_len := trailing_buf_len } }
    let sub := submit_sha E alg s1 scratch nbytes
    .ok (sub.1, { sub.2 with sha_ctxt :=
      { sub.2.sha_ctxt with last_blk := 0, first_blk := 0 } })

/-- Embedding of `qcedev_sha_update_max_xfer`.  Short path (`total` at most
one block): the input is appended to the trailing buffer and nothing is
submitted.  Long path: trailing buffer and input are gathered in a scratch
buffer, the part up to the last block boundary is submitted, the rest (1 to 64
bytes) becomes the trailing buffer. -/
def qcedev_sha_update_max_xfer (K : qcedev_hdr) (env : user_env) (E : hash_engine)
    (req : qcedev_sha_op_req) (s : hash_state) : Except fault (Int × hash_state) :=
  let t_buf := s.sha_ctxt.trailing_buf_len
  let total := (req.data_len + t_buf) % 2 ^ 32
  let sha_block_size :=
    if req.alg = K.QCEDEV_ALG_SHA1 then SHA1_BLOCK_SIZE else SHA256_BLOCK_SIZE
  if total ≤ sha_block_size then
    match trailing_copy_loop K env req.data (K.QCEDEV_MAX_BUFFERS + 1) 0 req.data_len t_buf
        s.sha_ctxt.trailing_buf with
    | .error f => .error f
    | .ok (false, tb) =>
      .ok (- EFAULT, { s with sha_ctxt := { s.sha_ctxt with trailing_buf := tb } })
    | .ok (true, tb) =>
      .ok (0, { s with sha_ctxt :=
        { s.sha_ctxt with trailing_buf := tb, trailing_buf_len := total } })
  else
    match scratch_copy_loop K env req.data (1 + (req.entries - 1)) 0
        (if t_buf > 0 then t_buf else 0)
        (if t_buf > 0 then s.sha_ctxt.trailing_buf.take t_buf else []) with
    | .error f => .error f
    | .ok (false, _, _) => .ok (- EFAULT, s)
    | .ok (true, k, written) => sha_submit_aligned env E req.alg s total k written

/-- The inner `for (j = i; j < req.entries; j++)` of the splitting loop:
segments are counted until the slice is full.  Result: the array (the slot
that fills the slice is cut to what still fits), `j`, `total`,
`num_entries`. -/
def gather_loop (K : qcedev_hdr) (data : Nat → buf_info) :
    Nat → Nat → Nat → Nat → Except fault ((Nat → buf_info) × Nat × Nat × Nat)
  | 0, j, total, num_entries => .ok (data, j, total, num_entries)
  | n + 1, j, total, num_entries =>
    if ¬ j < K.QCEDEV_MAX_BUFFERS then .error (fault.out_of_bounds j)
    else if (total + (data j).len) % 2 ^ 32 ≥ K.QCE_MAX_OPER_DATA then
      .ok (set_seg data j { (data j) with len := K.QCE_MAX_OPER_DATA - total }, j,
        K.QCE_MAX_OPER_DATA, num_entries + 1)
    else gather_loop K data n (j + 1) ((total + (data j).len) % 2 ^ 32) (num_entries + 1)

/-- The loop `for (k = 0; k < num_entries; k++) data[k] = data[i + k]`, run in
order on the array. -/
def shift_loop (data : Nat → buf_info) (i num_entries : Nat) : Nat → buf_info :=
  (List.range num_entries).foldl (fun d k => set_seg d k (d (i + k))) data

/-- State of the splitting loop of `qcedev_sha_update`: the descriptor being
rewritten, the segment array of the local copy `req`, the segment index and
the error of the last slice, and the hash state. -/
structure split_state where
  sreq : qcedev_sha_op_req
  req_data : Nat → buf_info
  i : Nat
  err : Int
  hash : hash_state

/-- The descriptor as the loop rewrites it for a slice taken from segment `i`
alone, which is longer than the limit: slot 0 gets the limit as length and the
address of segment `i`, `data_len` is the limit, `entries` is 1. -/
def slice_of_long_segment (K : qcedev_hdr) (c : split_state) : qcedev_sha_op_req :=
  let d1 := set_seg c.sreq.data 0 { (c.sreq.data 0) with len := K.QCE_MAX_OPER_DATA }
  let d2 := if c.i > 0 then set_seg d1 0 { (d1 0) with vaddr := (d1 c.i).vaddr } else d1
  { c.sreq with data := d2, data_len := K.QCE_MAX_OPER_DATA, entries := 1 }

/-- The bookkeeping after such a slice: segment `i` loses its first
`QCE_MAX_OPER_DATA` bytes, in the descriptor and in the local copy. -/
def after_long_segment (K : qcedev_hdr) (c : split_state) (err : Int) (h : hash_state) :
    split_state :=
  let b : buf_info :=
    { vaddr := (c.req_data c.i).vaddr + K.QCE_MAX_OPER_DATA
      len := ((c.req_data c.i).len + 2 ^ 32 - K.QCE_MAX_OPER_DATA) % 2 ^ 32 }
  { sreq := { slice_of_long_segment K c with
      data := set_seg (slice_of_long_segment K c).data c.i b }
    req_data := set_seg c.req_data c.i b
    i := c.i, err := err, hash := h }

/-- The descriptor as the loop rewrites it for a slice of whole segments: `g`
is what the counting loop returned (array, `j`, `total`, `num_entries`); the
counted slots are moved to the front when `i` is positive. -/
def slice_of_segments (c : split_state) (g : (Nat → buf_info) × Nat × Nat × Nat) :
    qcedev_sha_op_req :=
  { c.sreq with
    data := if c.i > 0 then shift_loop g.1 c.i g.2.2.2 else g.1
    data_len := g.2.2.1
    entries := g.2.2.2 }

/-- The bookkeeping after such a slice, on slot `j`: the segment loses what the
slice took of it, and the index moves past it when nothing is left. -/
def after_segments (c : split_state) (g : (Nat → buf_info) × Nat × Nat × Nat)
    (err : Int) (h : hash_state) : split_state :=
  let b : buf_info :=
    { vaddr := (c.req_data g.2.1).vaddr + ((slice_of_segments c g).data g.2.1).len
      len := ((c.req_data g.2.1).len + 2 ^ 32 -
        ((slice_of_segments c g).data g.2.1).len) % 2 ^ 32 }
  { sreq := { slice_of_segments c g with
      data := set_seg (slice_of_segments c g).data g.2.1 b }
    req_data := set_seg c.req_data g.2.1 b
    i := if b.len = 0 then g.2.1 + 1 else g.2.1
    err := err, hash := h }

/-- One round of `while ((i < req.entries) && (err == 0))`, the loop condition
having been found true.  The bookkeeping after a slice of whole segments
indexes the arrays at `j`, which is `req.entries` when the counting loop ran
to its end. -/
def split_step (K : qcedev_hdr) (env : user_env) (E : hash_engine) (entries : Nat)
    (c : split_state) : Except fault split_state :=
  if ¬ c.i < K.QCEDEV_MAX_BUFFERS then .error (fault.out_of_bounds c.i)
  else if (c.sreq.data c.i).len > K.QCE_MAX_OPER_DATA then
    match qcedev_sha_update_max_xfer K env E (slice_of_long_segment K c) c.hash with
    | .error f => .error f
    | .ok (err, h) => .ok (after_long_segment K c err h)
  else
    match gather_loop K c.sreq.data (entries - c.i) c.i 0 0 with
    | .error f => .error f
    | .ok g =>
      match qcedev_sha_update_max_xfer K env E (slice_of_segments c g) c.hash with
      | .error f => .error f
      | .ok (err, h) =>
        if ¬ g.2.1 < K.QCEDEV_MAX_BUFFERS then .error (fault.out_of_bounds g.2.1)
        else .ok (after_segments c g err h)

/-- The splitting loop of `qcedev_sha_update`. -/
def split_loop (K : qcedev_hdr) (env : user_env) (E : hash_engine) (entries : Nat) :
    Nat → split_state → Except fault split_state
  | 0, c => if c.i < entries ∧ c.err = 0 then .error fault.out_of_fuel else .ok c
  | fuel + 1, c =>
    if c.i < entries ∧ c.err = 0 then
      match split_step K env E entries c with
      | .error f => .error f
      | .ok c1 => split_loop K env E entries fuel c1
    else .ok c

/-- The loop that puts the saved segments back,
`for (i = 0; i < saved_req->entries; i++)`. -/
def restore_loop (data saved : Nat → buf_info) (entries : Nat) : Nat → buf_info :=
  (List.range entries).foldl (fun d i => set_seg d i (saved i)) data

/-- Embedding of `qcedev_sha_update` (and of `qcedev_hash_update`, which only
calls it): return value, hash state, and the descriptor as the call leaves
it.  The fuel of the splitting loop is one round for each segment and for each
`QCE_MAX_OPER_DATA` bytes, and one more. -/
def qcedev_sha_update (K : qcedev_hdr) (env : user_env) (E : hash_engine)
    (areq : qcedev_sha_op_req) (s : hash_state) :
    Except fault (Int × hash_state × qcedev_sha_op_req) :=
  if s.sha_ctxt.init_done = false then .ok (- EINVAL, s, areq)
  else if areq.data_len > K.QCE_MAX_OPER_DATA then
    match split_loop K env E areq.entries
        (areq.entries + areq.data_len / K.QCE_MAX_OPER_DATA + 1)
        { sreq := areq, req_data := areq.data, i := 0, err := 0, hash := s } with
    | .error f => .error f
    | .ok c =>
      .ok (c.err, c.hash,
        { c.sreq with
          data := restore_loop c.sreq.data areq.data areq.entries
          entries := areq.entries
          data_len := areq.data_len })
  else
    match qcedev_sha_update_max_xfer K env E areq s with
    | .error f => .error f
    | .ok (err, h) => .ok (err, h, areq)

/-- Embedding of `qcedev_sha_final`.  `k_buf_src` says whether `kmalloc`
returned a buffer: when it did not, the function returns `-ENOMEM` after it
has stored `last_blk = 1`. -/
def qcedev_sha_final (E : hash_engine) (areq : qcedev_sha_op_req) (s : hash_state)
    (k_buf_src : Bool) : Int × hash_state :=
  if s.sha_ctxt.init_done = false then (- EINVAL, s)
  else
    let s1 : hash_state := { s with sha_ctxt := { s.sha_ctxt with last_blk := 1 } }
    let total := s1.sha_ctxt.trailing_buf_len
    if k_buf_src = false then (- ENOMEM, s1)
    else
      let sub := submit_sha E areq.alg s1 (s1.sha_ctxt.trailing_buf.take total) total
      (sub.1, { sub.2 with sha_ctxt :=
        { sub.2.sha_ctxt with
          first_blk := 0, last_blk := 0
          auth_data := write_at sub.2.sha_ctxt.auth_data 0 [0, 0]
          trailing_buf_len := 0
          init_done := false
          trailing_buf := List.replicate 64 0 } })

/-- The sequence `Init; Update(r1); Update(r2); Final` on one handle, each
call made only if the one before returned 0: the hash sub-operations
submitted, or the first non-zero return value.  The scratch buffer of `Final`
is taken to be allocated. -/
def hash_two_updates (K : qcedev_hdr) (env : user_env) (E : hash_engine)
    (s : hash_state) (r1 r2 : qcedev_sha_op_req) :
    Except fault (Int × List sha_pass) :=
  let s0 := (qcedev_sha_init K r1 { s with trace := [] }).2
  match qcedev_sha_update K env E r1 s0 with
  | .error f => .error f
  | .ok (e1, s1, _) =>
    if e1 ≠ 0 then .ok (e1, s1.trace)
    else
      match qcedev_sha_update K env E r2 s1 with
      | .error f => .error f
      | .ok (e2, s2, _) =>
        if e2 ≠ 0 then .ok (e2, s2.trace)
        else
          let fin := qcedev_sha_final E r2 s2 true
          .ok (fin.1, fin.2.trace)

/-- The sequence `Init; Update(r); Final` on one handle, the scratch buffer of
`Final` taken to be allocated. -/
def hash_one_update (K : qcedev_hdr) (env : user_env) (E : hash_engine)
    (s : hash_state) (r : qcedev_sha_op_req) : Except fault (Int × List sha_pass) :=
  let s0 := (qcedev_sha_init K r { s with trace := [] }).2
  match qcedev_sha_update K env E r s0 with
  | .error f => .error f
  | .ok (e1, s1, _) =>
    if e1 ≠ 0 then .ok (e1, s1.trace)
    else
      let fin := qcedev_sha_final E r s1 true
      .ok (fin.1, fin.2.trace)

/-- The fault of a run, if it has one. -/
def fault_of {α : Type} (r : Except fault α) : Option fault :=
  match r with
  | .error f => some f
  | .ok _ => none

/-- The bytes of the first `n` segments, one after the other. -/
def seg_bytes (env : user_env) (data : Nat → buf_info) (n : Nat) : List Nat :=
  ((List.range n).map (fun i => user_bytes env (data i).vaddr (data i).len)).flatten

/-- Sixteen segments of 4096 bytes each, one after the other from address
65536 on. -/
def sixteen_pages : Nat → buf_info :=
  fun i => if i < 16 then { vaddr := 65536 + 4096 * i, len := 4096 }
    else { vaddr := 0, len := 0 }

/-- A SHA-256 request for the 65536 bytes of `sixteen_pages`. -/
def sample_sha_64k : qcedev_sha_op_req :=
  { data := sixteen_pages, entries := 16, data_len := 65536, diglen := 0,
    authkey := 0, authklen := 0, alg := 1 }

/-- User memory that is readable everywhere, byte `a % 256` at address `a`. -/
def sample_env : user_env :=
  { byte := fun a => a % 256, readable := fun _ _ => true, junk := fun _ => 0 }

/-- A hash engine for which every submission succeeds. -/
def hash_engine_accepts : hash_engine :=
  { ret := fun _ => 0, cb := fun _ => none }

/-- A handle that was never used. -/
def fresh_hash_state : hash_state :=
  { sha_ctxt :=
      { auth_data := List.replicate 4 0, digest := List.replicate 32 0, diglen := 0,
        trailing_buf := List.replicate 64 0, trailing_buf_len := 0, first_blk := 0,
        last_blk := 0, authkey := List.replicate 64 0, init_done := false }
    trace := [] }

/-- The bytes of the `n` segments from index `i` on, one after the other. -/
def bytes_from (env : user_env) (data : Nat → buf_info) : Nat → Nat → List Nat
  | _, 0 => []
  | i, n + 1 => user_bytes env (data i).vaddr (data i).len ++ bytes_from env data (i + 1) n

/-- The total length of the `n` segments from index `i` on. -/
def len_from (data : Nat → buf_info) : Nat → Nat → Nat
  | _, 0 => 0
  | i, n + 1 => (data i).len + len_from data (i + 1) n

/-- The byte stream a handle stands for: what was submitted to the engine so
far, followed by the bytes waiting in the trailing buffer. -/
def stream (s : hash_state) : List Nat :=
  (s.trace.map (fun p => p.src)).flatten ++
    s.sha_ctxt.trailing_buf.take s.sha_ctxt.trailing_buf_len

/-- What holds of a handle between the calls of an `Init; Update...`
sequence: the trailing buffer has 64 bytes of which at most 64 are in use, the
context is initialised and not in its last block, every sub-operation
submitted so far has a length that is a positive multiple of 64 and is not a
last block, and exactly the first of them, if there is one, was a first
block. -/
structure hash_inv (s : hash_state) : Prop where
  tlen : s.sha_ctxt.trailing_buf_len ≤ 64
  tbuf : s.sha_ctxt.trailing_buf.length = 64
  init : s.sha_ctxt.init_done = true
  last : s.sha_ctxt.last_blk = 0
  body : ∀ p ∈ s.trace, p.last_blk = 0 ∧ 0 < p.nbytes ∧ p.nbytes % 64 = 0 ∧
    p.src.length = p.nbytes
  first : (s.trace = [] ∧ s.sha_ctxt.first_blk = 1) ∨
    (∃ p rest, s.trace = p :: rest ∧ p.first_blk = 1 ∧ (∀ q ∈ rest, q.first_blk = 0) ∧
      s.sha_ctxt.first_blk = 0)

/-- A descriptor that `qcedev_sha_update_max_xfer` can take as it is: between
1 and `QCEDEV_MAX_BUFFERS` segments whose lengths add up to `data_len`, no
segment with a length at the NULL address. -/
structure slice_ok (K : qcedev_hdr) (r : qcedev_sha_op_req) : Prop where
  pos : 1 ≤ r.entries
  le : r.entries ≤ K.QCEDEV_MAX_BUFFERS
  sum : len_from r.data 0 r.entries = r.data_len
  small : r.data_len + 128 < 2 ^ 32
  nonnull : ∀ j, j < r.entries → (r.data j).len ≠ 0 → (r.data j).vaddr ≠ 0

/-- A bound on the rounds the splitting loop still makes for the `n` segments
from index `i` on: one for each segment and one for each full
`QCE_MAX_OPER_DATA` bytes in it. -/
def rounds (M : Nat) (data : Nat → buf_info) : Nat → Nat → Nat
  | _, 0 => 0
  | i, n + 1 => 1 + (data i).len / M + rounds M data (i + 1) n

/-- What holds at the head of the splitting loop of `qcedev_sha_update` for the
request `r` on the handle `s0`: no slice failed; from the current index on the
descriptor and the local copy agree; segments with a length are not at NULL;
what the handle stands for, followed by the segments still to be split, is the
stream at the start followed by the whole message. -/
structure split_inv (env : user_env) (r : qcedev_sha_op_req) (s0 : hash_state)
    (c : split_state) : Prop where
  err : c.err = 0
  agree : ∀ j, c.i ≤ j → j < r.entries → c.sreq.data j = c.req_data j
  nonnull : ∀ j, c.i ≤ j → j < r.entries → (c.req_data j).len ≠ 0 →
    (c.req_data j).vaddr ≠ 0
  bound : len_from c.req_data c.i (r.entries - c.i) ≤ r.data_len
  hash : hash_inv c.hash
  stream : stream c.hash ++ bytes_from env c.req_data c.i (r.entries - c.i) =
    stream s0 ++ bytes_from env r.data 0 r.entries

/-- What the passes `t` of a hash sequence have to be for the message `msg`:
their payloads, in order, make up `msg`; every pass but the last has a length
that is a positive multiple of 64 and is not a last block; the last pass is a
last block; the first pass, and no other, is a first block; every payload has
the length of its pass. -/
def passes_feed (t : List sha_pass) (msg : List Nat) : Prop :=
  (t.map (fun p => p.src)).flatten = msg ∧
  (∀ p ∈ t, p.src.length = p.nbytes) ∧
  (∃ body fin, t = body ++ [fin] ∧
    (∀ p ∈ body, p.last_blk = 0 ∧ 0 < p.nbytes ∧ p.nbytes % 64 = 0) ∧ fin.last_blk = 1) ∧
  (∃ p rest, t = p :: rest ∧ p.first_blk = 1 ∧ ∀ q ∈ rest, q.first_blk = 0)

/-- Eight segments of 8200 bytes each, one after the other from address 65536
on. -/
def eight_buffers : Nat → buf_info :=
  fun i => if i < 8 then { vaddr := 65536 + 8200 * i, len := 8200 }
    else { vaddr := 0, len := 0 }

/-- A SHA-256 request for the 65600 bytes of `eight_buffers`, more than one
slice. -/
def sample_sha_long : qcedev_sha_op_req :=
  { data := eight_buffers, entries := 8, data_len := 65600, diglen := 0,
    authkey := 0, authklen := 0, alg := 1 }

/-- `Update` calls made one after the other on a handle, whatever value each
of them returns. -/
def sha_updates (K : qcedev_hdr) (env : user_env) (E : hash_engine) :
    List qcedev_sha_op_req → hash_state → Except fault hash_state
  | [], s => .ok s
  | r :: rs, s =>
    match qcedev_sha_update K env E r s with
    | .error f => .error f
    | .ok (_, s1, _) => sha_updates K env E rs s1

/-- The trailing length of the handle a run ends with, if it ends. -/
def trailing_len_of (r : Except fault hash_state) : Option Nat :=
  match r with
  | .error _ => none
  | .ok s => some s.sha_ctxt.trailing_buf_len

/-- A SHA-256 request for the 100 bytes at address 4096. -/
def sample_sha_100 : qcedev_sha_op_req :=
  { data := one_segment 4096 100, entries := 1, data_len := 100, diglen := 0,
    authkey := 0, authklen := 0, alg := 1 }

/-- The hash sub-operations on the handle that a call of `qcedev_sha_update`
leaves, as first-block flag, last-block flag and length; none for a call that
faulted. -/
def update_passes (r : Except fault (Int × hash_state × qcedev_sha_op_req)) :
    List (Nat × Nat × Nat) :=
  match r with
  | .error _ => []
  | .ok (_, s, _) => s.trace.map (fun p => (p.first_blk, p.last_blk, p.nbytes))

/-- A SHA-256 request for the 64 bytes at address 4096, one hash block. -/
def sample_sha_block : qcedev_sha_op_req :=
  { data := one_segment 4096 64, entries := 1, data_len := 64, diglen := 0,
    authkey := 0, authklen := 0, alg := 1 }

/-- Block size that the HMAC helpers use for a request: `SHA1_BLOCK_SIZE` for
SHA1-HMAC, `SHA256_BLOCK_SIZE` otherwise. -/
def hmac_block_size (K : qcedev_hdr) (alg : Nat) : Nat :=
  if alg = K.QCEDEV_ALG_SHA1_HMAC then SHA1_BLOCK_SIZE else SHA256_BLOCK_SIZE

/-- Embedding of `qcedev_hmac_update_iokey`: the trailing buffer becomes the
stored key XOR `0x36` (inner) or `0x5c` (outer) over one hash block, and the
trailing length one block. -/
def qcedev_hmac_update_iokey (K : qcedev_hdr) (areq : qcedev_sha_op_req) (s : hash_state)
    (ikey : Bool) : hash_state :=
  let constant := if ikey then 0x36 else 0x5c
  let sha_block_size := hmac_block_size K areq.alg
  { s with sha_ctxt :=
    { s.sha_ctxt with
      trailing_buf := write_at s.sha_ctxt.trailing_buf 0
        ((List.range sha_block_size).map
          (fun i => ((s.sha_ctxt.authkey.getD i 0) ^^^ constant) % 256))
      trailing_buf_len := sha_block_size } }

/-- Embedding of `qcedev_hmac_get_ohash`: the trailing buffer is copied to a
scratch block and submitted as a first block on a freshly seeded digest, after
the digest computed so far was moved into the trailing buffer.  A trailing
length above the scratch block is an overrun of the `memcpy`. -/
def qcedev_hmac_get_ohash (K : qcedev_hdr) (env : user_env) (E : hash_engine)
    (areq : qcedev_sha_op_req) (s : hash_state) : Except fault (Int × hash_state) :=
  let sha_digest_size :=
    if areq.alg = K.QCEDEV_ALG_SHA1_HMAC then SHA1_DIGEST_SIZE
    else if areq.alg = K.QCEDEV_ALG_SHA256_HMAC then SHA256_DIGEST_SIZE else 0
  let sha_block_size :=
    if areq.alg = K.QCEDEV_ALG_SHA1_HMAC then SHA1_BLOCK_SIZE
    else if areq.alg = K.QCEDEV_ALG_SHA256_HMAC then SHA256_BLOCK_SIZE else 0
  if s.sha_ctxt.trailing_buf_len > sha_block_size then .error fault.overrun
  else
    let k_src := s.sha_ctxt.trailing_buf.take s.sha_ctxt.trailing_buf_len ++
      (List.range (sha_block_size - s.sha_ctxt.trailing_buf_len)).map
        (fun o => env.junk (s.sha_ctxt.trailing_buf_len + o))
    let c1 : qcedev_sha_ctxt :=
      { s.sha_ctxt with
        trailing_buf := write_at
          (write_at s.sha_ctxt.trailing_buf 0 (List.replicate sha_block_size 0)) 0
          (s.sha_ctxt.digest.take sha_digest_size)
        trailing_buf_len := sha_digest_size
        first_blk := 1
        last_blk := 0
        auth_data := write_at s.sha_ctxt.auth_data 0 [0, 0] }
    let c2 : qcedev_sha_ctxt :=
      if areq.alg = K.QCEDEV_ALG_SHA1_HMAC then
        { c1 with
          digest := write_at c1.digest 0 (_std_init_vector_sha1_uint8.take SHA1_DIGEST_SIZE)
          diglen := SHA1_DIGEST_SIZE }
      else c1
    let c3 : qcedev_sha_ctxt :=
      if areq.alg = K.QCEDEV_ALG_SHA256_HMAC then
        { c2 with
          digest := write_at c2.digest 0
            (_std_init_vector_sha256_uint8.take SHA256_DIGEST_SIZE)
          diglen := SHA256_DIGEST_SIZE }
      else c2
    let sub := submit_sha E areq.alg { s with sha_ctxt := c3 } k_src sha_block_size
    .ok (sub.1, { sub.2 with sha_ctxt := { sub.2.sha_ctxt with last_blk := 0, first_blk := 0 } })

/-- Embedding of `qcedev_hmac_final`, the scratch buffers of its calls of
`qcedev_sha_final` taken to be allocated. -/
def qcedev_hmac_final (K : qcedev_hdr) (env : user_env) (E : hash_engine)
    (podev : ce_support) (areq : qcedev_sha_op_req) (s : hash_state) :
    Except fault (Int × hash_state) :=
  let fin := qcedev_sha_final E areq s true
  if podev.sha_hmac then .ok fin
  else
    match qcedev_hmac_get_ohash K env E areq (qcedev_hmac_update_iokey K areq fin.2 false) with
    | .error f => .error f
    | .ok (err, s1) =>
      if err ≠ 0 then .ok (err, s1)
      else .ok (qcedev_sha_final E areq s1 true)

/-- Embedding of `qcedev_set_hmac_auth_key`.  A key of at most
`QCEDEV_MAX_KEY_SIZE` bytes is copied into the context after `Init`; a longer
key is hashed first (`Init; Update; Final` on a request of its own, whose
algorithm is what the stack held unless the request is for an HMAC) and its
digest becomes the key; the scratch buffer of that `Final` is taken to be
allocated. -/
def qcedev_set_hmac_auth_key (K : qcedev_hdr) (env : user_env) (E : hash_engine)
    (areq : qcedev_sha_op_req) (s : hash_state) : Except fault (Int × hash_state) :=
  if areq.authklen ≤ K.QCEDEV_MAX_KEY_SIZE then
    let s1 := (qcedev_sha_init K areq s).2
    if areq.authklen > s1.sha_ctxt.authkey.length then .error fault.overrun
    else
      match copy_from_user env areq.authkey areq.authklen with
      | none => .ok (- EFAULT, s1)
      | some bs =>
        .ok (0, { s1 with sha_ctxt :=
          { s1.sha_ctxt with authkey := write_at s1.sha_ctxt.authkey 0 bs } })
  else
    let alg1 := if areq.alg = K.QCEDEV_ALG_SHA1_HMAC then K.QCEDEV_ALG_SHA1 else env.junk 0
    let alg2 := if areq.alg = K.QCEDEV_ALG_SHA256_HMAC then K.QCEDEV_ALG_SHA256 else alg1
    let authkey_areq : qcedev_sha_op_req :=
      { data := fun i =>
          if i = 0 then { vaddr := areq.authkey, len := areq.authklen }
          else { vaddr := env.junk (2 * i), len := env.junk (2 * i + 1) }
        entries := 1, data_len := areq.authklen, diglen := 0
        authkey := env.junk 0, authklen := env.junk 0, alg := alg2 }
    let s1 := (qcedev_sha_init K authkey_areq s).2
    match qcedev_sha_update K env E authkey_areq s1 with
    | .error f => .error f
    | .ok (err, s2, _) =>
      if err ≠ 0 then .ok (err, s2)
      else
        let fin := qcedev_sha_final E authkey_areq s2 true
        let authkey := write_at ((List.range 64).map env.junk) 0
          (fin.2.sha_ctxt.digest.take fin.2.sha_ctxt.diglen)
        let s3 := (qcedev_sha_init K areq fin.2).2
        .ok (fin.1, { s3 with sha_ctxt :=
          { s3.sha_ctxt with
            authkey := write_at s3.sha_ctxt.authkey 0 (authkey.take s3.sha_ctxt.diglen) } })

/-- Embedding of `qcedev_hmac_init`. -/
def qcedev_hmac_init (K : qcedev_hdr) (env : user_env) (E : hash_engine)
    (podev : ce_support) (areq : qcedev_sha_op_req) (s : hash_state) :
    Except fault (Int × hash_state) :=
  match qcedev_set_hmac_auth_key K env E areq s with
  | .error f => .error f
  | .ok (err, s1) =>
    if err ≠ 0 then .ok (err, s1)
    else if podev.sha_hmac = false then .ok (0, qcedev_hmac_update_iokey K areq s1 true)
    else .ok (0, s1)

/-- The handle a call leaves, return value and faults apart (`d` when the
call faulted). -/
def handle_after (r : Except fault (Int × hash_state)) (d : hash_state) : hash_state :=
  match r with
  | .error _ => d
  | .ok (_, s) => s

/-- A device without HMAC in hardware. -/
def no_hmac_support : ce_support :=
  { aes_xts := true, aes_key_192 := true, cmac := true, sha_hmac := false,
    hw_key_support := true }

/-- An HMAC-SHA256 request with a 3-byte key at address 256 and the 32 bytes
at address 4096 as message. -/
def sample_hmac_op_req : qcedev_sha_op_req :=
  { data := one_segment 4096 32, entries := 1, data_len := 32, diglen := 0,
    authkey := 256, authklen := 3, alg := 3 }

/-- The handle after `qcedev_hmac_init` for `sample_hmac_op_req` on a device
without HMAC in hardware. -/
def sample_hmac_handle : hash_state :=
  handle_after (qcedev_hmac_init hdr sample_env hash_engine_accepts no_hmac_support
    sample_hmac_op_req fresh_hash_state) fresh_hash_state

/-- The descriptor that one round of the splitting loop of `qcedev_sha_update`
hands to `qcedev_sha_update_max_xfer`: the slice of that round. -/
def split_step_slice (K : qcedev_hdr) (entries : Nat) (c : split_state) :
    Except fault qcedev_sha_op_req :=
  if ¬ c.i < K.QCEDEV_MAX_BUFFERS then .error (fault.out_of_bounds c.i)
  else if (c.sreq.data c.i).len > K.QCE_MAX_OPER_DATA then .ok (slice_of_long_segment K c)
  else
    match gather_loop K c.sreq.data (entries - c.i) c.i 0 0 with
    | .error f => .error f
    | .ok g => .ok (slice_of_segments c g)

/-- The slices of the rounds of the splitting loop, in order. -/
def split_loop_slices (K : qcedev_hdr) (env : user_env) (E : hash_engine) (entries : Nat) :
    Nat → split_state → Except fault (List qcedev_sha_op_req)
  | 0, c => if c.i < entries ∧ c.err = 0 then .error fault.out_of_fuel else .ok []
  | fuel + 1, c =>
    if c.i < entries ∧ c.err = 0 then
      match split_step_slice K entries c with
      | .error f => .error f
      | .ok sl =>
        match split_step K env E entries c with
        | .error f => .error f
        | .ok c1 =>
          match split_loop_slices K env E entries fuel c1 with
          | .error f => .error f
          | .ok sls => .ok (sl :: sls)
    else .ok []

/-- The descriptors on which `qcedev_sha_update` calls
`qcedev_sha_update_max_xfer`, in order. -/
def qcedev_sha_update_slices (K : qcedev_hdr) (env : user_env) (E : hash_engine)
    (areq : qcedev_sha_op_req) (s : hash_state) : Except fault (List qcedev_sha_op_req) :=
  if s.sha_ctxt.init_done = false then .ok []
  else if areq.data_len > K.QCE_MAX_OPER_DATA then
    split_loop_slices K env E areq.entries
      (areq.entries + areq.data_len / K.QCE_MAX_OPER_DATA + 1)
      { sreq := areq, req_data := areq.data, i := 0, err := 0, hash := s }
  else .ok [areq]

/-- Sixteen segments of 4081 bytes each, one after the other from address
65536 on. -/
def sixteen_segments : Nat → buf_info :=
  fun i => if i < 16 then { vaddr := 65536 + 4081 * i, len := 4081 }
    else { vaddr := 0, len := 0 }

/-- A SHA-256 request for the 65296 bytes of `sixteen_segments`. -/
def sample_sha_16 : qcedev_sha_op_req :=
  { data := sixteen_segments, entries := 16, data_len := 65296, diglen := 0,
    authkey := 0, authklen := 0, alg := 1 }

/-- What the slices of a request have to be: every slice but the last has
`QCE_MAX_OPER_DATA` bytes, every slice has at most that many, which are the
bytes of its segments, and the bytes of the slices, in order, are `msg`. -/
def slices_cover (K : qcedev_hdr) (env : user_env) (sls : List qcedev_sha_op_req)
    (msg : List Nat) : Prop :=
  (∀ sl ∈ sls.dropLast, sl.data_len = K.QCE_MAX_OPER_DATA) ∧
  (∀ sl ∈ sls, sl.data_len ≤ K.QCE_MAX_OPER_DATA ∧
    len_from sl.data 0 sl.entries = sl.data_len) ∧
  (sls.map (fun sl => bytes_from env sl.data 0 sl.entries)).flatten = msg

/-- The macro `MAX_CEHW_REQ_TRANSFER_SIZE`, `128*32*1024`. -/
def MAX_CEHW_REQ_TRANSFER_SIZE : Nat := 128 * 32 * 1024

/-- Embedding of `qcedev_check_offload_cipher_key`; `0` or `-EINVAL`. -/
def qcedev_check_offload_cipher_key (K : qcedev_hdr) (req : qcedev_offload_cipher_op_req) :
    Int :=
  if req.encklen = 0 then - EINVAL
  else if req.encklen ≠ K.QCEDEV_AES_KEY_128 ∧ req.encklen ≠ K.QCEDEV_AES_KEY_256 then
    - EINVAL
  else 0

/-- Embedding of `qcedev_check_offload_cipher_params`; `0` or `-EINVAL`.  The
checks are made in the order of the source. -/
def qcedev_check_offload_cipher_params (K : qcedev_hdr)
    (req : qcedev_offload_cipher_op_req) : Int :=
  if req.entries = 0 ∨ req.data_len = 0 ∨ req.entries > K.QCEDEV_MAX_BUFFERS then - EINVAL
  else if req.alg ≠ K.QCEDEV_ALG_AES ∨ req.mode > K.QCEDEV_AES_MODE_CTR then - EINVAL
  else if qcedev_check_offload_cipher_key K req ≠ 0 then - EINVAL
  else if req.block_offset ≥ K.AES_CE_BLOCK_SIZE then - EINVAL
  else if req.byteoffset ≠ 0 ∧
      (req.mode ≠ K.QCEDEV_AES_MODE_CTR ∨ req.byteoffset ≥ K.AES_CE_BLOCK_SIZE ∨
        byteoffset_src_loop req.vbuf.src req.entries req.byteoffset = none) then - EINVAL
  else if req.data_len < req.byteoffset then - EINVAL
  else if req.ivlen > K.QCEDEV_MAX_IV_SIZE then - EINVAL
  else if req.encklen > K.QCEDEV_MAX_KEY_SIZE then - EINVAL
  else
    match dst_total_loop req.vbuf.dst req.entries with
    | none => - EINVAL
    | some total =>
      if total ≠ req.data_len then - EINVAL
      else
        match src_total_loop req.vbuf.src req.entries with
        | none => - EINVAL
        | some total =>
          if total ≠ req.data_len then - EINVAL else 0

/-- The operation descriptor `struct qce_req` as `start_offload_cipher_req`
fills it in from the offload descriptor (the fields that depend on it). -/
structure qce_req where
  cryptlen : Nat
  encklen : Nat
  ivsize : Nat
  offload_op : Nat
  block_offset : Nat
  is_copy_op : Bool
deriving DecidableEq, Repr

/-- The descriptor that `start_offload_cipher_req` builds for a request, or
`none` when it returns `-EINVAL` at one of its `switch` defaults. -/
def offload_qce_req (K : qcedev_hdr) (r : qcedev_offload_cipher_op_req) : Option qce_req :=
  if r.alg ≠ K.QCEDEV_ALG_AES then none
  else if ¬ (r.mode = K.QCEDEV_AES_MODE_CBC ∨ r.mode = K.QCEDEV_AES_MODE_CTR) then none
  else if r.is_copy_op = false ∧
      ¬ (r.op = K.QCEDEV_OFFLOAD_HLOS_HLOS ∨ r.op = K.QCEDEV_OFFLOAD_HLOS_CPB ∨
        r.op = K.QCEDEV_OFFLOAD_CPB_HLOS) then none
  else
    some { cryptlen := r.data_len, encklen := r.encklen, ivsize := r.ivlen,
           offload_op := r.op, block_offset := r.block_offset, is_copy_op := r.is_copy_op }

/-- One call of `submit_req` by `qcedev_smmu_ablk_offload_cipher`: the segment
index at the call, the transfer length of the sub-chunk, the two one-entry
scatterlists (`dma_address` of each, and the length both carry), the crypt
length of the `skcipher` request, and the operation descriptor that
`start_offload_cipher_req` builds when the request is started. -/
structure offload_pass where
  segment : Nat
  transfer_data_len : Nat
  sg_src_dma_address : Nat
  sg_dst_dma_address : Nat
  sg_length : Nat
  areq_cryptlen : Nat
  creq : Option qce_req
deriving DecidableEq, Repr

/-- What `submit_req` returns for each sub-chunk. -/
structure offload_engine where
  ret : offload_pass → Int

/-- The loop `while (pending_data_len)` for segment `i`: result is the error
of the failing submission (0 when none fails) and the calls made. -/
def offload_chunk_loop (K : qcedev_hdr) (E : offload_engine)
    (r : qcedev_offload_cipher_op_req) (max_data_xfer i : Nat) :
    Nat → Nat → Nat → Nat → List offload_pass → Except fault (Int × List offload_pass)
  | 0, pending_data_len, _, _, tr =>
    if pending_data_len = 0 then .ok (0, tr) else .error fault.out_of_fuel
  | fuel + 1, pending_data_len, user_src, user_dst, tr =>
    if pending_data_len = 0 then .ok (0, tr)
    else
      let transfer_data_len := min max_data_xfer pending_data_len
      let p : offload_pass :=
        { segment := i, transfer_data_len := transfer_data_len,
          sg_src_dma_address := user_src, sg_dst_dma_address := user_dst,
          sg_length := transfer_data_len, areq_cryptlen := transfer_data_len,
          creq := offload_qce_req K r }
      if E.ret p ≠ 0 then .ok (E.ret p, tr ++ [p])
      else
        offload_chunk_loop K E r max_data_xfer i fuel (pending_data_len - transfer_data_len)
          (user_src + transfer_data_len) (user_dst + transfer_data_len) (tr ++ [p])

/-- The loop `for (i = 0; i < entries; i++)` of
`qcedev_smmu_ablk_offload_cipher`, `n` segments from index `i` on. -/
def offload_segment_loop (K : qcedev_hdr) (E : offload_engine)
    (r : qcedev_offload_cipher_op_req) (max_data_xfer byteoffset : Nat) :
    Nat → Nat → List offload_pass → Except fault (Int × List offload_pass)
  | 0, _, tr => .ok (0, tr)
  | n + 1, i, tr =>
    if ¬ i < K.QCEDEV_MAX_BUFFERS then .error (fault.out_of_bounds i)
    else
      match offload_chunk_loop K E r max_data_xfer i ((r.vbuf.src i).len + 1)
          (r.vbuf.src i).len ((r.vbuf.src i).vaddr + byteoffset)
          ((r.vbuf.dst i).vaddr + byteoffset) tr with
      | .error f => .error f
      | .ok (err, tr1) =>
        if err ≠ 0 then .ok (err, tr1)
        else offload_segment_loop K E r max_data_xfer byteoffset n (i + 1) tr1

/-- Embedding of `qcedev_smmu_ablk_offload_cipher`: return value and the
calls of `submit_req`, in order.  `max_data_xfer` is computed before the byte
offset is read, so it is `MAX_CEHW_REQ_TRANSFER_SIZE`. -/
def qcedev_smmu_ablk_offload_cipher (K : qcedev_hdr) (E : offload_engine)
    (r : qcedev_offload_cipher_op_req) : Except fault (Int × List offload_pass) :=
  let max_data_xfer := MAX_CEHW_REQ_TRANSFER_SIZE - 0
  let byteoffset := if r.mode = K.QCEDEV_AES_MODE_CTR then r.byteoffset else 0
  offload_segment_loop K E r max_data_xfer byteoffset r.entries 0 []

/-- An engine for which every offload submission succeeds. -/
def offload_engine_accepts : offload_engine :=
  { ret := fun _ => 0 }

/-- An AES-CBC offload request for one segment of `MAX_CEHW_REQ_TRANSFER_SIZE`
and 16 bytes more. -/
def sample_offload_large : qcedev_offload_cipher_op_req :=
  { vbuf := { src := one_segment 4096 4194320, dst := one_segment 8388608 4194320 }
    entries := 1, data_len := 4194320, encklen := 16, ivlen := 16, byteoffset := 0,
    block_offset := 0, alg := 2, mode := 0, op := 1, is_copy_op := false,
    err := .QCEDEV_OFFLOAD_NO_ERROR }

/-- The result of a run, if it has one. -/
def result_of {α : Type} (r : Except fault α) : Option α :=
  match r with
  | .error _ => none
  | .ok a => some a

/-- The transfer lengths of the calls made for segment `i`, added up. -/
def segment_transfer (tr : List offload_pass) (i : Nat) : Nat :=
  ((tr.filter (fun p => p.segment = i)).map (fun p => p.transfer_data_len)).sum

/-! ## Cipher chunker -/

/-- One call of `qcedev_vbuf_ablk_cipher_max_xfer`, a sub-operation: the byte
offset at which the first segment is copied into the scratch buffer, the
segments the copy loop addresses, in order, the offset in the scratch buffer at
which the copy loop ends (`byteoffset` plus the lengths of the segments), the
crypt length handed to the engine (`creq.cryptlen`, which `start_cipher_req`
takes from `data_len`), and whether the sub-operation was submitted (it is not
when a `copy_from_user` fails). -/
structure cipher_pass where
  byteoffset : Nat
  src : List buf_info
  copied : Nat
  cryptlen : Nat
  submitted : Bool
deriving DecidableEq, Repr

/-- One call of `copy_to_user`: the sub-operation it follows (its index), the
destination slot, the user address, the offset in the scratch buffer from which
the bytes are taken, and their number. -/
structure copy_out where
  pass : Nat
  dst_i : Nat
  vaddr : Nat
  offset : Nat
  len : Nat
deriving DecidableEq, Repr

/-- What the cipher chunker works on: the descriptor, the destination index
`di`, the sub-operations made so far and the copies to user memory made so
far. -/
structure cipher_state where
  creq : qcedev_cipher_op_req
  di : Nat
  trace : List cipher_pass
  out : List copy_out

/-- What `submit_req` returns for a sub-operation, and whether `copy_to_user`
to a range succeeds. -/
structure cipher_engine where
  ret : cipher_pass → Int
  writable : Nat → Nat → Bool

/-- The copy loop of `qcedev_vbuf_ablk_cipher_max_xfer` over `n` segments from
index `i` on: `false` when a `copy_from_user` fails (the function then returns
`-EFAULT`).  A NULL segment is not copied. -/
def cipher_copy_in (K : qcedev_hdr) (env : user_env) (src : Nat → buf_info) :
    Nat → Nat → Except fault Bool
  | 0, _ => .ok true
  | n + 1, i =>
    if ¬ i < K.QCEDEV_MAX_BUFFERS then .error (fault.out_of_bounds i)
    else if (src i).vaddr ≠ 0 ∧ env.readable (src i).vaddr (src i).len = false then .ok false
    else cipher_copy_in K env src n (i + 1)

/-- How the loop `while (creq->data_len > 0)` ends: the destination array, the
length still to be copied, the destination index, the copies made, and whether
the loop was left by `goto exit` after a failed `copy_to_user`. -/
structure copy_out_result where
  dst : Nat → buf_info
  data_len : Nat
  dst_i : Nat
  out : List copy_out
  efault : Bool

/-- The loop `while (creq->data_len > 0)` of
`qcedev_vbuf_ablk_cipher_max_xfer`, for the sub-operation `pass` with byte
offset `byteoffset` and submission result `err`; `k` is the offset of
`k_align_dst` in the scratch buffer.  Nothing is copied when `err` is not 0.
A fault comes with the copies made before it. -/
def cipher_copy_out_loop (K : qcedev_hdr) (E : cipher_engine) (pass byteoffset : Nat)
    (err : Int) :
    Nat → (Nat → buf_info) → Nat → Nat → Nat → List copy_out →
      Except (fault × List copy_out) copy_out_result
  | 0, dst, data_len, dst_i, _, out =>
    if data_len = 0 then
      .ok { dst := dst, data_len := data_len, dst_i := dst_i, out := out, efault := false }
    else .error (fault.out_of_fuel, out)
  | fuel + 1, dst, data_len, dst_i, k, out =>
    if data_len = 0 then
      .ok { dst := dst, data_len := data_len, dst_i := dst_i, out := out, efault := false }
    else if ¬ dst_i < K.QCEDEV_MAX_BUFFERS then .error (fault.out_of_bounds dst_i, out)
    else if (dst dst_i).len ≤ data_len then
      if err = 0 ∧ E.writable (dst dst_i).vaddr (dst dst_i).len = false then
        .ok { dst := dst, data_len := data_len, dst_i := dst_i, out := out, efault := true }
      else
        cipher_copy_out_loop K E pass byteoffset err fuel dst (data_len - (dst dst_i).len)
          (dst_i + 1) (k + (dst dst_i).len)
          (if err = 0 then
            out ++ [{ pass := pass, dst_i := dst_i, vaddr := (dst dst_i).vaddr,
                      offset := k + byteoffset, len := (dst dst_i).len }]
           else out)
    else
      if err = 0 ∧ E.writable (dst dst_i).vaddr data_len = false then
        .ok { dst := dst, data_len := data_len, dst_i := dst_i, out := out, efault := true }
      else
        cipher_copy_out_loop K E pass byteoffset err fuel
          (set_seg dst dst_i
            { vaddr := (dst dst_i).vaddr + data_len, len := (dst dst_i).len - data_len })
          0 dst_i (k + data_len)
          (if err = 0 then
            out ++ [{ pass := pass, dst_i := dst_i, vaddr := (dst dst_i).vaddr,
                      offset := k + byteoffset, len := data_len }]
           else out)

/-- Embedding of `qcedev_vbuf_ablk_cipher_max_xfer`: the segments of the
descriptor are copied into the scratch buffer behind the byte offset, the
buffer is submitted with `cryptlen = data_len + byteoffset`, and `data_len`
bytes are copied out to the destination segments from index `di` on.  A fault
comes with the state in which it happens. -/
def qcedev_vbuf_ablk_cipher_max_xfer (K : qcedev_hdr) (env : user_env) (E : cipher_engine)
    (st : cipher_state) : Except (fault × cipher_state) (Int × cipher_state) :=
  let byteoffset :=
    if st.creq.mode = K.QCEDEV_AES_MODE_CTR then st.creq.byteoffset else 0
  let n := 1 + (st.creq.entries - 1)
  match cipher_copy_in K env st.creq.vbuf.src n 0 with
  | .error f => .error (f, st)
  | .ok copied_in =>
    let p : cipher_pass :=
      { byteoffset := byteoffset
        src := (List.range n).map st.creq.vbuf.src
        copied := byteoffset + len_from st.creq.vbuf.src 0 n
        cryptlen := (st.creq.data_len + byteoffset) % 2 ^ 32
        submitted := copied_in }
    let st1 : cipher_state := { st with trace := st.trace ++ [p] }
    if copied_in = false then .ok (- EFAULT, st1)
    else
      let err := E.ret p
      let data_len := ((st.creq.data_len + byteoffset) % 2 ^ 32 + 2 ^ 32 - byteoffset) % 2 ^ 32
      let st2 : cipher_state :=
        { st1 with creq := { st1.creq with data_len := data_len, entries := 1 } }
      match cipher_copy_out_loop K E st.trace.length byteoffset err
          (K.QCEDEV_MAX_BUFFERS + 2) st2.creq.vbuf.dst data_len st.di 0 st.out with
      | .error (f, out) => .error (f, { st2 with out := out })
      | .ok res =>
        let creq3 : qcedev_cipher_op_req :=
          { st2.creq with
            vbuf := { st2.creq.vbuf with dst := res.dst }
            data_len := res.data_len }
        if res.efault then .ok (- EFAULT, { st2 with creq := creq3, out := res.out })
        else .ok (err, { st2 with creq := creq3, out := res.out, di := res.dst_i })

/-- The inner `for (j = i; j < req.entries; j++)` of the cipher splitting
loop: segments are counted until `max_data_xfer` is reached.  Result: the
array (the slot that reaches the limit is cut to `max_data_xfer - total`), `j`,
`total`, `num_entries`. -/
def cipher_gather_loop (K : qcedev_hdr) (max_data_xfer : Nat) (src : Nat → buf_info) :
    Nat → Nat → Nat → Nat → Except fault ((Nat → buf_info) × Nat × Nat × Nat)
  | 0, j, total, num_entries => .ok (src, j, total, num_entries)
  | n + 1, j, total, num_entries =>
    if ¬ j < K.QCEDEV_MAX_BUFFERS then .error (fault.out_of_bounds j)
    else if (total + (src j).len) % 2 ^ 32 ≥ max_data_xfer then
      .ok (set_seg src j
          { (src j) with len := (max_data_xfer + 2 ^ 32 - total) % 2 ^ 32 }, j,
        max_data_xfer, num_entries + 1)
    else
      cipher_gather_loop K max_data_xfer src n (j + 1) ((total + (src j).len) % 2 ^ 32)
        (num_entries + 1)

/-- State of the splitting loop of `qcedev_vbuf_ablk_cipher`: what the chunker
works on, the source array of the local copy `req`, the segment index, the
error of the last sub-operation and `max_data_xfer`. -/
structure chunk_state where
  st : cipher_state
  req_src : Nat → buf_info
  i : Nat
  err : Int
  max_data_xfer : Nat

/-- How a round of the splitting loop ends: at the end of the loop body, or by
the `return err` taken when the sub-operation failed with a negative error. -/
inductive chunk_outcome where
  | next (c : chunk_state)
  | early (err : Int) (st : cipher_state)

/-- The descriptor as the loop rewrites it for a sub-operation taken from
segment `i` alone, which is longer than `max_data_xfer`. -/
def chunk_of_long_segment (c : chunk_state) : qcedev_cipher_op_req :=
  let src := c.st.creq.vbuf.src
  let s1 := set_seg src 0 { (src 0) with len := c.max_data_xfer }
  let s2 := if c.i > 0 then set_seg s1 0 { (s1 0) with vaddr := (s1 c.i).vaddr } else s1
  { c.st.creq with
    vbuf := { c.st.creq.vbuf with src := s2 }
    data_len := c.max_data_xfer
    entries := 1 }

/-- The descriptor as the loop rewrites it for a sub-operation of counted
segments: `g` is what the counting loop returned. -/
def chunk_of_segments (c : chunk_state) (g : (Nat → buf_info) × Nat × Nat × Nat) :
    qcedev_cipher_op_req :=
  { c.st.creq with
    vbuf := { c.st.creq.vbuf with
      src := if c.i > 0 then shift_loop g.1 c.i g.2.2.2 else g.1 }
    data_len := g.2.2.1
    entries := g.2.2.2 }

/-- The end of the loop body: `byteoffset = 0; max_data_xfer =
QCE_MAX_OPER_DATA`. -/
def chunk_round_end (K : qcedev_hdr) (st : cipher_state) (req_src : Nat → buf_info)
    (i : Nat) (err : Int) : chunk_state :=
  { st := { st with creq := { st.creq with byteoffset := 0 } }
    req_src := req_src, i := i, err := err, max_data_xfer := K.QCE_MAX_OPER_DATA }

/-- One round of `while ((i < req.entries) && (err == 0))` in
`qcedev_vbuf_ablk_cipher`, the loop condition having been found true. -/
def chunk_step (K : qcedev_hdr) (env : user_env) (E : cipher_engine) (entries : Nat)
    (c : chunk_state) : Except (fault × cipher_state) chunk_outcome :=
  if ¬ c.i < K.QCEDEV_MAX_BUFFERS then .error (fault.out_of_bounds c.i, c.st)
  else if (c.st.creq.vbuf.src c.i).len > c.max_data_xfer then
    match qcedev_vbuf_ablk_cipher_max_xfer K env E
        { c.st with creq := chunk_of_long_segment c } with
    | .error e => .error e
    | .ok (err, st1) =>
      if err < 0 then .ok (.early err st1)
      else
        let b : buf_info :=
          { vaddr := (c.req_src c.i).vaddr + c.max_data_xfer
            len := ((c.req_src c.i).len + 2 ^ 32 - c.max_data_xfer) % 2 ^ 32 }
        let st2 : cipher_state :=
          { st1 with creq := { st1.creq with
              vbuf := { st1.creq.vbuf with src := set_seg st1.creq.vbuf.src c.i b } } }
        .ok (.next (chunk_round_end K st2 (set_seg c.req_src c.i b) c.i err))
  else
    match cipher_gather_loop K c.max_data_xfer c.st.creq.vbuf.src (entries - c.i) c.i
        c.st.creq.byteoffset 0 with
    | .error f => .error (f, c.st)
    | .ok g =>
      match qcedev_vbuf_ablk_cipher_max_xfer K env E
          { c.st with creq := chunk_of_segments c g } with
      | .error e => .error e
      | .ok (err, st1) =>
        if err < 0 then .ok (.early err st1)
        else
          let st2 : cipher_state := { st1 with creq := { st1.creq with byteoffset := 0 } }
          if ¬ g.2.1 < K.QCEDEV_MAX_BUFFERS then .error (fault.out_of_bounds g.2.1, st2)
          else
            let b : buf_info :=
              { vaddr := (c.req_src g.2.1).vaddr + (st2.creq.vbuf.src g.2.1).len
                len := ((c.req_src g.2.1).len + 2 ^ 32 -
                  (st2.creq.vbuf.src g.2.1).len) % 2 ^ 32 }
            let st3 : cipher_state :=
              { st2 with creq := { st2.creq with
                  vbuf := { st2.creq.vbuf with src := set_seg st2.creq.vbuf.src g.2.1 b } } }
            .ok (.next (chunk_round_end K st3 (set_seg c.req_src g.2.1 b)
              (if b.len = 0 then g.2.1 + 1 else g.2.1) err))

/-- The splitting loop of `qcedev_vbuf_ablk_cipher`. -/
def chunk_loop (K : qcedev_hdr) (env : user_env) (E : cipher_engine) (entries : Nat) :
    Nat → chunk_state → Except (fault × cipher_state) chunk_outcome
  | 0, c =>
    if c.i < entries ∧ c.err = 0 then .error (fault.out_of_fuel, c.st) else .ok (.next c)
  | fuel + 1, c =>
    if c.i < entries ∧ c.err = 0 then
      match chunk_step K env E entries c with
      | .error e => .error e
      | .ok (.early err st) => .ok (.early err st)
      | .ok (.next c1) => chunk_loop K env E entries fuel c1
    else .ok (.next c)

/-- The loop that puts the saved source segments back,
`for (i = 0; i < saved_req->entries; i++)`, `n` slots from index `i` on. -/
def restore_src_loop (K : qcedev_hdr) (saved : Nat → buf_info) :
    Nat → Nat → (Nat → buf_info) → Except fault (Nat → buf_info)
  | 0, _, src => .ok src
  | n + 1, i, src =>
    if ¬ i < K.QCEDEV_MAX_BUFFERS then .error (fault.out_of_bounds i)
    else restore_src_loop K saved n (i + 1) (set_seg src i (saved i))

/-- The loop that puts the saved destination segments back,
`for (len = 0, i = 0; len < saved_req->data_len; i++)`. -/
def restore_dst_loop (K : qcedev_hdr) (saved : Nat → buf_info) (data_len : Nat) :
    Nat → Nat → Nat → (Nat → buf_info) → Except fault (Nat → buf_info)
  | 0, len, _, dst => if len < data_len then .error fault.out_of_fuel else .ok dst
  | fuel + 1, len, i, dst =>
    if ¬ len < data_len then .ok dst
    else if ¬ i < K.QCEDEV_MAX_BUFFERS then .error (fault.out_of_bounds i)
    else
      restore_dst_loop K saved data_len fuel ((len + (saved i).len) % 2 ^ 32) (i + 1)
        (set_seg dst i (saved i))

/-- The end of `qcedev_vbuf_ablk_cipher`, from `/* Restore the original req
structure */` on. -/
def cipher_restore (K : qcedev_hdr) (saved : qcedev_cipher_op_req) (err : Int)
    (st : cipher_state) : Except (fault × cipher_state) (Int × cipher_state) :=
  match restore_src_loop K saved.vbuf.src saved.entries 0 st.creq.vbuf.src with
  | .error f => .error (f, st)
  | .ok src =>
    match restore_dst_loop K saved.vbuf.dst saved.data_len (K.QCEDEV_MAX_BUFFERS + 1) 0 0
        st.creq.vbuf.dst with
    | .error f => .error (f, st)
    | .ok dst =>
      .ok (err, { st with creq :=
        { st.creq with
          vbuf := { src := src, dst := dst }
          entries := saved.entries
          data_len := saved.data_len
          byteoffset := saved.byteoffset } })

/-- Embedding of `qcedev_vbuf_ablk_cipher`: return value, the descriptor as the
call leaves it, the sub-operations and the copies to user memory, or a fault
with the state in which it happens.  The two allocations are taken to
succeed.  The fuel of the splitting loop is one round for each segment and for
each byte, and one more. -/
def qcedev_vbuf_ablk_cipher (K : qcedev_hdr) (env : user_env) (E : cipher_engine)
    (creq : qcedev_cipher_op_req) : Except (fault × cipher_state) (Int × cipher_state) :=
  let byteoffset := if creq.mode = K.QCEDEV_AES_MODE_CTR then creq.byteoffset else 0
  let max_data_xfer := (K.QCE_MAX_OPER_DATA + 2 ^ 32 - byteoffset) % 2 ^ 32
  let st0 : cipher_state := { creq := creq, di := 0, trace := [], out := [] }
  if creq.data_len > max_data_xfer then
    match chunk_loop K env E creq.entries (creq.entries + creq.data_len + 1)
        { st := st0, req_src := creq.vbuf.src, i := 0, err := 0,
          max_data_xfer := max_data_xfer } with
    | .error e => .error e
    | .ok (.early err st) => .ok (err, st)
    | .ok (.next c) => cipher_restore K creq c.err c.st
  else
    match qcedev_vbuf_ablk_cipher_max_xfer K env E st0 with
    | .error e => .error e
    | .ok (err, st) => cipher_restore K creq err st

/-- What a run of the chunker shows: its fault if it has one, its return
value if it has one, the sub-operations and the copies to user memory. -/
def cipher_run_view (r : Except (fault × cipher_state) (Int × cipher_state)) :
    Option fault × Option Int × List cipher_pass × List copy_out :=
  match r with
  | .error (f, st) => (some f, none, st.trace, st.out)
  | .ok (err, st) => (none, some err, st.trace, st.out)

/-- The state a run of the chunker ends in. -/
def cipher_run_state (r : Except (fault × cipher_state) (Int × cipher_state)) :
    cipher_state :=
  match r with
  | .error (_, st) => st
  | .ok (_, st) => st

/-- A cipher engine for which every submission and every copy to user memory
succeeds. -/
def cipher_engine_accepts : cipher_engine :=
  { ret := fun _ => 0, writable := fun _ _ => true }

/-- Two source segments of 40000 bytes each. -/
def two_sources : Nat → buf_info :=
  fun i => if i = 0 then { vaddr := 65536, len := 40000 }
    else if i = 1 then { vaddr := 131072, len := 40000 }
    else { vaddr := 0, len := 0 }

/-- An AES-CTR request with byte offset 1 for the 80000 bytes of
`two_sources`, with one destination segment of 80000 bytes and an empty one. -/
def sample_ctr_offset : qcedev_cipher_op_req :=
  { use_pmem := 0
    vbuf := { src := two_sources, dst := one_segment 1048576 80000 }
    entries := 2
    data_len := 80000
    enckey := fun i => if i < 16 then 1 else 0
    encklen := 16
    ivlen := 16
    byteoffset := 1
    alg := 2
    mode := 2
    op := 1 }

/-- The destination slots without a length are as in `saved`. -/
def dst_kept (saved dst : Nat → buf_info) : Prop :=
  ∀ j, (saved j).len = 0 → dst j = saved j

/-- An AES-CBC request for the 80000 bytes of `two_sources`, with one
destination segment of 80000 bytes and an empty one: more than one
sub-operation. -/
def sample_cbc_chunked : qcedev_cipher_op_req :=
  { use_pmem := 0
    vbuf := { src := two_sources, dst := one_segment 1048576 80000 }
    entries := 2
    data_len := 80000
    enckey := fun i => if i < 16 then 1 else 0
    encklen := 16
    ivlen := 16
    byteoffset := 0
    alg := 2
    mode := 0
    op := 1 }

/-- A sub-operation within the limit: its crypt length and the end of its copy
loop in the scratch buffer are at most `QCE_MAX_OPER_DATA`. -/
def pass_fits (K : qcedev_hdr) (p : cipher_pass) : Prop :=
  p.cryptlen ≤ K.QCE_MAX_OPER_DATA ∧ p.copied ≤ K.QCE_MAX_OPER_DATA

/-- A descriptor whose sub-operation is within the limit: with the byte
offset that `qcedev_vbuf_ablk_cipher_max_xfer` uses, `data_len` and the
lengths of the segments both stay within `QCE_MAX_OPER_DATA`. -/
def chunk_fits (K : qcedev_hdr) (creq : qcedev_cipher_op_req) : Prop :=
  creq.data_len + (if creq.mode = K.QCEDEV_AES_MODE_CTR then creq.byteoffset else 0) ≤
      K.QCE_MAX_OPER_DATA ∧
    (if creq.mode = K.QCEDEV_AES_MODE_CTR then creq.byteoffset else 0) +
      len_from creq.vbuf.src 0 (1 + (creq.entries - 1)) ≤ K.QCE_MAX_OPER_DATA

/-- What holds at the head of the cipher splitting loop for a request of
`entries` segments: the byte offset and `max_data_xfer` together stay within
the limit, the byte offset is below `max_data_xfer`, the descriptor and the
local copy agree from the current index on, the lengths still to be split do
not wrap in 32 bits, and every sub-operation made so far is within the
limit. -/
structure chunk_inv (K : qcedev_hdr) (entries : Nat) (c : chunk_state) : Prop where
  room : c.st.creq.byteoffset + c.max_data_xfer ≤ K.QCE_MAX_OPER_DATA
  low : c.st.creq.byteoffset < c.max_data_xfer
  agree : ∀ j, c.i ≤ j → j < entries → c.st.creq.vbuf.src j = c.req_src j
  bound : c.st.creq.byteoffset + len_from c.req_src c.i (entries - c.i) < 2 ^ 32
  fits : ∀ p ∈ c.st.trace, pass_fits K p

/-- What a round, or the whole, of the splitting loop leaves: after a fault or
an early return, sub-operations within the limit; at the end of the loop body,
the invariant of the loop. -/
def chunk_outcome_fits (K : qcedev_hdr) (entries : Nat)
    (r : Except (fault × cipher_state) chunk_outcome) : Prop :=
  match r with
  | .error (_, st) => ∀ p ∈ st.trace, pass_fits K p
  | .ok (.early _ st) => ∀ p ∈ st.trace, pass_fits K p
  | .ok (.next c) => chunk_inv K entries c

/-- Three source segments of 70000, 100 and 60000 bytes. -/
def three_sources : Nat → buf_info :=
  fun i => if i = 0 then { vaddr := 65536, len := 70000 }
    else if i = 1 then { vaddr := 262144, len := 100 }
    else if i = 2 then { vaddr := 524288, len := 60000 }
    else { vaddr := 0, len := 0 }

/-- An AES-CTR request with byte offset 5 for the 130100 bytes of
`three_sources`, with one destination segment of 130100 bytes and two empty
ones. -/
def sample_ctr_three : qcedev_cipher_op_req :=
  { use_pmem := 0
    vbuf := { src := three_sources, dst := one_segment 1048576 130100 }
    entries := 3
    data_len := 130100
    enckey := fun i => if i < 16 then 1 else 0
    encklen := 16
    ivlen := 16
    byteoffset := 5
    alg := 2
    mode := 2
    op := 1 }

/-- A DES request in mode `QCEDEV_AES_MODE_CTR`: 32 bytes, a 16-byte IV. -/
def sample_des_ctr : qcedev_cipher_op_req :=
  { use_pmem := 0
    vbuf := { src := one_segment 4096 32, dst := one_segment 8192 32 }
    entries := 1
    data_len := 32
    enckey := fun i => if i < 8 then 1 else 0
    encklen := 8
    ivlen := 16
    byteoffset := 0
    alg := 0
    mode := 2
    op := 1 }

/-- An AES request in mode 4, `QCEDEV_AES_MODE_CCM`, at address 7. -/
def sample_ccm_req : qcedev_async_req :=
  { id := 7, op_type := .QCEDEV_CRYPTO_OPER_CIPHER, cipher_op_req := sample_cipher_op_req 4,
    sha_op_req := sample_sha_op_req,
    offload_cipher_op_req := sample_offload_cipher_op_req, err := 0 }

/-- An AES-XTS request of 32 bytes with a key of 24 bytes. -/
def sample_xts_192 : qcedev_cipher_op_req :=
  { use_pmem := 0
    vbuf := { src := one_segment 4096 32, dst := one_segment 8192 32 }
    entries := 1
    data_len := 32
    enckey := fun i => if i < 24 then 1 else 0
    encklen := 24
    ivlen := 16
    byteoffset := 0
    alg := 2
    mode := 3
    op := 1 }

/-- An AES offload request of 32 bytes in mode `QCEDEV_AES_MODE_ECB`, and the
request at address 9 that carries it. -/
def sample_offload_ecb : qcedev_offload_cipher_op_req :=
  { vbuf := { src := one_segment 4096 32, dst := one_segment 8192 32 }
    entries := 1, data_len := 32, encklen := 16, ivlen := 16, byteoffset := 0,
    block_offset := 0, alg := 2, mode := 1, op := 1, is_copy_op := false,
    err := .QCEDEV_OFFLOAD_NO_ERROR }

/-- The offload request at address 9 with the descriptor `sample_offload_ecb`. -/
def sample_offload_ecb_req : qcedev_async_req :=
  { id := 9, op_type := .QCEDEV_CRYPTO_OPER_OFFLOAD_CIPHER,
    cipher_op_req := sample_cipher_op_req 0, sha_op_req := sample_sha_op_req,
    offload_cipher_op_req := sample_offload_ecb, err := 0 }

/-- An AES-CBC request of 32 bytes without a key: key length 0, all key bytes
zero, operation `QCEDEV_OPER_ENC_NO_KEY`. -/
def sample_no_key : qcedev_cipher_op_req :=
  { use_pmem := 0
    vbuf := { src := one_segment 4096 32, dst := one_segment 8192 32 }
    entries := 1
    data_len := 32
    enckey := fun _ => 0
    encklen := 0
    ivlen := 16
    byteoffset := 0
    alg := 2
    mode := 0
    op := 3 }

/-- Capabilities of a device without hardware keys. -/
def no_hw_key_support : ce_support :=
  { aes_xts := true, aes_key_192 := true, cmac := true, sha_hmac := true,
    hw_key_support := false }

/-- An AES-CTR request of 100 bytes in one segment with byte offset 7. -/
def sample_ctr_small : qcedev_cipher_op_req :=
  { use_pmem := 0
    vbuf := { src := one_segment 4096 100, dst := one_segment 8192 100 }
    entries := 1
    data_len := 100
    enckey := fun i => if i < 16 then 1 else 0
    encklen := 16
    ivlen := 16
    byteoffset := 7
    alg := 2
    mode := 2
    op := 1 }

/-- Status registers with a key timer expiry for pipe 1, a key pause for pipe
17 and the generic error interrupt, among bits that no mask covers. -/
def status_mixed : crypto_status :=
  { s1 := 0x10, s2 := 0xFFFFFFFF, s3 := 0x00000001, s4 := 7, s5 := 9, s6 := 0x00020000 }

/-- Status registers with a key pause for pipe 2 and the generic error
interrupt, among bits that no mask covers. -/
def status_paused : crypto_status :=
  { s1 := 0xFFFFFFFF, s2 := 3, s3 := 0xFF020000, s4 := 0, s5 := 1, s6 := 0xFFFCFFFC }

/-- Sixteen source segments of 4200 bytes each, one after the other from
address 65536 on. -/
def sixteen_sources : Nat → buf_info :=
  fun i => if i < 16 then { vaddr := 65536 + 4200 * i, len := 4200 }
    else { vaddr := 0, len := 0 }

/-- An AES-CBC request for the 67200 bytes of `sixteen_sources`, with one
destination segment of 67200 bytes and fifteen empty ones. -/
def sample_cipher_16 : qcedev_cipher_op_req :=
  { use_pmem := 0
    vbuf := { src := sixteen_sources, dst := one_segment 1048576 67200 }
    entries := 16
    data_len := 67200
    enckey := fun i => if i < 16 then 1 else 0
    encklen := 16
    ivlen := 16
    byteoffset := 0
    alg := 2
    mode := 0
    op := 1 }

/-- Two source segments of 40000 bytes each, and a third slot, which the
request does not count, with address 5 and length 9. -/
def two_sources_and_slot : Nat → buf_info :=
  fun i => if i = 0 then { vaddr := 65536, len := 40000 }
    else if i = 1 then { vaddr := 131072, len := 40000 }
    else if i = 2 then { vaddr := 5, len := 9 }
    else { vaddr := 0, len := 0 }

/-- An AES-CBC request for the 80000 bytes of the first two segments of
`two_sources_and_slot`. -/
def sample_cipher_slot : qcedev_cipher_op_req :=
  { use_pmem := 0
    vbuf := { src := two_sources_and_slot, dst := one_segment 1048576 80000 }
    entries := 2
    data_len := 80000
    enckey := fun i => if i < 16 then 1 else 0
    encklen := 16
    ivlen := 16
    byteoffset := 0
    alg := 2
    mode := 0
    op := 1 }

/-- Sixteen segments of 5000 bytes each, one after the other from address
65536 on. -/
def sixteen_buffers : Nat → buf_info :=
  fun i => if i < 16 then { vaddr := 65536 + 5000 * i, len := 5000 }
    else { vaddr := 0, len := 0 }

/-- A SHA-256 request for the 80000 bytes of `sixteen_buffers`. -/
def sample_sha_80k : qcedev_sha_op_req :=
  { data := sixteen_buffers, entries := 16, data_len := 80000, diglen := 0,
    authkey := 0, authklen := 0, alg := 1 }

/-- A device with a SHA request (address 1) active and nothing pending. -/
def device_busy : qcedev_control :=
  { support := full_support
    active_command := some (sample_req 1 .QCEDEV_CRYPTO_OPER_SHA 0)
    ready_commands := []
    done_tasklet := false }

/-! ## Theorems: request validator -/

/-- The guarded source loop never wraps: started from a total that fits in 32
bits, a successful run returns the exact sum. -/
theorem src_loop_exact (src : Nat → buf_info) (l : List Nat) (a t : Nat)
    (ha : a ≤ U32_MAX)
    (h : l.foldlM
      (fun total i =>
        if (src i).vaddr = 0 ∧ (src i).len ≠ 0 then none
        else if (src i).len > U32_MAX - total then none
        else some ((total + (src i).len) % 2 ^ 32)) a = some t) :
    t = a + (l.map (fun i => (src i).len)).sum ∧ t ≤ U32_MAX := by
  induction l generalizing a with
  | nil =>
    simp only [List.foldlM_nil] at h
    cases h
    simp [ha]
  | cons i l ih =>
    rw [List.foldlM_cons] at h
    by_cases h1 : (src i).vaddr = 0 ∧ (src i).len ≠ 0
    · simp [h1] at h
    · by_cases h2 : (src i).len > U32_MAX - a
      · simp [h1, h2] at h
      · rw [if_neg h1, if_neg h2] at h
        have hle : a + (src i).len ≤ U32_MAX := by omega
        have hmod : (a + (src i).len) % 2 ^ 32 = a + (src i).len := by
          apply Nat.mod_eq_of_lt
          unfold U32_MAX at hle
          omega
        simp only [Option.some_bind, Option.bind_eq_bind] at h
        rw [hmod] at h
        obtain ⟨e, b⟩ := ih (a + (src i).len) hle h
        refine ⟨?_, b⟩
        simp only [List.map_cons, List.sum_cons]
        omega

/-- The guarded destination loop never wraps either. -/
theorem dst_loop_exact (dst : Nat → buf_info) (l : List Nat) (a t : Nat)
    (ha : a ≤ U32_MAX)
    (h : l.foldlM
      (fun total i =>
        if (dst i).vaddr = 0 ∧ (dst i).len ≠ 0 then none
        else if (dst i).len ≥ U32_MAX - total then none
        else some ((total + (dst i).len) % 2 ^ 32)) a = some t) :
    t = a + (l.map (fun i => (dst i).len)).sum ∧ t ≤ U32_MAX := by
  induction l generalizing a with
  | nil =>
    simp only [List.foldlM_nil] at h
    cases h
    simp [ha]
  | cons i l ih =>
    rw [List.foldlM_cons] at h
    by_cases h1 : (dst i).vaddr = 0 ∧ (dst i).len ≠ 0
    · simp [h1] at h
    · by_cases h2 : (dst i).len ≥ U32_MAX - a
      · simp [h1, h2] at h
      · rw [if_neg h1, if_neg h2] at h
        have hle : a + (dst i).len ≤ U32_MAX := by omega
        have hmod : (a + (dst i).len) % 2 ^ 32 = a + (dst i).len := by
          apply Nat.mod_eq_of_lt
          unfold U32_MAX at hle
          omega
        simp only [Option.some_bind, Option.bind_eq_bind] at h
        rw [hmod] at h
        obtain ⟨e, b⟩ := ih (a + (dst i).len) hle h
        refine ⟨?_, b⟩
        simp only [List.map_cons, List.sum_cons]
        omega

/-- A rejecting guard in front of a computation that ends in 0. -/
theorem guard_eq_zero {c : Prop} [Decidable c] {x : Int}
    (h : (if c then - EINVAL else x) = 0) : ¬ c ∧ x = 0 := by
  by_cases hc : c
  · rw [if_pos hc] at h
    exact absurd h (by decide)
  · rw [if_neg hc] at h
    exact ⟨hc, h⟩

/-- A rejecting guard keeps the two-valued result. -/
theorem guard_codes {c : Prop} [Decidable c] {x : Int}
    (h : x = 0 ∨ x = - EINVAL) :
    (if c then - EINVAL else x) = 0 ∨ (if c then - EINVAL else x) = - EINVAL := by
  by_cases hc : c
  · rw [if_pos hc]
    exact Or.inr rfl
  · rw [if_neg hc]
    exact h

/-- The validator has two results only. -/
theorem qcedev_check_cipher_params_codes (K : qcedev_hdr) (req : qcedev_cipher_op_req)
    (podev : ce_support) :
    qcedev_check_cipher_params K req podev = 0 ∨
      qcedev_check_cipher_params K req podev = - EINVAL := by
  unfold qcedev_check_cipher_params
  iterate 11 apply guard_codes
  cases dst_total_loop req.vbuf.dst req.entries with
  | none => exact Or.inr rfl
  | some td =>
    show (if td ≠ req.data_len then _ else _) = 0 ∨ (if td ≠ req.data_len then _ else _) = _
    apply guard_codes
    cases src_total_loop req.vbuf.src req.entries with
    | none => exact Or.inr rfl
    | some ts =>
      show (if ts ≠ req.data_len then _ else _) = 0 ∨
        (if ts ≠ req.data_len then _ else _) = _
      apply guard_codes
      exact Or.inl rfl

/-- What acceptance means: every guard of `qcedev_check_cipher_params` was
passed and both length loops ended, without firing their overflow guard, on
`data_len`. -/
theorem qcedev_check_cipher_params_accept (K : qcedev_hdr) (req : qcedev_cipher_op_req)
    (podev : ce_support) (h : qcedev_check_cipher_params K req podev = 0) :
    req.use_pmem = 0 ∧
    ¬ (req.entries = 0 ∨ req.data_len = 0 ∨ req.entries > K.QCEDEV_MAX_BUFFERS) ∧
    ¬ (req.alg ≥ K.QCEDEV_ALG_LAST ∨ req.mode ≥ K.QCEDEV_AES_DES_MODE_LAST) ∧
    ¬ (req.mode = K.QCEDEV_AES_MODE_XTS ∧ podev.aes_xts = false) ∧
    ¬ (req.alg = K.QCEDEV_ALG_AES ∧ qcedev_check_cipher_key K req podev ≠ 0) ∧
    ¬ (req.byteoffset ≠ 0 ∧
      (req.mode ≠ K.QCEDEV_AES_MODE_CTR ∨ req.byteoffset ≥ K.AES_CE_BLOCK_SIZE ∨
        byteoffset_src_loop req.vbuf.src req.entries req.byteoffset = none)) ∧
    ¬ (req.data_len < req.byteoffset) ∧
    ¬ (req.ivlen > K.QCEDEV_MAX_IV_SIZE) ∧
    ¬ (req.encklen > K.QCEDEV_MAX_KEY_SIZE) ∧
    ¬ (req.ivlen > 0 ∧
      (req.mode = K.QCEDEV_AES_MODE_ECB ∨ req.mode = K.QCEDEV_DES_MODE_ECB)) ∧
    ¬ (¬ (req.ivlen > 0) ∧
      (req.mode ≠ K.QCEDEV_AES_MODE_ECB ∧ req.mode ≠ K.QCEDEV_DES_MODE_ECB)) ∧
    dst_total_loop req.vbuf.dst req.entries = some req.data_len ∧
    src_total_loop req.vbuf.src req.entries = some req.data_len := by
  have hne : (- EINVAL : Int) ≠ 0 := by decide
  unfold qcedev_check_cipher_params at h
  obtain ⟨g1, h⟩ := guard_eq_zero h
  obtain ⟨g2, h⟩ := guard_eq_zero h
  obtain ⟨g3, h⟩ := guard_eq_zero h
  obtain ⟨g4, h⟩ := guard_eq_zero h
  obtain ⟨g5, h⟩ := guard_eq_zero h
  obtain ⟨g6, h⟩ := guard_eq_zero h
  obtain ⟨g7, h⟩ := guard_eq_zero h
  obtain ⟨g8, h⟩ := guard_eq_zero h
  obtain ⟨g9, h⟩ := guard_eq_zero h
  obtain ⟨g10, h⟩ := guard_eq_zero h
  obtain ⟨g11, h⟩ := guard_eq_zero h
  refine ⟨not_not.mp g1, g2, g3, g4, g5, g6, g7, g8, g9, g10, g11, ?_⟩
  cases hd : dst_total_loop req.vbuf.dst req.entries with
  | none => rw [hd] at h; exact absurd h hne
  | some td =>
    rw [hd] at h
    obtain ⟨hdl, h⟩ := guard_eq_zero h
    cases hs : src_total_loop req.vbuf.src req.entries with
    | none => rw [hs] at h; exact absurd h hne
    | some ts =>
      rw [hs] at h
      obtain ⟨hsl, h⟩ := guard_eq_zero h
      rw [not_not.mp hdl, not_not.mp hsl]
      exact ⟨rfl, rfl⟩

/-- An accepted cipher request has exact segment sums. -/
theorem qcedev_check_cipher_params_sums (K : qcedev_hdr) (req : qcedev_cipher_op_req)
    (podev : ce_support) (h : qcedev_check_cipher_params K req podev = 0) :
    seg_sum req.vbuf.src req.entries = req.data_len ∧
      seg_sum req.vbuf.dst req.entries = req.data_len := by
  obtain ⟨-, -, -, -, -, -, -, -, -, -, -, hd, hs⟩ :=
    qcedev_check_cipher_params_accept K req podev h
  have hd2 := dst_loop_exact req.vbuf.dst (List.range req.entries) 0 req.data_len
    (by decide) hd
  have hs2 := src_loop_exact req.vbuf.src (List.range req.entries) 0 req.data_len
    (by decide) hs
  unfold seg_sum
  omega

/-- C1. If `qcedev_check_cipher_params` returns 0 then the sum of the first
`entries` source segment lengths and the sum of the first `entries` destination
segment lengths, both taken as unbounded natural numbers, equal `data_len`; a
request for which either equality fails gets `-EINVAL`. -/
theorem C1_cipher_segment_sums (K : qcedev_hdr) (req : qcedev_cipher_op_req)
    (podev : ce_support) :
    (qcedev_check_cipher_params K req podev = 0 →
      seg_sum req.vbuf.src req.entries = req.data_len ∧
        seg_sum req.vbuf.dst req.entries = req.data_len) ∧
    (¬ (seg_sum req.vbuf.src req.entries = req.data_len ∧
        seg_sum req.vbuf.dst req.entries = req.data_len) →
      qcedev_check_cipher_params K req podev = - EINVAL) := by
  refine ⟨qcedev_check_cipher_params_sums K req podev, fun hn => ?_⟩
  rcases qcedev_check_cipher_params_codes K req podev with h | h
  · exact absurd (qcedev_check_cipher_params_sums K req podev h) hn
  · exact h

/-! ## Theorems: the single-server queue -/

/-- No dispatcher changes the identity of the request. -/
theorem start_req_id (K : qcedev_hdr) (hw : qce_engine) (sup : ce_support)
    (areq : qcedev_async_req) : (start_req K hw sup areq).2.id = areq.id := by
  unfold start_req
  cases areq.op_type
  · simp only [start_cipher_req, start_exit]
    split_ifs <;> rfl
  · simp only [start_sha_req, start_exit]
    split_ifs <;> rfl
  · simp only [start_offload_cipher_req, start_exit]
    split_ifs <;> rfl

/-- Clearing the error keeps the identity. -/
theorem clear_err_id (areq : qcedev_async_req) : (clear_err areq).id = areq.id := rfl

/-- C2. Under the lock `submit_req` does one of two things.  With an empty
active slot it starts the request (one `start` in the trace), leaves the
pending list as it was and ends with the request in the slot when the start
returned 0 and with an empty slot otherwise.  With an occupied slot it appends
the request to the tail of the pending list, leaves the slot as it was, starts
nothing and returns 0. -/
theorem C2_submit_req_locked (K : qcedev_hdr) (hw : qce_engine) (podev : qcedev_control)
    (areq : qcedev_async_req) :
    (podev.active_command = none ∧
      (submit_req_locked K hw podev areq).trace =
        [Event.start areq.id (start_req K hw podev.support (clear_err areq)).1] ∧
      (submit_req_locked K hw podev areq).ret =
        (start_req K hw podev.support (clear_err areq)).1 ∧
      (submit_req_locked K hw podev areq).podev.ready_commands = podev.ready_commands ∧
      (submit_req_locked K hw podev areq).podev.active_command =
        (if (submit_req_locked K hw podev areq).ret ≠ 0 then none
         else some (start_req K hw podev.support (clear_err areq)).2) ∧
      (start_req K hw podev.support (clear_err areq)).2.id = areq.id) ∨
    (∃ cur, podev.active_command = some cur ∧
      (submit_req_locked K hw podev areq).trace = [Event.list_add_tail areq.id] ∧
      (submit_req_locked K hw podev areq).ret = 0 ∧
      (submit_req_locked K hw podev areq).podev.ready_commands =
        podev.ready_commands ++ [clear_err areq] ∧
      (submit_req_locked K hw podev areq).podev.active_command = some cur ∧
      starts (submit_req_locked K hw podev areq).trace = []) := by
  cases h : podev.active_command with
  | none =>
    left
    refine ⟨rfl, ?_, ?_, ?_, ?_, ?_⟩
    · simp only [submit_req_locked, h, clear_err_id]
    · simp only [submit_req_locked, h]
    · simp only [submit_req_locked, h]
    · simp only [submit_req_locked, h]
    · exact start_req_id K hw podev.support _
  | some cur =>
    right
    refine ⟨cur, rfl, ?_, ?_, ?_, ?_, ?_⟩
    · simp only [submit_req_locked, h, clear_err_id]
    · simp only [submit_req_locked, h]
    · simp only [submit_req_locked, h]
    · simp only [submit_req_locked, h]
    · simp only [submit_req_locked, h]
      rfl

/-- Completions of a concatenation. -/
theorem completions_append (s t : List Event) :
    completions (s ++ t) = completions s ++ completions t := by
  simp only [completions, List.filter_append]

/-- Pops of a concatenation. -/
theorem popped_append (s t : List Event) : popped (s ++ t) = popped s ++ popped t := by
  simp only [popped, List.filterMap_append]

/-- Starts of a concatenation. -/
theorem starts_append (s t : List Event) : starts (s ++ t) = starts s ++ starts t := by
  simp only [starts, List.filterMap_append]

/-- Appends of a concatenation. -/
theorem enqueued_append (s t : List Event) :
    enqueued (s ++ t) = enqueued s ++ enqueued t := by
  simp only [enqueued, List.filterMap_append]

/-- The signal for the previously active request is a completion. -/
theorem completions_complete_opt (a : Option qcedev_async_req) :
    completions (complete_opt a) = complete_opt a := by
  cases a <;> rfl

/-- The signal for the previously active request pops nothing. -/
theorem popped_complete_opt (a : Option qcedev_async_req) :
    popped (complete_opt a) = [] := by
  cases a <;> rfl

/-- The signal for the previously active request starts nothing. -/
theorem starts_complete_opt (a : Option qcedev_async_req) :
    starts (complete_opt a) = [] := by
  cases a <;> rfl

/-- The signal for the previously active request appends nothing. -/
theorem enqueued_complete_opt (a : Option qcedev_async_req) :
    enqueued (complete_opt a) = [] := by
  cases a <;> rfl

/-- One round of the loop of `req_done` whose start fails. -/
theorem req_done_again_fail (K : qcedev_hdr) (hw : qce_engine) (sup : ce_support)
    (p : qcedev_async_req) (l : List qcedev_async_req) (areq : Option qcedev_async_req)
    (hp : (start_req K hw sup (clear_err p)).1 ≠ 0) :
    req_done_again K hw sup (p :: l) areq =
      ((req_done_again K hw sup l none).1, (req_done_again K hw sup l none).2.1,
        [Event.list_del p.id, Event.start p.id (start_req K hw sup (clear_err p)).1]
          ++ complete_opt areq
          ++ [Event.complete p.id (start_req K hw sup (clear_err p)).2.err]
          ++ (req_done_again K hw sup l none).2.2) := by
  rw [req_done_again]
  simp only [hp, ne_eq, not_false_eq_true, if_true, start_req_id, clear_err_id]

/-- One round of the loop of `req_done` whose start succeeds. -/
theorem req_done_again_ok (K : qcedev_hdr) (hw : qce_engine) (sup : ce_support)
    (x : qcedev_async_req) (l : List qcedev_async_req) (areq : Option qcedev_async_req)
    (hx : (start_req K hw sup (clear_err x)).1 = 0) :
    req_done_again K hw sup (x :: l) areq =
      (some (start_req K hw sup (clear_err x)).2, l,
        [Event.list_del x.id, Event.start x.id (start_req K hw sup (clear_err x)).1]
          ++ complete_opt areq) := by
  rw [req_done_again]
  simp only [hx, ne_eq, not_true_eq_false, if_false]

/-- The loop of `req_done` on a pending list whose first requests fail to start
and whose next request starts. -/
theorem req_done_again_first_ok (K : qcedev_hdr) (hw : qce_engine) (sup : ce_support)
    (pre : List qcedev_async_req) (x : qcedev_async_req) (post : List qcedev_async_req)
    (areq : Option qcedev_async_req)
    (hpre : ∀ r ∈ pre, (start_req K hw sup (clear_err r)).1 ≠ 0)
    (hx : (start_req K hw sup (clear_err x)).1 = 0) :
    (req_done_again K hw sup (pre ++ x :: post) areq).1 =
        some (start_req K hw sup (clear_err x)).2 ∧
    (req_done_again K hw sup (pre ++ x :: post) areq).2.1 = post ∧
    completions (req_done_again K hw sup (pre ++ x :: post) areq).2.2 =
        complete_opt areq ++ pre.map (fun r =>
          Event.complete r.id (start_req K hw sup (clear_err r)).2.err) ∧
    popped (req_done_again K hw sup (pre ++ x :: post) areq).2.2 =
        (pre ++ [x]).map (fun r => r.id) ∧
    starts (req_done_again K hw sup (pre ++ x :: post) areq).2.2 =
        (pre ++ [x]).map (fun r => r.id) := by
  induction pre generalizing areq with
  | nil =>
    rw [List.nil_append, req_done_again_ok K hw sup x post areq hx]
    refine ⟨rfl, rfl, ?_, ?_, ?_⟩
    · rw [completions_append, completions_complete_opt]
      simp [completions]
    · rw [popped_append, popped_complete_opt]
      simp [popped]
    · rw [starts_append, starts_complete_opt]
      simp [starts]
  | cons p pre ih =>
    have hp := hpre p (List.mem_cons_self _ _)
    obtain ⟨i1, i2, i3, i4, i5⟩ := ih none (fun r hr => hpre r (List.mem_cons_of_mem _ hr))
    rw [List.cons_append, req_done_again_fail K hw sup p _ areq hp]
    refine ⟨i1, i2, ?_, ?_, ?_⟩
    · simp only [completions_append, completions_complete_opt, i3]
      simp [completions, complete_opt]
    · simp only [popped_append, popped_complete_opt, i4]
      simp [popped]
    · simp only [starts_append, starts_complete_opt, i5]
      simp [starts]

/-- The loop of `req_done` on a pending list none of whose requests starts. -/
theorem req_done_again_none_ok (K : qcedev_hdr) (hw : qce_engine) (sup : ce_support)
    (l : List qcedev_async_req) (areq : Option qcedev_async_req)
    (hl : ∀ r ∈ l, (start_req K hw sup (clear_err r)).1 ≠ 0) :
    (req_done_again K hw sup l areq).1 = none ∧
    (req_done_again K hw sup l areq).2.1 = [] ∧
    completions (req_done_again K hw sup l areq).2.2 =
        complete_opt areq ++ l.map (fun r =>
          Event.complete r.id (start_req K hw sup (clear_err r)).2.err) ∧
    popped (req_done_again K hw sup l areq).2.2 = l.map (fun r => r.id) := by
  induction l generalizing areq with
  | nil =>
    rw [req_done_again]
    refine ⟨rfl, rfl, ?_, ?_⟩
    · simp [completions_complete_opt]
    · simp [popped_complete_opt]
  | cons p l ih =>
    have hp := hl p (List.mem_cons_self _ _)
    obtain ⟨i1, i2, i3, i4⟩ := ih none (fun r hr => hl r (List.mem_cons_of_mem _ hr))
    rw [req_done_again_fail K hw sup p _ areq hp]
    refine ⟨i1, i2, ?_, ?_⟩
    · simp only [completions_append, completions_complete_opt, i3]
      simp [completions, complete_opt]
    · simp only [popped_append, popped_complete_opt, i4]
      simp [popped]

/-- C3. `req_done` on a device whose pending list is `L`.  If `L` is
`pre ++ x :: post` where no request of `pre` starts and `x` starts, the run
ends with `x` in the active slot and `post` pending, and its completion
signals are, in order, exactly one for the previously active request if there
was one (none if the slot was empty) and one for each request of `pre`: none
for `x`.  If no request of `L` starts, the run ends with an empty slot, an
empty pending list, and exactly one completion signal for the previously
active request, if there was one, and for each request of `L`.  The signal for
the previously active request carries its address and its error field. -/
theorem C3_req_done (K : qcedev_hdr) (hw : qce_engine) (podev : qcedev_control) :
    (∀ pre x post, podev.ready_commands = pre ++ x :: post →
      (∀ r ∈ pre, (start_req K hw podev.support (clear_err r)).1 ≠ 0) →
      (start_req K hw podev.support (clear_err x)).1 = 0 →
      (req_done K hw podev).1.active_command =
          some (start_req K hw podev.support (clear_err x)).2 ∧
      (start_req K hw podev.support (clear_err x)).2.id = x.id ∧
      (req_done K hw podev).1.ready_commands = post ∧
      completions (req_done K hw podev).2 =
          podev.active_command.toList.map (fun a => Event.complete a.id a.err) ++
            pre.map (fun r =>
              Event.complete r.id (start_req K hw podev.support (clear_err r)).2.err) ∧
      popped (req_done K hw podev).2 = (pre ++ [x]).map (fun r => r.id)) ∧
    ((∀ r ∈ podev.ready_commands,
        (start_req K hw podev.support (clear_err r)).1 ≠ 0) →
      (req_done K hw podev).1.active_command = none ∧
      (req_done K hw podev).1.ready_commands = [] ∧
      completions (req_done K hw podev).2 =
          podev.active_command.toList.map (fun a => Event.complete a.id a.err) ++
            podev.ready_commands.map (fun r =>
              Event.complete r.id (start_req K hw podev.support (clear_err r)).2.err) ∧
      popped (req_done K hw podev).2 = podev.ready_commands.map (fun r => r.id)) := by
  have hopt : complete_opt podev.active_command =
      podev.active_command.toList.map (fun a => Event.complete a.id a.err) := by
    cases podev.active_command with
    | none => rfl
    | some a => rfl
  constructor
  · intro pre x post hL hpre hx
    obtain ⟨i1, i2, i3, i4, -⟩ :=
      req_done_again_first_ok K hw podev.support pre x post podev.active_command hpre hx
    simp only [req_done, hL]
    rw [hopt] at i3
    exact ⟨i1, start_req_id K hw podev.support _, i2, i3, i4⟩
  · intro hl
    obtain ⟨i1, i2, i3, i4⟩ :=
      req_done_again_none_ok K hw podev.support podev.ready_commands podev.active_command hl
    simp only [req_done]
    rw [hopt] at i3
    exact ⟨i1, i2, i3, i4⟩

/-- One run of the loop of `req_done` pops a prefix of the pending list, in
list order, leaves the rest pending and appends nothing. -/
theorem req_done_again_fifo (K : qcedev_hdr) (hw : qce_engine) (sup : ce_support)
    (l : List qcedev_async_req) (areq : Option qcedev_async_req) :
    popped (req_done_again K hw sup l areq).2.2 ++
        (req_done_again K hw sup l areq).2.1.map (fun r => r.id) = l.map (fun r => r.id) ∧
    enqueued (req_done_again K hw sup l areq).2.2 = [] := by
  induction l generalizing areq with
  | nil =>
    rw [req_done_again]
    simp [popped_complete_opt, enqueued_complete_opt]
  | cons p l ih =>
    by_cases hp : (start_req K hw sup (clear_err p)).1 = 0
    · rw [req_done_again_ok K hw sup p l areq hp]
      simp only [popped_append, popped_complete_opt, enqueued_append, enqueued_complete_opt]
      simp [popped, enqueued]
    · obtain ⟨i1, i2⟩ := ih none
      rw [req_done_again_fail K hw sup p l areq hp]
      simp only [popped_append, popped_complete_opt, enqueued_append, enqueued_complete_opt,
        i2]
      refine ⟨?_, by simp [enqueued]⟩
      simp only [List.map_cons, ← i1]
      simp [popped]

/-- The locked step of `submit_req` pops nothing, and the pending list grows by
exactly what the trace says was appended. -/
theorem submit_req_locked_fifo (K : qcedev_hdr) (hw : qce_engine) (podev : qcedev_control)
    (areq : qcedev_async_req) :
    popped (submit_req_locked K hw podev areq).trace = [] ∧
    (submit_req_locked K hw podev areq).podev.ready_commands.map (fun r => r.id) =
      podev.ready_commands.map (fun r => r.id) ++
        enqueued (submit_req_locked K hw podev areq).trace := by
  cases h : podev.active_command with
  | none => simp [submit_req_locked, h, popped, enqueued]
  | some cur => simp [submit_req_locked, h, popped, enqueued, clear_err_id]

/-- Along every run, what was popped followed by what is pending is what was
pending at the start followed by what was appended. -/
theorem queue_run_fifo (K : qcedev_hdr) (hw : qce_engine) (ops : List queue_op)
    (podev : qcedev_control) :
    popped (queue_run K hw podev ops).2 ++
        (queue_run K hw podev ops).1.ready_commands.map (fun r => r.id) =
      podev.ready_commands.map (fun r => r.id) ++ enqueued (queue_run K hw podev ops).2 := by
  induction ops generalizing podev with
  | nil => simp [queue_run, popped, enqueued]
  | cons op ops ih =>
    cases op with
    | submit areq =>
      obtain ⟨h1, h2⟩ := submit_req_locked_fifo K hw podev areq
      have := ih (submit_req_locked K hw podev areq).podev
      simp only [queue_run, popped_append, enqueued_append, h1, List.nil_append]
      rw [this, h2, List.append_assoc]
    | done =>
      obtain ⟨h1, h2⟩ :=
        req_done_again_fifo K hw podev.support podev.ready_commands podev.active_command
      have := ih (req_done K hw podev).1
      simp only [queue_run, popped_append, enqueued_append]
      rw [List.append_assoc, this]
      simp only [req_done, h2, List.nil_append, ← List.append_assoc, h1]

/-- C4. Along every sequence of `submit_req` and `req_done` steps from a device
with an empty slot and an empty pending list, the requests are taken from the
pending list in the order in which `submit_req` appended them: the sequence of
pops, followed by what is still pending, is the sequence of appends; so the
pops are a prefix of the appends. -/
theorem C4_fifo_order (K : qcedev_hdr) (hw : qce_engine) (sup : ce_support)
    (ops : List queue_op) :
    popped (queue_run K hw (idle_device sup) ops).2 ++
        (queue_run K hw (idle_device sup) ops).1.ready_commands.map (fun r => r.id) =
      enqueued (queue_run K hw (idle_device sup) ops).2 ∧
    popped (queue_run K hw (idle_device sup) ops).2 <+:
      enqueued (queue_run K hw (idle_device sup) ops).2 := by
  have h := queue_run_fifo K hw ops (idle_device sup)
  simp only [idle_device, List.map_nil, List.nil_append] at h
  exact ⟨h, ⟨_, h⟩⟩

/-! ## Theorems: the timeout supervisor -/

/-- The common exit with a zero return value clears the error. -/
theorem start_exit_err_of_ok (areq : qcedev_async_req) (ret : Int)
    (h : (start_exit areq ret).1 = 0) : (start_exit areq ret).2.err = 0 := by
  simp only [start_exit] at h
  simp only [start_exit, h, ne_eq, not_true_eq_false, if_false]

/-- A direct `return -EINVAL` is not a zero return value. -/
theorem einval_pair_ne_zero (areq : qcedev_async_req) (P : Prop)
    (h : ((- EINVAL, areq) : Int × qcedev_async_req).1 = 0) : P := by
  have hne : (- EINVAL : Int) ≠ 0 := by decide
  exact absurd h hne

/-- A start that returns 0 on a request whose error is clear leaves it
clear. -/
theorem start_req_err_of_ok (K : qcedev_hdr) (hw : qce_engine) (sup : ce_support)
    (areq : qcedev_async_req)
    (h : (start_req K hw sup areq).1 = 0) : (start_req K hw sup areq).2.err = 0 := by
  unfold start_req at h ⊢
  cases hop : areq.op_type
  · rw [hop] at h
    simp only [start_cipher_req] at h ⊢
    split_ifs at h ⊢
    all_goals first
      | exact start_exit_err_of_ok _ _ h
      | exact einval_pair_ne_zero _ _ h
  · rw [hop] at h
    simp only [start_sha_req] at h ⊢
    split_ifs at h ⊢
    all_goals first
      | exact start_exit_err_of_ok _ _ h
      | exact einval_pair_ne_zero _ _ h
  · rw [hop] at h
    simp only [start_offload_cipher_req] at h ⊢
    split_ifs at h ⊢
    all_goals first
      | exact start_exit_err_of_ok _ _ h
      | exact einval_pair_ne_zero _ _ h

/-- After a locked step that returned 0 the error of the request is 0. -/
theorem submit_req_locked_err (K : qcedev_hdr) (hw : qce_engine) (podev : qcedev_control)
    (areq : qcedev_async_req) (h : (submit_req_locked K hw podev areq).ret = 0) :
    (submit_req_locked K hw podev areq).areq.err = 0 := by
  cases ha : podev.active_command with
  | none =>
    simp only [submit_req_locked, ha] at h ⊢
    exact start_req_err_of_ok K hw podev.support _ h
  | some cur =>
    simp only [submit_req_locked, ha]
    rfl

/-- Reading the status registers leaves the request error alone. -/
theorem qcedev_check_crypto_status_err (areq : qcedev_async_req) (st : crypto_status) :
    (qcedev_check_crypto_status areq st).err = areq.err := rfl

/-- The descriptor error after reading the status registers is the
classification. -/
theorem qcedev_check_crypto_status_code (areq : qcedev_async_req) (st : crypto_status) :
    (qcedev_check_crypto_status areq st).offload_cipher_op_req.err =
      crypto_status_code st := rfl

/-- C5 (evaluation of the code). Whenever the locked step of `submit_req`
returned 0 (the request was started or queued) and the wait then times out,
`submit_req` returns 0, whatever the kind of the request and whatever the
status registers read: a timeout of a plain cipher or hash request is not
turned into an error code. -/
theorem C5_timeout_returns_zero (K : qcedev_hdr) (hw : qce_engine) (st : crypto_status)
    (podev : qcedev_control) (pstat : qcedev_stat) (areq : qcedev_async_req)
    (h : (submit_req_locked K hw podev areq).ret = 0) :
    (submit_req K hw st podev pstat areq 0).ret = 0 := by
  have he := submit_req_locked_err K hw podev areq h
  simp only [submit_req, submit_req_finish, h, if_true, true_and]
  split_ifs with h1 h2
  · rfl
  · exact absurd rfl h2
  · show (qcedev_check_crypto_status _ st).err = 0
    rw [qcedev_check_crypto_status_err]
    exact he

/-- C5, at a concrete input: an AES-CBC encryption submitted to an idle
device whose engine accepts it and never calls back returns 0 on timeout, both
with clear status registers and with the generic error bit set. -/
theorem C5_timeout_returns_zero_witness :
    (submit_req_locked hdr engine_accepts (idle_device full_support)
        (sample_req 1 .QCEDEV_CRYPTO_OPER_CIPHER 0)).ret = 0 ∧
    (submit_req hdr engine_accepts status_clear (idle_device full_support) stat_zero
        (sample_req 1 .QCEDEV_CRYPTO_OPER_CIPHER 0) 0).ret = 0 ∧
    (submit_req hdr engine_accepts status_generic (idle_device full_support) stat_zero
        (sample_req 1 .QCEDEV_CRYPTO_OPER_CIPHER 0) 0).ret = 0 :=
  ⟨by decide,
   C5_timeout_returns_zero hdr engine_accepts status_clear (idle_device full_support)
     stat_zero (sample_req 1 .QCEDEV_CRYPTO_OPER_CIPHER 0) (by decide),
   C5_timeout_returns_zero hdr engine_accepts status_generic (idle_device full_support)
     stat_zero (sample_req 1 .QCEDEV_CRYPTO_OPER_CIPHER 0) (by decide)⟩

/-- C6 (evaluation of the code). When the slot is empty and the start fails,
no wait is made, `wait` keeps its initial 0 and the timeout branch is entered:
if the status registers classify as an anomaly, `submit_req` returns 0 instead
of `-EIO`. -/
theorem C6_start_failure_returns_zero (K : qcedev_hdr) (hw : qce_engine)
    (st : crypto_status) (podev : qcedev_control) (pstat : qcedev_stat)
    (areq : qcedev_async_req) (wait : Nat)
    (hslot : podev.active_command = none)
    (hfail : (start_req K hw podev.support (clear_err areq)).1 ≠ 0)
    (hst : crypto_status_code st ≠ .QCEDEV_OFFLOAD_NO_ERROR) :
    (submit_req K hw st podev pstat areq wait).ret = 0 := by
  have hr : (submit_req_locked K hw podev areq).ret ≠ 0 := by
    simp only [submit_req_locked, hslot]
    exact hfail
  simp only [submit_req, submit_req_finish, hr, if_false, if_true, true_and,
    qcedev_check_crypto_status_code, hst, ne_eq, not_false_eq_true]

/-- C6, at a concrete input: a SHA-256 request submitted to an idle device
whose engine rejects it, with the generic error bit set in the status
registers, gets 0 from `submit_req`; with clear registers it gets `-EIO`. -/
theorem C6_start_failure_returns_zero_witness :
    (submit_req hdr engine_rejects status_generic (idle_device full_support) stat_zero
        (sample_req 1 .QCEDEV_CRYPTO_OPER_SHA 0) 7).ret = 0 ∧
    (submit_req hdr engine_rejects status_clear (idle_device full_support) stat_zero
        (sample_req 1 .QCEDEV_CRYPTO_OPER_SHA 0) 7).ret = - EIO :=
  ⟨C6_start_failure_returns_zero hdr engine_rejects status_generic
     (idle_device full_support) stat_zero (sample_req 1 .QCEDEV_CRYPTO_OPER_SHA 0) 7
     rfl (by decide) (by decide),
   by decide⟩

/-- C7 (evaluation of the code). A pending AES request in mode
`QCEDEV_AES_MODE_CCM` passes `qcedev_check_cipher_params`; when `req_done`
pops it, `start_cipher_req` returns `-EINVAL` through the `default` of its mode
switch, which does not set `err`; the request is signalled with `err = 0`, and
the `submit_req` call that waited for it returns 0. -/
theorem C7_failed_start_signalled_without_error :
    qcedev_check_cipher_params hdr (sample_cipher_op_req 4) full_support = 0 ∧
    (req_done hdr engine_accepts device_ccm_pending).2 =
      [Event.list_del 2, Event.start 2 (- EINVAL), Event.complete 1 0,
        Event.complete 2 0] ∧
    (submit_req_finish hdr status_clear (req_done hdr engine_accepts device_ccm_pending).1
        stat_zero (clear_err (sample_req 2 .QCEDEV_CRYPTO_OPER_CIPHER 4)) 0 1 []).ret = 0 := by
  refine ⟨by decide, by decide, by decide⟩

/-- The slot after the loop of `req_done` is empty or holds a request that was
pending. -/
theorem req_done_again_slot (K : qcedev_hdr) (hw : qce_engine) (sup : ce_support)
    (l : List qcedev_async_req) (areq : Option qcedev_async_req) :
    (req_done_again K hw sup l areq).1 = none ∨
      ∃ x ∈ l, (req_done_again K hw sup l areq).1 =
        some (start_req K hw sup (clear_err x)).2 := by
  induction l generalizing areq with
  | nil => exact Or.inl rfl
  | cons p l ih =>
    by_cases hp : (start_req K hw sup (clear_err p)).1 = 0
    · rw [req_done_again_ok K hw sup p l areq hp]
      exact Or.inr ⟨p, List.mem_cons_self _ _, rfl⟩
    · rw [req_done_again_fail K hw sup p l areq hp]
      rcases ih none with h | ⟨x, hx, h⟩
      · exact Or.inl h
      · exact Or.inr ⟨x, List.mem_cons_of_mem _ hx, h⟩

/-- The first completion of the loop of `req_done` is the signal for the
previously active request. -/
theorem req_done_again_signals_active (K : qcedev_hdr) (hw : qce_engine) (sup : ce_support)
    (l : List qcedev_async_req) (a : qcedev_async_req) :
    ∃ rest, completions (req_done_again K hw sup l (some a)).2.2 =
      Event.complete a.id a.err :: rest := by
  cases l with
  | nil => exact ⟨[], rfl⟩
  | cons p l =>
    by_cases hp : (start_req K hw sup (clear_err p)).1 = 0
    · rw [req_done_again_ok K hw sup p l _ hp]
      exact ⟨[], rfl⟩
    · rw [req_done_again_fail K hw sup p l _ hp]
      simp only [completions_append]
      exact ⟨_, rfl⟩

/-- C8. A SHA-256 request is submitted to an idle device; the engine accepts
it and never calls back; the wait times out.  When `submit_req` returns, the
active slot still holds the request, and the locked step of the next
`submit_req` appends its request to the pending list instead of starting
it. -/
theorem C8_slot_still_held_after_timeout :
    (submit_req hdr engine_accepts status_clear (idle_device full_support) stat_zero
        (sample_req 1 .QCEDEV_CRYPTO_OPER_SHA 0) 0).podev.active_command.map (fun r => r.id)
      = some 1 ∧
    (submit_req_locked hdr engine_accepts
        (submit_req hdr engine_accepts status_clear (idle_device full_support) stat_zero
          (sample_req 1 .QCEDEV_CRYPTO_OPER_SHA 0) 0).podev
        (sample_req 2 .QCEDEV_CRYPTO_OPER_SHA 0)).trace = [Event.list_add_tail 2] := by
  refine ⟨by decide, by decide⟩

/-- C9. When the wait of `submit_req` times out, the descriptor error of the
request is the classification of the status registers; when that
classification is an anomaly (key timer expired, key pause or generic error)
`submit_req` returns 0, and when it is none the descriptor error is
`QCEDEV_OFFLOAD_NO_ERROR`.  This holds for every request, offload cipher
requests included. -/
theorem C9_offload_timeout_code (K : qcedev_hdr) (hw : qce_engine) (st : crypto_status)
    (podev : qcedev_control) (pstat : qcedev_stat) (areq : qcedev_async_req) :
    (submit_req K hw st podev pstat areq 0).areq.offload_cipher_op_req.err =
        crypto_status_code st ∧
    ((crypto_status_code st = .QCEDEV_OFFLOAD_KEY_TIMER_EXPIRED_ERROR ∨
        crypto_status_code st = .QCEDEV_OFFLOAD_KEY_PAUSE_ERROR ∨
        crypto_status_code st = .QCEDEV_OFFLOAD_GENERIC_ERROR) ∧
      (submit_req K hw st podev pstat areq 0).ret = 0 ∨
     crypto_status_code st = .QCEDEV_OFFLOAD_NO_ERROR ∧
      (submit_req K hw st podev pstat areq 0).areq.offload_cipher_op_req.err =
        .QCEDEV_OFFLOAD_NO_ERROR) := by
  have hw0 : (if (submit_req_locked K hw podev areq).ret = 0 then 0 else 0) = 0 := by
    split_ifs <;> rfl
  have herr : (submit_req K hw st podev pstat areq 0).areq.offload_cipher_op_req.err =
      crypto_status_code st := by
    simp only [submit_req, submit_req_finish, hw0, if_true, true_and,
      qcedev_check_crypto_status_code]
    split_ifs <;> rfl
  refine ⟨herr, ?_⟩
  by_cases hc : crypto_status_code st = .QCEDEV_OFFLOAD_NO_ERROR
  · right
    exact ⟨hc, by rw [herr, hc]⟩
  · left
    constructor
    · cases h : crypto_status_code st
      · exact absurd h hc
      · right; right; rfl
      · left; rfl
      · right; left; rfl
    · simp only [submit_req, submit_req_finish, hw0, if_true, true_and,
        qcedev_check_crypto_status_code, hc, ne_eq, not_false_eq_true]

/-! ## Theorems: the hash tracker -/

set_option maxRecDepth 100000 in
/-- C10 (evaluation of the code). A message of 65536 bytes given as sixteen
segments of 4096 bytes passes `qcedev_check_sha_params`.  In
`Init; Update; Final` the splitting loop of `qcedev_sha_update` submits its
second slice and then does its remainder bookkeeping on `data[16]`, one slot
past the sixteen-slot segment array: the run has left defined behaviour before
`Final` is reached. -/
theorem C10_split_loop_leaves_array :
    qcedev_check_sha_params hdr sample_sha_64k full_support = 0 ∧
    fault_of (hash_one_update hdr sample_env hash_engine_accepts fresh_hash_state
      sample_sha_64k) = some (fault.out_of_bounds 16) := by
  refine ⟨by decide, by decide⟩

/-! ### The hash tracker inside the segment array -/

/-- No bytes in an empty range. -/
theorem user_bytes_zero (env : user_env) (addr : Nat) : user_bytes env addr 0 = [] := rfl

/-- Length of a range of user bytes. -/
theorem user_bytes_length (env : user_env) (addr n : Nat) :
    (user_bytes env addr n).length = n := by
  simp [user_bytes]

/-- A range of user bytes splits at any point. -/
theorem user_bytes_add (env : user_env) (addr a b : Nat) :
    user_bytes env addr (a + b) = user_bytes env addr a ++ user_bytes env (addr + a) b := by
  simp only [user_bytes, List.range_add, List.map_append, List.map_map]
  congr 1
  apply List.map_congr_left
  intro x _
  simp only [Function.comp, Nat.add_assoc]

/-- Segments without length carry no bytes. -/
theorem bytes_from_of_len_zero (env : user_env) (data : Nat → buf_info) (n : Nat) :
    ∀ i, len_from data i n = 0 → bytes_from env data i n = [] := by
  induction n with
  | zero => intro i _; rfl
  | succ n ih =>
    intro i h
    simp only [len_from] at h
    have h1 : (data i).len = 0 := by omega
    have h2 : len_from data (i + 1) n = 0 := by omega
    simp only [bytes_from, h1, user_bytes_zero, ih (i + 1) h2, List.append_nil]

/-- Length of the bytes of a run of segments. -/
theorem bytes_from_length (env : user_env) (data : Nat → buf_info) (n : Nat) :
    ∀ i, (bytes_from env data i n).length = len_from data i n := by
  induction n with
  | zero => intro i; rfl
  | succ n ih =>
    intro i
    simp only [bytes_from, len_from, List.length_append, user_bytes_length, ih (i + 1)]

/-- The bytes of a run of segments depend on those segments only. -/
theorem bytes_from_congr (env : user_env) (d1 d2 : Nat → buf_info) (n : Nat) :
    ∀ i, (∀ j, i ≤ j → j < i + n → d1 j = d2 j) →
      bytes_from env d1 i n = bytes_from env d2 i n := by
  induction n with
  | zero => intro i _; rfl
  | succ n ih =>
    intro i h
    simp only [bytes_from]
    rw [h i (Nat.le_refl i) (by omega), ih (i + 1) (fun j h1 h2 => h j (by omega) (by omega))]

/-- The length of a run of segments depends on those segments only. -/
theorem len_from_congr (d1 d2 : Nat → buf_info) (n : Nat) :
    ∀ i, (∀ j, i ≤ j → j < i + n → d1 j = d2 j) → len_from d1 i n = len_from d2 i n := by
  induction n with
  | zero => intro i _; rfl
  | succ n ih =>
    intro i h
    simp only [len_from]
    rw [h i (Nat.le_refl i) (by omega), ih (i + 1) (fun j h1 h2 => h j (by omega) (by omega))]

/-- A run of segments extended by one at its end. -/
theorem bytes_from_snoc (env : user_env) (data : Nat → buf_info) (n : Nat) :
    ∀ i, bytes_from env data i (n + 1) =
      bytes_from env data i n ++ user_bytes env (data (i + n)).vaddr (data (i + n)).len := by
  induction n with
  | zero => intro i; simp [bytes_from]
  | succ n ih =>
    intro i
    rw [bytes_from, ih (i + 1), bytes_from, List.append_assoc]
    have e : i + 1 + n = i + (n + 1) := by omega
    rw [e]

/-- The length of a run of segments extended by one at its end. -/
theorem len_from_snoc (data : Nat → buf_info) (n : Nat) :
    ∀ i, len_from data i (n + 1) = len_from data i n + (data (i + n)).len := by
  induction n with
  | zero => intro i; simp [len_from]
  | succ n ih =>
    intro i
    rw [len_from, ih (i + 1), len_from]
    have e : i + 1 + n = i + (n + 1) := by omega
    rw [e]
    omega

/-- Two runs of segments, one after the other. -/
theorem bytes_from_add (env : user_env) (data : Nat → buf_info) (m : Nat) :
    ∀ n i, bytes_from env data i (n + m) =
      bytes_from env data i n ++ bytes_from env data (i + n) m := by
  induction m with
  | zero => intro n i; simp [bytes_from]
  | succ m ih =>
    intro n i
    have e : n + (m + 1) = (n + m) + 1 := by omega
    rw [e, bytes_from_snoc, ih, bytes_from_snoc, List.append_assoc]
    have e2 : i + (n + m) = i + n + m := by omega
    rw [e2]

/-- The lengths of two runs of segments, one after the other. -/
theorem len_from_add (data : Nat → buf_info) (m : Nat) :
    ∀ n i, len_from data i (n + m) = len_from data i n + len_from data (i + n) m := by
  induction m with
  | zero => intro n i; simp [len_from]
  | succ m ih =>
    intro n i
    have e : n + (m + 1) = (n + m) + 1 := by omega
    rw [e, len_from_snoc, ih, len_from_snoc]
    have e2 : i + (n + m) = i + n + m := by omega
    rw [e2]
    omega

/-- Length of a buffer after a write inside it. -/
theorem write_at_length (buf : List Nat) (off : Nat) (bs : List Nat)
    (h : off + bs.length ≤ buf.length) : (write_at buf off bs).length = buf.length := by
  simp only [write_at, List.length_append, List.length_take, List.length_drop]
  omega

/-- A buffer up to the end of a write inside it. -/
theorem write_at_take (buf : List Nat) (off : Nat) (bs : List Nat)
    (h : off + bs.length ≤ buf.length) :
    (write_at buf off bs).take (off + bs.length) = buf.take off ++ bs := by
  have h1 : (buf.take off ++ bs).length = off + bs.length := by
    simp only [List.length_append, List.length_take]
    omega
  simp only [write_at]
  rw [List.take_left' h1]

/-- A prefix of a prefix. -/
theorem take_take_le (l : List Nat) (a b : Nat) (h : a ≤ b) :
    (l.take b).take a = l.take a := by
  rw [List.take_take, Nat.min_eq_left h]

/-- The short path copies the segments behind the first `k` bytes of the
trailing buffer. -/
theorem trailing_copy_loop_ok (K : qcedev_hdr) (env : user_env) (data : Nat → buf_info)
    (hread : ∀ a n, env.readable a n = true) (n : Nat) :
    ∀ fuel i len k tb, n < fuel → i + n ≤ K.QCEDEV_MAX_BUFFERS →
      len = len_from data i n → k + len ≤ 64 → tb.length = 64 →
      (∀ j, i ≤ j → j < i + n → (data j).len ≠ 0 → (data j).vaddr ≠ 0) →
      ∃ tb', trailing_copy_loop K env data fuel i len k tb = .ok (true, tb') ∧
        tb'.length = 64 ∧ tb'.take (k + len) = tb.take k ++ bytes_from env data i n := by
  induction n with
  | zero =>
    intro fuel i len k tb hf _ hlen _ htb _
    obtain ⟨f, rfl⟩ : ∃ f, fuel = f + 1 := ⟨fuel - 1, by omega⟩
    simp only [len_from] at hlen
    subst hlen
    refine ⟨tb, ?_, htb, ?_⟩
    · simp only [trailing_copy_loop, if_true]
    · simp only [Nat.add_zero, bytes_from, List.append_nil]
  | succ n ih =>
    intro fuel i len k tb hf hi hlen hk htb hnn
    obtain ⟨f, rfl⟩ : ∃ f, fuel = f + 1 := ⟨fuel - 1, by omega⟩
    simp only [len_from] at hlen
    by_cases h0 : len = 0
    · refine ⟨tb, ?_, htb, ?_⟩
      · simp only [trailing_copy_loop, h0, if_true]
      · have hz : len_from data i (n + 1) = 0 := by
          simp only [len_from]
          omega
        rw [bytes_from_of_len_zero env data (n + 1) i hz, h0]
        simp
    · have hib : i < K.QCEDEV_MAX_BUFFERS := by omega
      have hov : ¬ (k + (data i).len > 64) := by omega
      have hsub : (len + 2 ^ 32 - (data i).len) % 2 ^ 32 = len_from data (i + 1) n := by
        omega
      have hnn2 : ∀ j, i + 1 ≤ j → j < i + 1 + n → (data j).len ≠ 0 → (data j).vaddr ≠ 0 :=
        fun j h1 h2 => hnn j (by omega) (by omega)
      by_cases hv : (data i).vaddr ≠ 0
      · have hbs : (user_bytes env (data i).vaddr (data i).len).length = (data i).len :=
          user_bytes_length _ _ _
        have hwl : (write_at tb k (user_bytes env (data i).vaddr (data i).len)).length = 64 := by
          rw [write_at_length _ _ _ (by rw [hbs, htb]; omega), htb]
        obtain ⟨tb', e1, e2, e3⟩ := ih f (i + 1) (len_from data (i + 1) n)
          (k + (data i).len) (write_at tb k (user_bytes env (data i).vaddr (data i).len))
          (by omega) (by omega) rfl (by omega) hwl hnn2
        refine ⟨tb', ?_, e2, ?_⟩
        · simp only [trailing_copy_loop, h0, if_false, hib, not_true_eq_false, hov, hv,
            ne_eq, not_false_eq_true, if_true, copy_from_user, hread, hsub]
          exact e1
        · have e4 : k + len = k + (data i).len + len_from data (i + 1) n := by omega
          rw [e4, e3, bytes_from, ← List.append_assoc]
          congr 1
          have := write_at_take tb k (user_bytes env (data i).vaddr (data i).len)
            (by rw [hbs, htb]; omega)
          rw [hbs] at this
          exact this
      · have hl0 : (data i).len = 0 := by
          by_contra hc
          exact hv (hnn i (Nat.le_refl i) (by omega) hc)
        obtain ⟨tb', e1, e2, e3⟩ := ih f (i + 1) (len_from data (i + 1) n)
          (k + (data i).len) tb (by omega) (by omega) rfl (by omega) htb hnn2
        refine ⟨tb', ?_, e2, ?_⟩
        · simp only [trailing_copy_loop, h0, if_false, hib, not_true_eq_false, hov, hv,
            hsub]
          exact e1
        · have e4 : k + len = k + (data i).len + len_from data (i + 1) n := by omega
          rw [e4, e3, bytes_from, hl0, user_bytes_zero]
          simp

/-- The long path gathers the segments behind what the scratch buffer holds. -/
theorem scratch_copy_loop_ok (K : qcedev_hdr) (env : user_env) (data : Nat → buf_info)
    (hread : ∀ a n, env.readable a n = true) (n : Nat) :
    ∀ i k written, i + n ≤ K.QCEDEV_MAX_BUFFERS →
      (∀ j, i ≤ j → j < i + n → (data j).len ≠ 0 → (data j).vaddr ≠ 0) →
      scratch_copy_loop K env data n i k written =
        .ok (true, k + len_from data i n, written ++ bytes_from env data i n) := by
  induction n with
  | zero =>
    intro i k written _ _
    simp only [scratch_copy_loop, len_from, bytes_from, Nat.add_zero, List.append_nil]
  | succ n ih =>
    intro i k written hi hnn
    have hib : i < K.QCEDEV_MAX_BUFFERS := by omega
    have hnn2 : ∀ j, i + 1 ≤ j → j < i + 1 + n → (data j).len ≠ 0 → (data j).vaddr ≠ 0 :=
      fun j h1 h2 => hnn j (by omega) (by omega)
    by_cases hv : (data i).vaddr ≠ 0
    · simp only [scratch_copy_loop, hib, not_true_eq_false, if_false, hv, ne_eq,
        not_false_eq_true, if_true, copy_from_user, hread]
      rw [ih (i + 1) _ _ (by omega) hnn2]
      simp only [len_from, bytes_from, List.append_assoc, Nat.add_assoc]
    · have hl0 : (data i).len = 0 := by
        by_contra hc
        exact hv (hnn i (Nat.le_refl i) (by omega) hc)
      simp only [scratch_copy_loop, hib, not_true_eq_false, if_false, hv]
      rw [ih (i + 1) _ _ (by omega) hnn2]
      simp only [len_from, bytes_from, hl0, user_bytes_zero, List.range_zero, List.map_nil,
        List.append_nil, List.nil_append, Nat.add_zero, Nat.zero_add]

/-- The arithmetic of the new trailing length, for a total of more than one
block. -/
theorem new_trailing_buf_len_facts (T : Nat) (h1 : 64 < T) (h2 : T + 63 < 2 ^ 32) :
    0 < new_trailing_buf_len T ∧ new_trailing_buf_len T ≤ 64 ∧
    (T + 2 ^ 32 - new_trailing_buf_len T) % 2 ^ 32 = T - new_trailing_buf_len T ∧
    (T - new_trailing_buf_len T) % 64 = 0 ∧ 0 < T - new_trailing_buf_len T ∧
    new_trailing_buf_len T < T := by
  simp only [new_trailing_buf_len, sha_pad_len, ALIGN, CE_SHA_BLOCK_SIZE, SHA256_BLOCK_SIZE]
  omega

/-- The callback leaves the trailing buffer alone. -/
theorem cb_store_trailing_buf (c : qcedev_sha_ctxt) (r : Option (List Nat × Nat × Nat)) :
    (cb_store c r).trailing_buf = c.trailing_buf := by
  cases r <;> rfl

/-- The callback leaves the trailing length alone. -/
theorem cb_store_trailing_buf_len (c : qcedev_sha_ctxt)
    (r : Option (List Nat × Nat × Nat)) :
    (cb_store c r).trailing_buf_len = c.trailing_buf_len := by
  cases r <;> rfl

/-- The callback leaves the initialised flag alone. -/
theorem cb_store_init_done (c : qcedev_sha_ctxt) (r : Option (List Nat × Nat × Nat)) :
    (cb_store c r).init_done = c.init_done := by
  cases r <;> rfl

/-- One more sub-operation behind a trace in which only the first one was a
first block. -/
theorem first_shape_snoc (t : List sha_pass) (fb : Nat) (p : sha_pass)
    (hp : p.first_blk = fb)
    (h : (t = [] ∧ fb = 1) ∨
      (∃ p0 rest, t = p0 :: rest ∧ p0.first_blk = 1 ∧ (∀ q ∈ rest, q.first_blk = 0) ∧
        fb = 0)) :
    ∃ p0 rest, t ++ [p] = p0 :: rest ∧ p0.first_blk = 1 ∧ ∀ q ∈ rest, q.first_blk = 0 := by
  rcases h with ⟨e, f⟩ | ⟨p0, rest, e, fp, fr, f⟩
  · refine ⟨p, [], by rw [e]; rfl, by rw [hp, f], ?_⟩
    intro q hq
    cases hq
  · refine ⟨p0, rest ++ [p], by rw [e]; rfl, fp, ?_⟩
    intro q hq
    rcases List.mem_append.mp hq with hq | hq
    · exact fr q hq
    · rw [List.mem_singleton] at hq
      rw [hq, hp, f]

/-- The end of the long path adds the scratch buffer to the stream. -/
theorem sha_submit_aligned_ok (env : user_env) (E : hash_engine) (alg : Nat)
    (s : hash_state) (total : Nat) (written : List Nat)
    (hE : ∀ p, E.ret p = 0) (hs : hash_inv s)
    (h1 : 64 < total) (h2 : total + 63 < 2 ^ 32) (hw : written.length = total) :
    ∃ s', sha_submit_aligned env E alg s total total written = .ok (0, s') ∧
      hash_inv s' ∧ stream s' = (s.trace.map (fun p => p.src)).flatten ++ written := by
  obtain ⟨f1, f2, f3, f4, f5, f6⟩ := new_trailing_buf_len_facts total h1 h2
  have hno : ¬ (total > total + CACHE_LINE_SIZE) := by omega
  have hdrop : ((written ++ (List.range (total + CACHE_LINE_SIZE - total)).map
        (fun o => env.junk (total + o))).drop
          (total - new_trailing_buf_len total)).take (new_trailing_buf_len total) =
      written.drop (total - new_trailing_buf_len total) := by
    rw [List.drop_append_of_le_length (by omega)]
    rw [List.take_append_of_le_length (by rw [List.length_drop]; omega)]
    apply List.take_of_length_le
    rw [List.length_drop]
    omega
  have hdl : (written.drop (total - new_trailing_buf_len total)).length =
      new_trailing_buf_len total := by
    rw [List.length_drop]
    omega
  have htake : (written ++ (List.range (total + CACHE_LINE_SIZE - total)).map
        (fun o => env.junk (total + o))).take (total - new_trailing_buf_len total) =
      written.take (total - new_trailing_buf_len total) :=
    List.take_append_of_le_length (by omega)
  have htb : (write_at (List.replicate 64 0) 0
      (written.drop (total - new_trailing_buf_len total))).take
        (new_trailing_buf_len total) = written.drop (total - new_trailing_buf_len total) := by
    have := write_at_take (List.replicate 64 0) 0
      (written.drop (total - new_trailing_buf_len total))
      (by rw [hdl, List.length_replicate]; omega)
    rw [hdl] at this
    simpa using this
  have htl : (write_at (List.replicate 64 0) 0
      (written.drop (total - new_trailing_buf_len total))).length = 64 := by
    rw [write_at_length _ _ _ (by rw [hdl, List.length_replicate]; omega),
      List.length_replicate]
  have hrun : sha_submit_aligned env E alg s total total written =
      .ok (0,
        { sha_ctxt :=
            { cb_store
                { s.sha_ctxt with
                  trailing_buf := write_at (List.replicate 64 0) 0
                    (written.drop (total - new_trailing_buf_len total))
                  trailing_buf_len := new_trailing_buf_len total }
                (E.cb (pass_of alg
                  { s.sha_ctxt with
                    trailing_buf := write_at (List.replicate 64 0) 0
                      (written.drop (total - new_trailing_buf_len total))
                    trailing_buf_len := new_trailing_buf_len total }
                  (written ++ (List.range (total + CACHE_LINE_SIZE - total)).map
                    (fun o => env.junk (total + o)))
                  (total - new_trailing_buf_len total))) with
              last_blk := 0, first_blk := 0 }
          trace := s.trace ++ [pass_of alg
            { s.sha_ctxt with
              trailing_buf := write_at (List.replicate 64 0) 0
                (written.drop (total - new_trailing_buf_len total))
              trailing_buf_len := new_trailing_buf_len total }
            (written ++ (List.range (total + CACHE_LINE_SIZE - total)).map
              (fun o => env.junk (total + o)))
            (total - new_trailing_buf_len total)] }) := by
    simp only [sha_submit_aligned, hno, if_false, f1, if_true, submit_sha, hE, f3, hdrop]
  refine ⟨_, hrun, ?_, ?_⟩
  · constructor
    · show (cb_store _ _).trailing_buf_len ≤ 64
      rw [cb_store_trailing_buf_len]
      exact f2
    · show (cb_store _ _).trailing_buf.length = 64
      rw [cb_store_trailing_buf]
      exact htl
    · show (cb_store _ _).init_done = true
      rw [cb_store_init_done]
      exact hs.init
    · rfl
    · intro p hp
      rcases List.mem_append.mp hp with hp | hp
      · exact hs.body p hp
      · rw [List.mem_singleton] at hp
        subst hp
        refine ⟨hs.last, f5, f4, ?_⟩
        show ((written ++ _).take (total - new_trailing_buf_len total)).length =
          total - new_trailing_buf_len total
        rw [htake, List.length_take]
        omega
    · right
      obtain ⟨p0, rest, a, b, c⟩ :=
        first_shape_snoc s.trace s.sha_ctxt.first_blk
          (pass_of alg
            { s.sha_ctxt with
              trailing_buf := write_at (List.replicate 64 0) 0
                (written.drop (total - new_trailing_buf_len total))
              trailing_buf_len := new_trailing_buf_len total }
            (written ++ (List.range (total + CACHE_LINE_SIZE - total)).map
              (fun o => env.junk (total + o)))
            (total - new_trailing_buf_len total)) rfl hs.first
      exact ⟨p0, rest, a, b, c, rfl⟩
  · show ((s.trace ++ [pass_of alg _ _ _]).map (fun p : sha_pass => p.src)).flatten ++
        (cb_store _ _).trailing_buf.take (cb_store _ _).trailing_buf_len = _
    rw [cb_store_trailing_buf, cb_store_trailing_buf_len]
    show ((s.trace ++ [pass_of alg _ _ _]).map (fun p : sha_pass => p.src)).flatten ++
        (write_at (List.replicate 64 0) 0
          (written.drop (total - new_trailing_buf_len total))).take
            (new_trailing_buf_len total) = _
    rw [htb]
    simp only [List.map_append, List.map_cons, List.map_nil, List.flatten_append,
      List.flatten_cons, List.flatten_nil, List.append_nil, List.append_assoc, pass_of,
      htake, List.take_append_drop]

/-- Both hash block sizes are 64. -/
theorem sha_block_size_eq (K : qcedev_hdr) (alg : Nat) :
    (if alg = K.QCEDEV_ALG_SHA1 then SHA1_BLOCK_SIZE else SHA256_BLOCK_SIZE) = 64 := by
  split_ifs <;> rfl

/-- One call of `qcedev_sha_update_max_xfer` on a descriptor it can take, with
readable user memory and an engine that accepts: it returns 0, keeps the
invariant and adds the bytes of the segments to the stream. -/
theorem qcedev_sha_update_max_xfer_ok (K : qcedev_hdr) (env : user_env) (E : hash_engine)
    (r : qcedev_sha_op_req) (s : hash_state)
    (hread : ∀ a n, env.readable a n = true) (hE : ∀ p, E.ret p = 0)
    (hs : hash_inv s) (hr : slice_ok K r) :
    ∃ s', qcedev_sha_update_max_xfer K env E r s = .ok (0, s') ∧ hash_inv s' ∧
      stream s' = stream s ++ bytes_from env r.data 0 r.entries := by
  have ht := hs.tlen
  have hsmall := hr.small
  have hT : (r.data_len + s.sha_ctxt.trailing_buf_len) % 2 ^ 32 =
      r.data_len + s.sha_ctxt.trailing_buf_len := by omega
  have hnn : ∀ j, 0 ≤ j → j < 0 + r.entries → (r.data j).len ≠ 0 → (r.data j).vaddr ≠ 0 :=
    fun j _ h2 => hr.nonnull j (by omega)
  by_cases hc : r.data_len + s.sha_ctxt.trailing_buf_len ≤ 64
  · obtain ⟨tb', e1, e2, e3⟩ := trailing_copy_loop_ok K env r.data hread r.entries
      (K.QCEDEV_MAX_BUFFERS + 1) 0 r.data_len s.sha_ctxt.trailing_buf_len
      s.sha_ctxt.trailing_buf (by have := hr.le; omega) (by have := hr.le; omega)
      hr.sum.symm (by omega) hs.tbuf hnn
    refine ⟨{ s with sha_ctxt := { s.sha_ctxt with
        trailing_buf := tb'
        trailing_buf_len := r.data_len + s.sha_ctxt.trailing_buf_len } }, ?_, ?_, ?_⟩
    · simp only [qcedev_sha_update_max_xfer, hT, sha_block_size_eq, hc, if_true, e1]
    · exact ⟨hc, e2, hs.init, hs.last, hs.body, hs.first⟩
    · simp only [stream]
      rw [Nat.add_comm r.data_len, e3, List.append_assoc]
  · have hn : 1 + (r.entries - 1) = r.entries := by have := hr.pos; omega
    have hk : (if s.sha_ctxt.trailing_buf_len > 0 then s.sha_ctxt.trailing_buf_len else 0) =
        s.sha_ctxt.trailing_buf_len := by
      split_ifs <;> omega
    have hw0 : (if s.sha_ctxt.trailing_buf_len > 0 then
          s.sha_ctxt.trailing_buf.take s.sha_ctxt.trailing_buf_len else []) =
        s.sha_ctxt.trailing_buf.take s.sha_ctxt.trailing_buf_len := by
      split_ifs with h
      · rfl
      · have : s.sha_ctxt.trailing_buf_len = 0 := by omega
        rw [this]
        rfl
    have hloop := scratch_copy_loop_ok K env r.data hread r.entries 0
      s.sha_ctxt.trailing_buf_len
      (s.sha_ctxt.trailing_buf.take s.sha_ctxt.trailing_buf_len)
      (by have := hr.le; omega) hnn
    have hlen : (s.sha_ctxt.trailing_buf.take s.sha_ctxt.trailing_buf_len ++
        bytes_from env r.data 0 r.entries).length =
          r.data_len + s.sha_ctxt.trailing_buf_len := by
      rw [List.length_append, List.length_take, bytes_from_length, hr.sum, hs.tbuf]
      omega
    obtain ⟨s', e1, e2, e3⟩ := sha_submit_aligned_ok env E r.alg s
      (r.data_len + s.sha_ctxt.trailing_buf_len)
      (s.sha_ctxt.trailing_buf.take s.sha_ctxt.trailing_buf_len ++
        bytes_from env r.data 0 r.entries) hE hs (by omega) (by omega) hlen
    refine ⟨s', ?_, e2, ?_⟩
    · simp only [qcedev_sha_update_max_xfer, hT, sha_block_size_eq, hc, if_false, hn, hk,
        hw0, hloop, hr.sum]
      rw [Nat.add_comm s.sha_ctxt.trailing_buf_len]
      exact e1
    · rw [e3]
      simp only [stream, List.append_assoc]

/-- A slot that was not written. -/
theorem set_seg_ne (data : Nat → buf_info) (i j : Nat) (b : buf_info) (h : j ≠ i) :
    set_seg data i b j = data j := by
  simp only [set_seg, h, if_false]

/-- The slot that was written. -/
theorem set_seg_eq (data : Nat → buf_info) (i : Nat) (b : buf_info) :
    set_seg data i b i = b := by
  simp only [set_seg, if_true]

/-- The counting loop either takes all `n` segments, which together stay below
the limit, or stops at the first segment with which the limit is reached and
cuts it to what still fits. -/
theorem gather_loop_spec (K : qcedev_hdr) (data : Nat → buf_info) (n : Nat) :
    ∀ j total num, total < K.QCE_MAX_OPER_DATA → total + len_from data j n < 2 ^ 32 →
      j + n ≤ K.QCEDEV_MAX_BUFFERS →
      (total + len_from data j n < K.QCE_MAX_OPER_DATA ∧
        gather_loop K data n j total num =
          .ok (data, j + n, total + len_from data j n, num + n)) ∨
      (∃ m, m < n ∧ total + len_from data j m < K.QCE_MAX_OPER_DATA ∧
        K.QCE_MAX_OPER_DATA ≤ total + len_from data j (m + 1) ∧
        gather_loop K data n j total num =
          .ok (set_seg data (j + m)
              { (data (j + m)) with
                len := K.QCE_MAX_OPER_DATA - (total + len_from data j m) },
            j + m, K.QCE_MAX_OPER_DATA, num + (m + 1))) := by
  induction n with
  | zero =>
    intro j total num h1 _ _
    left
    exact ⟨by simpa [len_from] using h1, by simp [gather_loop, len_from]⟩
  | succ n ih =>
    intro j total num h1 h2 h3
    simp only [len_from] at h2
    have hj : j < K.QCEDEV_MAX_BUFFERS := by omega
    have hmod : (total + (data j).len) % 2 ^ 32 = total + (data j).len := by omega
    by_cases hb : total + (data j).len ≥ K.QCE_MAX_OPER_DATA
    · right
      refine ⟨0, by omega, by simpa [len_from] using h1, by simpa [len_from] using hb, ?_⟩
      simp only [gather_loop, hj, not_true_eq_false, if_false, hmod, hb, if_true, len_from,
        Nat.add_zero]
    · rcases ih (j + 1) (total + (data j).len) (num + 1) (by omega) (by omega) (by omega)
        with ⟨a1, a2⟩ | ⟨m, b1, b2, b3, b4⟩
      · left
        refine ⟨by simp only [len_from]; omega, ?_⟩
        have e1 : j + 1 + n = j + (n + 1) := by omega
        have e2 : total + (data j).len + len_from data (j + 1) n =
            total + len_from data j (n + 1) := by
          simp only [len_from]
          omega
        have e3 : num + 1 + n = num + (n + 1) := by omega
        rw [gather_loop]
        simp only [hj, not_true_eq_false, if_false, hmod, hb]
        rw [a2, e1, e2, e3]
      · right
        have e1 : j + 1 + m = j + (m + 1) := by omega
        have e2 : total + (data j).len + len_from data (j + 1) m =
            total + len_from data j (m + 1) := by
          simp only [len_from]
          omega
        have e3 : num + 1 + (m + 1) = num + (m + 1 + 1) := by omega
        have e4 : total + (data j).len + len_from data (j + 1) (m + 1) =
            total + len_from data j (m + 1 + 1) := by
          simp only [len_from]
          omega
        refine ⟨m + 1, by omega, by rw [← e2]; exact b2, by rw [← e4]; exact b3, ?_⟩
        rw [gather_loop]
        simp only [hj, not_true_eq_false, if_false, hmod, hb]
        rw [b4, e1, e2, e3]

/-- The copy loop moves the `num` slots from index `i` on to the front, and
leaves the slots from `num` on alone, when `i` is positive. -/
theorem shift_loop_spec (data : Nat → buf_info) (i : Nat) (hi : 0 < i) (num : Nat) :
    (∀ k, k < num → shift_loop data i num k = data (i + k)) ∧
    (∀ k, num ≤ k → shift_loop data i num k = data k) := by
  induction num with
  | zero =>
    constructor
    · intro k hk
      omega
    · intro k _
      rfl
  | succ n ih =>
    obtain ⟨ih1, ih2⟩ := ih
    have e : shift_loop data i (n + 1) =
        set_seg (shift_loop data i n) n (shift_loop data i n (i + n)) := by
      simp only [shift_loop, List.range_succ, List.foldl_append, List.foldl_cons,
        List.foldl_nil]
    constructor
    · intro k hk
      rw [e]
      by_cases hkn : k = n
      · subst hkn
        rw [set_seg_eq]
        exact ih2 (i + k) (by omega)
      · rw [set_seg_ne _ _ _ _ hkn]
        exact ih1 k (by omega)
    · intro k hk
      rw [e, set_seg_ne _ _ _ _ (by omega)]
      exact ih2 k (by omega)

/-- The bytes of a run of segments that was moved. -/
theorem bytes_from_shift (env : user_env) (d1 d2 : Nat → buf_info) (n : Nat) :
    ∀ a b, (∀ k, k < n → d2 (a + k) = d1 (b + k)) →
      bytes_from env d2 a n = bytes_from env d1 b n := by
  induction n with
  | zero => intro a b _; rfl
  | succ n ih =>
    intro a b h
    have h0 := h 0 (by omega)
    simp only [Nat.add_zero] at h0
    simp only [bytes_from, h0]
    rw [ih (a + 1) (b + 1) (fun k hk => by
      have := h (k + 1) (by omega)
      simpa [Nat.add_assoc, Nat.add_comm 1 k] using this)]

/-- The length of a run of segments that was moved. -/
theorem len_from_shift (d1 d2 : Nat → buf_info) (n : Nat) :
    ∀ a b, (∀ k, k < n → d2 (a + k) = d1 (b + k)) → len_from d2 a n = len_from d1 b n := by
  induction n with
  | zero => intro a b _; rfl
  | succ n ih =>
    intro a b h
    have h0 := h 0 (by omega)
    simp only [Nat.add_zero] at h0
    simp only [len_from, h0]
    rw [ih (a + 1) (b + 1) (fun k hk => by
      have := h (k + 1) (by omega)
      simpa [Nat.add_assoc, Nat.add_comm 1 k] using this)]

/-- The bound on the rounds depends on the segments of the run only. -/
theorem rounds_congr (M : Nat) (d1 d2 : Nat → buf_info) (n : Nat) :
    ∀ i, (∀ j, i ≤ j → j < i + n → d1 j = d2 j) → rounds M d1 i n = rounds M d2 i n := by
  induction n with
  | zero => intro i _; rfl
  | succ n ih =>
    intro i h
    simp only [rounds]
    rw [h i (Nat.le_refl i) (by omega), ih (i + 1) (fun j h1 h2 => h j (by omega) (by omega))]

/-- The bound on the rounds of two runs, one after the other. -/
theorem rounds_add (M : Nat) (data : Nat → buf_info) (n : Nat) :
    ∀ m i, rounds M data i (n + m) = rounds M data i n + rounds M data (i + n) m := by
  induction n with
  | zero => intro m i; simp [rounds]
  | succ n ih =>
    intro m i
    have e : n + 1 + m = (n + m) + 1 := by omega
    rw [e, rounds, ih m (i + 1), rounds]
    have e2 : i + 1 + n = i + (n + 1) := by omega
    rw [e2]
    omega

/-- Every segment of a run counts for a round at least. -/
theorem rounds_ge (M : Nat) (data : Nat → buf_info) (n : Nat) :
    ∀ i, n ≤ rounds M data i n := by
  induction n with
  | zero => intro i; exact Nat.le_refl 0
  | succ n ih =>
    intro i
    have := ih (i + 1)
    simp only [rounds]
    generalize (data i).len / M = q
    omega

/-- The bound on the rounds is at most the fuel of `qcedev_sha_update`. -/
theorem rounds_le (M : Nat) (data : Nat → buf_info) (n : Nat) :
    ∀ i, rounds M data i n ≤ n + len_from data i n / M := by
  induction n with
  | zero => intro i; simp [rounds]
  | succ n ih =>
    intro i
    have h1 := ih (i + 1)
    have h2 := Nat.add_div_le_add_div (data i).len (len_from data (i + 1) n) M
    simp only [rounds, len_from]
    generalize (data i).len / M = q1 at h2 ⊢
    generalize len_from data (i + 1) n / M = q2 at h1 h2 ⊢
    generalize ((data i).len + len_from data (i + 1) n) / M = q3 at h2 ⊢
    omega

/-- Slot 0 of the descriptor of a slice taken from a long segment. -/
theorem slice_of_long_segment_zero (K : qcedev_hdr) (c : split_state) :
    (slice_of_long_segment K c).data 0 =
      { vaddr := (c.sreq.data c.i).vaddr, len := K.QCE_MAX_OPER_DATA } := by
  by_cases hi : c.i > 0
  · have hne : c.i ≠ 0 := by omega
    simp only [slice_of_long_segment, hi, if_true, set_seg_eq, set_seg_ne _ _ _ _ hne]
  · have he : c.i = 0 := by omega
    simp only [slice_of_long_segment, hi, if_false, set_seg_eq]
    rw [he]

/-- The other slots of the descriptor of a slice taken from a long segment. -/
theorem slice_of_long_segment_ne (K : qcedev_hdr) (c : split_state) (j : Nat)
    (hj : j ≠ 0) : (slice_of_long_segment K c).data j = c.sreq.data j := by
  by_cases hi : c.i > 0
  · simp only [slice_of_long_segment, hi, if_true, set_seg_ne _ _ _ _ hj]
  · simp only [slice_of_long_segment, hi, if_false, set_seg_ne _ _ _ _ hj]

/-- A run of at least one segment, its first segment apart. -/
theorem bytes_from_succ (env : user_env) (data : Nat → buf_info) (i n : Nat) :
    bytes_from env data i (n + 1) =
      user_bytes env (data i).vaddr (data i).len ++ bytes_from env data (i + 1) n := rfl

/-- One round of the splitting loop on a segment longer than the limit. -/
theorem split_step_long_segment (K : qcedev_hdr) (env : user_env) (E : hash_engine)
    (r : qcedev_sha_op_req) (s0 : hash_state) (c : split_state)
    (hread : ∀ a n, env.readable a n = true) (hE : ∀ p, E.ret p = 0)
    (hM0 : 0 < K.QCE_MAX_OPER_DATA) (hM1 : K.QCE_MAX_OPER_DATA + 128 < 2 ^ 32)
    (hent : r.entries < K.QCEDEV_MAX_BUFFERS) (hlen : r.data_len < 2 ^ 32)
    (inv : split_inv env r s0 c) (hi : c.i < r.entries)
    (hlong : (c.sreq.data c.i).len > K.QCE_MAX_OPER_DATA) :
    ∃ c1, split_step K env E r.entries c = .ok c1 ∧ split_inv env r s0 c1 ∧
      rounds K.QCE_MAX_OPER_DATA c1.req_data c1.i (r.entries - c1.i) <
        rounds K.QCE_MAX_OPER_DATA c.req_data c.i (r.entries - c.i) := by
  obtain ⟨n, hn⟩ : ∃ n, r.entries - c.i = n + 1 := ⟨r.entries - c.i - 1, by omega⟩
  have hag := inv.agree c.i (Nat.le_refl _) hi
  have hbound := inv.bound
  rw [hn, len_from] at hbound
  have hL : (c.req_data c.i).len > K.QCE_MAX_OPER_DATA := by rw [← hag]; exact hlong
  have hv : (c.req_data c.i).vaddr ≠ 0 :=
    inv.nonnull c.i (Nat.le_refl _) hi (by omega)
  have hslice : slice_ok K (slice_of_long_segment K c) := by
    constructor
    · exact Nat.le_refl 1
    · show 1 ≤ K.QCEDEV_MAX_BUFFERS
      omega
    · show len_from (slice_of_long_segment K c).data 0 1 = K.QCE_MAX_OPER_DATA
      simp only [len_from, slice_of_long_segment_zero, Nat.add_zero]
    · show K.QCE_MAX_OPER_DATA + 128 < 2 ^ 32
      exact hM1
    · intro j hj _
      have hj0 : j = 0 := by
        have : j < 1 := hj
        omega
      rw [hj0, slice_of_long_segment_zero, hag]
      exact hv
  obtain ⟨h1, e1, e2, e3⟩ := qcedev_sha_update_max_xfer_ok K env E
    (slice_of_long_segment K c) c.hash hread hE inv.hash hslice
  have e3b : stream h1 = stream c.hash ++
      user_bytes env (c.req_data c.i).vaddr K.QCE_MAX_OPER_DATA := by
    rw [e3]
    show _ ++ bytes_from env (slice_of_long_segment K c).data 0 1 = _
    simp only [bytes_from, slice_of_long_segment_zero, List.append_nil, hag]
  have hsub : ((c.req_data c.i).len + 2 ^ 32 - K.QCE_MAX_OPER_DATA) % 2 ^ 32 =
      (c.req_data c.i).len - K.QCE_MAX_OPER_DATA := by omega
  have hrest : ∀ b : buf_info, ∀ j, c.i + 1 ≤ j → j < c.i + 1 + n →
      set_seg c.req_data c.i b j = c.req_data j :=
    fun b j h1 _ => set_seg_ne _ _ _ _ (by omega)
  refine ⟨after_long_segment K c 0 h1, ?_, ?_, ?_⟩
  · have hib : c.i < K.QCEDEV_MAX_BUFFERS := by omega
    simp only [split_step, hib, not_true_eq_false, if_false, hlong, if_true, e1]
  · constructor
    · rfl
    · intro j hj1 hj2
      show set_seg (slice_of_long_segment K c).data c.i _ j = set_seg c.req_data c.i _ j
      by_cases hj : j = c.i
      · rw [hj, set_seg_eq, set_seg_eq]
      · rw [set_seg_ne _ _ _ _ hj, set_seg_ne _ _ _ _ hj,
          slice_of_long_segment_ne K c j (by
            have : c.i ≤ j := hj1
            omega)]
        exact inv.agree j hj1 hj2
    · intro j hj1 hj2
      show (set_seg c.req_data c.i _ j).len ≠ 0 → (set_seg c.req_data c.i _ j).vaddr ≠ 0
      by_cases hj : j = c.i
      · rw [hj, set_seg_eq]
        intro _
        show (c.req_data c.i).vaddr + K.QCE_MAX_OPER_DATA ≠ 0
        omega
      · rw [set_seg_ne _ _ _ _ hj]
        exact inv.nonnull j hj1 hj2
    · show len_from (set_seg c.req_data c.i _) c.i (r.entries - c.i) ≤ r.data_len
      rw [hn, len_from, set_seg_eq, len_from_congr _ c.req_data n (c.i + 1) (hrest _)]
      show ((c.req_data c.i).len + 2 ^ 32 - K.QCE_MAX_OPER_DATA) % 2 ^ 32 + _ ≤ _
      rw [hsub]
      omega
    · exact e2
    · show stream h1 ++ bytes_from env (set_seg c.req_data c.i _) c.i (r.entries - c.i) = _
      rw [hn, bytes_from_succ, set_seg_eq,
        bytes_from_congr env _ c.req_data n (c.i + 1) (hrest _), e3b, ← inv.stream, hn,
        bytes_from_succ]
      show _ ++ (user_bytes env ((c.req_data c.i).vaddr + K.QCE_MAX_OPER_DATA)
        (((c.req_data c.i).len + 2 ^ 32 - K.QCE_MAX_OPER_DATA) % 2 ^ 32) ++ _) = _
      rw [hsub]
      have hsplit := user_bytes_add env (c.req_data c.i).vaddr K.QCE_MAX_OPER_DATA
        ((c.req_data c.i).len - K.QCE_MAX_OPER_DATA)
      have hadd : K.QCE_MAX_OPER_DATA + ((c.req_data c.i).len - K.QCE_MAX_OPER_DATA) =
          (c.req_data c.i).len := by omega
      rw [hadd] at hsplit
      rw [hsplit]
      simp only [List.append_assoc]
  · show rounds _ (set_seg c.req_data c.i _) c.i (r.entries - c.i) < _
    rw [hn, rounds, rounds, set_seg_eq,
      rounds_congr _ _ c.req_data n (c.i + 1) (hrest _)]
    show 1 + ((c.req_data c.i).len + 2 ^ 32 - K.QCE_MAX_OPER_DATA) % 2 ^ 32 /
      K.QCE_MAX_OPER_DATA + _ < _
    rw [hsub]
    have hdiv := Nat.div_eq_sub_div hM0 (Nat.le_of_lt hL)
    rw [hdiv]
    omega

/-- The counted slots of the descriptor of a slice of whole segments. -/
theorem slice_of_segments_front (c : split_state)
    (g : (Nat → buf_info) × Nat × Nat × Nat) (k : Nat) (hk : k < g.2.2.2) :
    (slice_of_segments c g).data k = g.1 (c.i + k) := by
  by_cases hi : c.i > 0
  · simp only [slice_of_segments, hi, if_true]
    exact (shift_loop_spec g.1 c.i hi g.2.2.2).1 k hk
  · have he : c.i = 0 := by omega
    simp only [slice_of_segments, hi, if_false]
    rw [he, Nat.zero_add]

/-- The slots behind the counted ones in that descriptor. -/
theorem slice_of_segments_back (c : split_state)
    (g : (Nat → buf_info) × Nat × Nat × Nat) (k : Nat) (hk : g.2.2.2 ≤ k) :
    (slice_of_segments c g).data k = g.1 k := by
  by_cases hi : c.i > 0
  · simp only [slice_of_segments, hi, if_true]
    exact (shift_loop_spec g.1 c.i hi g.2.2.2).2 k hk
  · simp only [slice_of_segments, hi, if_false]

/-- One round of the splitting loop that takes all the segments that are
left. -/
theorem split_step_all_left (K : qcedev_hdr) (env : user_env) (E : hash_engine)
    (r : qcedev_sha_op_req) (s0 : hash_state) (c : split_state)
    (g : (Nat → buf_info) × Nat × Nat × Nat)
    (hread : ∀ a n, env.readable a n = true) (hE : ∀ p, E.ret p = 0)
    (hM1 : K.QCE_MAX_OPER_DATA + 128 < 2 ^ 32)
    (hent : r.entries < K.QCEDEV_MAX_BUFFERS)
    (inv : split_inv env r s0 c) (hi : c.i < r.entries)
    (hshort : ¬ (c.sreq.data c.i).len > K.QCE_MAX_OPER_DATA)
    (hsum : len_from c.sreq.data c.i (r.entries - c.i) < K.QCE_MAX_OPER_DATA)
    (hg : gather_loop K c.sreq.data (r.entries - c.i) c.i 0 0 = .ok g)
    (hg1 : g.1 = c.sreq.data) (hg2 : g.2.1 = r.entries)
    (hg3 : g.2.2.1 = len_from c.sreq.data c.i (r.entries - c.i))
    (hg4 : g.2.2.2 = r.entries - c.i) :
    ∃ c1, split_step K env E r.entries c = .ok c1 ∧ split_inv env r s0 c1 ∧
      rounds K.QCE_MAX_OPER_DATA c1.req_data c1.i (r.entries - c1.i) <
        rounds K.QCE_MAX_OPER_DATA c.req_data c.i (r.entries - c.i) := by
  have hagree : ∀ j, c.i ≤ j → j < c.i + (r.entries - c.i) → c.sreq.data j = c.req_data j :=
    fun j h1 h2 => inv.agree j h1 (by omega)
  have hfront : ∀ k, k < r.entries - c.i →
      (slice_of_segments c g).data (0 + k) = c.sreq.data (c.i + k) := by
    intro k hk
    rw [Nat.zero_add, slice_of_segments_front c g k (by rw [hg4]; exact hk), hg1]
  have hslice : slice_ok K (slice_of_segments c g) := by
    constructor
    · show 1 ≤ g.2.2.2
      omega
    · show g.2.2.2 ≤ K.QCEDEV_MAX_BUFFERS
      omega
    · show len_from _ 0 g.2.2.2 = g.2.2.1
      rw [hg4, hg3]
      exact len_from_shift _ _ _ 0 c.i hfront
    · show g.2.2.1 + 128 < 2 ^ 32
      omega
    · intro j hj
      have hj2 : j < r.entries - c.i := by
        have : j < g.2.2.2 := hj
        omega
      have := hfront j hj2
      rw [Nat.zero_add] at this
      rw [this, hagree (c.i + j) (by omega) (by omega)]
      exact inv.nonnull (c.i + j) (by omega) (by omega)
  obtain ⟨h1, e1, e2, e3⟩ := qcedev_sha_update_max_xfer_ok K env E _ c.hash hread hE
    inv.hash hslice
  have e3b : stream h1 = stream c.hash ++
      bytes_from env c.req_data c.i (r.entries - c.i) := by
    rw [e3]
    show _ ++ bytes_from env _ 0 g.2.2.2 = _
    rw [hg4, bytes_from_shift env c.sreq.data _ _ 0 c.i hfront,
      bytes_from_congr env _ _ _ c.i hagree]
  have hdone : ∀ x : Nat, r.entries - (if x = 0 then g.2.1 + 1 else g.2.1) = 0 := by
    intro x
    split_ifs <;> omega
  have hpast : ∀ x j : Nat, (if x = 0 then g.2.1 + 1 else g.2.1) ≤ j → ¬ j < r.entries := by
    intro x j h
    split_ifs at h <;> omega
  refine ⟨after_segments c g 0 h1, ?_, ?_, ?_⟩
  · have hib : c.i < K.QCEDEV_MAX_BUFFERS := by omega
    have hjb : g.2.1 < K.QCEDEV_MAX_BUFFERS := by omega
    simp only [split_step, hib, not_true_eq_false, if_false, hshort, hg, e1, hjb]
  · constructor
    · rfl
    · intro j hj1 hj2
      exact absurd hj2 (hpast _ j hj1)
    · intro j hj1 hj2
      exact absurd hj2 (hpast _ j hj1)
    · show len_from _ _ (r.entries - (if _ = 0 then _ else _)) ≤ _
      rw [hdone]
      exact Nat.zero_le _
    · exact e2
    · show stream h1 ++ bytes_from env _ _ (r.entries - (if _ = 0 then _ else _)) = _
      rw [hdone, e3b]
      simp only [bytes_from, List.append_nil]
      exact inv.stream
  · show rounds _ _ _ (r.entries - (if _ = 0 then _ else _)) < _
    rw [hdone]
    have := rounds_ge K.QCE_MAX_OPER_DATA c.req_data (r.entries - c.i) c.i
    simp only [rounds]
    omega

/-- One round of the splitting loop whose slice ends inside segment
`c.i + m`, with which the limit is reached. -/
theorem split_step_cut (K : qcedev_hdr) (env : user_env) (E : hash_engine)
    (r : qcedev_sha_op_req) (s0 : hash_state) (c : split_state)
    (g : (Nat → buf_info) × Nat × Nat × Nat) (m : Nat)
    (hread : ∀ a n, env.readable a n = true) (hE : ∀ p, E.ret p = 0)
    (hM1 : K.QCE_MAX_OPER_DATA + 128 < 2 ^ 32)
    (hent : r.entries < K.QCEDEV_MAX_BUFFERS) (hlen : r.data_len < 2 ^ 32)
    (inv : split_inv env r s0 c)
    (hshort : ¬ (c.sreq.data c.i).len > K.QCE_MAX_OPER_DATA)
    (hm : m < r.entries - c.i)
    (hP : len_from c.sreq.data c.i m < K.QCE_MAX_OPER_DATA)
    (hPM : K.QCE_MAX_OPER_DATA ≤ len_from c.sreq.data c.i (m + 1))
    (hg : gather_loop K c.sreq.data (r.entries - c.i) c.i 0 0 = .ok g)
    (hg1 : g.1 (c.i + m) =
      { vaddr := (c.sreq.data (c.i + m)).vaddr
        len := K.QCE_MAX_OPER_DATA - len_from c.sreq.data c.i m })
    (hg1b : ∀ j, j ≠ c.i + m → g.1 j = c.sreq.data j)
    (hg2 : g.2.1 = c.i + m) (hg3 : g.2.2.1 = K.QCE_MAX_OPER_DATA)
    (hg4 : g.2.2.2 = m + 1) :
    ∃ c1, split_step K env E r.entries c = .ok c1 ∧ split_inv env r s0 c1 ∧
      rounds K.QCE_MAX_OPER_DATA c1.req_data c1.i (r.entries - c1.i) <
        rounds K.QCE_MAX_OPER_DATA c.req_data c.i (r.entries - c.i) := by
  obtain ⟨n2, hn2⟩ : ∃ n2, r.entries - c.i = m + (1 + n2) :=
    ⟨r.entries - c.i - m - 1, by omega⟩
  have hn3 : r.entries - (c.i + m) = n2 + 1 := by omega
  have hn4 : r.entries - (c.i + m + 1) = n2 := by omega
  have hagree : ∀ j, c.i ≤ j → j < r.entries → c.sreq.data j = c.req_data j := inv.agree
  have hagj := hagree (c.i + m) (by omega) (by omega)
  have hPR : len_from c.sreq.data c.i m = len_from c.req_data c.i m :=
    len_from_congr _ _ m c.i (fun j h1 h2 => hagree j h1 (by omega))
  have hsnoc := len_from_snoc c.sreq.data m c.i
  rw [hsnoc] at hPM
  have hbound := inv.bound
  rw [hn2, len_from_add, len_from_add, len_from] at hbound
  simp only [len_from] at hbound
  have hLpos : (c.req_data (c.i + m)).len ≠ 0 := by
    rw [← hagj]
    omega
  have hv : (c.req_data (c.i + m)).vaddr ≠ 0 :=
    inv.nonnull (c.i + m) (by omega) (by omega) hLpos
  have hfront : ∀ k, k < m + 1 → (slice_of_segments c g).data (0 + k) = g.1 (c.i + k) := by
    intro k hk
    rw [Nat.zero_add, slice_of_segments_front c g k (by rw [hg4]; exact hk)]
  have hg1c : ∀ j, c.i ≤ j → j < c.i + m → g.1 j = c.sreq.data j :=
    fun j _ h2 => hg1b j (by omega)
  have hsum : len_from (slice_of_segments c g).data 0 (m + 1) = K.QCE_MAX_OPER_DATA := by
    rw [len_from_shift g.1 _ (m + 1) 0 c.i hfront, len_from_snoc, hg1,
      len_from_congr g.1 c.sreq.data m c.i hg1c]
    show _ + (K.QCE_MAX_OPER_DATA - _) = _
    omega
  have hslice : slice_ok K (slice_of_segments c g) := by
    constructor
    · show 1 ≤ g.2.2.2
      omega
    · show g.2.2.2 ≤ K.QCEDEV_MAX_BUFFERS
      omega
    · show len_from _ 0 g.2.2.2 = g.2.2.1
      rw [hg4, hg3]
      exact hsum
    · show g.2.2.1 + 128 < 2 ^ 32
      omega
    · intro j hj
      have hj2 : j < m + 1 := by
        have : j < g.2.2.2 := hj
        omega
      have hf := hfront j hj2
      rw [Nat.zero_add] at hf
      rw [hf]
      by_cases hjm : j = m
      · rw [hjm, hg1]
        intro _
        show (c.sreq.data (c.i + m)).vaddr ≠ 0
        rw [hagj]
        exact hv
      · rw [hg1b (c.i + j) (by omega), hagree (c.i + j) (by omega) (by omega)]
        exact inv.nonnull (c.i + j) (by omega) (by omega)
  obtain ⟨h1, e1, e2, e3⟩ := qcedev_sha_update_max_xfer_ok K env E _ c.hash hread hE
    inv.hash hslice
  have e3b : stream h1 = stream c.hash ++ (bytes_from env c.req_data c.i m ++
      user_bytes env (c.req_data (c.i + m)).vaddr
        (K.QCE_MAX_OPER_DATA - len_from c.req_data c.i m)) := by
    rw [e3]
    show _ ++ bytes_from env _ 0 g.2.2.2 = _
    rw [hg4, bytes_from_shift env g.1 _ (m + 1) 0 c.i hfront, bytes_from_snoc, hg1,
      bytes_from_congr env g.1 c.sreq.data m c.i hg1c,
      bytes_from_congr env c.sreq.data c.req_data m c.i
        (fun j h1 h2 => hagree j h1 (by omega))]
    show _ ++ (_ ++ user_bytes env (c.sreq.data (c.i + m)).vaddr
      (K.QCE_MAX_OPER_DATA - len_from c.sreq.data c.i m)) = _
    rw [hagj, hPR]
  have hslot : (slice_of_segments c g).data (c.i + m) =
      { vaddr := (c.sreq.data (c.i + m)).vaddr
        len := K.QCE_MAX_OPER_DATA - len_from c.sreq.data c.i m } := by
    by_cases hi0 : c.i > 0
    · rw [slice_of_segments_back c g (c.i + m) (by rw [hg4]; omega), hg1]
    · have he : c.i = 0 := by omega
      have := slice_of_segments_front c g m (by rw [hg4]; omega)
      rw [he, Nat.zero_add] at this ⊢
      rw [this]
      have h2 := hg1
      rw [he, Nat.zero_add] at h2
      exact h2
  have hsub : ((c.req_data (c.i + m)).len + 2 ^ 32 -
      (K.QCE_MAX_OPER_DATA - len_from c.req_data c.i m)) % 2 ^ 32 =
      (c.req_data (c.i + m)).len - (K.QCE_MAX_OPER_DATA - len_from c.req_data c.i m) := by
    rw [← hagj, ← hPR]
    rw [← hagj, ← hPR] at hbound
    omega
  have hc1 : after_segments c g 0 h1 =
      { sreq := { slice_of_segments c g with
          data := set_seg (slice_of_segments c g).data (c.i + m)
            { vaddr := (c.req_data (c.i + m)).vaddr +
                (K.QCE_MAX_OPER_DATA - len_from c.req_data c.i m)
              len := (c.req_data (c.i + m)).len -
                (K.QCE_MAX_OPER_DATA - len_from c.req_data c.i m) } }
        req_data := set_seg c.req_data (c.i + m)
          { vaddr := (c.req_data (c.i + m)).vaddr +
              (K.QCE_MAX_OPER_DATA - len_from c.req_data c.i m)
            len := (c.req_data (c.i + m)).len -
              (K.QCE_MAX_OPER_DATA - len_from c.req_data c.i m) }
        i := if (c.req_data (c.i + m)).len -
            (K.QCE_MAX_OPER_DATA - len_from c.req_data c.i m) = 0
          then c.i + m + 1 else c.i + m
        err := 0, hash := h1 } := by
    simp only [after_segments, hg2, hslot, hPR, hsub]
  have hrest : ∀ b : buf_info, ∀ j, c.i + m + 1 ≤ j → j < c.i + m + 1 + n2 →
      set_seg c.req_data (c.i + m) b j = c.req_data j :=
    fun b j h1 _ => set_seg_ne _ _ _ _ (by omega)
  have hstream := inv.stream
  rw [hn2, bytes_from_add, bytes_from_add] at hstream
  simp only [bytes_from, List.append_nil] at hstream
  have hrounds : rounds K.QCE_MAX_OPER_DATA c.req_data c.i (r.entries - c.i) =
      rounds K.QCE_MAX_OPER_DATA c.req_data c.i m +
        (1 + (c.req_data (c.i + m)).len / K.QCE_MAX_OPER_DATA +
          rounds K.QCE_MAX_OPER_DATA c.req_data (c.i + m + 1) n2) := by
    rw [hn2, rounds_add, Nat.add_comm 1 n2, rounds]
  refine ⟨after_segments c g 0 h1, ?_, ?_, ?_⟩
  · have hib : c.i < K.QCEDEV_MAX_BUFFERS := by omega
    have hjb : g.2.1 < K.QCEDEV_MAX_BUFFERS := by omega
    simp only [split_step, hib, not_true_eq_false, if_false, hshort, hg, e1, hjb]
  · rw [hc1]
    by_cases hz : (c.req_data (c.i + m)).len -
        (K.QCE_MAX_OPER_DATA - len_from c.req_data c.i m) = 0
    · -- the segment is used up: the index moves on
      simp only [hz, if_true]
      constructor
      · rfl
      · intro j hj1 hj2
        have hj1b : c.i + m + 1 ≤ j := hj1
        show set_seg (slice_of_segments c g).data (c.i + m) _ j =
          set_seg c.req_data (c.i + m) _ j
        rw [set_seg_ne _ _ _ _ (by omega), set_seg_ne _ _ _ _ (by omega),
          slice_of_segments_back c g j (by rw [hg4]; omega), hg1b j (by omega)]
        exact hagree j (by omega) hj2
      · intro j hj1 hj2
        have hj1b : c.i + m + 1 ≤ j := hj1
        show (set_seg c.req_data (c.i + m) _ j).len ≠ 0 →
          (set_seg c.req_data (c.i + m) _ j).vaddr ≠ 0
        rw [set_seg_ne _ _ _ _ (by omega)]
        exact inv.nonnull j (by omega) hj2
      · show len_from (set_seg c.req_data (c.i + m) _) (c.i + m + 1)
          (r.entries - (c.i + m + 1)) ≤ _
        rw [hn4, len_from_congr _ c.req_data n2 (c.i + m + 1) (hrest _)]
        omega
      · exact e2
      · show stream h1 ++ bytes_from env (set_seg c.req_data (c.i + m) _) (c.i + m + 1)
          (r.entries - (c.i + m + 1)) = _
        rw [hn4, bytes_from_congr env _ c.req_data n2 (c.i + m + 1) (hrest _), e3b,
          ← hstream]
        have hfull : K.QCE_MAX_OPER_DATA - len_from c.req_data c.i m =
            (c.req_data (c.i + m)).len := by
          rw [← hagj, ← hPR]
          rw [← hagj, ← hPR] at hz
          omega
        rw [hfull]
        simp only [List.append_assoc]
    · -- part of the segment is left: the index stays
      simp only [hz, if_false]
      constructor
      · rfl
      · intro j hj1 hj2
        have hj1b : c.i + m ≤ j := hj1
        show set_seg (slice_of_segments c g).data (c.i + m) _ j =
          set_seg c.req_data (c.i + m) _ j
        by_cases hj : j = c.i + m
        · rw [hj, set_seg_eq, set_seg_eq]
        · rw [set_seg_ne _ _ _ _ hj, set_seg_ne _ _ _ _ hj,
            slice_of_segments_back c g j (by rw [hg4]; omega), hg1b j hj]
          exact hagree j (by omega) hj2
      · intro j hj1 hj2
        have hj1b : c.i + m ≤ j := hj1
        show (set_seg c.req_data (c.i + m) _ j).len ≠ 0 →
          (set_seg c.req_data (c.i + m) _ j).vaddr ≠ 0
        by_cases hj : j = c.i + m
        · rw [hj, set_seg_eq]
          intro _
          show (c.req_data (c.i + m)).vaddr + _ ≠ 0
          omega
        · rw [set_seg_ne _ _ _ _ hj]
          exact inv.nonnull j (by omega) hj2
      · show len_from (set_seg c.req_data (c.i + m) _) (c.i + m) (r.entries - (c.i + m)) ≤ _
        rw [hn3, len_from, set_seg_eq,
          len_from_congr _ c.req_data n2 (c.i + m + 1) (hrest _)]
        show (c.req_data (c.i + m)).len - _ + _ ≤ _
        omega
      · exact e2
      · show stream h1 ++ bytes_from env (set_seg c.req_data (c.i + m) _) (c.i + m)
          (r.entries - (c.i + m)) = _
        rw [hn3, bytes_from_succ, set_seg_eq,
          bytes_from_congr env _ c.req_data n2 (c.i + m + 1) (hrest _), e3b, ← hstream]
        show _ ++ (user_bytes env ((c.req_data (c.i + m)).vaddr +
          (K.QCE_MAX_OPER_DATA - len_from c.req_data c.i m))
          ((c.req_data (c.i + m)).len -
            (K.QCE_MAX_OPER_DATA - len_from c.req_data c.i m)) ++ _) = _
        have hsplit := user_bytes_add env (c.req_data (c.i + m)).vaddr
          (K.QCE_MAX_OPER_DATA - len_from c.req_data c.i m)
          ((c.req_data (c.i + m)).len - (K.QCE_MAX_OPER_DATA - len_from c.req_data c.i m))
        have hadd : K.QCE_MAX_OPER_DATA - len_from c.req_data c.i m +
            ((c.req_data (c.i + m)).len -
              (K.QCE_MAX_OPER_DATA - len_from c.req_data c.i m)) =
            (c.req_data (c.i + m)).len := by
          rw [← hagj, ← hPR]
          omega
        rw [hadd] at hsplit
        rw [hsplit]
        simp only [List.append_assoc]
  · rw [hc1, hrounds]
    by_cases hz : (c.req_data (c.i + m)).len -
        (K.QCE_MAX_OPER_DATA - len_from c.req_data c.i m) = 0
    · simp only [hz, if_true]
      rw [hn4, rounds_congr _ _ c.req_data n2 (c.i + m + 1) (hrest _)]
      generalize (c.req_data (c.i + m)).len / K.QCE_MAX_OPER_DATA = q
      omega
    · simp only [hz, if_false]
      rw [hn3, rounds, set_seg_eq, rounds_congr _ _ c.req_data n2 (c.i + m + 1) (hrest _)]
      show 1 + ((c.req_data (c.i + m)).len -
        (K.QCE_MAX_OPER_DATA - len_from c.req_data c.i m)) / K.QCE_MAX_OPER_DATA + _ < _
      have hdiv : ((c.req_data (c.i + m)).len -
          (K.QCE_MAX_OPER_DATA - len_from c.req_data c.i m)) / K.QCE_MAX_OPER_DATA ≤
          (c.req_data (c.i + m)).len / K.QCE_MAX_OPER_DATA :=
        Nat.div_le_div_right (Nat.sub_le _ _)
      have hmpos : 0 < m := by
        by_contra hm0
        have hm00 : m = 0 := by omega
        subst hm00
        simp only [len_from, Nat.add_zero, Nat.zero_add, Nat.sub_zero] at hz hPM hagj
        rw [hagj] at hPM hshort
        omega
      have hr := rounds_ge K.QCE_MAX_OPER_DATA c.req_data m c.i
      generalize ((c.req_data (c.i + m)).len -
        (K.QCE_MAX_OPER_DATA - len_from c.req_data c.i m)) / K.QCE_MAX_OPER_DATA = q1
        at hdiv ⊢
      generalize (c.req_data (c.i + m)).len / K.QCE_MAX_OPER_DATA = q2 at hdiv ⊢
      omega

/-- One round of the splitting loop, whatever branch it takes: it returns,
keeps the invariant and lowers the bound on the rounds. -/
theorem split_step_ok (K : qcedev_hdr) (env : user_env) (E : hash_engine)
    (r : qcedev_sha_op_req) (s0 : hash_state) (c : split_state)
    (hread : ∀ a n, env.readable a n = true) (hE : ∀ p, E.ret p = 0)
    (hM0 : 0 < K.QCE_MAX_OPER_DATA) (hM1 : K.QCE_MAX_OPER_DATA + 128 < 2 ^ 32)
    (hent : r.entries < K.QCEDEV_MAX_BUFFERS) (hlen : r.data_len < 2 ^ 32)
    (inv : split_inv env r s0 c) (hi : c.i < r.entries) :
    ∃ c1, split_step K env E r.entries c = .ok c1 ∧ split_inv env r s0 c1 ∧
      rounds K.QCE_MAX_OPER_DATA c1.req_data c1.i (r.entries - c1.i) <
        rounds K.QCE_MAX_OPER_DATA c.req_data c.i (r.entries - c.i) := by
  by_cases hlong : (c.sreq.data c.i).len > K.QCE_MAX_OPER_DATA
  · exact split_step_long_segment K env E r s0 c hread hE hM0 hM1 hent hlen inv hi hlong
  · have hLR : len_from c.sreq.data c.i (r.entries - c.i) =
        len_from c.req_data c.i (r.entries - c.i) :=
      len_from_congr _ _ _ c.i (fun j h1 h2 => inv.agree j h1 (by omega))
    have hbound := inv.bound
    rcases gather_loop_spec K c.sreq.data (r.entries - c.i) c.i 0 0 hM0
        (by rw [Nat.zero_add, hLR]; omega) (by omega) with ⟨a1, a2⟩ | ⟨m, b1, b2, b3, b4⟩
    · rw [Nat.zero_add] at a1
      exact split_step_all_left K env E r s0 c _ hread hE hM1 hent inv hi hlong a1 a2 rfl
        (by show c.i + (r.entries - c.i) = r.entries; omega)
        (by show 0 + len_from c.sreq.data c.i (r.entries - c.i) = _; omega)
        (by show 0 + (r.entries - c.i) = _; omega)
    · rw [Nat.zero_add] at b2 b3
      exact split_step_cut K env E r s0 c _ m hread hE hM1 hent hlen inv hlong b1 b2 b3 b4
        (by
          show set_seg c.sreq.data (c.i + m) _ (c.i + m) = _
          rw [set_seg_eq, Nat.zero_add])
        (fun j hj => set_seg_ne _ _ _ _ hj) rfl rfl
        (by show 0 + (m + 1) = m + 1; omega)

/-- The splitting loop with fuel for the bound on its rounds: it returns with
the index at the end of the segments and the invariant kept. -/
theorem split_loop_ok (K : qcedev_hdr) (env : user_env) (E : hash_engine)
    (r : qcedev_sha_op_req) (s0 : hash_state)
    (hread : ∀ a n, env.readable a n = true) (hE : ∀ p, E.ret p = 0)
    (hM0 : 0 < K.QCE_MAX_OPER_DATA) (hM1 : K.QCE_MAX_OPER_DATA + 128 < 2 ^ 32)
    (hent : r.entries < K.QCEDEV_MAX_BUFFERS) (hlen : r.data_len < 2 ^ 32) (fuel : Nat) :
    ∀ c, split_inv env r s0 c →
      rounds K.QCE_MAX_OPER_DATA c.req_data c.i (r.entries - c.i) ≤ fuel →
      ∃ c1, split_loop K env E r.entries fuel c = .ok c1 ∧ split_inv env r s0 c1 ∧
        ¬ c1.i < r.entries := by
  induction fuel with
  | zero =>
    intro c inv hr
    have hge := rounds_ge K.QCE_MAX_OPER_DATA c.req_data (r.entries - c.i) c.i
    have hi : ¬ c.i < r.entries := by omega
    refine ⟨c, ?_, inv, hi⟩
    simp only [split_loop, hi, false_and, if_false]
  | succ fuel ih =>
    intro c inv hr
    by_cases hi : c.i < r.entries
    · obtain ⟨c1, e1, inv1, hlt⟩ :=
        split_step_ok K env E r s0 c hread hE hM0 hM1 hent hlen inv hi
      obtain ⟨c2, e2, inv2, hi2⟩ := ih c1 inv1 (by omega)
      refine ⟨c2, ?_, inv2, hi2⟩
      simp only [split_loop, hi, inv.err, and_self, if_true, e1, e2]
    · refine ⟨c, ?_, inv, hi⟩
      simp only [split_loop, hi, false_and, if_false]

/-- The guarded sum of the hash validator is the exact sum of the segment
lengths and fits in 32 bits. -/
theorem sha_total_exact (data : Nat → buf_info) (n : Nat) :
    ∀ total, (List.range n).foldlM
        (fun total i =>
          if (data i).len > U32_MAX - total then none
          else some ((total + (data i).len) % 2 ^ 32)) 0 = some total →
      total = len_from data 0 n ∧ total ≤ U32_MAX := by
  induction n with
  | zero =>
    intro total h
    simp only [List.range_zero, List.foldlM_nil] at h
    have : total = 0 := by
      cases h
      rfl
    subst this
    exact ⟨rfl, Nat.zero_le _⟩
  | succ n ih =>
    intro total h
    rw [List.range_succ, List.foldlM_append] at h
    cases hp : (List.range n).foldlM
        (fun total i =>
          if (data i).len > U32_MAX - total then none
          else some ((total + (data i).len) % 2 ^ 32)) 0 with
    | none =>
      rw [hp] at h
      cases h
    | some t =>
      rw [hp] at h
      obtain ⟨h1, h2⟩ := ih t hp
      simp only [List.foldlM_cons, List.foldlM_nil, Option.some_bind, Option.bind_eq_bind] at h
      by_cases hg : (data n).len > U32_MAX - t
      · simp only [hg, if_true, Option.none_bind] at h
        cases h
      · simp only [hg, if_false, Option.some_bind] at h
        have hu : U32_MAX = 2 ^ 32 - 1 := rfl
        have hmod : (t + (data n).len) % 2 ^ 32 = t + (data n).len := by
          rw [hu] at hg h2
          omega
        have ht : total = t + (data n).len := by
          have := Option.some.inj h
          rw [hmod] at this
          exact this.symm
        have hs := len_from_snoc data n 0
        rw [Nat.zero_add] at hs
        rw [hu] at hg h2 ⊢
        constructor
        · rw [hs, ← h1, ht]
        · omega

/-- A hash request that the validator accepts has between 1 and
`QCEDEV_MAX_BUFFERS` segments, whose lengths add up to `data_len`, which fits
in 32 bits. -/
theorem qcedev_check_sha_params_accept (K : qcedev_hdr) (req : qcedev_sha_op_req)
    (podev : ce_support) (h : qcedev_check_sha_params K req podev = 0) :
    1 ≤ req.entries ∧ req.entries ≤ K.QCEDEV_MAX_BUFFERS ∧
      len_from req.data 0 req.entries = req.data_len ∧ req.data_len < 2 ^ 32 := by
  unfold qcedev_check_sha_params at h
  obtain ⟨_, h⟩ := guard_eq_zero h
  obtain ⟨g2, h⟩ := guard_eq_zero h
  obtain ⟨_, h⟩ := guard_eq_zero h
  obtain ⟨_, h⟩ := guard_eq_zero h
  obtain ⟨_, h⟩ := guard_eq_zero h
  have hne : (- EINVAL : Int) ≠ 0 := by decide
  cases hp : (List.range req.entries).foldlM
      (fun total i =>
        if (req.data i).len > U32_MAX - total then none
        else some ((total + (req.data i).len) % 2 ^ 32)) 0 with
  | none =>
    rw [hp] at h
    exact absurd h hne
  | some total =>
    rw [hp] at h
    obtain ⟨h1, h2⟩ := sha_total_exact req.data req.entries total hp
    have ht : total = req.data_len := by
      by_contra hc
      simp only [ne_eq, hc, not_false_eq_true, if_true] at h
      exact absurd h hne
    have hu : U32_MAX = 2 ^ 32 - 1 := rfl
    rw [hu] at h2
    refine ⟨by omega, by omega, by rw [← h1, ht], by omega⟩

/-- `Update` on a validated request whose segments are readable and not at
NULL, with an engine that accepts, returns 0, keeps the invariant of the handle
and adds the message to its stream, provided the request fits in one slice or
has fewer than `QCEDEV_MAX_BUFFERS` segments. -/
theorem qcedev_sha_update_ok (K : qcedev_hdr) (env : user_env) (E : hash_engine)
    (podev : ce_support) (r : qcedev_sha_op_req) (s : hash_state)
    (hread : ∀ a n, env.readable a n = true) (hE : ∀ p, E.ret p = 0)
    (hM0 : 0 < K.QCE_MAX_OPER_DATA) (hM1 : K.QCE_MAX_OPER_DATA + 128 < 2 ^ 32)
    (hs : hash_inv s) (hv : qcedev_check_sha_params K r podev = 0)
    (hnn : ∀ j, j < r.entries → (r.data j).len ≠ 0 → (r.data j).vaddr ≠ 0)
    (hfit : r.data_len ≤ K.QCE_MAX_OPER_DATA ∨ r.entries < K.QCEDEV_MAX_BUFFERS) :
    ∃ s1 r1, qcedev_sha_update K env E r s = .ok (0, s1, r1) ∧ hash_inv s1 ∧
      stream s1 = stream s ++ bytes_from env r.data 0 r.entries := by
  obtain ⟨hpos, hle, hsum, hlen⟩ := qcedev_check_sha_params_accept K r podev hv
  have hinit : (s.sha_ctxt.init_done = false) = False := by
    rw [hs.init]
    simp
  by_cases hbig : r.data_len > K.QCE_MAX_OPER_DATA
  · have hent : r.entries < K.QCEDEV_MAX_BUFFERS := by
      rcases hfit with h | h
      · omega
      · exact h
    have inv0 : split_inv env r s
        { sreq := r, req_data := r.data, i := 0, err := 0, hash := s } := by
      constructor
      · rfl
      · intro j _ _
        rfl
      · intro j _ h
        exact hnn j h
      · show len_from r.data 0 (r.entries - 0) ≤ r.data_len
        rw [Nat.sub_zero, hsum]
      · exact hs
      · show stream s ++ bytes_from env r.data 0 (r.entries - 0) = _
        rw [Nat.sub_zero]
    have hfuel : rounds K.QCE_MAX_OPER_DATA r.data 0 (r.entries - 0) ≤
        r.entries + r.data_len / K.QCE_MAX_OPER_DATA + 1 := by
      have := rounds_le K.QCE_MAX_OPER_DATA r.data r.entries 0
      rw [hsum] at this
      rw [Nat.sub_zero]
      omega
    obtain ⟨c1, e1, inv1, hi1⟩ := split_loop_ok K env E r s hread hE hM0 hM1 hent hlen
      (r.entries + r.data_len / K.QCE_MAX_OPER_DATA + 1) _ inv0 hfuel
    have hz : r.entries - c1.i = 0 := by omega
    have hst := inv1.stream
    rw [hz] at hst
    simp only [bytes_from, List.append_nil] at hst
    refine ⟨c1.hash,
      { c1.sreq with
        data := restore_loop c1.sreq.data r.data r.entries
        entries := r.entries
        data_len := r.data_len }, ?_, inv1.hash, hst⟩
    simp only [qcedev_sha_update, hinit, if_false, hbig, if_true, e1, inv1.err]
  · have hslice : slice_ok K r := ⟨hpos, hle, hsum, by omega, hnn⟩
    obtain ⟨s1, e1, e2, e3⟩ := qcedev_sha_update_max_xfer_ok K env E r s hread hE hs hslice
    refine ⟨s1, r, ?_, e2, e3⟩
    simp only [qcedev_sha_update, hinit, if_false, hbig, e1]

/-- `Init` on a handle whose trace is empty returns 0 and leaves a handle that
satisfies the invariant and stands for the empty stream. -/
theorem qcedev_sha_init_ok (K : qcedev_hdr) (r : qcedev_sha_op_req) (s : hash_state) :
    hash_inv (qcedev_sha_init K r { s with trace := [] }).2 ∧
      stream (qcedev_sha_init K r { s with trace := [] }).2 = [] := by
  unfold qcedev_sha_init
  refine ⟨⟨?_, ?_, ?_, ?_, ?_, ?_⟩, ?_⟩
  · dsimp only
    split_ifs <;> exact Nat.zero_le _
  · dsimp only
    split_ifs <;> rfl
  · rfl
  · dsimp only
    split_ifs <;> rfl
  · intro p hp
    exact absurd hp (List.not_mem_nil p)
  · left
    refine ⟨rfl, ?_⟩
    dsimp only
    split_ifs <;> rfl
  · simp only [stream, List.map_nil, List.flatten_nil, List.nil_append]
    split_ifs <;> rfl

/-- `Final` with its scratch buffer allocated, on a handle that satisfies the
invariant, with an engine that accepts, returns 0 and submits one more pass: a last block that carries what
is in the trailing buffer, and the first-block flag of the handle. -/
theorem qcedev_sha_final_ok (E : hash_engine) (r : qcedev_sha_op_req) (s : hash_state)
    (hE : ∀ p, E.ret p = 0) (hs : hash_inv s) :
    ∃ fin : sha_pass, (qcedev_sha_final E r s true).1 = 0 ∧
      (qcedev_sha_final E r s true).2.trace = s.trace ++ [fin] ∧ fin.last_blk = 1 ∧
      fin.first_blk = s.sha_ctxt.first_blk ∧
      fin.src = s.sha_ctxt.trailing_buf.take s.sha_ctxt.trailing_buf_len ∧
      fin.src.length = fin.nbytes := by
  have hinit : (s.sha_ctxt.init_done = false) = False := by
    rw [hs.init]
    simp
  have htl := hs.tlen
  have htb := hs.tbuf
  refine ⟨pass_of r.alg { s.sha_ctxt with last_blk := 1 }
    (s.sha_ctxt.trailing_buf.take s.sha_ctxt.trailing_buf_len) s.sha_ctxt.trailing_buf_len,
    ?_, ?_, rfl, rfl, ?_, ?_⟩
  · simp only [qcedev_sha_final, hinit, if_false, Bool.true_eq_false, submit_sha, hE]
  · simp only [qcedev_sha_final, hinit, if_false, Bool.true_eq_false, submit_sha]
  · simp only [pass_of, List.take_take, Nat.min_self]
  · simp only [pass_of, List.take_take, Nat.min_self, List.length_take, htb]
    omega

/-- The passes of a handle that satisfies the invariant, followed by the pass
of `Final`, are what the stream of the handle asks for. -/
theorem passes_feed_of_final (E : hash_engine) (r : qcedev_sha_op_req) (s : hash_state)
    (hE : ∀ p, E.ret p = 0) (hs : hash_inv s) :
    (qcedev_sha_final E r s true).1 = 0 ∧
      passes_feed (qcedev_sha_final E r s true).2.trace (stream s) := by
  obtain ⟨fin, f1, f2, f3, f4, f5, f6⟩ := qcedev_sha_final_ok E r s hE hs
  refine ⟨f1, ?_⟩
  rw [f2]
  refine ⟨?_, ?_, ⟨s.trace, fin, rfl, fun p hp => ?_, f3⟩, ?_⟩
  · simp only [List.map_append, List.map_cons, List.map_nil, List.flatten_append,
      List.flatten_cons, List.flatten_nil, List.append_nil, f5, stream]
  · intro p hp
    rcases List.mem_append.mp hp with h | h
    · exact (hs.body p h).2.2.2
    · rw [List.mem_singleton] at h
      rw [h]
      exact f6
  · obtain ⟨b1, b2, b3, _⟩ := hs.body p hp
    exact ⟨b1, b2, b3⟩
  · rcases hs.first with ⟨h1, h2⟩ | ⟨p, rest, h1, h2, h3, h4⟩
    · refine ⟨fin, [], by rw [h1]; rfl, by rw [f4, h2], fun q hq => ?_⟩
      exact absurd hq (List.not_mem_nil q)
    · refine ⟨p, rest ++ [fin], by rw [h1]; rfl, h2, fun q hq => ?_⟩
      rcases List.mem_append.mp hq with h | h
      · exact h3 q h
      · rw [List.mem_singleton] at h
        rw [h, f4, h4]

/-- The sequence `Init; Update(r1); Update(r2); Final` on validated requests
whose segments are readable and not at NULL, with an engine that accepts, each
request fitting in one slice or having fewer than `QCEDEV_MAX_BUFFERS`
segments: every call returns 0 and the passes are what the message of `r1`
followed by the message of `r2` asks for. -/
theorem hash_two_updates_feed (K : qcedev_hdr) (env : user_env) (E : hash_engine)
    (podev : ce_support) (s : hash_state) (r1 r2 : qcedev_sha_op_req)
    (hread : ∀ a n, env.readable a n = true) (hE : ∀ p, E.ret p = 0)
    (hM0 : 0 < K.QCE_MAX_OPER_DATA) (hM1 : K.QCE_MAX_OPER_DATA + 128 < 2 ^ 32)
    (hv1 : qcedev_check_sha_params K r1 podev = 0)
    (hv2 : qcedev_check_sha_params K r2 podev = 0)
    (hnn1 : ∀ j, j < r1.entries → (r1.data j).len ≠ 0 → (r1.data j).vaddr ≠ 0)
    (hnn2 : ∀ j, j < r2.entries → (r2.data j).len ≠ 0 → (r2.data j).vaddr ≠ 0)
    (hfit1 : r1.data_len ≤ K.QCE_MAX_OPER_DATA ∨ r1.entries < K.QCEDEV_MAX_BUFFERS)
    (hfit2 : r2.data_len ≤ K.QCE_MAX_OPER_DATA ∨ r2.entries < K.QCEDEV_MAX_BUFFERS) :
    ∃ t, hash_two_updates K env E s r1 r2 = .ok (0, t) ∧
      passes_feed t
        (bytes_from env r1.data 0 r1.entries ++ bytes_from env r2.data 0 r2.entries) := by
  obtain ⟨i1, i2⟩ := qcedev_sha_init_ok K r1 s
  obtain ⟨s1, q1, e1, inv1, st1⟩ := qcedev_sha_update_ok K env E podev r1 _ hread hE hM0 hM1
    i1 hv1 hnn1 hfit1
  obtain ⟨s2, q2, e2, inv2, st2⟩ := qcedev_sha_update_ok K env E podev r2 s1 hread hE hM0 hM1
    inv1 hv2 hnn2 hfit2
  obtain ⟨f1, f2⟩ := passes_feed_of_final E r2 s2 hE inv2
  rw [st2, st1, i2, List.nil_append] at f2
  refine ⟨(qcedev_sha_final E r2 s2 true).2.trace, ?_, f2⟩
  simp only [hash_two_updates, e1, e2, ne_eq, not_true_eq_false, if_false, f1]

/-- The sequence `Init; Update(r); Final` under the same conditions: every
call returns 0 and the passes are what the message of `r` asks for. -/
theorem hash_one_update_feed (K : qcedev_hdr) (env : user_env) (E : hash_engine)
    (podev : ce_support) (s : hash_state) (r : qcedev_sha_op_req)
    (hread : ∀ a n, env.readable a n = true) (hE : ∀ p, E.ret p = 0)
    (hM0 : 0 < K.QCE_MAX_OPER_DATA) (hM1 : K.QCE_MAX_OPER_DATA + 128 < 2 ^ 32)
    (hv : qcedev_check_sha_params K r podev = 0)
    (hnn : ∀ j, j < r.entries → (r.data j).len ≠ 0 → (r.data j).vaddr ≠ 0)
    (hfit : r.data_len ≤ K.QCE_MAX_OPER_DATA ∨ r.entries < K.QCEDEV_MAX_BUFFERS) :
    ∃ t, hash_one_update K env E s r = .ok (0, t) ∧
      passes_feed t (bytes_from env r.data 0 r.entries) := by
  obtain ⟨i1, i2⟩ := qcedev_sha_init_ok K r s
  obtain ⟨s1, q1, e1, inv1, st1⟩ := qcedev_sha_update_ok K env E podev r _ hread hE hM0 hM1
    i1 hv hnn hfit
  obtain ⟨f1, f2⟩ := passes_feed_of_final E r s1 hE inv1
  rw [st1, i2, List.nil_append] at f2
  refine ⟨(qcedev_sha_final E r s1 true).2.trace, ?_, f2⟩
  simp only [hash_one_update, e1, ne_eq, not_true_eq_false, if_false, f1]

/-- The two-update sequence on a request of more than one slice followed by a
request of 32 bytes. -/
theorem hash_two_updates_feed_witness :
    ∃ t, hash_two_updates hdr sample_env hash_engine_accepts fresh_hash_state
        sample_sha_long sample_sha_op_req = .ok (0, t) ∧
      passes_feed t
        (bytes_from sample_env sample_sha_long.data 0 sample_sha_long.entries ++
          bytes_from sample_env sample_sha_op_req.data 0 sample_sha_op_req.entries) :=
  hash_two_updates_feed hdr sample_env hash_engine_accepts full_support fresh_hash_state
    sample_sha_long sample_sha_op_req (fun _ _ => rfl) (fun _ => rfl) (by decide) (by decide)
    (by decide) (by decide) (by decide) (by decide) (Or.inr (by decide)) (Or.inl (by decide))

/-- The one-update sequence on a request of more than one slice. -/
theorem hash_one_update_feed_witness :
    ∃ t, hash_one_update hdr sample_env hash_engine_accepts fresh_hash_state
        sample_sha_long = .ok (0, t) ∧
      passes_feed t
        (bytes_from sample_env sample_sha_long.data 0 sample_sha_long.entries) :=
  hash_one_update_feed hdr sample_env hash_engine_accepts full_support fresh_hash_state
    sample_sha_long (fun _ _ => rfl) (fun _ => rfl) (by decide) (by decide)
    (by decide) (by decide) (Or.inr (by decide))

/-- C17. `qcedev_sha_init` returns 0 and, whatever the context was, leaves it
with `first_blk = 1`, `last_blk = 0`, `trailing_buf_len = 0`,
`init_done = true`, counters, trailing buffer and key buffer all zero, and the
digest seeded by the algorithm: for SHA1 and SHA1-HMAC the 20 bytes of the
SHA-1 initial vector followed by zeros, with `diglen = 20`; otherwise for
SHA256 and SHA256-HMAC the 32 bytes of the SHA-256 initial vector, with
`diglen = 32`; for any other algorithm all zero, with `diglen = 0`. -/
theorem C17_sha_init_context (K : qcedev_hdr) (areq : qcedev_sha_op_req) (s : hash_state) :
    (qcedev_sha_init K areq s).1 = 0 ∧
    (qcedev_sha_init K areq s).2.trace = s.trace ∧
    (qcedev_sha_init K areq s).2.sha_ctxt =
      { auth_data := [0, 0, 0, 0]
        digest :=
          if areq.alg = K.QCEDEV_ALG_SHA1 ∨ areq.alg = K.QCEDEV_ALG_SHA1_HMAC then
            _std_init_vector_sha1_uint8 ++ List.replicate 12 0
          else if areq.alg = K.QCEDEV_ALG_SHA256 ∨ areq.alg = K.QCEDEV_ALG_SHA256_HMAC then
            _std_init_vector_sha256_uint8
          else List.replicate 32 0
        diglen :=
          if areq.alg = K.QCEDEV_ALG_SHA1 ∨ areq.alg = K.QCEDEV_ALG_SHA1_HMAC then 20
          else if areq.alg = K.QCEDEV_ALG_SHA256 ∨ areq.alg = K.QCEDEV_ALG_SHA256_HMAC then 32
          else 0
        trailing_buf := List.replicate 64 0
        trailing_buf_len := 0
        first_blk := 1
        last_blk := 0
        authkey := List.replicate 64 0
        init_done := true } := by
  refine ⟨rfl, rfl, ?_⟩
  unfold qcedev_sha_init
  dsimp only
  split_ifs <;> rfl

/-- C18. On a context with `init_done = false`, `qcedev_sha_update` and
`qcedev_sha_final` return `-EINVAL`, and leave the context, the passes
submitted so far and the descriptor as they were; `qcedev_sha_final` does so
whatever its allocation would have returned. -/
theorem C18_uninitialised_is_einval (K : qcedev_hdr) (env : user_env) (E : hash_engine)
    (areq : qcedev_sha_op_req) (s : hash_state) (h : s.sha_ctxt.init_done = false) :
    qcedev_sha_update K env E areq s = .ok (- EINVAL, s, areq) ∧
      ∀ k_buf_src, qcedev_sha_final E areq s k_buf_src = (- EINVAL, s) := by
  constructor
  · simp only [qcedev_sha_update, h, if_true]
  · intro k_buf_src
    simp only [qcedev_sha_final, h, if_true]

/-- C18 on a handle that was never initialised. -/
theorem C18_uninitialised_is_einval_witness :
    qcedev_sha_update hdr sample_env hash_engine_accepts sample_sha_op_req fresh_hash_state =
        .ok (- EINVAL, fresh_hash_state, sample_sha_op_req) ∧
      ∀ k_buf_src,
        qcedev_sha_final hash_engine_accepts sample_sha_op_req fresh_hash_state k_buf_src =
          (- EINVAL, fresh_hash_state) :=
  C18_uninitialised_is_einval hdr sample_env hash_engine_accepts sample_sha_op_req
    fresh_hash_state rfl

/-- With its scratch buffer allocated, `qcedev_sha_final` on an initialised
context submits exactly one pass, made while the context holds `last_blk = 1`,
whose payload is the first `trailing_buf_len` bytes of the trailing buffer, and
returns what the submission returned.  Whatever that is, the context is left
with `init_done = false`, `trailing_buf_len = 0`, a zero trailing buffer and
both block flags 0, so that `Update` and `Final` on it return `-EINVAL` and
submit nothing.  What `start_sha_req` hands to the engine for the pass carries
`last_blk = 1` and the payload, unless the request is for AES-CMAC: then the
block flags of the engine request are not assigned. -/
theorem qcedev_sha_final_submits (E : hash_engine) (areq : qcedev_sha_op_req)
    (s : hash_state) (hinit : s.sha_ctxt.init_done = true) :
    ∃ p : sha_pass,
      (qcedev_sha_final E areq s true).2.trace = s.trace ++ [p] ∧
      (qcedev_sha_final E areq s true).1 = E.ret p ∧
      p.last_blk = 1 ∧ p.nbytes = s.sha_ctxt.trailing_buf_len ∧
      p.src = s.sha_ctxt.trailing_buf.take s.sha_ctxt.trailing_buf_len ∧
      (qcedev_sha_final E areq s true).2.sha_ctxt.init_done = false ∧
      (qcedev_sha_final E areq s true).2.sha_ctxt.trailing_buf_len = 0 ∧
      (qcedev_sha_final E areq s true).2.sha_ctxt.trailing_buf = List.replicate 64 0 ∧
      (qcedev_sha_final E areq s true).2.sha_ctxt.first_blk = 0 ∧
      (qcedev_sha_final E areq s true).2.sha_ctxt.last_blk = 0 ∧
      (∀ (K : qcedev_hdr) (env : user_env) (E1 : hash_engine) (r : qcedev_sha_op_req),
        qcedev_sha_update K env E1 r (qcedev_sha_final E areq s true).2 =
          .ok (- EINVAL, (qcedev_sha_final E areq s true).2, r)) ∧
      (∀ (E1 : hash_engine) (r : qcedev_sha_op_req) (k : Bool),
        qcedev_sha_final E1 r (qcedev_sha_final E areq s true).2 k =
          (- EINVAL, (qcedev_sha_final E areq s true).2)) ∧
      (∀ (K : qcedev_hdr) (sup : ce_support) (q : qce_sha_req),
        start_sha_req_sreq K sup p = some q →
          q.size = s.sha_ctxt.trailing_buf_len ∧
          q.src = s.sha_ctxt.trailing_buf.take s.sha_ctxt.trailing_buf_len ∧
          (areq.alg ≠ K.QCEDEV_ALG_AES_CMAC → q.last_blk = some 1) ∧
          (areq.alg = K.QCEDEV_ALG_AES_CMAC → q.last_blk = none)) := by
  have hf : (s.sha_ctxt.init_done = false) = False := by
    rw [hinit]
    simp
  have hdone : (qcedev_sha_final E areq s true).2.sha_ctxt.init_done = false := by
    simp only [qcedev_sha_final, hf, if_false, Bool.true_eq_false]
  refine ⟨pass_of areq.alg { s.sha_ctxt with last_blk := 1 }
    (s.sha_ctxt.trailing_buf.take s.sha_ctxt.trailing_buf_len) s.sha_ctxt.trailing_buf_len,
    ?_, ?_, rfl, rfl, ?_, hdone, ?_, ?_, ?_, ?_, ?_, ?_, ?_⟩
  · simp only [qcedev_sha_final, hf, if_false, Bool.true_eq_false, submit_sha]
  · simp only [qcedev_sha_final, hf, if_false, Bool.true_eq_false, submit_sha]
  · simp only [pass_of, List.take_take, Nat.min_self]
  · simp only [qcedev_sha_final, hf, if_false, Bool.true_eq_false]
  · simp only [qcedev_sha_final, hf, if_false, Bool.true_eq_false]
  · simp only [qcedev_sha_final, hf, if_false, Bool.true_eq_false]
  · simp only [qcedev_sha_final, hf, if_false, Bool.true_eq_false]
  · intro K env E1 r
    simp only [qcedev_sha_update, hdone, if_true]
  · intro E1 r k
    rw [qcedev_sha_final.eq_1 E1 r]
    simp only [hdone, if_true]
  · intro K sup q hq
    unfold start_sha_req_sreq at hq
    simp only [pass_of, List.take_take, Nat.min_self] at hq
    split at hq
    · cases hq
    · by_cases hc : areq.alg = K.QCEDEV_ALG_AES_CMAC
      · simp only [hc, ne_eq, not_true_eq_false, if_false, Option.some.injEq] at hq
        rw [← hq]
        exact ⟨rfl, rfl, fun h => absurd hc h, fun _ => rfl⟩
      · simp only [hc, ne_eq, not_false_eq_true, if_true, Option.some.injEq] at hq
        rw [← hq]
        exact ⟨rfl, rfl, fun _ => rfl, fun h => absurd h hc⟩

/-- C19. On an initialised context, when `kmalloc` returns NULL,
`qcedev_sha_final` returns `-ENOMEM` after it has stored `last_blk = 1`: it
submits no sub-operation and leaves the context initialised, with the
trailing buffer and its length as they were and the last-block flag set.  A
following `Final` is not refused with `-EINVAL`: it returns `-ENOMEM` again
when its allocation fails, and otherwise submits the trailing buffer and
returns what the submission returned. -/
theorem C19_final_enomem_keeps_context (E : hash_engine) (areq : qcedev_sha_op_req)
    (s : hash_state) (hinit : s.sha_ctxt.init_done = true) :
    qcedev_sha_final E areq s false =
        (- ENOMEM, { s with sha_ctxt := { s.sha_ctxt with last_blk := 1 } }) ∧
      (qcedev_sha_final E areq s false).2.trace = s.trace ∧
      (qcedev_sha_final E areq s false).2.sha_ctxt.init_done = true ∧
      (qcedev_sha_final E areq s false).2.sha_ctxt.last_blk = 1 ∧
      (qcedev_sha_final E areq s false).2.sha_ctxt.trailing_buf_len =
        s.sha_ctxt.trailing_buf_len ∧
      (qcedev_sha_final E areq s false).2.sha_ctxt.trailing_buf = s.sha_ctxt.trailing_buf ∧
      (∀ (E1 : hash_engine) (r : qcedev_sha_op_req),
        qcedev_sha_final E1 r (qcedev_sha_final E areq s false).2 false =
            (- ENOMEM, (qcedev_sha_final E areq s false).2) ∧
          ∃ p : sha_pass,
            (qcedev_sha_final E1 r (qcedev_sha_final E areq s false).2 true).2.trace =
              s.trace ++ [p] ∧
            (qcedev_sha_final E1 r (qcedev_sha_final E areq s false).2 true).1 =
              E1.ret p ∧
            p.last_blk = 1 ∧
            p.src = s.sha_ctxt.trailing_buf.take s.sha_ctxt.trailing_buf_len) := by
  have hf : (s.sha_ctxt.init_done = false) = False := by
    rw [hinit]
    simp
  have h1 : qcedev_sha_final E areq s false =
      (- ENOMEM, { s with sha_ctxt := { s.sha_ctxt with last_blk := 1 } }) := by
    simp only [qcedev_sha_final, hf, if_false, if_true]
  rw [h1]
  refine ⟨rfl, rfl, hinit, rfl, rfl, rfl, ?_⟩
  intro E1 r
  have hf2 : (({ s with sha_ctxt := { s.sha_ctxt with last_blk := 1 } } :
      hash_state).sha_ctxt.init_done = false) = False := hf
  refine ⟨?_, pass_of r.alg { s.sha_ctxt with last_blk := 1 }
    (s.sha_ctxt.trailing_buf.take s.sha_ctxt.trailing_buf_len) s.sha_ctxt.trailing_buf_len,
    ?_, ?_, rfl, ?_⟩
  · simp only [qcedev_sha_final, hf2, if_false, if_true]
  · simp only [qcedev_sha_final, hf2, if_false, Bool.true_eq_false, submit_sha]
  · simp only [qcedev_sha_final, hf2, if_false, Bool.true_eq_false, submit_sha]
  · simp only [pass_of, List.take_take, Nat.min_self]

/-- C19 on the handle that `Init` leaves: `Final` with a failed allocation
returns `-ENOMEM` and leaves the handle initialised with `last_blk = 1`; the
`Update` of 100 bytes that follows is accepted, and its one pass of 64 bytes is
submitted as first block and as last block. -/
theorem C19_final_enomem_keeps_context_witness :
    (qcedev_sha_init hdr sample_sha_op_req fresh_hash_state).2.sha_ctxt.init_done = true ∧
      (qcedev_sha_final hash_engine_accepts sample_sha_op_req
          (qcedev_sha_init hdr sample_sha_op_req fresh_hash_state).2 false).1 = - ENOMEM ∧
      (qcedev_sha_final hash_engine_accepts sample_sha_op_req
          (qcedev_sha_init hdr sample_sha_op_req fresh_hash_state).2 false).2.trace = [] ∧
      update_passes (qcedev_sha_update hdr sample_env hash_engine_accepts sample_sha_100
          (qcedev_sha_final hash_engine_accepts sample_sha_op_req
            (qcedev_sha_init hdr sample_sha_op_req fresh_hash_state).2 false).2) =
        [(1, 1, 64)] :=
  ⟨rfl,
    congrArg Prod.fst (C19_final_enomem_keeps_context hash_engine_accepts sample_sha_op_req
      (qcedev_sha_init hdr sample_sha_op_req fresh_hash_state).2 rfl).1,
    (C19_final_enomem_keeps_context hash_engine_accepts sample_sha_op_req
      (qcedev_sha_init hdr sample_sha_op_req fresh_hash_state).2 rfl).2.1,
    by decide⟩

/-- The new trailing length is between 1 and 64 for every total. -/
theorem new_trailing_buf_len_le (T : Nat) :
    0 < new_trailing_buf_len T ∧ new_trailing_buf_len T ≤ 64 := by
  simp only [new_trailing_buf_len, sha_pad_len, ALIGN, CE_SHA_BLOCK_SIZE, SHA256_BLOCK_SIZE]
  omega

/-- Whatever the request, the memory and the engine do, a call of
`qcedev_sha_update_max_xfer` that returns leaves a trailing length of at most
64, if it found one. -/
theorem qcedev_sha_update_max_xfer_tlen (K : qcedev_hdr) (env : user_env) (E : hash_engine)
    (r : qcedev_sha_op_req) (s : hash_state) (e : Int) (s1 : hash_state)
    (hs : s.sha_ctxt.trailing_buf_len ≤ 64)
    (h : qcedev_sha_update_max_xfer K env E r s = .ok (e, s1)) :
    s1.sha_ctxt.trailing_buf_len ≤ 64 := by
  unfold qcedev_sha_update_max_xfer at h
  simp only [sha_block_size_eq] at h
  by_cases h1 : (r.data_len + s.sha_ctxt.trailing_buf_len) % 2 ^ 32 ≤ 64
  · simp only [h1, if_true] at h
    split at h
    · cases h
    · simp only [Except.ok.injEq, Prod.mk.injEq] at h
      rw [← h.2]
      exact hs
    · simp only [Except.ok.injEq, Prod.mk.injEq] at h
      rw [← h.2]
      exact h1
  · simp only [h1, if_false] at h
    split at h
    · cases h
    · simp only [Except.ok.injEq, Prod.mk.injEq] at h
      rw [← h.2]
      exact hs
    · unfold sha_submit_aligned at h
      split_ifs at h
      simp only [Except.ok.injEq, Prod.mk.injEq] at h
      rw [← h.2]
      simp only [submit_sha, cb_store_trailing_buf_len]
      exact (new_trailing_buf_len_le _).2

/-- One round of the splitting loop keeps the bound on the trailing length. -/
theorem split_step_tlen (K : qcedev_hdr) (env : user_env) (E : hash_engine) (entries : Nat)
    (c c1 : split_state) (hs : c.hash.sha_ctxt.trailing_buf_len ≤ 64)
    (h : split_step K env E entries c = .ok c1) :
    c1.hash.sha_ctxt.trailing_buf_len ≤ 64 := by
  unfold split_step at h
  split_ifs at h
  · cases hx : qcedev_sha_update_max_xfer K env E (slice_of_long_segment K c) c.hash with
    | error f =>
      rw [hx] at h
      cases h
    | ok v =>
      obtain ⟨e, h1⟩ := v
      rw [hx] at h
      simp only [Except.ok.injEq] at h
      rw [← h]
      exact qcedev_sha_update_max_xfer_tlen K env E _ c.hash e h1 hs hx
  · cases hg : gather_loop K c.sreq.data (entries - c.i) c.i 0 0 with
    | error f =>
      rw [hg] at h
      cases h
    | ok g =>
      rw [hg] at h
      simp only at h
      cases hx : qcedev_sha_update_max_xfer K env E (slice_of_segments c g) c.hash with
      | error f =>
        rw [hx] at h
        cases h
      | ok v =>
        obtain ⟨e, h1⟩ := v
        rw [hx] at h
        simp only at h
        split_ifs at h
        simp only [Except.ok.injEq] at h
        rw [← h]
        exact qcedev_sha_update_max_xfer_tlen K env E _ c.hash e h1 hs hx

/-- The splitting loop keeps the bound on the trailing length. -/
theorem split_loop_tlen (K : qcedev_hdr) (env : user_env) (E : hash_engine) (entries : Nat)
    (fuel : Nat) :
    ∀ c c1 : split_state, c.hash.sha_ctxt.trailing_buf_len ≤ 64 →
      split_loop K env E entries fuel c = .ok c1 →
      c1.hash.sha_ctxt.trailing_buf_len ≤ 64 := by
  induction fuel with
  | zero =>
    intro c c1 hs h
    unfold split_loop at h
    split_ifs at h
    simp only [Except.ok.injEq] at h
    rw [← h]
    exact hs
  | succ fuel ih =>
    intro c c1 hs h
    unfold split_loop at h
    split_ifs at h
    · cases hx : split_step K env E entries c with
      | error f =>
        rw [hx] at h
        cases h
      | ok c2 =>
        rw [hx] at h
        exact ih c2 c1 (split_step_tlen K env E entries c c2 hs hx) h
    · simp only [Except.ok.injEq] at h
      rw [← h]
      exact hs

/-- Whatever it returns, `Update` keeps the bound on the trailing length. -/
theorem qcedev_sha_update_tlen (K : qcedev_hdr) (env : user_env) (E : hash_engine)
    (r : qcedev_sha_op_req) (s : hash_state) (e : Int) (s1 : hash_state)
    (r1 : qcedev_sha_op_req) (hs : s.sha_ctxt.trailing_buf_len ≤ 64)
    (h : qcedev_sha_update K env E r s = .ok (e, s1, r1)) :
    s1.sha_ctxt.trailing_buf_len ≤ 64 := by
  unfold qcedev_sha_update at h
  split_ifs at h
  · simp only [Except.ok.injEq, Prod.mk.injEq] at h
    rw [← h.2.1]
    exact hs
  · cases hx : split_loop K env E r.entries (r.entries + r.data_len / K.QCE_MAX_OPER_DATA + 1)
        { sreq := r, req_data := r.data, i := 0, err := 0, hash := s } with
    | error f =>
      rw [hx] at h
      cases h
    | ok c =>
      rw [hx] at h
      simp only [Except.ok.injEq, Prod.mk.injEq] at h
      rw [← h.2.1]
      exact split_loop_tlen K env E r.entries _ _ c hs hx
  · cases hx : qcedev_sha_update_max_xfer K env E r s with
    | error f =>
      rw [hx] at h
      cases h
    | ok v =>
      obtain ⟨e2, h2⟩ := v
      rw [hx] at h
      simp only [Except.ok.injEq, Prod.mk.injEq] at h
      rw [← h.2.1]
      exact qcedev_sha_update_max_xfer_tlen K env E r s e2 h2 hs hx

/-- A run of `Update` calls keeps the bound on the trailing length. -/
theorem sha_updates_tlen (K : qcedev_hdr) (env : user_env) (E : hash_engine)
    (rs : List qcedev_sha_op_req) :
    ∀ s s1 : hash_state, s.sha_ctxt.trailing_buf_len ≤ 64 →
      sha_updates K env E rs s = .ok s1 → s1.sha_ctxt.trailing_buf_len ≤ 64 := by
  induction rs with
  | nil =>
    intro s s1 hs h
    simp only [sha_updates, Except.ok.injEq] at h
    rw [← h]
    exact hs
  | cons r rs ih =>
    intro s s1 hs h
    unfold sha_updates at h
    cases hx : qcedev_sha_update K env E r s with
    | error f =>
      rw [hx] at h
      cases h
    | ok v =>
      obtain ⟨e, s2, r2⟩ := v
      rw [hx] at h
      exact ih s2 s1 (qcedev_sha_update_tlen K env E r s e s2 r2 hs hx) h

/-- `Init` leaves no trailing bytes. -/
theorem qcedev_sha_init_tlen (K : qcedev_hdr) (r : qcedev_sha_op_req) (s : hash_state) :
    (qcedev_sha_init K r s).2.sha_ctxt.trailing_buf_len = 0 := by
  unfold qcedev_sha_init
  dsimp only
  split_ifs <;> rfl

/-- C20 (counterexample). `Init`, then `Update` with a validated request of
64 bytes in one segment: the call returns 0 and the trailing length is 64, a
whole hash block, not less. -/
theorem C20_trailing_buf_holds_full_block :
    qcedev_check_sha_params hdr sample_sha_block full_support = 0 ∧
    trailing_len_of (sha_updates hdr sample_env hash_engine_accepts [sample_sha_block]
      (qcedev_sha_init hdr sample_sha_block fresh_hash_state).2) = some 64 ∧
    ¬ (64 < 64) := by
  refine ⟨by decide, by decide, by decide⟩

/-- C20 (amended). In every context reached by `Init` followed by any number
of `Update` calls, whatever the requests are and whatever the calls return,
once the last call has returned the trailing length is at most one hash block
(64 bytes). -/
theorem C20_trailing_buf_len_at_most_block (K : qcedev_hdr) (env : user_env)
    (E : hash_engine) (s0 : hash_state) (r0 : qcedev_sha_op_req)
    (rs : List qcedev_sha_op_req) (s1 : hash_state)
    (h : sha_updates K env E rs (qcedev_sha_init K r0 s0).2 = .ok s1) :
    s1.sha_ctxt.trailing_buf_len ≤ 64 := by
  refine sha_updates_tlen K env E rs _ s1 ?_ h
  rw [qcedev_sha_init_tlen]
  exact Nat.zero_le _

/-- C20 (amended) on `Init` followed by one `Update` of 64 bytes. -/
theorem C20_trailing_buf_len_at_most_block_witness :
    ∃ s1, sha_updates hdr sample_env hash_engine_accepts [sample_sha_block]
        (qcedev_sha_init hdr sample_sha_block fresh_hash_state).2 = .ok s1 ∧
      s1.sha_ctxt.trailing_buf_len ≤ 64 :=
  ⟨_, rfl, C20_trailing_buf_len_at_most_block hdr sample_env hash_engine_accepts
    fresh_hash_state sample_sha_block [sample_sha_block] _ rfl⟩

/-- Both block sizes are 64. -/
theorem hmac_block_size_eq (K : qcedev_hdr) (alg : Nat) : hmac_block_size K alg = 64 := by
  unfold hmac_block_size
  split_ifs <;> rfl

/-- Writing a whole buffer leaves what was written. -/
theorem write_at_all (buf bs : List Nat) (h : bs.length = buf.length) :
    write_at buf 0 bs = bs := by
  simp only [write_at, List.take_zero, List.nil_append, Nat.zero_add, h, List.drop_length,
    List.append_nil]

/-- The context that `qcedev_hmac_update_iokey` leaves, on a trailing buffer of
64 bytes. -/
theorem qcedev_hmac_update_iokey_ctxt (K : qcedev_hdr) (areq : qcedev_sha_op_req)
    (s : hash_state) (ikey : Bool) (hb : s.sha_ctxt.trailing_buf.length = 64) :
    (qcedev_hmac_update_iokey K areq s ikey).trace = s.trace ∧
    (qcedev_hmac_update_iokey K areq s ikey).sha_ctxt.trailing_buf_len = 64 ∧
    (qcedev_hmac_update_iokey K areq s ikey).sha_ctxt.init_done = s.sha_ctxt.init_done ∧
    (qcedev_hmac_update_iokey K areq s ikey).sha_ctxt.trailing_buf =
      (List.range 64).map
        (fun i => ((s.sha_ctxt.authkey.getD i 0) ^^^ (if ikey then 0x36 else 0x5c)) % 256) := by
  refine ⟨rfl, ?_, rfl, ?_⟩
  · simp only [qcedev_hmac_update_iokey, hmac_block_size_eq]
  · simp only [qcedev_hmac_update_iokey, hmac_block_size_eq]
    rw [write_at_all]
    simp only [List.length_map, List.length_range, hb]

/-- The outer-pad pass: on an HMAC request and a context whose trailing buffer
holds one block, `qcedev_hmac_get_ohash` submits that block as a first block
and returns what the submission returned; the initialised flag is as before
and the trailing length is the digest size. -/
theorem qcedev_hmac_get_ohash_pass (K : qcedev_hdr) (env : user_env) (E : hash_engine)
    (areq : qcedev_sha_op_req) (s : hash_state)
    (halg : areq.alg = K.QCEDEV_ALG_SHA1_HMAC ∨ areq.alg = K.QCEDEV_ALG_SHA256_HMAC)
    (hl : s.sha_ctxt.trailing_buf_len = 64) (hb : s.sha_ctxt.trailing_buf.length = 64) :
    ∃ s1 p, qcedev_hmac_get_ohash K env E areq s = .ok (E.ret p, s1) ∧
      s1.trace = s.trace ++ [p] ∧ p.first_blk = 1 ∧ p.last_blk = 0 ∧ p.nbytes = 64 ∧
      p.src = s.sha_ctxt.trailing_buf ∧
      s1.sha_ctxt.init_done = s.sha_ctxt.init_done ∧
      s1.sha_ctxt.trailing_buf_len =
        (if areq.alg = K.QCEDEV_ALG_SHA1_HMAC then 20 else 32) := by
  have hbs : (if areq.alg = K.QCEDEV_ALG_SHA1_HMAC then SHA1_BLOCK_SIZE
      else if areq.alg = K.QCEDEV_ALG_SHA256_HMAC then SHA256_BLOCK_SIZE else 0) = 64 := by
    rcases halg with h | h
    · rw [if_pos h]
      rfl
    · rw [if_pos h]
      split_ifs <;> rfl
  have hds : (if areq.alg = K.QCEDEV_ALG_SHA1_HMAC then SHA1_DIGEST_SIZE
      else if areq.alg = K.QCEDEV_ALG_SHA256_HMAC then SHA256_DIGEST_SIZE else 0) =
      (if areq.alg = K.QCEDEV_ALG_SHA1_HMAC then 20 else 32) := by
    rcases halg with h | h
    · rw [if_pos h, if_pos h]
      rfl
    · rw [if_pos h]
      rfl
  have hk : List.take 64 s.sha_ctxt.trailing_buf = s.sha_ctxt.trailing_buf := by
    exact List.take_of_length_le (le_of_eq hb)
  unfold qcedev_hmac_get_ohash
  simp only [hbs, hds, hl, gt_iff_lt, lt_self_iff_false, if_false, Nat.sub_self,
    List.range_zero, List.map_nil, List.append_nil, hk, submit_sha]
  refine ⟨_, _, rfl, rfl, ?_, ?_, rfl, ?_, ?_, ?_⟩
  · simp only [pass_of]
    split_ifs <;> rfl
  · simp only [pass_of]
    split_ifs <;> rfl
  · simp only [pass_of, hk]
  · simp only [cb_store_init_done]
    split_ifs <;> rfl
  · simp only [cb_store_trailing_buf_len]
    split_ifs <;> rfl

/-- C11. On a device without HMAC in hardware, with an engine that accepts
every submission, `qcedev_hmac_final` on an initialised HMAC context submits
the inner terminal pass and the first-block pass whose payload is the stored
key XOR `0x5c` over one block, and then returns `-EINVAL` without submitting
the terminal pass for the inner digest: the first `qcedev_sha_final` has
cleared `init_done`, and the second one returns at its test of it. -/
theorem C11_hmac_final_returns_einval (K : qcedev_hdr) (env : user_env) (E : hash_engine)
    (podev : ce_support) (areq : qcedev_sha_op_req) (s : hash_state)
    (hdev : podev.sha_hmac = false) (hE : ∀ p, E.ret p = 0)
    (hinit : s.sha_ctxt.init_done = true)
    (halg : areq.alg = K.QCEDEV_ALG_SHA1_HMAC ∨ areq.alg = K.QCEDEV_ALG_SHA256_HMAC) :
    ∃ s1 p1 p2, qcedev_hmac_final K env E podev areq s = .ok (- EINVAL, s1) ∧
      s1.trace = s.trace ++ [p1, p2] ∧
      p1.last_blk = 1 ∧
      p1.src = s.sha_ctxt.trailing_buf.take s.sha_ctxt.trailing_buf_len ∧
      p2.first_blk = 1 ∧ p2.last_blk = 0 ∧ p2.nbytes = 64 ∧
      p2.src = (List.range 64).map
        (fun i =>
          (((qcedev_sha_final E areq s true).2.sha_ctxt.authkey.getD i 0) ^^^ 0x5c) % 256) ∧
      s1.sha_ctxt.trailing_buf_len =
        (if areq.alg = K.QCEDEV_ALG_SHA1_HMAC then 20 else 32) := by
  have hf : (s.sha_ctxt.init_done = false) = False := by
    rw [hinit]
    simp
  have hfin_done : (qcedev_sha_final E areq s true).2.sha_ctxt.init_done = false := by
    simp only [qcedev_sha_final, hf, if_false, Bool.true_eq_false]
  have hfin_buf : (qcedev_sha_final E areq s true).2.sha_ctxt.trailing_buf.length = 64 := by
    simp only [qcedev_sha_final, hf, if_false, Bool.true_eq_false, List.length_replicate]
  have hfin_tr : (qcedev_sha_final E areq s true).2.trace = s.trace ++
      [pass_of areq.alg { s.sha_ctxt with last_blk := 1 }
        (s.sha_ctxt.trailing_buf.take s.sha_ctxt.trailing_buf_len)
        s.sha_ctxt.trailing_buf_len] := by
    simp only [qcedev_sha_final, hf, if_false, Bool.true_eq_false, submit_sha]
  obtain ⟨k1, k2, k3, k4⟩ :=
    qcedev_hmac_update_iokey_ctxt K areq (qcedev_sha_final E areq s true).2 false hfin_buf
  have hkl : (qcedev_hmac_update_iokey K areq (qcedev_sha_final E areq s true).2
      false).sha_ctxt.trailing_buf.length = 64 := by
    rw [k4]
    simp only [List.length_map, List.length_range]
  obtain ⟨s1, p2, o1, o2, o3, o4, o5, o6, o7, o8⟩ := qcedev_hmac_get_ohash_pass K env E areq
    (qcedev_hmac_update_iokey K areq (qcedev_sha_final E areq s true).2 false) halg k2 hkl
  have hs1 : s1.sha_ctxt.init_done = false := by
    rw [o7, k3, hfin_done]
  refine ⟨s1, pass_of areq.alg { s.sha_ctxt with last_blk := 1 }
    (s.sha_ctxt.trailing_buf.take s.sha_ctxt.trailing_buf_len) s.sha_ctxt.trailing_buf_len,
    p2, ?_, ?_, ?_, ?_, o3, o4, o5, ?_, o8⟩
  · have hsec : qcedev_sha_final E areq s1 true = (- EINVAL, s1) := by
      simp only [qcedev_sha_final, hs1, if_true]
    unfold qcedev_hmac_final
    simp only [hdev, Bool.false_eq_true, if_false, o1, hE, ne_eq, not_true_eq_false, hsec]
  · rw [o2, k1, hfin_tr, List.append_assoc]
    rfl
  · rfl
  · simp only [pass_of, List.take_take, Nat.min_self]
  · rw [o6, k4]
    simp only [Bool.false_eq_true, if_false]

/-- C11 on the handle that `qcedev_hmac_init` leaves for an HMAC-SHA256
request with a 3-byte key. -/
theorem C11_hmac_final_returns_einval_witness :
    ∃ s1 p1 p2, qcedev_hmac_final hdr sample_env hash_engine_accepts no_hmac_support
        sample_hmac_op_req sample_hmac_handle = .ok (- EINVAL, s1) ∧
      s1.trace = sample_hmac_handle.trace ++ [p1, p2] ∧
      p1.last_blk = 1 ∧ p2.first_blk = 1 ∧ p2.last_blk = 0 ∧ p2.nbytes = 64 :=
  (C11_hmac_final_returns_einval hdr sample_env hash_engine_accepts no_hmac_support
    sample_hmac_op_req sample_hmac_handle rfl (fun _ => rfl) (by decide)
    (Or.inr rfl)).imp (fun _ h => h.imp (fun _ h => h.imp (fun _ h =>
      ⟨h.1, h.2.1, h.2.2.1, h.2.2.2.2.1, h.2.2.2.2.2.1, h.2.2.2.2.2.2.1⟩)))

set_option maxRecDepth 100000 in
/-- C15. A validated request of 65296 bytes in 16 segments of 4081 bytes, on
an initialised context, with readable memory and an engine that accepts: the
second slice takes segments up to the last one, the counting loop ends with
`j = req.entries = 16`, and the bookkeeping after the slice indexes the
segment arrays at 16, past their end. -/
theorem C15_update_leaves_array :
    qcedev_check_sha_params hdr sample_sha_16 full_support = 0 ∧
    sample_sha_16.data_len > hdr.QCE_MAX_OPER_DATA ∧
    fault_of (qcedev_sha_update hdr sample_env hash_engine_accepts sample_sha_16
      (qcedev_sha_init hdr sample_sha_16 fresh_hash_state).2) =
        some (fault.out_of_bounds 16) ∧
    fault_of (qcedev_sha_update_slices hdr sample_env hash_engine_accepts sample_sha_16
      (qcedev_sha_init hdr sample_sha_16 fresh_hash_state).2) =
        some (fault.out_of_bounds 16) := by
  refine ⟨by decide, by decide, by decide, by decide⟩

/-- The slice taken from a long segment is a descriptor that
`qcedev_sha_update_max_xfer` can take. -/
theorem slice_ok_long (K : qcedev_hdr) (env : user_env) (r : qcedev_sha_op_req)
    (s0 : hash_state) (c : split_state)
    (hM1 : K.QCE_MAX_OPER_DATA + 128 < 2 ^ 32) (hent : r.entries < K.QCEDEV_MAX_BUFFERS)
    (inv : split_inv env r s0 c) (hi : c.i < r.entries)
    (hlong : (c.sreq.data c.i).len > K.QCE_MAX_OPER_DATA) :
    slice_ok K (slice_of_long_segment K c) := by
  have hag := inv.agree c.i (Nat.le_refl _) hi
  have hL : (c.req_data c.i).len > K.QCE_MAX_OPER_DATA := by rw [← hag]; exact hlong
  have hv : (c.req_data c.i).vaddr ≠ 0 :=
    inv.nonnull c.i (Nat.le_refl _) hi (by omega)
  constructor
  · exact Nat.le_refl 1
  · show 1 ≤ K.QCEDEV_MAX_BUFFERS
    omega
  · show len_from (slice_of_long_segment K c).data 0 1 = K.QCE_MAX_OPER_DATA
    simp only [len_from, slice_of_long_segment_zero, Nat.add_zero]
  · show K.QCE_MAX_OPER_DATA + 128 < 2 ^ 32
    exact hM1
  · intro j hj _
    have hj0 : j = 0 := by
      have : j < 1 := hj
      omega
    rw [hj0, slice_of_long_segment_zero, hag]
    exact hv

/-- The slice that takes all the segments that are left is a descriptor that
`qcedev_sha_update_max_xfer` can take. -/
theorem slice_ok_all_left (K : qcedev_hdr) (env : user_env) (r : qcedev_sha_op_req)
    (s0 : hash_state) (c : split_state) (g : (Nat → buf_info) × Nat × Nat × Nat)
    (hM1 : K.QCE_MAX_OPER_DATA + 128 < 2 ^ 32) (hent : r.entries < K.QCEDEV_MAX_BUFFERS)
    (inv : split_inv env r s0 c) (hi : c.i < r.entries)
    (hsum : len_from c.sreq.data c.i (r.entries - c.i) < K.QCE_MAX_OPER_DATA)
    (hg1 : g.1 = c.sreq.data)
    (hg3 : g.2.2.1 = len_from c.sreq.data c.i (r.entries - c.i))
    (hg4 : g.2.2.2 = r.entries - c.i) :
    slice_ok K (slice_of_segments c g) := by
  have hagree : ∀ j, c.i ≤ j → j < c.i + (r.entries - c.i) → c.sreq.data j = c.req_data j :=
    fun j h1 h2 => inv.agree j h1 (by omega)
  have hfront : ∀ k, k < r.entries - c.i →
      (slice_of_segments c g).data (0 + k) = c.sreq.data (c.i + k) := by
    intro k hk
    rw [Nat.zero_add, slice_of_segments_front c g k (by rw [hg4]; exact hk), hg1]
  constructor
  · show 1 ≤ g.2.2.2
    omega
  · show g.2.2.2 ≤ K.QCEDEV_MAX_BUFFERS
    omega
  · show len_from _ 0 g.2.2.2 = g.2.2.1
    rw [hg4, hg3]
    exact len_from_shift _ _ _ 0 c.i hfront
  · show g.2.2.1 + 128 < 2 ^ 32
    omega
  · intro j hj
    have hj2 : j < r.entries - c.i := by
      have : j < g.2.2.2 := hj
      omega
    have := hfront j hj2
    rw [Nat.zero_add] at this
    rw [this, hagree (c.i + j) (by omega) (by omega)]
    exact inv.nonnull (c.i + j) (by omega) (by omega)

/-- The slice that ends inside segment `c.i + m` is a descriptor that
`qcedev_sha_update_max_xfer` can take. -/
theorem slice_ok_cut (K : qcedev_hdr) (env : user_env) (r : qcedev_sha_op_req)
    (s0 : hash_state) (c : split_state) (g : (Nat → buf_info) × Nat × Nat × Nat) (m : Nat)
    (hM1 : K.QCE_MAX_OPER_DATA + 128 < 2 ^ 32) (hent : r.entries < K.QCEDEV_MAX_BUFFERS)
    (inv : split_inv env r s0 c) (hm : m < r.entries - c.i)
    (hP : len_from c.sreq.data c.i m < K.QCE_MAX_OPER_DATA)
    (hPM : K.QCE_MAX_OPER_DATA ≤ len_from c.sreq.data c.i (m + 1))
    (hg1 : g.1 (c.i + m) =
      { vaddr := (c.sreq.data (c.i + m)).vaddr
        len := K.QCE_MAX_OPER_DATA - len_from c.sreq.data c.i m })
    (hg1b : ∀ j, j ≠ c.i + m → g.1 j = c.sreq.data j)
    (hg3 : g.2.2.1 = K.QCE_MAX_OPER_DATA) (hg4 : g.2.2.2 = m + 1) :
    slice_ok K (slice_of_segments c g) := by
  have hagree : ∀ j, c.i ≤ j → j < r.entries → c.sreq.data j = c.req_data j := inv.agree
  have hagj := hagree (c.i + m) (by omega) (by omega)
  have hsnoc := len_from_snoc c.sreq.data m c.i
  rw [hsnoc] at hPM
  have hLpos : (c.req_data (c.i + m)).len ≠ 0 := by
    rw [← hagj]
    omega
  have hv : (c.req_data (c.i + m)).vaddr ≠ 0 :=
    inv.nonnull (c.i + m) (by omega) (by omega) hLpos
  have hfront : ∀ k, k < m + 1 → (slice_of_segments c g).data (0 + k) = g.1 (c.i + k) := by
    intro k hk
    rw [Nat.zero_add, slice_of_segments_front c g k (by rw [hg4]; exact hk)]
  have hg1c : ∀ j, c.i ≤ j → j < c.i + m → g.1 j = c.sreq.data j :=
    fun j _ h2 => hg1b j (by omega)
  have hsum : len_from (slice_of_segments c g).data 0 (m + 1) = K.QCE_MAX_OPER_DATA := by
    rw [len_from_shift g.1 _ (m + 1) 0 c.i hfront, len_from_snoc, hg1,
      len_from_congr g.1 c.sreq.data m c.i hg1c]
    show _ + (K.QCE_MAX_OPER_DATA - _) = _
    omega
  constructor
  · show 1 ≤ g.2.2.2
    omega
  · show g.2.2.2 ≤ K.QCEDEV_MAX_BUFFERS
    omega
  · show len_from _ 0 g.2.2.2 = g.2.2.1
    rw [hg4, hg3]
    exact hsum
  · show g.2.2.1 + 128 < 2 ^ 32
    omega
  · intro j hj
    have hj2 : j < m + 1 := by
      have : j < g.2.2.2 := hj
      omega
    have hf := hfront j hj2
    rw [Nat.zero_add] at hf
    rw [hf]
    by_cases hjm : j = m
    · rw [hjm, hg1]
      intro _
      show (c.sreq.data (c.i + m)).vaddr ≠ 0
      rw [hagj]
      exact hv
    · rw [hg1b (c.i + j) (by omega), hagree (c.i + j) (by omega) (by omega)]
      exact inv.nonnull (c.i + j) (by omega) (by omega)

/-- One round of the splitting loop: its slice is a descriptor that
`qcedev_sha_update_max_xfer` can take, the handle after the round is the one
that call leaves, and the slice has `QCE_MAX_OPER_DATA` bytes unless the round
is the last one. -/
theorem split_step_slice_ok (K : qcedev_hdr) (env : user_env) (E : hash_engine)
    (r : qcedev_sha_op_req) (s0 : hash_state) (c : split_state)
    (hread : ∀ a n, env.readable a n = true) (hE : ∀ p, E.ret p = 0)
    (hM0 : 0 < K.QCE_MAX_OPER_DATA) (hM1 : K.QCE_MAX_OPER_DATA + 128 < 2 ^ 32)
    (hent : r.entries < K.QCEDEV_MAX_BUFFERS) (hlen : r.data_len < 2 ^ 32)
    (inv : split_inv env r s0 c) (hi : c.i < r.entries) :
    ∃ sl c1, split_step_slice K r.entries c = .ok sl ∧
      split_step K env E r.entries c = .ok c1 ∧ slice_ok K sl ∧
      qcedev_sha_update_max_xfer K env E sl c.hash = .ok (0, c1.hash) ∧
      (sl.data_len = K.QCE_MAX_OPER_DATA ∨ ¬ c1.i < r.entries) ∧
      sl.data_len ≤ K.QCE_MAX_OPER_DATA := by
  have hib : c.i < K.QCEDEV_MAX_BUFFERS := by omega
  by_cases hlong : (c.sreq.data c.i).len > K.QCE_MAX_OPER_DATA
  · have hsl := slice_ok_long K env r s0 c hM1 hent inv hi hlong
    obtain ⟨h1, e1, _, _⟩ := qcedev_sha_update_max_xfer_ok K env E _ c.hash hread hE
      inv.hash hsl
    refine ⟨slice_of_long_segment K c, after_long_segment K c 0 h1, ?_, ?_, hsl, e1,
      Or.inl rfl, Nat.le_refl _⟩
    · simp only [split_step_slice, hib, not_true_eq_false, if_false, hlong, if_true]
    · simp only [split_step, hib, not_true_eq_false, if_false, hlong, if_true, e1]
  · have hLR : len_from c.sreq.data c.i (r.entries - c.i) =
        len_from c.req_data c.i (r.entries - c.i) :=
      len_from_congr _ _ _ c.i (fun j h1 h2 => inv.agree j h1 (by omega))
    have hbound := inv.bound
    rcases gather_loop_spec K c.sreq.data (r.entries - c.i) c.i 0 0 hM0
        (by rw [Nat.zero_add, hLR]; omega) (by omega) with ⟨a1, a2⟩ | ⟨m, b1, b2, b3, b4⟩
    · rw [Nat.zero_add] at a1
      cases hg : gather_loop K c.sreq.data (r.entries - c.i) c.i 0 0 with
      | error f =>
        rw [hg] at a2
        cases a2
      | ok g =>
        rw [hg] at a2
        have hgd := Except.ok.inj a2
        have hg1 : g.1 = c.sreq.data := by rw [hgd]
        have hg2 : g.2.1 = c.i + (r.entries - c.i) := by rw [hgd]
        have hg3 : g.2.2.1 = len_from c.sreq.data c.i (r.entries - c.i) := by
          rw [hgd]
          exact Nat.zero_add _
        have hg4 : g.2.2.2 = r.entries - c.i := by
          rw [hgd]
          exact Nat.zero_add _
        have hsl := slice_ok_all_left K env r s0 c g hM1 hent inv hi a1 hg1 hg3 hg4
        obtain ⟨h1, e1, _, _⟩ := qcedev_sha_update_max_xfer_ok K env E _ c.hash hread hE
          inv.hash hsl
        have hjb : g.2.1 < K.QCEDEV_MAX_BUFFERS := by omega
        refine ⟨slice_of_segments c g, after_segments c g 0 h1, ?_, ?_, hsl, e1,
          Or.inr ?_, ?_⟩
        · simp only [split_step_slice, hib, not_true_eq_false, if_false, hlong, hg]
        · simp only [split_step, hib, not_true_eq_false, if_false, hlong, hg, e1, hjb]
        · show ¬ (if _ = 0 then g.2.1 + 1 else g.2.1) < r.entries
          split_ifs <;> omega
        · show g.2.2.1 ≤ K.QCE_MAX_OPER_DATA
          omega
    · rw [Nat.zero_add] at b2 b3
      cases hg : gather_loop K c.sreq.data (r.entries - c.i) c.i 0 0 with
      | error f =>
        rw [hg] at b4
        cases b4
      | ok g =>
        rw [hg] at b4
        have hgd := Except.ok.inj b4
        have hg1 : g.1 (c.i + m) =
            { vaddr := (c.sreq.data (c.i + m)).vaddr
              len := K.QCE_MAX_OPER_DATA - len_from c.sreq.data c.i m } := by
          rw [hgd]
          show set_seg c.sreq.data (c.i + m) _ (c.i + m) = _
          rw [set_seg_eq, Nat.zero_add]
        have hg1b : ∀ j, j ≠ c.i + m → g.1 j = c.sreq.data j := by
          intro j hj
          rw [hgd]
          exact set_seg_ne _ _ _ _ hj
        have hg2 : g.2.1 = c.i + m := by rw [hgd]
        have hg3 : g.2.2.1 = K.QCE_MAX_OPER_DATA := by rw [hgd]
        have hg4 : g.2.2.2 = m + 1 := by
          rw [hgd]
          exact Nat.zero_add _
        have hsl := slice_ok_cut K env r s0 c g m hM1 hent inv b1 b2 b3 hg1 hg1b hg3 hg4
        obtain ⟨h1, e1, _, _⟩ := qcedev_sha_update_max_xfer_ok K env E _ c.hash hread hE
          inv.hash hsl
        have hjb : g.2.1 < K.QCEDEV_MAX_BUFFERS := by omega
        refine ⟨slice_of_segments c g, after_segments c g 0 h1, ?_, ?_, hsl, e1,
          Or.inl hg3, ?_⟩
        · simp only [split_step_slice, hib, not_true_eq_false, if_false, hlong, hg]
        · simp only [split_step, hib, not_true_eq_false, if_false, hlong, hg, e1, hjb]
        · show g.2.2.1 ≤ K.QCE_MAX_OPER_DATA
          omega

/-- The slices of the splitting loop are what the segments still to be split
ask for. -/
theorem split_loop_slices_ok (K : qcedev_hdr) (env : user_env) (E : hash_engine)
    (r : qcedev_sha_op_req) (s0 : hash_state)
    (hread : ∀ a n, env.readable a n = true) (hE : ∀ p, E.ret p = 0)
    (hM0 : 0 < K.QCE_MAX_OPER_DATA) (hM1 : K.QCE_MAX_OPER_DATA + 128 < 2 ^ 32)
    (hent : r.entries < K.QCEDEV_MAX_BUFFERS) (hlen : r.data_len < 2 ^ 32) (fuel : Nat) :
    ∀ c, split_inv env r s0 c →
      rounds K.QCE_MAX_OPER_DATA c.req_data c.i (r.entries - c.i) ≤ fuel →
      ∃ sls, split_loop_slices K env E r.entries fuel c = .ok sls ∧
        slices_cover K env sls (bytes_from env c.req_data c.i (r.entries - c.i)) := by
  induction fuel with
  | zero =>
    intro c inv hr
    have hge := rounds_ge K.QCE_MAX_OPER_DATA c.req_data (r.entries - c.i) c.i
    have hi : ¬ c.i < r.entries := by omega
    have hz : r.entries - c.i = 0 := by omega
    refine ⟨[], ?_, ?_⟩
    · simp only [split_loop_slices, hi, false_and, if_false]
    · rw [hz]
      exact ⟨fun sl h => absurd h (List.not_mem_nil sl),
        fun sl h => absurd h (List.not_mem_nil sl), rfl⟩
  | succ fuel ih =>
    intro c inv hr
    by_cases hi : c.i < r.entries
    · obtain ⟨c1, e1, inv1, hlt⟩ :=
        split_step_ok K env E r s0 c hread hE hM0 hM1 hent hlen inv hi
      obtain ⟨sl, c2, f1, f2, f3, f4, f5, f6⟩ :=
        split_step_slice_ok K env E r s0 c hread hE hM0 hM1 hent hlen inv hi
      have hc : c2 = c1 := by
        rw [f2] at e1
        exact Except.ok.inj e1
      rw [hc] at f4 f5
      obtain ⟨sls, g1, g2, g3, g4⟩ := ih c1 inv1 (by omega)
      obtain ⟨h1, x1, _, x3⟩ := qcedev_sha_update_max_xfer_ok K env E sl c.hash hread hE
        inv.hash f3
      have hh : h1 = c1.hash := by
        rw [f4] at x1
        have := Except.ok.inj x1
        exact (Prod.mk.inj this).2.symm
      rw [hh] at x3
      have hbytes : bytes_from env sl.data 0 sl.entries ++
          bytes_from env c1.req_data c1.i (r.entries - c1.i) =
          bytes_from env c.req_data c.i (r.entries - c.i) := by
        have hs1 := inv1.stream
        rw [x3, ← inv.stream, List.append_assoc] at hs1
        exact List.append_cancel_left hs1
      refine ⟨sl :: sls, ?_, ?_, ?_, ?_⟩
      · simp only [split_loop_slices, hi, inv.err, and_self, if_true, f1, e1, g1]
      · intro x hx
        rcases f5 with hM | hlast
        · cases sls with
          | nil => exact absurd hx (List.not_mem_nil x)
          | cons y ys =>
            rw [List.dropLast_cons₂] at hx
            rcases List.mem_cons.mp hx with hx1 | hx1
            · rw [hx1]
              exact hM
            · exact g2 x hx1
        · have hnil : sls = [] := by
            cases fuel with
            | zero =>
              simp only [split_loop_slices, hlast, false_and, if_false,
                Except.ok.injEq] at g1
              exact g1.symm
            | succ n =>
              simp only [split_loop_slices, hlast, false_and, if_false,
                Except.ok.injEq] at g1
              exact g1.symm
          rw [hnil] at hx
          exact absurd hx (List.not_mem_nil x)
      · intro x hx
        rcases List.mem_cons.mp hx with hx1 | hx1
        · rw [hx1]
          exact ⟨f6, f3.sum⟩
        · exact g3 x hx1
      · simp only [List.map_cons, List.flatten_cons]
        rw [g4]
        exact hbytes
    · have hz : r.entries - c.i = 0 := by omega
      refine ⟨[], ?_, ?_⟩
      · simp only [split_loop_slices, hi, false_and, if_false]
      · rw [hz]
        exact ⟨fun sl h => absurd h (List.not_mem_nil sl),
          fun sl h => absurd h (List.not_mem_nil sl), rfl⟩

/-- The slices of `Update` on a validated request of more than
`QCE_MAX_OPER_DATA` bytes in fewer than `QCEDEV_MAX_BUFFERS` segments, which
are readable and not at NULL, on an initialised handle, with an engine that
accepts: every slice but the last has `QCE_MAX_OPER_DATA` bytes, the last has
at most that many, and the slices, in order, are the message. -/
theorem qcedev_sha_update_slices_cover (K : qcedev_hdr) (env : user_env) (E : hash_engine)
    (podev : ce_support) (r : qcedev_sha_op_req) (s : hash_state)
    (hread : ∀ a n, env.readable a n = true) (hE : ∀ p, E.ret p = 0)
    (hM0 : 0 < K.QCE_MAX_OPER_DATA) (hM1 : K.QCE_MAX_OPER_DATA + 128 < 2 ^ 32)
    (hs : hash_inv s) (hv : qcedev_check_sha_params K r podev = 0)
    (hnn : ∀ j, j < r.entries → (r.data j).len ≠ 0 → (r.data j).vaddr ≠ 0)
    (hbig : r.data_len > K.QCE_MAX_OPER_DATA) (hent : r.entries < K.QCEDEV_MAX_BUFFERS) :
    ∃ sls, qcedev_sha_update_slices K env E r s = .ok sls ∧
      slices_cover K env sls (bytes_from env r.data 0 r.entries) := by
  obtain ⟨hpos, hle, hsum, hlen⟩ := qcedev_check_sha_params_accept K r podev hv
  have hinit : (s.sha_ctxt.init_done = false) = False := by
    rw [hs.init]
    simp
  have inv0 : split_inv env r s
      { sreq := r, req_data := r.data, i := 0, err := 0, hash := s } := by
    constructor
    · rfl
    · intro j _ _
      rfl
    · intro j _ h
      exact hnn j h
    · show len_from r.data 0 (r.entries - 0) ≤ r.data_len
      rw [Nat.sub_zero, hsum]
    · exact hs
    · show stream s ++ bytes_from env r.data 0 (r.entries - 0) = _
      rw [Nat.sub_zero]
  have hfuel : rounds K.QCE_MAX_OPER_DATA r.data 0 (r.entries - 0) ≤
      r.entries + r.data_len / K.QCE_MAX_OPER_DATA + 1 := by
    have := rounds_le K.QCE_MAX_OPER_DATA r.data r.entries 0
    rw [hsum] at this
    rw [Nat.sub_zero]
    omega
  obtain ⟨sls, e1, e2⟩ := split_loop_slices_ok K env E r s hread hE hM0 hM1 hent hlen
    (r.entries + r.data_len / K.QCE_MAX_OPER_DATA + 1) _ inv0 hfuel
  refine ⟨sls, ?_, ?_⟩
  · simp only [qcedev_sha_update_slices, hinit, if_false, hbig, if_true, e1]
  · have := e2
    simp only [Nat.sub_zero] at this
    exact this

/-- The slices of `Update` on the request of 65600 bytes in eight segments,
after `Init`. -/
theorem qcedev_sha_update_slices_cover_witness :
    ∃ sls, qcedev_sha_update_slices hdr sample_env hash_engine_accepts sample_sha_long
        (qcedev_sha_init hdr sample_sha_long { fresh_hash_state with trace := [] }).2 =
          .ok sls ∧
      slices_cover hdr sample_env sls
        (bytes_from sample_env sample_sha_long.data 0 sample_sha_long.entries) :=
  qcedev_sha_update_slices_cover hdr sample_env hash_engine_accepts full_support
    sample_sha_long _ (fun _ _ => rfl) (fun _ => rfl) (by decide) (by decide)
    (qcedev_sha_init_ok hdr sample_sha_long fresh_hash_state).1 (by decide) (by decide)
    (by decide) (by decide)

/-- C14. A validated offload request for one segment of 4194320 bytes, every
submission succeeding: the segment goes in two sub-chunks of 4194304 and 16
bytes, which the scatterlists and the `skcipher` request carry, but the
operation descriptor that `start_offload_cipher_req` builds for either
sub-chunk has the crypt length 4194320 of the whole request, which is not the
transfer length and is above `MAX_CEHW_REQ_TRANSFER_SIZE`. -/
theorem C14_offload_descriptor_cryptlen :
    qcedev_check_offload_cipher_params hdr sample_offload_large = 0 ∧
    result_of (qcedev_smmu_ablk_offload_cipher hdr offload_engine_accepts
      sample_offload_large) =
      some (0,
        [{ segment := 0, transfer_data_len := 4194304, sg_src_dma_address := 4096,
           sg_dst_dma_address := 8388608, sg_length := 4194304, areq_cryptlen := 4194304,
           creq := some { cryptlen := 4194320, encklen := 16, ivsize := 16, offload_op := 1,
                          block_offset := 0, is_copy_op := false } },
         { segment := 0, transfer_data_len := 16, sg_src_dma_address := 4198400,
           sg_dst_dma_address := 12582912, sg_length := 16, areq_cryptlen := 16,
           creq := some { cryptlen := 4194320, encklen := 16, ivsize := 16, offload_op := 1,
                          block_offset := 0, is_copy_op := false } }]) ∧
    MAX_CEHW_REQ_TRANSFER_SIZE < 4194320 := by
  refine ⟨by decide, by decide, by decide⟩

/-- The transfer lengths of two runs of calls add up. -/
theorem segment_transfer_append (a b : List offload_pass) (i : Nat) :
    segment_transfer (a ++ b) i = segment_transfer a i + segment_transfer b i := by
  simp only [segment_transfer, List.filter_append, List.map_append, List.sum_append]

/-- The loop over the sub-chunks of segment `i`, with an engine that accepts
and a positive limit: it returns 0; every call it makes is for segment `i` and
carries its transfer length, which is positive and at most the limit, in the
scatterlists and in the `skcipher` request; the transfer lengths add up to the
pending length. -/
theorem offload_chunk_loop_ok (K : qcedev_hdr) (E : offload_engine)
    (r : qcedev_offload_cipher_op_req) (mx i : Nat) (hE : ∀ p, E.ret p = 0)
    (hmx : 0 < mx) (fuel : Nat) :
    ∀ pending src dst tr, pending < fuel →
      ∃ ps, offload_chunk_loop K E r mx i fuel pending src dst tr = .ok (0, tr ++ ps) ∧
        (∀ p ∈ ps, p.segment = i ∧ p.areq_cryptlen = p.transfer_data_len ∧
          p.sg_length = p.transfer_data_len ∧ 0 < p.transfer_data_len ∧
          p.transfer_data_len ≤ mx ∧ p.creq = offload_qce_req K r) ∧
        segment_transfer ps i = pending ∧
        ∀ k, k ≠ i → segment_transfer ps k = 0 := by
  induction fuel with
  | zero =>
    intro pending src dst tr h
    omega
  | succ fuel ih =>
    intro pending src dst tr h
    by_cases hp : pending = 0
    · refine ⟨[], ?_, fun p hp => absurd hp (List.not_mem_nil p), ?_, fun k _ => rfl⟩
      · simp only [offload_chunk_loop, hp, if_true, List.append_nil]
      · rw [hp]
        rfl
    · have ht1 : 0 < min mx pending := by
        simp only [Nat.lt_min]
        omega
      have ht2 : min mx pending ≤ pending := Nat.min_le_right _ _
      obtain ⟨ps, e1, e2, e3, e4⟩ := ih (pending - min mx pending) (src + min mx pending)
        (dst + min mx pending)
        (tr ++ [{ segment := i, transfer_data_len := min mx pending,
                  sg_src_dma_address := src, sg_dst_dma_address := dst,
                  sg_length := min mx pending, areq_cryptlen := min mx pending,
                  creq := offload_qce_req K r }]) (by omega)
      refine ⟨{ segment := i, transfer_data_len := min mx pending,
                sg_src_dma_address := src, sg_dst_dma_address := dst,
                sg_length := min mx pending, areq_cryptlen := min mx pending,
                creq := offload_qce_req K r } :: ps, ?_, ?_, ?_, ?_⟩
      · rw [offload_chunk_loop]
        simp only [hp, if_false, hE, ne_eq, not_true_eq_false, e1, List.append_assoc,
          List.singleton_append]
      · intro p hp1
        rcases List.mem_cons.mp hp1 with h1 | h1
        · rw [h1]
          exact ⟨rfl, rfl, rfl, ht1, Nat.min_le_left _ _, rfl⟩
        · exact e2 p h1
      · have := segment_transfer_append
          [{ segment := i, transfer_data_len := min mx pending,
             sg_src_dma_address := src, sg_dst_dma_address := dst,
             sg_length := min mx pending, areq_cryptlen := min mx pending,
             creq := offload_qce_req K r }] ps i
        rw [List.singleton_append] at this
        rw [this, e3]
        simp only [segment_transfer, decide_True, List.filter_cons_of_pos, List.filter_nil,
          List.map_cons, List.map_nil, List.sum_cons, List.sum_nil, Nat.add_zero]
        omega
      · intro k hk
        have := segment_transfer_append
          [{ segment := i, transfer_data_len := min mx pending,
             sg_src_dma_address := src, sg_dst_dma_address := dst,
             sg_length := min mx pending, areq_cryptlen := min mx pending,
             creq := offload_qce_req K r }] ps k
        rw [List.singleton_append] at this
        rw [this, e4 k hk]
        have hne : ¬ (i = k) := fun h => hk h.symm
        simp only [segment_transfer, hne, decide_False, Bool.false_eq_true,
          not_false_eq_true, List.filter_cons_of_neg, List.filter_nil, List.map_nil,
          List.sum_nil]

/-- The loop over the segments, with an engine that accepts and a positive
limit: it returns 0; every call is for one of its segments and carries its
transfer length as above; for each of its segments the transfer lengths add up
to the length of the segment. -/
theorem offload_segment_loop_ok (K : qcedev_hdr) (E : offload_engine)
    (r : qcedev_offload_cipher_op_req) (mx b : Nat) (hE : ∀ p, E.ret p = 0)
    (hmx : 0 < mx) (n : Nat) :
    ∀ i tr, i + n ≤ K.QCEDEV_MAX_BUFFERS →
      ∃ ps, offload_segment_loop K E r mx b n i tr = .ok (0, tr ++ ps) ∧
        (∀ p ∈ ps, i ≤ p.segment ∧ p.segment < i + n ∧
          p.areq_cryptlen = p.transfer_data_len ∧
          p.sg_length = p.transfer_data_len ∧ 0 < p.transfer_data_len ∧
          p.transfer_data_len ≤ mx ∧ p.creq = offload_qce_req K r) ∧
        (∀ k, i ≤ k → k < i + n → segment_transfer ps k = (r.vbuf.src k).len) ∧
        ∀ k, k < i → segment_transfer ps k = 0 := by
  induction n with
  | zero =>
    intro i tr _
    refine ⟨[], ?_, fun p hp => absurd hp (List.not_mem_nil p), ?_, fun k _ => rfl⟩
    · simp only [offload_segment_loop, List.append_nil]
    · intro k h1 h2
      omega
  | succ n ih =>
    intro i tr hb
    have hi : i < K.QCEDEV_MAX_BUFFERS := by omega
    obtain ⟨ps1, c1, c2, c3, c4⟩ := offload_chunk_loop_ok K E r mx i hE hmx
      ((r.vbuf.src i).len + 1) (r.vbuf.src i).len ((r.vbuf.src i).vaddr + b)
      ((r.vbuf.dst i).vaddr + b) tr (by omega)
    obtain ⟨ps2, d1, d2, d3, d4⟩ := ih (i + 1) (tr ++ ps1) (by omega)
    refine ⟨ps1 ++ ps2, ?_, ?_, ?_, ?_⟩
    · rw [offload_segment_loop]
      simp only [hi, not_true_eq_false, if_false, c1, ne_eq, d1, List.append_assoc]
    · intro p hp
      rcases List.mem_append.mp hp with h | h
      · obtain ⟨x1, x2, x3, x4, x5, x6⟩ := c2 p h
        exact ⟨by omega, by omega, x2, x3, x4, x5, x6⟩
      · obtain ⟨x0, x1, x2, x3, x4, x5, x6⟩ := d2 p h
        exact ⟨by omega, by omega, x2, x3, x4, x5, x6⟩
    · intro k h1 h2
      rw [segment_transfer_append]
      by_cases hk : k = i
      · rw [hk, c3, d4 i (by omega)]
        rfl
      · rw [c4 k hk, d3 k (by omega) (by omega)]
        exact Nat.zero_add _
    · intro k hk
      rw [segment_transfer_append, c4 k (by omega), d4 k (by omega)]

/-- The sub-chunks of an offload request with at most `QCEDEV_MAX_BUFFERS`
segments, every submission succeeding: the call returns 0; every sub-chunk
carries its transfer length, positive and at most
`MAX_CEHW_REQ_TRANSFER_SIZE`, in the scatterlists and in the `skcipher`
request; the transfer lengths of the sub-chunks of a segment add up to the
length of the segment; and the operation descriptor of every sub-chunk is the
one built from the whole request, with `cryptlen = data_len`. -/
theorem qcedev_smmu_ablk_offload_cipher_ok (K : qcedev_hdr) (E : offload_engine)
    (r : qcedev_offload_cipher_op_req) (hE : ∀ p, E.ret p = 0)
    (hent : r.entries ≤ K.QCEDEV_MAX_BUFFERS) :
    ∃ tr, qcedev_smmu_ablk_offload_cipher K E r = .ok (0, tr) ∧
      (∀ p ∈ tr, p.segment < r.entries ∧ p.areq_cryptlen = p.transfer_data_len ∧
        p.sg_length = p.transfer_data_len ∧ 0 < p.transfer_data_len ∧
        p.transfer_data_len ≤ MAX_CEHW_REQ_TRANSFER_SIZE ∧
        ∀ q, p.creq = some q → q.cryptlen = r.data_len) ∧
      ∀ i, i < r.entries → segment_transfer tr i = (r.vbuf.src i).len := by
  obtain ⟨ps, e1, e2, e3, _⟩ := offload_segment_loop_ok K E r (MAX_CEHW_REQ_TRANSFER_SIZE - 0)
    (if r.mode = K.QCEDEV_AES_MODE_CTR then r.byteoffset else 0) hE (by decide) r.entries 0 []
    (by omega)
  refine ⟨ps, ?_, ?_, ?_⟩
  · simp only [qcedev_smmu_ablk_offload_cipher, e1, List.nil_append]
  · intro p hp
    obtain ⟨_, x1, x2, x3, x4, x5, x6⟩ := e2 p hp
    refine ⟨by omega, x2, x3, x4, x5, ?_⟩
    intro q hq
    rw [x6] at hq
    unfold offload_qce_req at hq
    split_ifs at hq
    have := Option.some.inj hq
    rw [← this]
  · intro i hi
    exact e3 i (Nat.zero_le _) (by omega)

/-- The sub-chunks of the request for 4194320 bytes. -/
theorem qcedev_smmu_ablk_offload_cipher_ok_witness :
    ∃ tr, qcedev_smmu_ablk_offload_cipher hdr offload_engine_accepts sample_offload_large =
        .ok (0, tr) ∧
      ∀ i, i < sample_offload_large.entries →
        segment_transfer tr i = (sample_offload_large.vbuf.src i).len :=
  (qcedev_smmu_ablk_offload_cipher_ok hdr offload_engine_accepts sample_offload_large
    (fun _ => rfl) (by decide)).imp (fun _ h => ⟨h.1, h.2.2⟩)

set_option maxRecDepth 100000 in
/-- C12. A validated AES-CTR request with byte offset 1 for 80000 bytes in two
source segments of 40000 bytes, every submission and every copy succeeding.
The first sub-operation takes 40000 and 25278 source bytes behind the one-byte
pad (the copy loop ends at offset 65279) but is submitted with crypt length
65280, and 65279 bytes are copied out from offset 1: one byte more than the
source bytes it holds.  The second sub-operation holds the 14722 source bytes
that are left; the destination has room for 14721 more, so the loop that copies
out goes on with one byte over the empty slots and leaves the array at index
16. -/
theorem C12_ctr_offset_chunk_overcounts :
    qcedev_check_cipher_params hdr sample_ctr_offset full_support = 0 ∧
    (cipher_run_view (qcedev_vbuf_ablk_cipher hdr sample_env cipher_engine_accepts
      sample_ctr_offset)).1 = some (fault.out_of_bounds 16) ∧
    (cipher_run_view (qcedev_vbuf_ablk_cipher hdr sample_env cipher_engine_accepts
      sample_ctr_offset)).2.2.1 =
        [{ byteoffset := 1
           src := [{ vaddr := 65536, len := 40000 }, { vaddr := 131072, len := 25278 }]
           copied := 65279, cryptlen := 65280, submitted := true },
         { byteoffset := 0
           src := [{ vaddr := 156350, len := 14722 }]
           copied := 14722, cryptlen := 14722, submitted := true }] ∧
    (cipher_run_view (qcedev_vbuf_ablk_cipher hdr sample_env cipher_engine_accepts
      sample_ctr_offset)).2.2.2.take 2 =
        [{ pass := 0, dst_i := 0, vaddr := 1048576, offset := 1, len := 65279 },
         { pass := 1, dst_i := 0, vaddr := 1113855, offset := 0, len := 14721 }] := by
  refine ⟨by decide, by decide, by decide, by decide⟩

/-- The sum of the lengths of the first `n` segments, in both notations. -/
theorem seg_sum_eq_len_from (segs : Nat → buf_info) (n : Nat) :
    seg_sum segs n = len_from segs 0 n := by
  induction n with
  | zero => rfl
  | succ n ih =>
    have h := len_from_snoc segs n 0
    rw [Nat.zero_add] at h
    rw [h, ← ih]
    simp only [seg_sum, List.range_succ, List.map_append, List.map_cons, List.map_nil,
      List.sum_append, List.sum_cons, List.sum_nil, Nat.add_zero]

/-- A run of segments is at most a longer run from the same index. -/
theorem len_from_mono (data : Nat → buf_info) (i a b : Nat) (h : a ≤ b) :
    len_from data i a ≤ len_from data i b := by
  obtain ⟨d, rfl⟩ : ∃ d, b = a + d := ⟨b - a, by omega⟩
  rw [len_from_add]
  omega

/-- What the cipher validator guarantees about the shape of a request:
between 1 and `QCEDEV_MAX_BUFFERS` segments, source and destination lengths
that add up to `data_len`, which is positive and fits in 32 bits, and a byte
offset only in CTR mode and below the block size. -/
theorem qcedev_check_cipher_params_shape (K : qcedev_hdr) (req : qcedev_cipher_op_req)
    (podev : ce_support) (h : qcedev_check_cipher_params K req podev = 0) :
    1 ≤ req.entries ∧ req.entries ≤ K.QCEDEV_MAX_BUFFERS ∧ 0 < req.data_len ∧
    req.data_len < 2 ^ 32 ∧
    len_from req.vbuf.src 0 req.entries = req.data_len ∧
    len_from req.vbuf.dst 0 req.entries = req.data_len ∧
    (req.byteoffset ≠ 0 →
      req.mode = K.QCEDEV_AES_MODE_CTR ∧ req.byteoffset < K.AES_CE_BLOCK_SIZE) := by
  obtain ⟨-, h2, -, -, -, h6, -, -, -, -, -, hd, hs⟩ :=
    qcedev_check_cipher_params_accept K req podev h
  obtain ⟨s1, s2⟩ := qcedev_check_cipher_params_sums K req podev h
  have hd2 := dst_loop_exact req.vbuf.dst (List.range req.entries) 0 req.data_len
    (by decide) hd
  have hu : U32_MAX = 2 ^ 32 - 1 := rfl
  rw [hu] at hd2
  rw [seg_sum_eq_len_from] at s1 s2
  refine ⟨by omega, by omega, by omega, by omega, s1, s2, ?_⟩
  intro hb
  constructor
  · by_contra hm
    exact h6 ⟨hb, Or.inl hm⟩
  · by_contra hm
    exact h6 ⟨hb, Or.inr (Or.inl (by omega))⟩

/-- The loop that puts the source segments back: the `n` slots from `i` on are
as saved, the others as before. -/
theorem restore_src_loop_spec (K : qcedev_hdr) (saved : Nat → buf_info) (n : Nat) :
    ∀ i src src1, restore_src_loop K saved n i src = .ok src1 →
      (∀ j, i ≤ j → j < i + n → src1 j = saved j) ∧
      (∀ j, j < i → src1 j = src j) := by
  induction n with
  | zero =>
    intro i src src1 h
    simp only [restore_src_loop, Except.ok.injEq] at h
    rw [← h]
    exact ⟨fun j h1 h2 => by omega, fun j _ => rfl⟩
  | succ n ih =>
    intro i src src1 h
    rw [restore_src_loop] at h
    split_ifs at h
    obtain ⟨a1, a2⟩ := ih (i + 1) _ src1 h
    constructor
    · intro j h1 h2
      by_cases hj : j = i
      · rw [a2 j (by omega), hj, set_seg_eq]
      · exact a1 j (by omega) (by omega)
    · intro j hj
      rw [a2 j (by omega), set_seg_ne _ _ _ _ (by omega)]

/-- The loop that puts the destination segments back, for saved lengths that
add up to `data_len` over `entries` slots: every slot is as before or as
saved, and every slot below `entries` that has a length is as saved. -/
theorem restore_dst_loop_spec (K : qcedev_hdr) (saved : Nat → buf_info)
    (data_len entries : Nat) (hsum : len_from saved 0 entries = data_len)
    (hD : data_len < 2 ^ 32) (fuel : Nat) :
    ∀ i dst dst1, i ≤ entries →
      restore_dst_loop K saved data_len fuel (len_from saved 0 i) i dst = .ok dst1 →
      (∀ j, j < i → dst1 j = dst j) ∧
      (∀ j, i ≤ j → j < entries → (saved j).len ≠ 0 → dst1 j = saved j) ∧
      (∀ j, dst1 j = dst j ∨ dst1 j = saved j) := by
  have hstop : ∀ i, i ≤ entries → ¬ len_from saved 0 i < data_len →
      ∀ j, i ≤ j → j < entries → (saved j).len ≠ 0 → False := by
    intro i _ hlen j h1 h2 h3
    have m1 := len_from_mono saved 0 i j h1
    have m2 := len_from_mono saved 0 (j + 1) entries (by omega)
    have m3 := len_from_snoc saved j 0
    rw [Nat.zero_add] at m3
    omega
  induction fuel with
  | zero =>
    intro i dst dst1 hi h
    rw [restore_dst_loop] at h
    split_ifs at h with hc
    simp only [Except.ok.injEq] at h
    rw [← h]
    exact ⟨fun j _ => rfl, fun j h1 h2 h3 => (hstop i hi hc j h1 h2 h3).elim,
      fun j => Or.inl rfl⟩
  | succ fuel ih =>
    intro i dst dst1 hi h
    rw [restore_dst_loop] at h
    by_cases hc : len_from saved 0 i < data_len
    · simp only [hc, not_true_eq_false, if_false] at h
      split_ifs at h
      have hlt : i < entries := by
        by_contra hge
        have : i = entries := by omega
        rw [this, hsum] at hc
        omega
      have m2 := len_from_mono saved 0 (i + 1) entries (by omega)
      have m3 := len_from_snoc saved i 0
      rw [Nat.zero_add] at m3
      have hmod : (len_from saved 0 i + (saved i).len) % 2 ^ 32 = len_from saved 0 (i + 1) := by
        rw [m3]
        omega
      rw [hmod] at h
      obtain ⟨a1, a2, a3⟩ := ih (i + 1) _ dst1 (by omega) h
      refine ⟨?_, ?_, ?_⟩
      · intro j hj
        rw [a1 j (by omega), set_seg_ne _ _ _ _ (by omega)]
      · intro j h1 h2 h3
        by_cases hj : j = i
        · rw [a1 j (by omega), hj, set_seg_eq]
        · exact a2 j (by omega) h2 h3
      · intro j
        rcases a3 j with h1 | h1
        · by_cases hj : j = i
          · right
            rw [h1, hj, set_seg_eq]
          · left
            rw [h1, set_seg_ne _ _ _ _ hj]
        · exact Or.inr h1
    · simp only [hc, not_false_eq_true, if_true, Except.ok.injEq] at h
      rw [← h]
      exact ⟨fun j _ => rfl, fun j h1 h2 h3 => (hstop i hi hc j h1 h2 h3).elim,
        fun j => Or.inl rfl⟩

/-- The loop that copies out changes no destination slot that was saved
without a length. -/
theorem cipher_copy_out_loop_kept (K : qcedev_hdr) (E : cipher_engine) (pass b : Nat)
    (err : Int) (saved : Nat → buf_info) (fuel : Nat) :
    ∀ dst data_len dst_i k out res, dst_kept saved dst →
      cipher_copy_out_loop K E pass b err fuel dst data_len dst_i k out = .ok res →
      dst_kept saved res.dst := by
  induction fuel with
  | zero =>
    intro dst data_len dst_i k out res hk h
    rw [cipher_copy_out_loop] at h
    split_ifs at h
    simp only [Except.ok.injEq] at h
    rw [← h]
    exact hk
  | succ fuel ih =>
    intro dst data_len dst_i k out res hk h
    rw [cipher_copy_out_loop] at h
    by_cases h0 : data_len = 0
    · simp only [h0, if_true, Except.ok.injEq] at h
      rw [← h]
      exact hk
    · simp only [h0, if_false] at h
      by_cases hb : dst_i < K.QCEDEV_MAX_BUFFERS
      · simp only [hb, not_true_eq_false, if_false] at h
        by_cases hl : (dst dst_i).len ≤ data_len
        · simp only [hl, if_true] at h
          split_ifs at h
          · simp only [Except.ok.injEq] at h
            rw [← h]
            exact hk
          · exact ih _ _ _ _ _ res hk h
          · exact ih _ _ _ _ _ res hk h
        · simp only [hl, if_false] at h
          have hk2 : dst_kept saved (set_seg dst dst_i
              { vaddr := (dst dst_i).vaddr + data_len,
                len := (dst dst_i).len - data_len }) := by
            intro j hj
            by_cases hji : j = dst_i
            · have := hk j hj
              rw [hji] at this hj
              rw [this] at hl
              omega
            · rw [set_seg_ne _ _ _ _ hji]
              exact hk j hj
          split_ifs at h
          · simp only [Except.ok.injEq] at h
            rw [← h]
            exact hk
          · exact ih _ _ _ _ _ res hk2 h
          · exact ih _ _ _ _ _ res hk2 h
      · simp only [hb, not_false_eq_true, if_true] at h
        cases h

/-- A sub-operation changes no destination slot that was saved without a
length, and leaves the source array alone. -/
theorem qcedev_vbuf_ablk_cipher_max_xfer_kept (K : qcedev_hdr) (env : user_env)
    (E : cipher_engine) (saved : Nat → buf_info) (st st1 : cipher_state) (err : Int)
    (hk : dst_kept saved st.creq.vbuf.dst)
    (h : qcedev_vbuf_ablk_cipher_max_xfer K env E st = .ok (err, st1)) :
    dst_kept saved st1.creq.vbuf.dst ∧ st1.creq.vbuf.src = st.creq.vbuf.src := by
  unfold qcedev_vbuf_ablk_cipher_max_xfer at h
  simp only at h
  generalize (if st.creq.mode = K.QCEDEV_AES_MODE_CTR then st.creq.byteoffset else 0) = b at h
  cases hc : cipher_copy_in K env st.creq.vbuf.src (1 + (st.creq.entries - 1)) 0 with
  | error f =>
    rw [hc] at h
    cases h
  | ok ci =>
    rw [hc] at h
    simp only at h
    cases ci with
    | false =>
      simp only [if_true, Except.ok.injEq, Prod.mk.injEq] at h
      rw [← h.2]
      exact ⟨hk, rfl⟩
    | true =>
      simp only [Bool.true_eq_false, if_false] at h
      split at h
      · cases h
      · rename_i res hres
        have hr := cipher_copy_out_loop_kept K E _ _ _ saved _ _ _ _ _ _ res hk hres
        split_ifs at h
        · simp only [Except.ok.injEq, Prod.mk.injEq] at h
          rw [← h.2]
          exact ⟨hr, rfl⟩
        · simp only [Except.ok.injEq, Prod.mk.injEq] at h
          rw [← h.2]
          exact ⟨hr, rfl⟩

/-- A round of the splitting loop changes no destination slot that was saved
without a length. -/
theorem chunk_step_kept (K : qcedev_hdr) (env : user_env) (E : cipher_engine)
    (entries : Nat) (saved : Nat → buf_info) (c c1 : chunk_state)
    (hk : dst_kept saved c.st.creq.vbuf.dst)
    (h : chunk_step K env E entries c = .ok (.next c1)) :
    dst_kept saved c1.st.creq.vbuf.dst := by
  unfold chunk_step at h
  split_ifs at h
  · cases hx : qcedev_vbuf_ablk_cipher_max_xfer K env E
        { c.st with creq := chunk_of_long_segment c } with
    | error e =>
      rw [hx] at h
      cases h
    | ok v =>
      obtain ⟨err, st1⟩ := v
      rw [hx] at h
      simp only at h
      have hr := (qcedev_vbuf_ablk_cipher_max_xfer_kept K env E saved
        { c.st with creq := chunk_of_long_segment c } st1 err hk hx).1
      split_ifs at h
      · cases h
      · simp only [Except.ok.injEq, chunk_outcome.next.injEq] at h
        rw [← h]
        exact hr
  · cases hg : cipher_gather_loop K c.max_data_xfer c.st.creq.vbuf.src (entries - c.i) c.i
        c.st.creq.byteoffset 0 with
    | error f =>
      rw [hg] at h
      cases h
    | ok g =>
      rw [hg] at h
      simp only at h
      cases hx : qcedev_vbuf_ablk_cipher_max_xfer K env E
          { c.st with creq := chunk_of_segments c g } with
      | error e =>
        rw [hx] at h
        cases h
      | ok v =>
        obtain ⟨err, st1⟩ := v
        rw [hx] at h
        simp only at h
        have hr := (qcedev_vbuf_ablk_cipher_max_xfer_kept K env E saved
          { c.st with creq := chunk_of_segments c g } st1 err hk hx).1
        split_ifs at h
        all_goals first
          | (simp only [Except.ok.injEq, chunk_outcome.next.injEq] at h
             rw [← h]
             exact hr)
          | cases h

/-- The splitting loop changes no destination slot that was saved without a
length. -/
theorem chunk_loop_kept (K : qcedev_hdr) (env : user_env) (E : cipher_engine)
    (entries : Nat) (saved : Nat → buf_info) (fuel : Nat) :
    ∀ c c1 : chunk_state, dst_kept saved c.st.creq.vbuf.dst →
      chunk_loop K env E entries fuel c = .ok (.next c1) →
      dst_kept saved c1.st.creq.vbuf.dst := by
  induction fuel with
  | zero =>
    intro c c1 hk h
    rw [chunk_loop] at h
    split_ifs at h
    simp only [Except.ok.injEq, chunk_outcome.next.injEq] at h
    rw [← h]
    exact hk
  | succ fuel ih =>
    intro c c1 hk h
    rw [chunk_loop] at h
    split_ifs at h
    · cases hx : chunk_step K env E entries c with
      | error e =>
        rw [hx] at h
        cases h
      | ok o =>
        cases o with
        | early err st =>
          rw [hx] at h
          cases h
        | next c2 =>
          rw [hx] at h
          exact ih c2 c1 (chunk_step_kept K env E entries saved c c2 hk hx) h
    · simp only [Except.ok.injEq, chunk_outcome.next.injEq] at h
      rw [← h]
      exact hk

/-- The early exit of the splitting loop carries a negative error. -/
theorem chunk_step_early_neg (K : qcedev_hdr) (env : user_env) (E : cipher_engine)
    (entries : Nat) (c : chunk_state) (err : Int) (st : cipher_state)
    (h : chunk_step K env E entries c = .ok (.early err st)) : err < 0 := by
  unfold chunk_step at h
  split_ifs at h
  · cases hx : qcedev_vbuf_ablk_cipher_max_xfer K env E
        { c.st with creq := chunk_of_long_segment c } with
    | error e =>
      rw [hx] at h
      cases h
    | ok v =>
      obtain ⟨err1, st1⟩ := v
      rw [hx] at h
      simp only at h
      split_ifs at h with hn
      · simp only [Except.ok.injEq, chunk_outcome.early.injEq] at h
        rw [← h.1]
        exact hn
      · cases h
  · cases hg : cipher_gather_loop K c.max_data_xfer c.st.creq.vbuf.src (entries - c.i) c.i
        c.st.creq.byteoffset 0 with
    | error f =>
      rw [hg] at h
      cases h
    | ok g =>
      rw [hg] at h
      simp only at h
      cases hx : qcedev_vbuf_ablk_cipher_max_xfer K env E
          { c.st with creq := chunk_of_segments c g } with
      | error e =>
        rw [hx] at h
        cases h
      | ok v =>
        obtain ⟨err1, st1⟩ := v
        rw [hx] at h
        simp only at h
        split_ifs at h with hn
        · simp only [Except.ok.injEq, chunk_outcome.early.injEq] at h
          rw [← h.1]
          exact hn
        · cases h
        · cases h

/-- The early exit of the splitting loop carries a negative error. -/
theorem chunk_loop_early_neg (K : qcedev_hdr) (env : user_env) (E : cipher_engine)
    (entries : Nat) (fuel : Nat) :
    ∀ (c : chunk_state) (err : Int) (st : cipher_state),
      chunk_loop K env E entries fuel c = .ok (.early err st) → err < 0 := by
  induction fuel with
  | zero =>
    intro c err st h
    rw [chunk_loop] at h
    split_ifs at h
    cases h
  | succ fuel ih =>
    intro c err st h
    rw [chunk_loop] at h
    by_cases hcond : c.i < entries ∧ c.err = 0
    swap
    · simp only [hcond, if_false] at h
      cases h
    simp only [hcond, and_self, if_true] at h
    cases hx : chunk_step K env E entries c with
    | error e =>
      rw [hx] at h
      cases h
    | ok o =>
      cases o with
      | early err1 st1 =>
        rw [hx] at h
        simp only [Except.ok.injEq, chunk_outcome.early.injEq] at h
        rw [← h.1]
        exact chunk_step_early_neg K env E entries c err1 st1 hx
      | next c2 =>
        rw [hx] at h
        exact ih c2 err st h

/-- The end of the chunker puts back `entries`, `data_len`, `byteoffset` and
the segments below `entries`, when the destination slots without a length are
as saved. -/
theorem cipher_restore_frame (K : qcedev_hdr) (req : qcedev_cipher_op_req) (err e : Int)
    (st st1 : cipher_state) (hD : req.data_len < 2 ^ 32)
    (hsum : len_from req.vbuf.dst 0 req.entries = req.data_len)
    (hk : dst_kept req.vbuf.dst st.creq.vbuf.dst)
    (h : cipher_restore K req err st = .ok (e, st1)) :
    st1.creq.entries = req.entries ∧ st1.creq.data_len = req.data_len ∧
    st1.creq.byteoffset = req.byteoffset ∧
    ∀ i, i < req.entries →
      st1.creq.vbuf.src i = req.vbuf.src i ∧ st1.creq.vbuf.dst i = req.vbuf.dst i := by
  unfold cipher_restore at h
  cases hs : restore_src_loop K req.vbuf.src req.entries 0 st.creq.vbuf.src with
  | error f =>
    rw [hs] at h
    cases h
  | ok src =>
    rw [hs] at h
    simp only at h
    cases hd : restore_dst_loop K req.vbuf.dst req.data_len (K.QCEDEV_MAX_BUFFERS + 1) 0 0
        st.creq.vbuf.dst with
    | error f =>
      rw [hd] at h
      cases h
    | ok dst =>
      rw [hd] at h
      simp only [Except.ok.injEq, Prod.mk.injEq] at h
      rw [← h.2]
      refine ⟨rfl, rfl, rfl, ?_⟩
      intro i hi
      obtain ⟨a1, _⟩ := restore_src_loop_spec K req.vbuf.src req.entries 0 _ src hs
      obtain ⟨_, b2, b3⟩ := restore_dst_loop_spec K req.vbuf.dst req.data_len req.entries
        hsum hD (K.QCEDEV_MAX_BUFFERS + 1) 0 st.creq.vbuf.dst dst (Nat.zero_le _) hd
      refine ⟨a1 i (Nat.zero_le _) (by omega), ?_⟩
      show dst i = req.vbuf.dst i
      by_cases hz : (req.vbuf.dst i).len = 0
      · rcases b3 i with h1 | h1
        · rw [h1]
          exact hk i hz
        · exact h1
      · exact b2 i (Nat.zero_le _) hi hz

/-- C16. When `qcedev_vbuf_ablk_cipher` returns a value that is not negative
for a request that the validator accepted, the descriptor has the `entries`,
`data_len` and `byteoffset` of the call, and every source and destination
segment below the entry count has the address and length of the call. -/
theorem C16_descriptor_restored (K : qcedev_hdr) (env : user_env) (E : cipher_engine)
    (podev : ce_support) (req : qcedev_cipher_op_req) (err : Int) (st : cipher_state)
    (hv : qcedev_check_cipher_params K req podev = 0)
    (h : qcedev_vbuf_ablk_cipher K env E req = .ok (err, st)) (herr : 0 ≤ err) :
    st.creq.entries = req.entries ∧ st.creq.data_len = req.data_len ∧
    st.creq.byteoffset = req.byteoffset ∧
    ∀ i, i < req.entries →
      st.creq.vbuf.src i = req.vbuf.src i ∧ st.creq.vbuf.dst i = req.vbuf.dst i := by
  obtain ⟨_, _, _, hD, _, hsum, _⟩ := qcedev_check_cipher_params_shape K req podev hv
  have hk0 : dst_kept req.vbuf.dst req.vbuf.dst := fun j _ => rfl
  unfold qcedev_vbuf_ablk_cipher at h
  simp only at h
  generalize (K.QCE_MAX_OPER_DATA + 2 ^ 32 -
    (if req.mode = K.QCEDEV_AES_MODE_CTR then req.byteoffset else 0)) % 2 ^ 32 = mx at h
  by_cases hbig : req.data_len > mx
  · simp only [hbig, if_true] at h
    cases hx : chunk_loop K env E req.entries (req.entries + req.data_len + 1)
        { st := { creq := req, di := 0, trace := [], out := [] }, req_src := req.vbuf.src,
          i := 0, err := 0, max_data_xfer := mx } with
    | error e =>
      rw [hx] at h
      cases h
    | ok o =>
      cases o with
      | early err1 st1 =>
        rw [hx] at h
        simp only [Except.ok.injEq, Prod.mk.injEq] at h
        have := chunk_loop_early_neg K env E _ _ _ err1 st1 hx
        omega
      | next c =>
        rw [hx] at h
        simp only at h
        exact cipher_restore_frame K req c.err err c.st st hD hsum
          (chunk_loop_kept K env E _ req.vbuf.dst _ _ c hk0 hx) h
  · simp only [hbig, if_false] at h
    cases hx : qcedev_vbuf_ablk_cipher_max_xfer K env E
        { creq := req, di := 0, trace := [], out := [] } with
    | error e =>
      rw [hx] at h
      cases h
    | ok v =>
      obtain ⟨err1, st1⟩ := v
      rw [hx] at h
      simp only at h
      exact cipher_restore_frame K req err1 err st1 st hD hsum
        (qcedev_vbuf_ablk_cipher_max_xfer_kept K env E req.vbuf.dst
          { creq := req, di := 0, trace := [], out := [] } st1 err1 hk0 hx).1 h

/-- A run whose view shows a return value has returned it. -/
theorem cipher_run_view_ok (r : Except (fault × cipher_state) (Int × cipher_state))
    (e : Int) (h : (cipher_run_view r).2.1 = some e) : ∃ st, r = .ok (e, st) := by
  cases r with
  | error x =>
    obtain ⟨f, st⟩ := x
    simp only [cipher_run_view] at h
    cases h
  | ok v =>
    obtain ⟨e1, st⟩ := v
    simp only [cipher_run_view, Option.some.injEq] at h
    exact ⟨st, by rw [h]⟩

/-- C16 on an AES-CBC request of 80000 bytes, which takes two
sub-operations. -/
theorem C16_descriptor_restored_witness :
    ∃ st, qcedev_vbuf_ablk_cipher hdr sample_env cipher_engine_accepts
        sample_cbc_chunked = .ok (0, st) ∧
      st.creq.entries = sample_cbc_chunked.entries ∧
      st.creq.data_len = sample_cbc_chunked.data_len ∧
      st.creq.byteoffset = sample_cbc_chunked.byteoffset ∧
      ∀ i, i < sample_cbc_chunked.entries →
        st.creq.vbuf.src i = sample_cbc_chunked.vbuf.src i ∧
        st.creq.vbuf.dst i = sample_cbc_chunked.vbuf.dst i :=
  (cipher_run_view_ok (qcedev_vbuf_ablk_cipher hdr sample_env cipher_engine_accepts
      sample_cbc_chunked) 0 (by decide!)).imp (fun st h =>
    ⟨h, C16_descriptor_restored hdr sample_env cipher_engine_accepts full_support
      sample_cbc_chunked 0 st (by decide) h (by decide)⟩)

/-- The guarded loop run for a byte offset never wraps, for segment lengths
that fit in 32 bits: its result is the byte offset plus the exact sum of the
segment lengths, and fits in 32 bits. -/
theorem byteoffset_src_loop_exact (src : Nat → buf_info) (b : Nat) (hb : b ≤ U32_MAX)
    (n : Nat) :
    ∀ t, (∀ i, i < n → (src i).len < 2 ^ 32) → byteoffset_src_loop src n b = some t →
      t = b + len_from src 0 n ∧ t ≤ U32_MAX := by
  unfold byteoffset_src_loop
  induction n with
  | zero =>
    intro t _ h
    simp only [List.range_zero, List.foldlM_nil] at h
    have : t = b := by
      cases h
      rfl
    subst this
    exact ⟨rfl, hb⟩
  | succ n ih =>
    intro t hl h
    rw [List.range_succ, List.foldlM_append] at h
    cases hp : (List.range n).foldlM
        (fun total i =>
          if total > U32_MAX - (src i).len then none
          else some ((total + (src i).len) % 2 ^ 32)) b with
    | none =>
      rw [hp] at h
      cases h
    | some t1 =>
      rw [hp] at h
      obtain ⟨h1, h2⟩ := ih t1 (fun i hi => hl i (by omega)) hp
      simp only [List.foldlM_cons, List.foldlM_nil, Option.some_bind, Option.bind_eq_bind] at h
      by_cases hg : t1 > U32_MAX - (src n).len
      · simp only [hg, if_true, Option.none_bind] at h
        cases h
      · simp only [hg, if_false, Option.some_bind] at h
        have hu : U32_MAX = 2 ^ 32 - 1 := rfl
        have hs := len_from_snoc src n 0
        rw [Nat.zero_add] at hs
        have hn := hl n (by omega)
        rw [hu] at hg h2 ⊢
        have ht : t = t1 + (src n).len := by
          have := Option.some.inj h
          omega
        constructor
        · rw [hs, ht, h1]
          omega
        · omega

/-- The counting loop of the cipher chunker either takes all `n` segments,
which together with `total` stay below `max_data_xfer`, or stops at the first
segment with which it is reached and cuts it to what still fits. -/
theorem cipher_gather_loop_spec (K : qcedev_hdr) (mx : Nat) (src : Nat → buf_info)
    (hmx : mx < 2 ^ 32) (n : Nat) :
    ∀ j total num, total < mx → total + len_from src j n < 2 ^ 32 →
      j + n ≤ K.QCEDEV_MAX_BUFFERS →
      (total + len_from src j n < mx ∧
        cipher_gather_loop K mx src n j total num =
          .ok (src, j + n, total + len_from src j n, num + n)) ∨
      (∃ m, m < n ∧ total + len_from src j m < mx ∧
        mx ≤ total + len_from src j (m + 1) ∧
        cipher_gather_loop K mx src n j total num =
          .ok (set_seg src (j + m)
              { (src (j + m)) with len := mx - (total + len_from src j m) },
            j + m, mx, num + (m + 1))) := by
  induction n with
  | zero =>
    intro j total num h1 _ _
    left
    exact ⟨by simpa [len_from] using h1, by simp [cipher_gather_loop, len_from]⟩
  | succ n ih =>
    intro j total num h1 h2 h3
    simp only [len_from] at h2
    have hj : j < K.QCEDEV_MAX_BUFFERS := by omega
    have hmod : (total + (src j).len) % 2 ^ 32 = total + (src j).len := by omega
    by_cases hb : total + (src j).len ≥ mx
    · right
      refine ⟨0, by omega, by simpa [len_from] using h1, by simpa [len_from] using hb, ?_⟩
      have hcut : (mx + 2 ^ 32 - total) % 2 ^ 32 = mx - total := by omega
      simp only [cipher_gather_loop, hj, not_true_eq_false, if_false, hmod, hb, if_true,
        len_from, Nat.add_zero, hcut]
    · rcases ih (j + 1) (total + (src j).len) (num + 1) (by omega) (by omega) (by omega)
        with ⟨a1, a2⟩ | ⟨m, b1, b2, b3, b4⟩
      · left
        refine ⟨by simp only [len_from]; omega, ?_⟩
        have e1 : j + 1 + n = j + (n + 1) := by omega
        have e2 : total + (src j).len + len_from src (j + 1) n =
            total + len_from src j (n + 1) := by
          simp only [len_from]
          omega
        have e3 : num + 1 + n = num + (n + 1) := by omega
        rw [cipher_gather_loop]
        simp only [hj, not_true_eq_false, if_false, hmod, hb]
        rw [a2, e1, e2, e3]
      · right
        have e1 : j + 1 + m = j + (m + 1) := by omega
        have e2 : total + (src j).len + len_from src (j + 1) m =
            total + len_from src j (m + 1) := by
          simp only [len_from]
          omega
        have e3 : num + 1 + (m + 1) = num + (m + 1 + 1) := by omega
        have e4 : total + (src j).len + len_from src (j + 1) (m + 1) =
            total + len_from src j (m + 1 + 1) := by
          simp only [len_from]
          omega
        refine ⟨m + 1, by omega, by rw [← e2]; exact b2, by rw [← e4]; exact b3, ?_⟩
        rw [cipher_gather_loop]
        simp only [hj, not_true_eq_false, if_false, hmod, hb]
        rw [b4, e1, e2, e3]

/-- Every sub-operation is within the limit after a call of
`qcedev_vbuf_ablk_cipher_max_xfer` on a descriptor whose sub-operation is,
however the call ends. -/
theorem qcedev_vbuf_ablk_cipher_max_xfer_fits (K : qcedev_hdr) (env : user_env)
    (E : cipher_engine) (st : cipher_state) (hst : ∀ p ∈ st.trace, pass_fits K p)
    (hfit : chunk_fits K st.creq) :
    ∀ p ∈ (cipher_run_state (qcedev_vbuf_ablk_cipher_max_xfer K env E st)).trace,
      pass_fits K p := by
  unfold chunk_fits at hfit
  unfold qcedev_vbuf_ablk_cipher_max_xfer
  simp only
  generalize (if st.creq.mode = K.QCEDEV_AES_MODE_CTR then st.creq.byteoffset else 0) = b
    at hfit ⊢
  have hnew : ∀ (sub : Bool) (p : cipher_pass),
      p ∈ st.trace ++ [{ byteoffset := b
                         src := (List.range (1 + (st.creq.entries - 1))).map st.creq.vbuf.src
                         copied := b + len_from st.creq.vbuf.src 0 (1 + (st.creq.entries - 1))
                         cryptlen := (st.creq.data_len + b) % 2 ^ 32
                         submitted := sub }] → pass_fits K p := by
    intro sub p hp
    rcases List.mem_append.mp hp with h | h
    · exact hst p h
    · rw [List.mem_singleton] at h
      rw [h]
      constructor
      · show (st.creq.data_len + b) % 2 ^ 32 ≤ K.QCE_MAX_OPER_DATA
        exact Nat.le_trans (Nat.mod_le _ _) hfit.1
      · exact hfit.2
  cases hc : cipher_copy_in K env st.creq.vbuf.src (1 + (st.creq.entries - 1)) 0 with
  | error f => exact hst
  | ok ci =>
    cases ci with
    | false => exact hnew false
    | true =>
      simp only [Bool.true_eq_false, if_false]
      split
      · exact hnew true
      · split_ifs
        · exact hnew true
        · exact hnew true

/-- A call of `qcedev_vbuf_ablk_cipher_max_xfer` that returns leaves the source
array, the byte offset and the mode of the descriptor alone. -/
theorem qcedev_vbuf_ablk_cipher_max_xfer_src (K : qcedev_hdr) (env : user_env)
    (E : cipher_engine) (st st1 : cipher_state) (err : Int)
    (h : qcedev_vbuf_ablk_cipher_max_xfer K env E st = .ok (err, st1)) :
    st1.creq.vbuf.src = st.creq.vbuf.src ∧ st1.creq.byteoffset = st.creq.byteoffset ∧
      st1.creq.mode = st.creq.mode := by
  unfold qcedev_vbuf_ablk_cipher_max_xfer at h
  simp only at h
  generalize (if st.creq.mode = K.QCEDEV_AES_MODE_CTR then st.creq.byteoffset else 0) = b at h
  cases hc : cipher_copy_in K env st.creq.vbuf.src (1 + (st.creq.entries - 1)) 0 with
  | error f =>
    rw [hc] at h
    cases h
  | ok ci =>
    rw [hc] at h
    simp only at h
    cases ci with
    | false =>
      simp only [if_true, Except.ok.injEq, Prod.mk.injEq] at h
      rw [← h.2]
      exact ⟨rfl, rfl, rfl⟩
    | true =>
      simp only [Bool.true_eq_false, if_false] at h
      split at h
      · cases h
      · split_ifs at h
        · simp only [Except.ok.injEq, Prod.mk.injEq] at h
          rw [← h.2]
          exact ⟨rfl, rfl, rfl⟩
        · simp only [Except.ok.injEq, Prod.mk.injEq] at h
          rw [← h.2]
          exact ⟨rfl, rfl, rfl⟩

/-- The end of the chunker adds no sub-operation. -/
theorem cipher_restore_trace (K : qcedev_hdr) (saved : qcedev_cipher_op_req) (err : Int)
    (st : cipher_state) :
    (cipher_run_state (cipher_restore K saved err st)).trace = st.trace := by
  unfold cipher_restore
  split
  · rfl
  · split
    · rfl
    · rfl

/-- Slot 0 of the descriptor of a sub-operation taken from a long segment. -/
theorem chunk_of_long_segment_zero (c : chunk_state) :
    (chunk_of_long_segment c).vbuf.src 0 =
      { vaddr := (c.st.creq.vbuf.src c.i).vaddr, len := c.max_data_xfer } := by
  by_cases hi : c.i > 0
  · have hne : c.i ≠ 0 := by omega
    simp only [chunk_of_long_segment, hi, if_true, set_seg_eq, set_seg_ne _ _ _ _ hne]
  · have he : c.i = 0 := by omega
    simp only [chunk_of_long_segment, hi, if_false, set_seg_eq]
    rw [he]

/-- The other slots of that descriptor. -/
theorem chunk_of_long_segment_ne (c : chunk_state) (j : Nat) (hj : j ≠ 0) :
    (chunk_of_long_segment c).vbuf.src j = c.st.creq.vbuf.src j := by
  by_cases hi : c.i > 0
  · simp only [chunk_of_long_segment, hi, if_true, set_seg_ne _ _ _ _ hj]
  · simp only [chunk_of_long_segment, hi, if_false, set_seg_ne _ _ _ _ hj]

/-- The counted slots of the descriptor of a sub-operation of counted
segments. -/
theorem chunk_of_segments_front (c : chunk_state)
    (g : (Nat → buf_info) × Nat × Nat × Nat) (k : Nat) (hk : k < g.2.2.2) :
    (chunk_of_segments c g).vbuf.src k = g.1 (c.i + k) := by
  by_cases hi : c.i > 0
  · simp only [chunk_of_segments, hi, if_true]
    exact (shift_loop_spec g.1 c.i hi g.2.2.2).1 k hk
  · have he : c.i = 0 := by omega
    simp only [chunk_of_segments, hi, if_false]
    rw [he, Nat.zero_add]

/-- The slots behind the counted ones in that descriptor. -/
theorem chunk_of_segments_back (c : chunk_state)
    (g : (Nat → buf_info) × Nat × Nat × Nat) (k : Nat) (hk : g.2.2.2 ≤ k) :
    (chunk_of_segments c g).vbuf.src k = g.1 k := by
  by_cases hi : c.i > 0
  · simp only [chunk_of_segments, hi, if_true]
    exact (shift_loop_spec g.1 c.i hi g.2.2.2).2 k hk
  · simp only [chunk_of_segments, hi, if_false]

/-- The byte offset that a sub-operation uses is at most the byte offset of
the descriptor. -/
theorem effective_byteoffset_le (K : qcedev_hdr) (creq : qcedev_cipher_op_req) :
    (if creq.mode = K.QCEDEV_AES_MODE_CTR then creq.byteoffset else 0) ≤ creq.byteoffset := by
  split_ifs
  · exact Nat.le_refl _
  · exact Nat.zero_le _

/-- One round of the cipher splitting loop on a segment longer than
`max_data_xfer`. -/
theorem chunk_step_long_fits (K : qcedev_hdr) (env : user_env) (E : cipher_engine)
    (entries : Nat) (c : chunk_state) (hM0 : 0 < K.QCE_MAX_OPER_DATA)
    (hent : entries ≤ K.QCEDEV_MAX_BUFFERS) (inv : chunk_inv K entries c)
    (hi : c.i < entries) (hlong : (c.st.creq.vbuf.src c.i).len > c.max_data_xfer) :
    chunk_outcome_fits K entries (chunk_step K env E entries c) := by
  have hib : c.i < K.QCEDEV_MAX_BUFFERS := by omega
  have hbe := effective_byteoffset_le K c.st.creq
  have hroom := inv.room
  have hfit : chunk_fits K (chunk_of_long_segment c) := by
    constructor
    · show c.max_data_xfer +
        (if c.st.creq.mode = K.QCEDEV_AES_MODE_CTR then c.st.creq.byteoffset else 0) ≤ _
      omega
    · show (if c.st.creq.mode = K.QCEDEV_AES_MODE_CTR then c.st.creq.byteoffset else 0) +
        len_from (chunk_of_long_segment c).vbuf.src 0 (1 + (1 - 1)) ≤ _
      simp only [Nat.sub_self, Nat.add_zero, len_from, chunk_of_long_segment_zero]
      omega
  have hx := qcedev_vbuf_ablk_cipher_max_xfer_fits K env E
    { c.st with creq := chunk_of_long_segment c } inv.fits hfit
  obtain ⟨n, hn⟩ : ∃ n, entries - c.i = n + 1 := ⟨entries - c.i - 1, by omega⟩
  have hag := inv.agree c.i (Nat.le_refl _) hi
  have hbound := inv.bound
  rw [hn, len_from] at hbound
  unfold chunk_step
  simp only [hib, not_true_eq_false, if_false, hlong, if_true]
  cases hr : qcedev_vbuf_ablk_cipher_max_xfer K env E
      { c.st with creq := chunk_of_long_segment c } with
  | error e =>
    rw [hr] at hx
    exact hx
  | ok v =>
    obtain ⟨err, st1⟩ := v
    rw [hr] at hx
    obtain ⟨hsrc, _, _⟩ := qcedev_vbuf_ablk_cipher_max_xfer_src K env E _ st1 err hr
    simp only
    by_cases hneg : err < 0
    · simp only [hneg, if_true]
      exact hx
    · simp only [hneg, if_false]
      have hsub : ((c.req_src c.i).len + 2 ^ 32 - c.max_data_xfer) % 2 ^ 32 =
          (c.req_src c.i).len - c.max_data_xfer := by
        rw [hag] at hlong
        omega
      constructor
      · show 0 + K.QCE_MAX_OPER_DATA ≤ K.QCE_MAX_OPER_DATA
        omega
      · exact hM0
      · intro j hj1 hj2
        have hj1b : c.i ≤ j := hj1
        show set_seg st1.creq.vbuf.src c.i _ j = set_seg c.req_src c.i _ j
        by_cases hj : j = c.i
        · rw [hj, set_seg_eq, set_seg_eq]
        · rw [set_seg_ne _ _ _ _ hj, set_seg_ne _ _ _ _ hj, hsrc]
          show (chunk_of_long_segment c).vbuf.src j = _
          rw [chunk_of_long_segment_ne c j (by omega)]
          exact inv.agree j hj1b hj2
      · show 0 + len_from (set_seg c.req_src c.i _) c.i (entries - c.i) < 2 ^ 32
        rw [hn, len_from, set_seg_eq,
          len_from_congr _ c.req_src n (c.i + 1)
            (fun j h1 _ => set_seg_ne _ _ _ _ (by omega))]
        show 0 + (((c.req_src c.i).len + 2 ^ 32 - c.max_data_xfer) % 2 ^ 32 + _) < _
        rw [hsub]
        omega
      · exact hx

/-- The index at which the next round starts is at least the index at which
the counting loop stopped. -/
theorem next_index_ge (p : Prop) [Decidable p] (J : Nat) :
    J ≤ (if p then J + 1 else J) := by
  split_ifs
  · omega
  · omega

/-- One round of the cipher splitting loop in which the counting loop takes
all the segments that are left. -/
theorem chunk_step_all_left_fits (K : qcedev_hdr) (env : user_env) (E : cipher_engine)
    (entries : Nat) (c : chunk_state) (hM0 : 0 < K.QCE_MAX_OPER_DATA)
    (hent : entries ≤ K.QCEDEV_MAX_BUFFERS) (inv : chunk_inv K entries c)
    (hi : c.i < entries) (hshort : ¬ (c.st.creq.vbuf.src c.i).len > c.max_data_xfer)
    (hsum : c.st.creq.byteoffset + len_from c.st.creq.vbuf.src c.i (entries - c.i) <
      c.max_data_xfer)
    (g : (Nat → buf_info) × Nat × Nat × Nat)
    (hg : cipher_gather_loop K c.max_data_xfer c.st.creq.vbuf.src (entries - c.i) c.i
        c.st.creq.byteoffset 0 = .ok g)
    (hg1 : g.1 = c.st.creq.vbuf.src) (hg2 : g.2.1 = c.i + (entries - c.i))
    (hg3 : g.2.2.1 =
      c.st.creq.byteoffset + len_from c.st.creq.vbuf.src c.i (entries - c.i))
    (hg4 : g.2.2.2 = entries - c.i) :
    chunk_outcome_fits K entries (chunk_step K env E entries c) := by
  have hib : c.i < K.QCEDEV_MAX_BUFFERS := by omega
  have hbe := effective_byteoffset_le K c.st.creq
  have hroom := inv.room
  have hfit : chunk_fits K (chunk_of_segments c g) := by
    constructor
    · show g.2.2.1 +
        (if c.st.creq.mode = K.QCEDEV_AES_MODE_CTR then c.st.creq.byteoffset else 0) ≤ _
      omega
    · show (if c.st.creq.mode = K.QCEDEV_AES_MODE_CTR then c.st.creq.byteoffset else 0) +
        len_from (chunk_of_segments c g).vbuf.src 0 (1 + (g.2.2.2 - 1)) ≤ _
      have e : 1 + (g.2.2.2 - 1) = entries - c.i := by omega
      rw [e, len_from_shift g.1 _ (entries - c.i) 0 c.i (fun k hk => by
        rw [Nat.zero_add]
        exact chunk_of_segments_front c g k (by omega)), hg1]
      omega
  have hx := qcedev_vbuf_ablk_cipher_max_xfer_fits K env E
    { c.st with creq := chunk_of_segments c g } inv.fits hfit
  unfold chunk_step
  simp only [hib, not_true_eq_false, if_false, hshort, hg]
  cases hr : qcedev_vbuf_ablk_cipher_max_xfer K env E
      { c.st with creq := chunk_of_segments c g } with
  | error e =>
    rw [hr] at hx
    exact hx
  | ok v =>
    obtain ⟨err, st1⟩ := v
    rw [hr] at hx
    simp only
    by_cases hneg : err < 0
    · simp only [hneg, if_true]
      exact hx
    · simp only [hneg, if_false]
      by_cases hJ : g.2.1 < K.QCEDEV_MAX_BUFFERS
      · simp only [hJ, not_true_eq_false, if_false]
        constructor
        · show 0 + K.QCE_MAX_OPER_DATA ≤ K.QCE_MAX_OPER_DATA
          omega
        · exact hM0
        · intro j hj1 hj2
          have := Nat.le_trans (next_index_ge _ g.2.1) hj1
          omega
        · have hz : ∀ I, g.2.1 ≤ I → ∀ X, 0 + len_from X I (entries - I) < 2 ^ 32 := by
            intro I hI X
            have : entries - I = 0 := by omega
            rw [this]
            simp [len_from]
          exact hz _ (next_index_ge _ _) _
        · exact hx
      · simp only [hJ, not_false_eq_true, if_true]
        exact hx

/-- The index at which the next round starts is the index at which the
counting loop stopped, or the one after it. -/
theorem next_index_cases (p : Prop) [Decidable p] (J : Nat) :
    (if p then J + 1 else J) = J ∨ (if p then J + 1 else J) = J + 1 := by
  split_ifs
  · right
    rfl
  · left
    rfl

/-- One round of the cipher splitting loop in which the counting loop stops
at segment `c.i + m` and cuts it. -/
theorem chunk_step_cut_fits (K : qcedev_hdr) (env : user_env) (E : cipher_engine)
    (entries : Nat) (c : chunk_state) (hM0 : 0 < K.QCE_MAX_OPER_DATA)
    (hent : entries ≤ K.QCEDEV_MAX_BUFFERS) (inv : chunk_inv K entries c)
    (hi : c.i < entries) (hshort : ¬ (c.st.creq.vbuf.src c.i).len > c.max_data_xfer)
    (m : Nat) (hm : m < entries - c.i)
    (hlt : c.st.creq.byteoffset + len_from c.st.creq.vbuf.src c.i m < c.max_data_xfer)
    (hge : c.max_data_xfer ≤ c.st.creq.byteoffset + len_from c.st.creq.vbuf.src c.i (m + 1))
    (g : (Nat → buf_info) × Nat × Nat × Nat)
    (hg : cipher_gather_loop K c.max_data_xfer c.st.creq.vbuf.src (entries - c.i) c.i
        c.st.creq.byteoffset 0 = .ok g)
    (hg1 : g.1 = set_seg c.st.creq.vbuf.src (c.i + m)
      { (c.st.creq.vbuf.src (c.i + m)) with
        len := c.max_data_xfer - (c.st.creq.byteoffset + len_from c.st.creq.vbuf.src c.i m) })
    (hg2 : g.2.1 = c.i + m) (hg3 : g.2.2.1 = c.max_data_xfer) (hg4 : g.2.2.2 = m + 1) :
    chunk_outcome_fits K entries (chunk_step K env E entries c) := by
  have hib : c.i < K.QCEDEV_MAX_BUFFERS := by omega
  have hbe := effective_byteoffset_le K c.st.creq
  have hroom := inv.room
  have hcut : (g.1 (c.i + m)).len =
      c.max_data_xfer - (c.st.creq.byteoffset + len_from c.st.creq.vbuf.src c.i m) := by
    rw [hg1, set_seg_eq]
  have hfront : len_from g.1 c.i m = len_from c.st.creq.vbuf.src c.i m := by
    rw [hg1]
    exact len_from_congr _ _ m c.i (fun j _ h2 => set_seg_ne _ _ _ _ (by omega))
  have hfit : chunk_fits K (chunk_of_segments c g) := by
    constructor
    · show g.2.2.1 +
        (if c.st.creq.mode = K.QCEDEV_AES_MODE_CTR then c.st.creq.byteoffset else 0) ≤ _
      omega
    · show (if c.st.creq.mode = K.QCEDEV_AES_MODE_CTR then c.st.creq.byteoffset else 0) +
        len_from (chunk_of_segments c g).vbuf.src 0 (1 + (g.2.2.2 - 1)) ≤ _
      have e : 1 + (g.2.2.2 - 1) = m + 1 := by omega
      rw [e, len_from_shift g.1 _ (m + 1) 0 c.i (fun k hk => by
        rw [Nat.zero_add]
        exact chunk_of_segments_front c g k (by omega)), len_from_snoc, hfront, hcut]
      omega
  have hx := qcedev_vbuf_ablk_cipher_max_xfer_fits K env E
    { c.st with creq := chunk_of_segments c g } inv.fits hfit
  have hsJ : (chunk_of_segments c g).vbuf.src g.2.1 = g.1 (c.i + m) := by
    by_cases h0 : c.i > 0
    · rw [chunk_of_segments_back c g g.2.1 (by omega), hg2]
    · have he : c.i = 0 := by omega
      rw [chunk_of_segments_front c g g.2.1 (by omega), hg2, he, Nat.zero_add]
  obtain ⟨r, hr0⟩ : ∃ r, entries - c.i = m + (r + 1) := ⟨entries - c.i - m - 1, by omega⟩
  have hsplit := len_from_add c.req_src (r + 1) m c.i
  rw [← hr0, len_from] at hsplit
  have hbound := inv.bound
  have hagm : len_from c.st.creq.vbuf.src c.i m = len_from c.req_src c.i m :=
    len_from_congr _ _ m c.i (fun j h1 h2 => inv.agree j h1 (by omega))
  have hagJ : (c.st.creq.vbuf.src (c.i + m)).len = (c.req_src (c.i + m)).len := by
    rw [inv.agree (c.i + m) (by omega) (by omega)]
  have hsn := len_from_snoc c.st.creq.vbuf.src m c.i
  unfold chunk_step
  simp only [hib, not_true_eq_false, if_false, hshort, hg]
  cases hr : qcedev_vbuf_ablk_cipher_max_xfer K env E
      { c.st with creq := chunk_of_segments c g } with
  | error e =>
    rw [hr] at hx
    exact hx
  | ok v =>
    obtain ⟨err, st1⟩ := v
    rw [hr] at hx
    obtain ⟨hsrc, _, _⟩ := qcedev_vbuf_ablk_cipher_max_xfer_src K env E _ st1 err hr
    have hsrc2 : st1.creq.vbuf.src = (chunk_of_segments c g).vbuf.src := hsrc
    simp only
    by_cases hneg : err < 0
    · simp only [hneg, if_true]
      exact hx
    · simp only [hneg, if_false]
      have hJ : g.2.1 < K.QCEDEV_MAX_BUFFERS := by omega
      simp only [hJ, not_true_eq_false, if_false]
      constructor
      · show 0 + K.QCE_MAX_OPER_DATA ≤ K.QCE_MAX_OPER_DATA
        omega
      · exact hM0
      · intro j hj1 hj2
        have hj1b := Nat.le_trans (next_index_ge _ g.2.1) hj1
        show set_seg st1.creq.vbuf.src g.2.1 _ j = set_seg c.req_src g.2.1 _ j
        by_cases hj : j = g.2.1
        · rw [hj, set_seg_eq, set_seg_eq]
        · rw [set_seg_ne _ _ _ _ hj, set_seg_ne _ _ _ _ hj, hsrc2,
            chunk_of_segments_back c g j (by omega), hg1, set_seg_ne _ _ _ _ (by omega)]
          exact inv.agree j (by omega) hj2
      · have hz : ∀ I, (I = g.2.1 ∨ I = g.2.1 + 1) → ∀ X : Nat → buf_info,
            (X g.2.1).len ≤ (c.req_src g.2.1).len → (∀ j, j ≠ g.2.1 → X j = c.req_src j) →
            0 + len_from X I (entries - I) < 2 ^ 32 := by
          intro I hI X hXJ hXne
          rw [hg2] at hXJ
          have hXr : len_from X (c.i + m + 1) r = len_from c.req_src (c.i + m + 1) r :=
            len_from_congr _ _ r _ (fun j h1 _ => hXne j (by omega))
          rcases hI with hI | hI
          · have e : entries - I = r + 1 := by omega
            rw [e, hI, hg2, len_from, hXr]
            omega
          · have e : entries - I = r := by omega
            rw [e, hI, hg2, hXr]
            omega
        refine hz _ (next_index_cases _ _) _ ?_ (fun j hj => set_seg_ne _ _ _ _ hj)
        show (set_seg c.req_src g.2.1 _ g.2.1).len ≤ _
        rw [set_seg_eq]
        show ((c.req_src g.2.1).len + 2 ^ 32 - (st1.creq.vbuf.src g.2.1).len) % 2 ^ 32 ≤ _
        rw [hsrc2, hsJ, hcut, hg2]
        omega
      · exact hx

/-- One round of the cipher splitting loop keeps its invariant, and every
sub-operation within the limit. -/
theorem chunk_step_fits (K : qcedev_hdr) (env : user_env) (E : cipher_engine)
    (entries : Nat) (c : chunk_state) (hM0 : 0 < K.QCE_MAX_OPER_DATA)
    (hM : K.QCE_MAX_OPER_DATA < 2 ^ 32) (hent : entries ≤ K.QCEDEV_MAX_BUFFERS)
    (inv : chunk_inv K entries c) (hi : c.i < entries) :
    chunk_outcome_fits K entries (chunk_step K env E entries c) := by
  by_cases hlong : (c.st.creq.vbuf.src c.i).len > c.max_data_xfer
  · exact chunk_step_long_fits K env E entries c hM0 hent inv hi hlong
  · have hmx : c.max_data_xfer < 2 ^ 32 := by
      have := inv.room
      omega
    have hcg : len_from c.st.creq.vbuf.src c.i (entries - c.i) =
        len_from c.req_src c.i (entries - c.i) :=
      len_from_congr _ _ _ c.i (fun j h1 h2 => inv.agree j h1 (by omega))
    have hbound := inv.bound
    rw [← hcg] at hbound
    rcases cipher_gather_loop_spec K c.max_data_xfer c.st.creq.vbuf.src hmx (entries - c.i)
        c.i c.st.creq.byteoffset 0 inv.low hbound (by omega) with
      ⟨a1, a2⟩ | ⟨m, b1, b2, b3, b4⟩
    · exact chunk_step_all_left_fits K env E entries c hM0 hent inv hi hlong a1 _ a2 rfl rfl
        rfl (Nat.zero_add _)
    · exact chunk_step_cut_fits K env E entries c hM0 hent inv hi hlong m b1 b2 b3 _ b4 rfl
        rfl rfl (Nat.zero_add _)

/-- The cipher splitting loop keeps every sub-operation within the limit,
however it ends. -/
theorem chunk_loop_fits (K : qcedev_hdr) (env : user_env) (E : cipher_engine)
    (entries : Nat) (hM0 : 0 < K.QCE_MAX_OPER_DATA) (hM : K.QCE_MAX_OPER_DATA < 2 ^ 32)
    (hent : entries ≤ K.QCEDEV_MAX_BUFFERS) (fuel : Nat) :
    ∀ c, chunk_inv K entries c →
      chunk_outcome_fits K entries (chunk_loop K env E entries fuel c) := by
  induction fuel with
  | zero =>
    intro c inv
    unfold chunk_loop
    split_ifs
    · exact inv.fits
    · exact inv
  | succ fuel ih =>
    intro c inv
    unfold chunk_loop
    split_ifs with h
    · have hs := chunk_step_fits K env E entries c hM0 hM hent inv h.1
      cases hc : chunk_step K env E entries c with
      | error e =>
        rw [hc] at hs
        exact hs
      | ok o =>
        rw [hc] at hs
        cases o with
        | next c1 => exact ih c1 hs
        | early err st => exact hs
    · exact inv

/-- C13. For a request that `qcedev_check_cipher_params` accepts, every
sub-operation that `qcedev_vbuf_ablk_cipher` makes has a crypt length of at
most `QCE_MAX_OPER_DATA`, and its copy loop ends at most `QCE_MAX_OPER_DATA`
bytes into the scratch buffer, however the call ends.  The limit is taken to
be positive, to fit in 32 bits and to be at least two cipher blocks; the
allocations are taken to succeed. -/
theorem C13_cryptlen_within_limit (K : qcedev_hdr) (env : user_env) (E : cipher_engine)
    (podev : ce_support) (req : qcedev_cipher_op_req)
    (hv : qcedev_check_cipher_params K req podev = 0)
    (hM0 : 0 < K.QCE_MAX_OPER_DATA)
    (hK : 2 * K.AES_CE_BLOCK_SIZE ≤ K.QCE_MAX_OPER_DATA)
    (hM : K.QCE_MAX_OPER_DATA < 2 ^ 32) :
    ∀ p ∈ (cipher_run_state (qcedev_vbuf_ablk_cipher K env E req)).trace,
      p.cryptlen ≤ K.QCE_MAX_OPER_DATA ∧ p.copied ≤ K.QCE_MAX_OPER_DATA := by
  obtain ⟨he1, he2, hd0, hd1, hsrc, -, hbo⟩ := qcedev_check_cipher_params_shape K req podev hv
  have hacc := (qcedev_check_cipher_params_accept K req podev hv).2.2.2.2.2.1
  have hbeff : (if req.mode = K.QCEDEV_AES_MODE_CTR then req.byteoffset else 0) =
      req.byteoffset := by
    by_cases hb : req.byteoffset = 0
    · rw [hb, ite_self]
    · rw [if_pos (hbo hb).1]
  have hb2 : 2 * req.byteoffset < K.QCE_MAX_OPER_DATA := by
    by_cases hb : req.byteoffset = 0
    · omega
    · have := (hbo hb).2
      omega
  have hseg : ∀ i, i < req.entries → (req.vbuf.src i).len < 2 ^ 32 := by
    intro i hi
    have h1 := len_from_mono req.vbuf.src 0 (i + 1) req.entries (by omega)
    rw [len_from_snoc, Nat.zero_add] at h1
    omega
  have hbound : req.byteoffset + len_from req.vbuf.src 0 req.entries < 2 ^ 32 := by
    by_cases hb : req.byteoffset = 0
    · omega
    · cases hl : byteoffset_src_loop req.vbuf.src req.entries req.byteoffset with
      | none => exact absurd ⟨hb, Or.inr (Or.inr hl)⟩ hacc
      | some t =>
        have hu : U32_MAX = 2 ^ 32 - 1 := rfl
        have := byteoffset_src_loop_exact req.vbuf.src req.byteoffset (by omega) req.entries t
          hseg hl
        omega
  have hmx : (K.QCE_MAX_OPER_DATA + 2 ^ 32 - req.byteoffset) % 2 ^ 32 =
      K.QCE_MAX_OPER_DATA - req.byteoffset := by omega
  unfold qcedev_vbuf_ablk_cipher
  simp only [hbeff, hmx]
  by_cases hbig : req.data_len > K.QCE_MAX_OPER_DATA - req.byteoffset
  · simp only [hbig, if_true]
    have hinv : chunk_inv K req.entries
        { st := { creq := req, di := 0, trace := [], out := [] }, req_src := req.vbuf.src,
          i := 0, err := 0, max_data_xfer := K.QCE_MAX_OPER_DATA - req.byteoffset } := by
      constructor
      · show req.byteoffset + (K.QCE_MAX_OPER_DATA - req.byteoffset) ≤ _
        omega
      · show req.byteoffset < K.QCE_MAX_OPER_DATA - req.byteoffset
        omega
      · intro j _ _
        rfl
      · exact hbound
      · intro p hp
        cases hp
    have hl := chunk_loop_fits K env E req.entries hM0 hM he2
      (req.entries + req.data_len + 1) _ hinv
    cases hc : chunk_loop K env E req.entries (req.entries + req.data_len + 1)
        { st := { creq := req, di := 0, trace := [], out := [] }, req_src := req.vbuf.src,
          i := 0, err := 0, max_data_xfer := K.QCE_MAX_OPER_DATA - req.byteoffset } with
    | error e =>
      rw [hc] at hl
      exact hl
    | ok o =>
      rw [hc] at hl
      cases o with
      | early err st => exact hl
      | next c =>
        intro p hp
        simp only at hp
        rw [cipher_restore_trace] at hp
        exact hl.fits p hp
  · simp only [hbig, if_false]
    have hfit : chunk_fits K req := by
      constructor
      · rw [hbeff]
        omega
      · have e : 1 + (req.entries - 1) = req.entries := by omega
        rw [hbeff, e]
        omega
    have hx := qcedev_vbuf_ablk_cipher_max_xfer_fits K env E
      { creq := req, di := 0, trace := [], out := [] }
      (fun p hp => by cases hp) hfit
    cases hr : qcedev_vbuf_ablk_cipher_max_xfer K env E
        { creq := req, di := 0, trace := [], out := [] } with
    | error e =>
      rw [hr] at hx
      exact hx
    | ok v =>
      obtain ⟨err, st⟩ := v
      rw [hr] at hx
      intro p hp
      simp only at hp
      rw [cipher_restore_trace] at hp
      exact hx p hp

/-- C13 on an AES-CTR request of 130100 bytes in three segments with byte
offset 5, which the validator accepts and which takes two sub-operations. -/
theorem C13_cryptlen_within_limit_witness :
    qcedev_check_cipher_params hdr sample_ctr_three full_support = 0 ∧
      ∀ p ∈ (cipher_run_state (qcedev_vbuf_ablk_cipher hdr sample_env cipher_engine_accepts
          sample_ctr_three)).trace,
        p.cryptlen ≤ hdr.QCE_MAX_OPER_DATA ∧ p.copied ≤ hdr.QCE_MAX_OPER_DATA :=
  ⟨by decide, C13_cryptlen_within_limit hdr sample_env cipher_engine_accepts full_support
    sample_ctr_three (by decide) (by decide) (by decide) (by decide)⟩

/-- The guarded sum of the hash validator ends on the exact sum whenever that
sum fits in 32 bits. -/
theorem sha_total_complete (data : Nat → buf_info) (n : Nat) :
    len_from data 0 n ≤ U32_MAX →
      (List.range n).foldlM
        (fun total i =>
          if (data i).len > U32_MAX - total then none
          else some ((total + (data i).len) % 2 ^ 32)) 0 = some (len_from data 0 n) := by
  induction n with
  | zero =>
    intro _
    rfl
  | succ n ih =>
    intro h
    have hs := len_from_snoc data n 0
    rw [Nat.zero_add] at hs
    rw [hs] at h
    have hu : U32_MAX = 2 ^ 32 - 1 := rfl
    rw [List.range_succ, List.foldlM_append, ih (by omega)]
    have hg : ¬ (data n).len > U32_MAX - len_from data 0 n := by omega
    have hmod : (len_from data 0 n + (data n).len) % 2 ^ 32 =
        len_from data 0 n + (data n).len := by
      rw [hu] at h
      omega
    simp only [List.foldlM_cons, List.foldlM_nil, Option.some_bind, Option.bind_eq_bind, hg,
      if_false, hmod, hs]
    rfl

/-- The hash validator has two results only. -/
theorem qcedev_check_sha_params_codes (K : qcedev_hdr) (req : qcedev_sha_op_req)
    (podev : ce_support) :
    qcedev_check_sha_params K req podev = 0 ∨
      qcedev_check_sha_params K req podev = - EINVAL := by
  unfold qcedev_check_sha_params
  iterate 5 apply guard_codes
  cases (List.range req.entries).foldlM
      (fun total i =>
        if (req.data i).len > U32_MAX - total then none
        else some ((total + (req.data i).len) % 2 ^ 32)) 0 with
  | none => exact Or.inr rfl
  | some t =>
    show (if t ≠ req.data_len then _ else _) = 0 ∨ (if t ≠ req.data_len then _ else _) = _
    apply guard_codes
    exact Or.inl rfl

/-- C21. For a hash request whose `data_len` is a 32-bit value,
`qcedev_check_sha_params` returns 0 exactly when: the algorithm is not AES-CMAC
on a device without CMAC support, there are between 1 and
`QCEDEV_MAX_BUFFERS` segments, the algorithm is below
`QCEDEV_ALG_SHA_ALG_LAST`, an HMAC request has a key pointer that is not NULL
and a positive key length, an AES-CMAC request has a key length of
`QCEDEV_AES_KEY_128` or `QCEDEV_AES_KEY_256`, and the unbounded sum of the
first `entries` segment lengths is `data_len`; it returns `-EINVAL`
otherwise. -/
theorem C21_check_sha_params_iff (K : qcedev_hdr) (req : qcedev_sha_op_req)
    (podev : ce_support) (hd : req.data_len ≤ U32_MAX) :
    (qcedev_check_sha_params K req podev = 0 ↔
      ¬ (req.alg = K.QCEDEV_ALG_AES_CMAC ∧ podev.cmac = false) ∧
      1 ≤ req.entries ∧ req.entries ≤ K.QCEDEV_MAX_BUFFERS ∧
      req.alg < K.QCEDEV_ALG_SHA_ALG_LAST ∧
      ((req.alg = K.QCEDEV_ALG_SHA1_HMAC ∨ req.alg = K.QCEDEV_ALG_SHA256_HMAC) →
        req.authkey ≠ 0 ∧ 0 < req.authklen) ∧
      (req.alg = K.QCEDEV_ALG_AES_CMAC →
        req.authklen = K.QCEDEV_AES_KEY_128 ∨ req.authklen = K.QCEDEV_AES_KEY_256) ∧
      seg_sum req.data req.entries = req.data_len) ∧
    (qcedev_check_sha_params K req podev ≠ 0 →
      qcedev_check_sha_params K req podev = - EINVAL) := by
  constructor
  · constructor
    · intro h
      obtain ⟨hpos, hle, hsum, _⟩ := qcedev_check_sha_params_accept K req podev h
      unfold qcedev_check_sha_params at h
      obtain ⟨g1, h⟩ := guard_eq_zero h
      obtain ⟨_, h⟩ := guard_eq_zero h
      obtain ⟨g3, h⟩ := guard_eq_zero h
      obtain ⟨g4, h⟩ := guard_eq_zero h
      obtain ⟨g5, _⟩ := guard_eq_zero h
      refine ⟨g1, hpos, hle, by omega, ?_, ?_, ?_⟩
      · intro ha
        constructor
        · intro hk
          exact g4 ⟨ha, Or.inl hk⟩
        · by_contra hk
          exact g4 ⟨ha, Or.inr (by omega)⟩
      · intro ha
        by_contra hk
        exact g5 ⟨ha, by
          constructor
          · intro h1
            exact hk (Or.inl h1)
          · intro h2
            exact hk (Or.inr h2)⟩
      · rw [seg_sum_eq_len_from]
        exact hsum
    · rintro ⟨c1, c2, c3, c4, c5, c6, c7⟩
      rw [seg_sum_eq_len_from] at c7
      have hfold := sha_total_complete req.data req.entries (by rw [c7]; exact hd)
      have g2 : ¬ (req.entries = 0 ∨ req.entries > K.QCEDEV_MAX_BUFFERS) := by omega
      have g3 : ¬ req.alg ≥ K.QCEDEV_ALG_SHA_ALG_LAST := by omega
      have g4 : ¬ ((req.alg = K.QCEDEV_ALG_SHA1_HMAC ∨ req.alg = K.QCEDEV_ALG_SHA256_HMAC) ∧
          (req.authkey = 0 ∨ req.authklen = 0)) := by
        rintro ⟨ha, hk⟩
        obtain ⟨k1, k2⟩ := c5 ha
        rcases hk with hk | hk
        · exact k1 hk
        · omega
      have g5 : ¬ (req.alg = K.QCEDEV_ALG_AES_CMAC ∧
          (req.authklen ≠ K.QCEDEV_AES_KEY_128 ∧ req.authklen ≠ K.QCEDEV_AES_KEY_256)) := by
        rintro ⟨ha, k1, k2⟩
        rcases c6 ha with hk | hk
        · exact k1 hk
        · exact k2 hk
      unfold qcedev_check_sha_params
      rw [if_neg c1, if_neg g2, if_neg g3, if_neg g4, if_neg g5, hfold]
      simp only [c7, ne_eq, not_true_eq_false, if_false]
  · intro hne
    rcases qcedev_check_sha_params_codes K req podev with h | h
    · exact absurd h hne
    · exact h

/-- C21 on a SHA-256 request of 32 bytes in one segment. -/
theorem C21_check_sha_params_iff_witness :
    sample_sha_op_req.data_len ≤ U32_MAX ∧
      qcedev_check_sha_params hdr sample_sha_op_req full_support = 0 ∧
      seg_sum sample_sha_op_req.data sample_sha_op_req.entries =
        sample_sha_op_req.data_len :=
  ⟨by decide,
    ((C21_check_sha_params_iff hdr sample_sha_op_req full_support (by decide)).1.mpr
      (by decide)),
    ((C21_check_sha_params_iff hdr sample_sha_op_req full_support (by decide)).1.mp
      (by decide)).2.2.2.2.2.2⟩

/-- C22. The cipher validator accepts a DES request in mode
`QCEDEV_AES_MODE_CTR`, an algorithm and a mode that do not belong together, and
it accepts an AES request in mode 4 (`QCEDEV_AES_MODE_CCM`), for which
`start_cipher_req` returns `-EINVAL`. -/
theorem C22_validator_accepts_unsupported_mode :
    qcedev_check_cipher_params hdr sample_des_ctr full_support = 0 ∧
      sample_des_ctr.alg = hdr.QCEDEV_ALG_DES ∧
      sample_des_ctr.mode = hdr.QCEDEV_AES_MODE_CTR ∧
      qcedev_check_cipher_params hdr sample_ccm_req.cipher_op_req full_support = 0 ∧
      sample_ccm_req.cipher_op_req.alg = hdr.QCEDEV_ALG_AES ∧
      (start_cipher_req hdr engine_accepts full_support sample_ccm_req).1 = - EINVAL := by
  refine ⟨by decide, by decide, by decide, by decide, by decide, by decide⟩

/-- An accepted AES request has passed `qcedev_check_cipher_key`. -/
theorem qcedev_check_cipher_key_passed (K : qcedev_hdr) (req : qcedev_cipher_op_req)
    (podev : ce_support) (hv : qcedev_check_cipher_params K req podev = 0)
    (halg : req.alg = K.QCEDEV_ALG_AES) : qcedev_check_cipher_key K req podev = 0 := by
  have h5 := (qcedev_check_cipher_params_accept K req podev hv).2.2.2.2.1
  by_contra hk
  exact h5 ⟨halg, hk⟩

/-- What the key check lets through in XTS mode with a key length that is not
zero: `QCEDEV_AES_KEY_192` on a device with AES-192 support, or one of the two
double lengths. -/
theorem qcedev_check_cipher_key_xts (K : qcedev_hdr) (req : qcedev_cipher_op_req)
    (podev : ce_support) (hk : qcedev_check_cipher_key K req podev = 0)
    (hmode : req.mode = K.QCEDEV_AES_MODE_XTS) (hlen : req.encklen ≠ 0) :
    (req.encklen = K.QCEDEV_AES_KEY_192 ∧ podev.aes_key_192 = true) ∨
      req.encklen = K.QCEDEV_AES_KEY_128 * 2 ∨ req.encklen = K.QCEDEV_AES_KEY_256 * 2 := by
  unfold qcedev_check_cipher_key at hk
  rw [if_neg hlen] at hk
  by_cases h192 : req.encklen = K.QCEDEV_AES_KEY_192
  · rw [if_pos h192] at hk
    obtain ⟨hs, _⟩ := guard_eq_zero hk
    left
    refine ⟨h192, ?_⟩
    cases hp : podev.aes_key_192 with
    | true => rfl
    | false => exact absurd hp hs
  · rw [if_neg h192, if_pos hmode] at hk
    obtain ⟨hs, _⟩ := guard_eq_zero hk
    right
    by_contra hc
    exact hs ⟨fun h1 => hc (Or.inl h1), fun h2 => hc (Or.inr h2)⟩

/-- C23. On a device with AES-192 support the cipher validator accepts an
AES-XTS request whose key length is `QCEDEV_AES_KEY_192` (24 bytes), which is
neither of the two double lengths. -/
theorem C23_xts_accepts_single_192_key :
    qcedev_check_cipher_params hdr sample_xts_192 full_support = 0 ∧
      sample_xts_192.alg = hdr.QCEDEV_ALG_AES ∧
      sample_xts_192.mode = hdr.QCEDEV_AES_MODE_XTS ∧
      sample_xts_192.encklen ≠ 0 ∧
      sample_xts_192.encklen ≠ 2 * hdr.QCEDEV_AES_KEY_128 ∧
      sample_xts_192.encklen ≠ 2 * hdr.QCEDEV_AES_KEY_256 := by
  refine ⟨by decide, by decide, by decide, by decide, by decide, by decide⟩

/-- C24. An accepted AES request in a mode other than XTS with a key length
that is not zero has a key length of `QCEDEV_AES_KEY_128`,
`QCEDEV_AES_KEY_192` or `QCEDEV_AES_KEY_256`, and of `QCEDEV_AES_KEY_192` only
on a device that reports AES-192 support. -/
theorem C24_aes_key_length (K : qcedev_hdr) (req : qcedev_cipher_op_req)
    (podev : ce_support) (hv : qcedev_check_cipher_params K req podev = 0)
    (halg : req.alg = K.QCEDEV_ALG_AES) (hmode : req.mode ≠ K.QCEDEV_AES_MODE_XTS)
    (hlen : req.encklen ≠ 0) :
    (req.encklen = K.QCEDEV_AES_KEY_128 ∨ req.encklen = K.QCEDEV_AES_KEY_192 ∨
        req.encklen = K.QCEDEV_AES_KEY_256) ∧
      (req.encklen = K.QCEDEV_AES_KEY_192 → podev.aes_key_192 = true) := by
  have hk := qcedev_check_cipher_key_passed K req podev hv halg
  unfold qcedev_check_cipher_key at hk
  rw [if_neg hlen] at hk
  by_cases h192 : req.encklen = K.QCEDEV_AES_KEY_192
  · rw [if_pos h192] at hk
    obtain ⟨hs, _⟩ := guard_eq_zero hk
    refine ⟨Or.inr (Or.inl h192), fun _ => ?_⟩
    cases hp : podev.aes_key_192 with
    | true => rfl
    | false => exact absurd hp hs
  · rw [if_neg h192, if_neg hmode] at hk
    obtain ⟨hs, _⟩ := guard_eq_zero hk
    refine ⟨?_, fun h => absurd h h192⟩
    by_contra hc
    exact hs ⟨fun h1 => hc (Or.inl h1), fun h2 => hc (Or.inr (Or.inr h2))⟩

/-- C24 on an AES-CBC request with a 128-bit key. -/
theorem C24_aes_key_length_witness :
    qcedev_check_cipher_params hdr (sample_cipher_op_req 0) full_support = 0 ∧
      (sample_cipher_op_req 0).alg = hdr.QCEDEV_ALG_AES ∧
      (sample_cipher_op_req 0).mode ≠ hdr.QCEDEV_AES_MODE_XTS ∧
      (sample_cipher_op_req 0).encklen ≠ 0 ∧
      ((sample_cipher_op_req 0).encklen = hdr.QCEDEV_AES_KEY_128 ∨
        (sample_cipher_op_req 0).encklen = hdr.QCEDEV_AES_KEY_192 ∨
        (sample_cipher_op_req 0).encklen = hdr.QCEDEV_AES_KEY_256) :=
  ⟨by decide, by decide, by decide, by decide,
    (C24_aes_key_length hdr (sample_cipher_op_req 0) full_support (by decide) (by decide)
      (by decide) (by decide)).1⟩

/-- C25. An accepted AES request with key length zero has all
`QCEDEV_MAX_KEY_SIZE` key bytes zero, and its operation is
`QCEDEV_OPER_ENC_NO_KEY` or `QCEDEV_OPER_DEC_NO_KEY` or the device supports
hardware keys. -/
theorem C25_zero_key_length (K : qcedev_hdr) (req : qcedev_cipher_op_req)
    (podev : ce_support) (hv : qcedev_check_cipher_params K req podev = 0)
    (halg : req.alg = K.QCEDEV_ALG_AES) (hlen : req.encklen = 0) :
    (∀ i, i < K.QCEDEV_MAX_KEY_SIZE → req.enckey i = 0) ∧
      (req.op = K.QCEDEV_OPER_ENC_NO_KEY ∨ req.op = K.QCEDEV_OPER_DEC_NO_KEY ∨
        podev.hw_key_support = true) := by
  have hk := qcedev_check_cipher_key_passed K req podev hv halg
  unfold qcedev_check_cipher_key at hk
  rw [if_pos hlen] at hk
  obtain ⟨h1, hk⟩ := guard_eq_zero hk
  obtain ⟨h2, _⟩ := guard_eq_zero hk
  constructor
  · intro i hi
    by_contra hne
    apply h1
    unfold enckey_nonzero
    rw [List.any_eq_true]
    exact ⟨i, List.mem_range.mpr hi, by simpa using hne⟩
  · by_contra hc
    apply h2
    refine ⟨fun h => hc (Or.inl h), fun h => hc (Or.inr (Or.inl h)), ?_⟩
    cases hp : podev.hw_key_support with
    | false => rfl
    | true => exact absurd (Or.inr (Or.inr hp)) hc

/-- C25 on an AES-CBC request without a key, on a device without hardware
keys. -/
theorem C25_zero_key_length_witness :
    qcedev_check_cipher_params hdr sample_no_key no_hw_key_support = 0 ∧
      sample_no_key.alg = hdr.QCEDEV_ALG_AES ∧ sample_no_key.encklen = 0 ∧
      (∀ i, i < hdr.QCEDEV_MAX_KEY_SIZE → sample_no_key.enckey i = 0) ∧
      (sample_no_key.op = hdr.QCEDEV_OPER_ENC_NO_KEY ∨
        sample_no_key.op = hdr.QCEDEV_OPER_DEC_NO_KEY ∨
        no_hw_key_support.hw_key_support = true) :=
  ⟨by decide, by decide, by decide,
    C25_zero_key_length hdr sample_no_key no_hw_key_support (by decide) (by decide)
      (by decide)⟩

/-- C26. An accepted cipher request has byte offset zero, or mode AES-CTR and
a byte offset below `AES_CE_BLOCK_SIZE`; its byte offset is at most `data_len`,
and the byte offset plus the unbounded sum of the source segment lengths is at
most `2^32 - 1`. -/
theorem C26_byteoffset (K : qcedev_hdr) (req : qcedev_cipher_op_req)
    (podev : ce_support) (hv : qcedev_check_cipher_params K req podev = 0) :
    (req.byteoffset = 0 ∨
        (req.mode = K.QCEDEV_AES_MODE_CTR ∧ req.byteoffset < K.AES_CE_BLOCK_SIZE)) ∧
      req.byteoffset ≤ req.data_len ∧
      req.byteoffset + seg_sum req.vbuf.src req.entries ≤ 2 ^ 32 - 1 := by
  obtain ⟨_, _, _, hd1, hsrc, -, hbo⟩ := qcedev_check_cipher_params_shape K req podev hv
  obtain ⟨-, -, -, -, -, h6, h7, -⟩ := qcedev_check_cipher_params_accept K req podev hv
  have hseg : ∀ i, i < req.entries → (req.vbuf.src i).len < 2 ^ 32 := by
    intro i hi
    have h1 := len_from_mono req.vbuf.src 0 (i + 1) req.entries (by omega)
    rw [len_from_snoc, Nat.zero_add] at h1
    omega
  rw [seg_sum_eq_len_from]
  refine ⟨?_, by omega, ?_⟩
  · by_cases hb : req.byteoffset = 0
    · exact Or.inl hb
    · exact Or.inr (hbo hb)
  · by_cases hb : req.byteoffset = 0
    · omega
    · cases hl : byteoffset_src_loop req.vbuf.src req.entries req.byteoffset with
      | none => exact absurd ⟨hb, Or.inr (Or.inr hl)⟩ h6
      | some t =>
        have hu : U32_MAX = 2 ^ 32 - 1 := rfl
        have := byteoffset_src_loop_exact req.vbuf.src req.byteoffset (by omega) req.entries t
          hseg hl
        omega

/-- C26 on an AES-CTR request of 100 bytes with byte offset 7. -/
theorem C26_byteoffset_witness :
    qcedev_check_cipher_params hdr sample_ctr_small full_support = 0 ∧
      sample_ctr_small.byteoffset = 7 ∧
      sample_ctr_small.mode = hdr.QCEDEV_AES_MODE_CTR ∧
      sample_ctr_small.byteoffset ≤ sample_ctr_small.data_len ∧
      sample_ctr_small.byteoffset +
        seg_sum sample_ctr_small.vbuf.src sample_ctr_small.entries ≤ 2 ^ 32 - 1 :=
  ⟨by decide, by decide, by decide,
    (C26_byteoffset hdr sample_ctr_small full_support (by decide)).2⟩

/-- What acceptance of an offload request means for its algorithm, mode and
key length: AES, a mode of at most `QCEDEV_AES_MODE_CTR`, and a key of
`QCEDEV_AES_KEY_128` or `QCEDEV_AES_KEY_256`. -/
theorem qcedev_check_offload_cipher_params_alg (K : qcedev_hdr)
    (req : qcedev_offload_cipher_op_req)
    (hv : qcedev_check_offload_cipher_params K req = 0) :
    req.alg = K.QCEDEV_ALG_AES ∧ req.mode ≤ K.QCEDEV_AES_MODE_CTR ∧
      (req.encklen = K.QCEDEV_AES_KEY_128 ∨ req.encklen = K.QCEDEV_AES_KEY_256) := by
  unfold qcedev_check_offload_cipher_params at hv
  obtain ⟨_, hv⟩ := guard_eq_zero hv
  obtain ⟨g2, hv⟩ := guard_eq_zero hv
  obtain ⟨g3, _⟩ := guard_eq_zero hv
  have hk : qcedev_check_offload_cipher_key K req = 0 := not_not.mp g3
  unfold qcedev_check_offload_cipher_key at hk
  obtain ⟨_, hk⟩ := guard_eq_zero hk
  obtain ⟨k2, _⟩ := guard_eq_zero hk
  refine ⟨?_, ?_, ?_⟩
  · by_contra h
    exact g2 (Or.inl h)
  · by_contra h
    exact g2 (Or.inr (by omega))
  · by_contra hc
    exact k2 ⟨fun h => hc (Or.inl h), fun h => hc (Or.inr h)⟩

/-- C27. The offload validator accepts an AES request in mode
`QCEDEV_AES_MODE_ECB` with a 128-bit key, and `start_offload_cipher_req`
returns `-EINVAL` for it. -/
theorem C27_offload_accepts_ecb :
    qcedev_check_offload_cipher_params hdr sample_offload_ecb = 0 ∧
      sample_offload_ecb.alg = hdr.QCEDEV_ALG_AES ∧
      sample_offload_ecb.encklen = hdr.QCEDEV_AES_KEY_128 ∧
      sample_offload_ecb.mode = hdr.QCEDEV_AES_MODE_ECB ∧
      sample_offload_ecb.mode ≠ hdr.QCEDEV_AES_MODE_CBC ∧
      sample_offload_ecb.mode ≠ hdr.QCEDEV_AES_MODE_CTR ∧
      (start_offload_cipher_req hdr engine_accepts sample_offload_ecb_req).1 = - EINVAL := by
  refine ⟨by decide, by decide, by decide, by decide, by decide, by decide, by decide⟩

/-- The bits of a mask that lies inside another mask. -/
theorem land_of_land_eq (x y m n : Nat) (hmn : m &&& n = n) (h : x &&& m = y &&& m) :
    x &&& n = y &&& n := by
  rw [← hmn, ← Nat.land_assoc, ← Nat.land_assoc, h]

/-- C28. For all values of the six status registers,
`qcedev_check_crypto_status` leaves in the descriptor: key timer expired if
`s6 & 0x3` or `s3 & 0xFF` is not zero; otherwise key pause if `s6 & 0x30000` or
`s3 & 0xFF0000` is not zero; otherwise the generic error if `s1 & 0x10` is not
zero; otherwise `QCEDEV_OFFLOAD_NO_ERROR`.  Two calls whose registers agree on
these bits leave the same code, whatever the other bits, the other registers
and the descriptors of the two requests are. -/
theorem C28_crypto_status_classification (qcedev_areq : qcedev_async_req)
    (st : crypto_status) :
    (qcedev_check_crypto_status qcedev_areq st).offload_cipher_op_req.err =
      (if st.s6 &&& 0x3 ≠ 0 ∨ st.s3 &&& 0xFF ≠ 0 then
        qcedev_offload_err_enum.QCEDEV_OFFLOAD_KEY_TIMER_EXPIRED_ERROR
      else if st.s6 &&& 0x30000 ≠ 0 ∨ st.s3 &&& 0xFF0000 ≠ 0 then
        qcedev_offload_err_enum.QCEDEV_OFFLOAD_KEY_PAUSE_ERROR
      else if st.s1 &&& 0x10 ≠ 0 then
        qcedev_offload_err_enum.QCEDEV_OFFLOAD_GENERIC_ERROR
      else qcedev_offload_err_enum.QCEDEV_OFFLOAD_NO_ERROR) ∧
    ∀ (other : qcedev_async_req) (st2 : crypto_status),
      st2.s6 &&& 0x30003 = st.s6 &&& 0x30003 →
      st2.s3 &&& 0xFF00FF = st.s3 &&& 0xFF00FF →
      st2.s1 &&& 0x10 = st.s1 &&& 0x10 →
      (qcedev_check_crypto_status other st2).offload_cipher_op_req.err =
        (qcedev_check_crypto_status qcedev_areq st).offload_cipher_op_req.err := by
  constructor
  · rfl
  · intro other st2 h6 h3 h1
    have a6 := land_of_land_eq st2.s6 st.s6 0x30003 0x3 (by decide) h6
    have b6 := land_of_land_eq st2.s6 st.s6 0x30003 0x30000 (by decide) h6
    have a3 := land_of_land_eq st2.s3 st.s3 0xFF00FF 0xFF (by decide) h3
    have b3 := land_of_land_eq st2.s3 st.s3 0xFF00FF 0xFF0000 (by decide) h3
    show crypto_status_code st2 = crypto_status_code st
    unfold crypto_status_code PIPE_KEY_TIMER_EXPIRED_STATUS6_MASK
      PIPE_KEY_TIMER_EXPIRED_STATUS3_MASK PIPE_KEY_PAUSE_STATUS6_MASK
      PIPE_KEY_PAUSE_STATUS3_MASK QCEDEV_STATUS1_ERR_INTR_MASK
    rw [a6, b6, a3, b3, h1]

/-- C28 on two sets of registers: one with a timer expiry, a key pause and the
generic error at once, which is classified as timer expiry; one with a key
pause and the generic error, classified as key pause; and a request that held
another code before. -/
theorem C28_crypto_status_classification_witness :
    (qcedev_check_crypto_status (sample_req 1 .QCEDEV_CRYPTO_OPER_OFFLOAD_CIPHER 0)
        status_mixed).offload_cipher_op_req.err =
      qcedev_offload_err_enum.QCEDEV_OFFLOAD_KEY_TIMER_EXPIRED_ERROR ∧
    (qcedev_check_crypto_status (sample_req 1 .QCEDEV_CRYPTO_OPER_OFFLOAD_CIPHER 0)
        status_paused).offload_cipher_op_req.err =
      qcedev_offload_err_enum.QCEDEV_OFFLOAD_KEY_PAUSE_ERROR :=
  ⟨(C28_crypto_status_classification (sample_req 1 .QCEDEV_CRYPTO_OPER_OFFLOAD_CIPHER 0)
      status_mixed).1.trans (by decide),
    (C28_crypto_status_classification (sample_req 1 .QCEDEV_CRYPTO_OPER_OFFLOAD_CIPHER 0)
      status_paused).1.trans (by decide)⟩

set_option maxRecDepth 100000 in
/-- C29. Requests that the validators accept, with readable and writable
memory and engines that accept.  A cipher request of 67200 bytes in 16
segments: after the second sub-operation the bookkeeping of
`qcedev_vbuf_ablk_cipher` indexes the source arrays at 16, the entry count of
the request and the size of the array.  A cipher request of 80000 bytes in 2
segments: the same bookkeeping rewrites slot 2, the entry count of the
request, and the call returns with that slot changed.  A hash request of 80000
bytes in 16 segments: the bookkeeping of `qcedev_sha_update` indexes the
segment arrays at 16. -/
theorem C29_bookkeeping_index_reaches_entries :
    qcedev_check_cipher_params hdr sample_cipher_16 full_support = 0 ∧
    (cipher_run_view (qcedev_vbuf_ablk_cipher hdr sample_env cipher_engine_accepts
      sample_cipher_16)).1 = some (fault.out_of_bounds 16) ∧
    qcedev_check_cipher_params hdr sample_cipher_slot full_support = 0 ∧
    (cipher_run_view (qcedev_vbuf_ablk_cipher hdr sample_env cipher_engine_accepts
      sample_cipher_slot)).2.1 = some 0 ∧
    sample_cipher_slot.vbuf.src 2 = { vaddr := 5, len := 9 } ∧
    (cipher_run_state (qcedev_vbuf_ablk_cipher hdr sample_env cipher_engine_accepts
      sample_cipher_slot)).creq.vbuf.src 2 = { vaddr := 14, len := 0 } ∧
    qcedev_check_sha_params hdr sample_sha_80k full_support = 0 ∧
    fault_of (qcedev_sha_update hdr sample_env hash_engine_accepts sample_sha_80k
      (qcedev_sha_init hdr sample_sha_80k fresh_hash_state).2) =
        some (fault.out_of_bounds 16) := by
  refine ⟨by decide, by decide!, by decide, by decide!, by decide, by decide!, by decide,
    by decide!⟩

/-- C30. A request that `submit_req` appended to the pending list because
another request `a` was active, and whose wait timed out: when `submit_req`
returns, the request is still a member of the pending list (it is its last
element), `a` is still active, and the call has made no `list_del`.  If it was
alone in the list, the next run of `req_done` unlinks it and starts it, and it
is the active request from then on if that start returns 0. -/
theorem C30_timed_out_request_stays_pending (K : qcedev_hdr) (hw : qce_engine)
    (st : crypto_status) (podev : qcedev_control) (pstat : qcedev_stat)
    (qcedev_areq a : qcedev_async_req) (hact : podev.active_command = some a) :
    (submit_req K hw st podev pstat qcedev_areq 0).podev.ready_commands =
        podev.ready_commands ++ [clear_err qcedev_areq] ∧
      (submit_req K hw st podev pstat qcedev_areq 0).podev.active_command = some a ∧
      (submit_req K hw st podev pstat qcedev_areq 0).trace =
        [Event.list_add_tail qcedev_areq.id] ∧
      (podev.ready_commands = [] →
        (req_done K hw (submit_req K hw st podev pstat qcedev_areq 0).podev).2.take 2 =
            [Event.list_del qcedev_areq.id,
              Event.start qcedev_areq.id
                (start_req K hw podev.support (clear_err qcedev_areq)).1] ∧
          ((start_req K hw podev.support (clear_err qcedev_areq)).1 = 0 →
            (req_done K hw
                (submit_req K hw st podev pstat qcedev_areq 0).podev).1.active_command =
              some (start_req K hw podev.support (clear_err qcedev_areq)).2)) := by
  have hl : submit_req_locked K hw podev qcedev_areq =
      { podev := { podev with ready_commands := podev.ready_commands ++ [clear_err qcedev_areq] }
        areq := clear_err qcedev_areq
        ret := 0
        trace := [Event.list_add_tail (clear_err qcedev_areq).id] } := by
    unfold submit_req_locked
    rw [hact]
  have hp : (submit_req K hw st podev pstat qcedev_areq 0).podev =
      qce_manage_timeout
        { podev with ready_commands := podev.ready_commands ++ [clear_err qcedev_areq] } := by
    unfold submit_req submit_req_finish
    rw [hl]
    simp only [if_true]
    split_ifs <;> rfl
  have ht : (submit_req K hw st podev pstat qcedev_areq 0).trace =
      [Event.list_add_tail qcedev_areq.id] := by
    unfold submit_req submit_req_finish
    rw [hl]
    simp only [if_true]
    split_ifs <;> rfl
  refine ⟨by rw [hp]; rfl, by rw [hp]; exact hact, ht, ?_⟩
  intro hempty
  rw [hp]
  unfold req_done qce_manage_timeout
  simp only [hempty, List.nil_append, req_done_again, hact]
  have hid : (clear_err (clear_err qcedev_areq)) = clear_err qcedev_areq := rfl
  constructor
  · split_ifs <;> simp [hid, clear_err]
  · intro h0
    simp only [hid, h0, ne_eq, not_true_eq_false, if_false]

/-- C30 on a device with a SHA request active and nothing pending, to which an
AES-CBC request is submitted and times out. -/
theorem C30_timed_out_request_stays_pending_witness :
    device_busy.active_command = some (sample_req 1 .QCEDEV_CRYPTO_OPER_SHA 0) ∧
      (submit_req hdr engine_accepts status_clear device_busy stat_zero
          (sample_req 2 .QCEDEV_CRYPTO_OPER_CIPHER 0) 0).podev.ready_commands =
        device_busy.ready_commands ++
          [clear_err (sample_req 2 .QCEDEV_CRYPTO_OPER_CIPHER 0)] :=
  ⟨rfl, (C30_timed_out_request_stays_pending hdr engine_accepts status_clear device_busy
    stat_zero (sample_req 2 .QCEDEV_CRYPTO_OPER_CIPHER 0)
    (sample_req 1 .QCEDEV_CRYPTO_OPER_SHA 0) rfl).1⟩

end Qcedev
